import Mathlib

/-!
# Scheduler simulator: shallow embedding and verification

Embedding of `algorithms.c` (the five scheduling policies), of
`compute_total_time` from `scheduler.c` and of `calculate_metrics` from
`metrics.c`.

Conventions of the embedding.
* C `int` values are mathematical integers (`Int`); the constant `INT_MAX`
  keeps its value, since the source uses it as a sentinel. The definitions
  agree with the source on the runs in which no `int` operation overflows;
  `ClockFits` is a condition on the workload under which none does.
* The process array is a `List Process`; array indices are `Nat`; an index
  variable holding `-1` for "none" is an `Option Nat`.
* A counted `for` loop is `forLoop`; a `while` loop is `whileLoop`, which takes
  fuel and yields `none` when the fuel runs out before the loop exits.
* The timeline buffer is the list of events written so far, so
  `*timeline_len` is its length.
* A queue of indices is the list of the entries written so far, so `qtail`
  is its length; the source writes the entries into a block of fixed size,
  and `Policy.InBounds` singles out the runs that stay within it.
-/

namespace Sched

/-- The C constant `INT_MAX` for a 32-bit `int`. -/
def INT_MAX : Int := 2147483647

/-- The record `process_t` of `scheduler.h`. -/
structure Process where
  pid : Int
  arrival_time : Int
  burst_time : Int
  priority : Int
  remaining_time : Int
  start_time : Int
  completion_time : Int
  turnaround_time : Int
  waiting_time : Int
  response_time : Int
  finished : Int
deriving DecidableEq, Repr, Inhabited

/-- The record `timeline_event_t` of `scheduler.h`. -/
structure TimelineEvent where
  time : Int
  pid : Int
  duration : Int
deriving DecidableEq, Repr, Inhabited

/-- What a policy leaves behind: the mutated process array and the timeline. -/
structure SchedResult where
  procs : List Process
  timeline : List TimelineEvent
deriving DecidableEq, Repr

/-- Counted loop `for (i = 0; i < n; ++i) s = body i s`. -/
def forLoop {σ : Type} (n : Nat) (body : Nat → σ → σ) (init : σ) : σ :=
  match n with
  | 0 => init
  | k + 1 => body k (forLoop k body init)

/-- Loop `while (1) { ... }` whose body either leaves the loop (`none`) or
produces the next state; `fuel` bounds the number of iterations. -/
def whileLoop {σ : Type} (step : σ → Option σ) : Nat → σ → Option σ
  | 0, _ => none
  | fuel + 1, s =>
    match step s with
    | none => some s
    | some s' => whileLoop step fuel s'

/-- Read `processes[i]`. -/
def getP (procs : List Process) (i : Nat) : Process := procs.getD i default

/-- One iteration of `reset_processes`. -/
def reset_process (p : Process) : Process :=
  { p with
    remaining_time := p.burst_time
    start_time := -1
    completion_time := -1
    turnaround_time := 0
    waiting_time := 0
    response_time := -1
    finished := 0 }

/-- The helper `reset_processes`: every entry is reset independently. -/
def reset_processes (procs : List Process) : List Process := procs.map reset_process

/-- The helper `first_arrival`: scan for the minimum, starting from `INT_MAX`,
and return 0 when the scan ends on `INT_MAX`. -/
def first_arrival (procs : List Process) : Int :=
  let mn := procs.foldl (fun mn p => if p.arrival_time < mn then p.arrival_time else mn) INT_MAX
  if mn = INT_MAX then 0 else mn

/-- The helper `push_event`: append one event to the timeline. -/
def push_event (timeline : List TimelineEvent) (time pid duration : Int) :
    List TimelineEvent :=
  timeline ++ [⟨time, pid, duration⟩]

/-- The scan `next_arr` used by every idle branch: the least arrival time of
an unfinished process, starting from `INT_MAX`. -/
def next_arrival (procs : List Process) : Int :=
  procs.foldl
    (fun na p => if p.finished = 0 ∧ p.arrival_time < na then p.arrival_time else na) INT_MAX

/-- The function `compute_total_time` of `scheduler.c`. -/
def compute_total_time (timeline : List TimelineEvent) : Int :=
  timeline.foldl (fun total e => total + e.duration) 0

/-- The clock, the process array and the timeline, shared by all policies. -/
structure Core where
  procs : List Process
  timeline : List TimelineEvent
  time : Int
deriving DecidableEq, Repr

/-- The statements `if (p->start_time == -1) p->start_time = time;` followed
by `p->remaining_time -= use;`, applied to `*p`. -/
def run_slice (p : Process) (time use : Int) : Process :=
  { p with
    start_time := if p.start_time = -1 then time else p.start_time
    remaining_time := p.remaining_time - use }

/-- The statements `p->completion_time = time; p->finished = 1;`. -/
def mark_finished (p : Process) (time : Int) : Process :=
  { p with completion_time := time, finished := 1 }

/-- The dispatch of `schedule_fifo` and `schedule_sjf` applied to `*p` at clock
value `time`: set `start_time` if unset, then `remaining_time = 0`,
`completion_time = time + burst_time` and `finished = 1`. -/
def run_to_completion (p : Process) (time : Int) : Process :=
  { p with
    start_time := if p.start_time = -1 then time else p.start_time
    remaining_time := 0
    completion_time := time + p.burst_time
    finished := 1 }

/-! ## FIFO -/

/-- The swap condition of the exchange sort in `schedule_fifo` (lines 56-58). -/
def fifo_gt (procs : List Process) (a b : Nat) : Prop :=
  (getP procs a).arrival_time > (getP procs b).arrival_time ∨
    ((getP procs a).arrival_time = (getP procs b).arrival_time ∧
      (getP procs a).pid > (getP procs b).pid)

instance (procs : List Process) (a b : Nat) : Decidable (fifo_gt procs a b) := by
  unfold fifo_gt; infer_instance

/-- Body of the inner loop of the exchange sort: compare `idx[i]` with
`idx[j]` and swap them when out of order. -/
def fifo_exchange (procs : List Process) (i j : Nat) (idx : List Nat) : List Nat :=
  if fifo_gt procs (idx.getD i 0) (idx.getD j 0) then
    (idx.set i (idx.getD j 0)).set j (idx.getD i 0)
  else idx

/-- Inner loop `for (j = i+1; j < n; ++j)` of the exchange sort. -/
def fifo_sort_inner (procs : List Process) (n i : Nat) (idx : List Nat) : List Nat :=
  forLoop (n - (i + 1)) (fun k idx => fifo_exchange procs i (i + 1 + k) idx) idx

/-- The index array of `schedule_fifo` after lines 52-61. -/
def fifo_sort (procs : List Process) : List Nat :=
  forLoop (procs.length - 1) (fun i idx => fifo_sort_inner procs procs.length i idx)
    (List.range procs.length)

/-- Body of the dispatch loop of `schedule_fifo` (lines 64-76) for `idx[k]`. -/
def fifo_body (idx : List Nat) (k : Nat) (s : Core) : Core :=
  let i := idx.getD k 0
  let p := getP s.procs i
  let s1 : Core :=
    if s.time < p.arrival_time then
      { s with
        timeline := push_event s.timeline s.time (-1) (p.arrival_time - s.time)
        time := p.arrival_time }
    else s
  { procs := s.procs.set i (run_to_completion p s1.time)
    timeline := push_event s1.timeline s1.time p.pid p.burst_time
    time := s1.time + p.burst_time }

/-- The policy `schedule_fifo`. -/
def schedule_fifo (processes : List Process) : SchedResult :=
  let procs := reset_processes processes
  let idx := fifo_sort procs
  let s := forLoop procs.length (fifo_body idx) ⟨procs, [], first_arrival procs⟩
  ⟨s.procs, s.timeline⟩

/-! ## SJF and STCF -/

/-- The guard `!processes[i].finished && processes[i].arrival_time <= time`. -/
def eligible (p : Process) (time : Int) : Prop := p.finished = 0 ∧ p.arrival_time ≤ time

instance (p : Process) (time : Int) : Decidable (eligible p time) := by
  unfold eligible; infer_instance

/-- The selection scan shared by `schedule_sjf` and `schedule_stcf`: `best`
starts at -1 and index `i` replaces it when `i` is eligible and `best` is
unset or `better i best` holds. -/
def pick_best (better : Process → Process → Prop) [DecidableRel better]
    (procs : List Process) (time : Int) : Option Nat :=
  forLoop procs.length
    (fun i best =>
      if eligible (getP procs i) time then
        match best with
        | none => some i
        | some b => if better (getP procs i) (getP procs b) then some i else some b
      else best)
    none

/-- The replacement test of `schedule_sjf` (lines 93-94). -/
def sjf_better (p b : Process) : Prop :=
  p.burst_time < b.burst_time ∨
    (p.burst_time = b.burst_time ∧ p.arrival_time < b.arrival_time)

instance : DecidableRel sjf_better := fun p b => by unfold sjf_better; infer_instance

/-- The replacement test of `schedule_stcf` (lines 132-133). -/
def stcf_better (p b : Process) : Prop :=
  p.remaining_time < b.remaining_time ∨
    (p.remaining_time = b.remaining_time ∧ p.arrival_time < b.arrival_time)

instance : DecidableRel stcf_better := fun p b => by unfold stcf_better; infer_instance

/-- Loop state of `schedule_sjf`. -/
structure SjfState where
  core : Core
  completed : Nat
deriving DecidableEq, Repr

/-- The idle branch common to the policies: one idle event up to `next_arr`. -/
def idle_until (c : Core) (next_arr : Int) : Core :=
  { c with
    timeline := push_event c.timeline c.time (-1) (next_arr - c.time)
    time := next_arr }

/-- One iteration of the `while (completed < n)` loop of `schedule_sjf`. -/
def sjf_step (s : SjfState) : Option SjfState :=
  if s.completed < s.core.procs.length then
    match pick_best sjf_better s.core.procs s.core.time with
    | none => some { s with core := idle_until s.core (next_arrival s.core.procs) }
    | some best =>
      let p := getP s.core.procs best
      some
        { core :=
            { procs := s.core.procs.set best (run_to_completion p s.core.time)
              timeline := push_event s.core.timeline s.core.time p.pid p.burst_time
              time := s.core.time + p.burst_time }
          completed := s.completed + 1 }
  else none

/-- The policy `schedule_sjf`, with `fuel` bounding the loop iterations. -/
def schedule_sjf (fuel : Nat) (processes : List Process) : Option SchedResult :=
  let procs := reset_processes processes
  (whileLoop sjf_step fuel ⟨⟨procs, [], first_arrival procs⟩, 0⟩).map
    fun s => ⟨s.core.procs, s.core.timeline⟩

/-- Loop state of `schedule_stcf`; `current_idx = none` stands for -1. The
variable `current_pid` of the source is written but never read. -/
structure StcfState where
  core : Core
  completed : Nat
  current_idx : Option Nat
  current_start : Int
deriving DecidableEq, Repr

/-- One iteration of the `while (completed < n)` loop of `schedule_stcf`. -/
def stcf_step (s : StcfState) : Option StcfState :=
  if s.completed < s.core.procs.length then
    match pick_best stcf_better s.core.procs s.core.time with
    | none => some { s with core := idle_until s.core (next_arrival s.core.procs) }
    | some best =>
      let p := getP s.core.procs best
      -- lines 150-158: close the event of the previous occupant on a switch
      let tl1 :=
        if s.current_idx ≠ some best then
          match s.current_idx with
          | some c =>
            push_event s.core.timeline s.current_start (getP s.core.procs c).pid
              (s.core.time - s.current_start)
          | none => s.core.timeline
        else s.core.timeline
      let cur_start := if s.current_idx ≠ some best then s.core.time else s.current_start
      -- lines 160-161: execute one unit
      let p1 := run_slice p s.core.time 1
      let time := s.core.time + 1
      if p1.remaining_time = 0 then
        some
          { core :=
              { procs := s.core.procs.set best (mark_finished p1 time)
                timeline := push_event tl1 cur_start p.pid (time - cur_start)
                time := time }
            completed := s.completed + 1
            current_idx := none
            current_start := -1 }
      else
        some
          { core := { procs := s.core.procs.set best p1, timeline := tl1, time := time }
            completed := s.completed
            current_idx := some best
            current_start := cur_start }
  else none

/-- The policy `schedule_stcf`, with `fuel` bounding the loop iterations. -/
def schedule_stcf (fuel : Nat) (processes : List Process) : Option SchedResult :=
  let procs := reset_processes processes
  (whileLoop stcf_step fuel ⟨⟨procs, [], first_arrival procs⟩, 0, none, -1⟩).map
    fun s => ⟨s.core.procs, s.core.timeline⟩

/-! ## Round robin -/

/-- An index queue as the source lays it out: the slots written so far
(`buf`, so that `qtail = buf.length`) and the read position `head`. -/
structure IdxQueue where
  buf : List Nat
  head : Nat
deriving DecidableEq, Repr, Inhabited

/-- The entries between `qhead` and `qtail`. -/
def IdxQueue.pending (q : IdxQueue) : List Nat := q.buf.drop q.head

/-- The store `queue[qtail++] = i`. The list has no capacity; the size of
the block the source writes to is `rr_capacity` or `mlfq_capacity`. -/
def IdxQueue.push (q : IdxQueue) (i : Nat) : IdxQueue := { q with buf := q.buf ++ [i] }

/-- The arrival scan `if (!added[i] && arrival_time <= time) { queue[qtail++] = i; added[i] = 1; }`
over all `i`, used by `schedule_rr` and (on level 0) by `schedule_mlfq`. The
seeding loops before the main loops run the same scan without the `added`
test, on an all-zero `added`. The scan reads only `arrival_time`, which no
policy writes. -/
def enqueue_arrivals (procs : List Process) (time : Int) (q : IdxQueue) (added : List Bool) :
    IdxQueue × List Bool :=
  forLoop procs.length
    (fun i qa =>
      if qa.2.getD i false = false ∧ (getP procs i).arrival_time ≤ time then
        (qa.1.push i, qa.2.set i true)
      else qa)
    (q, added)

/-- Loop state of `schedule_rr`. -/
structure RrState where
  core : Core
  queue : IdxQueue
  added : List Bool
deriving DecidableEq, Repr

/-- The scan computing `all_done` (line 194). -/
def all_done (procs : List Process) : Bool := procs.all fun p => p.finished != 0

/-- One iteration of the `while (1)` loop of `schedule_rr`. -/
def rr_step (quantum : Int) (s : RrState) : Option RrState :=
  if all_done s.core.procs then none
  else if s.queue.head = s.queue.buf.length then
    let c := idle_until s.core (next_arrival s.core.procs)
    let qa := enqueue_arrivals c.procs c.time s.queue s.added
    some { core := c, queue := qa.1, added := qa.2 }
  else
    let idx := s.queue.buf.getD s.queue.head 0
    let q1 : IdxQueue := { s.queue with head := s.queue.head + 1 }
    let p := getP s.core.procs idx
    let use := if p.remaining_time < quantum then p.remaining_time else quantum
    let tl := push_event s.core.timeline s.core.time p.pid use
    let time := s.core.time + use
    let p1 := run_slice p s.core.time use
    let qa := enqueue_arrivals s.core.procs time q1 s.added
    if p1.remaining_time > 0 then
      some { core := ⟨s.core.procs.set idx p1, tl, time⟩, queue := qa.1.push idx, added := qa.2 }
    else
      some
        { core := ⟨s.core.procs.set idx (mark_finished p1 time), tl, time⟩
          queue := qa.1
          added := qa.2 }

/-- The state of `schedule_rr` on entry to its main loop (lines 177-190). -/
def rr_init (processes : List Process) : RrState :=
  let procs := reset_processes processes
  let time := first_arrival procs
  let qa := enqueue_arrivals procs time ⟨[], 0⟩ (List.replicate procs.length false)
  { core := ⟨procs, [], time⟩, queue := qa.1, added := qa.2 }

/-- The policy `schedule_rr`, with `fuel` bounding the loop iterations. -/
def schedule_rr (fuel : Nat) (processes : List Process) (quantum : Int) : Option SchedResult :=
  (whileLoop (rr_step quantum) fuel (rr_init processes)).map
    fun s => ⟨s.core.procs, s.core.timeline⟩

/-! ## MLFQ -/

/-- The record `mlfq_config_t` of `algorithms.h`; `quantums` is the array the
pointer refers to. -/
structure MlfqConfig where
  num_queues : Int
  quantums : List Int
  boost_interval : Int
deriving DecidableEq, Repr

/-- Loop state of `schedule_mlfq`: `levels[i]` holds `q[i]`, `qhead[i]` and
`qtail[i]`. -/
structure MlfqState where
  core : Core
  levels : List IdxQueue
  added : List Bool
  completed : Nat
  last_boost : Int
deriving DecidableEq, Repr

/-- Read `q[level]` with its head and tail. -/
def getLevel (levels : List IdxQueue) (level : Nat) : IdxQueue := levels.getD level default

/-- The boost of lines 261-267: for `level = 1 .. numq-1`, drain `q[level]`
from its head onto the tail of `q[0]`, then reset `qhead[level]` and
`qtail[level]` to 0. -/
def mlfq_boost (numq : Nat) (levels : List IdxQueue) : List IdxQueue :=
  forLoop (numq - 1)
    (fun k lv =>
      let level := k + 1
      let q0 := getLevel lv 0
      let ql := getLevel lv level
      (lv.set 0 { q0 with buf := q0.buf ++ ql.pending }).set level ⟨[], 0⟩)
    levels

/-- The scan of line 272: the first level with `qhead < qtail`. -/
def mlfq_find_level (numq : Nat) (levels : List IdxQueue) : Option Nat :=
  (List.range numq).find? fun i => decide ((getLevel levels i).head < (getLevel levels i).buf.length)

/-- The arrival scan of `schedule_mlfq`, which appends to `q[0]`. -/
def mlfq_enqueue_arrivals (procs : List Process) (time : Int) (levels : List IdxQueue)
    (added : List Bool) : List IdxQueue × List Bool :=
  let qa := enqueue_arrivals procs time (getLevel levels 0) added
  (levels.set 0 qa.1, qa.2)

/-- One iteration of the `while (completed < n)` loop of `schedule_mlfq`. -/
def mlfq_step (cfg : MlfqConfig) (s : MlfqState) : Option MlfqState :=
  let numq := cfg.num_queues.toNat
  if s.completed < s.core.procs.length then
    let boost : Prop := cfg.boost_interval > 0 ∧ s.core.time - s.last_boost ≥ cfg.boost_interval
    let levels0 := if boost then mlfq_boost numq s.levels else s.levels
    let last_boost := if boost then s.core.time else s.last_boost
    match mlfq_find_level numq levels0 with
    | none =>
      let next_arr := next_arrival s.core.procs
      if next_arr = INT_MAX then none
      else
        let c := idle_until s.core next_arr
        let la := mlfq_enqueue_arrivals c.procs c.time levels0 s.added
        some { core := c, levels := la.1, added := la.2, completed := s.completed,
               last_boost := last_boost }
    | some level =>
      let ql := getLevel levels0 level
      let idx := ql.buf.getD ql.head 0
      let levels1 := levels0.set level { ql with head := ql.head + 1 }
      let p := getP s.core.procs idx
      let quantum := cfg.quantums.getD level 0
      let use := if p.remaining_time < quantum then p.remaining_time else quantum
      let tl := push_event s.core.timeline s.core.time p.pid use
      let time := s.core.time + use
      let p1 := run_slice p s.core.time use
      let la := mlfq_enqueue_arrivals s.core.procs time levels1 s.added
      if p1.remaining_time = 0 then
        some
          { core := ⟨s.core.procs.set idx (mark_finished p1 time), tl, time⟩
            levels := la.1, added := la.2, completed := s.completed + 1
            last_boost := last_boost }
      else
        let new_level :=
          if use ≥ quantum then (if level + 1 ≥ numq then numq - 1 else level + 1) else level
        some
          { core := ⟨s.core.procs.set idx p1, tl, time⟩
            levels := la.1.set new_level ((getLevel la.1 new_level).push idx)
            added := la.2, completed := s.completed, last_boost := last_boost }
  else none

/-- The state of `schedule_mlfq` on entry to its main loop (lines 239-257). -/
def mlfq_init (cfg : MlfqConfig) (processes : List Process) : MlfqState :=
  let procs := reset_processes processes
  let time := first_arrival procs
  let la := mlfq_enqueue_arrivals procs time (List.replicate cfg.num_queues.toNat ⟨[], 0⟩)
    (List.replicate procs.length false)
  { core := ⟨procs, [], time⟩, levels := la.1, added := la.2, completed := 0, last_boost := time }

/-- The policy `schedule_mlfq`, with `fuel` bounding the loop iterations. -/
def schedule_mlfq (fuel : Nat) (processes : List Process) (cfg : MlfqConfig) :
    Option SchedResult :=
  (whileLoop (mlfq_step cfg) fuel (mlfq_init cfg processes)).map
    fun s => ⟨s.core.procs, s.core.timeline⟩

/-! ## Metrics -/

/-- Modelled from the spec: the record `metrics_t` of `metrics.h`, which is not
among the sources; its fields are those `calculate_metrics` assigns. The C
`double` values are exact rationals here. -/
structure Metrics where
  avg_turnaround_time : ℚ
  avg_waiting_time : ℚ
  avg_response_time : ℚ
  cpu_utilization : ℚ
  throughput : ℚ
  fairness_index : ℚ
deriving DecidableEq

/-- The 32-bit signed value a product of two `int`s is reduced to. -/
def wrap32 (x : Int) : Int := (x + 2147483648) % 4294967296 - 2147483648

/-- The accumulators of `calculate_metrics`. The `double` accumulators only
ever hold sums of integers, kept here as integers. -/
structure MetricsAcc where
  sum_tat : Int
  sum_wt : Int
  sum_rt : Int
  busy : Int
  completed : Nat
  sum_x : Int
  sum_x2 : Int
deriving DecidableEq, Repr

/-- What one iteration of the loop of `calculate_metrics` writes to `*p`. -/
def metrics_update (p : Process) : Process :=
  if p.completion_time ≥ 0 then
    let tat := p.completion_time - p.arrival_time
    { p with
      turnaround_time := tat
      waiting_time := tat - p.burst_time
      response_time := if p.start_time ≥ 0 then p.start_time - p.arrival_time else -1 }
  else p

/-- What one iteration of the loop of `calculate_metrics` adds to the
accumulators; `p` is the entry before the iteration. The square at line 30 is
an `int` product. -/
def metrics_accumulate (a : MetricsAcc) (p : Process) : MetricsAcc :=
  if p.completion_time ≥ 0 then
    let q := metrics_update p
    { sum_tat := a.sum_tat + q.turnaround_time
      sum_wt := a.sum_wt + q.waiting_time
      sum_rt := a.sum_rt + (if q.response_time ≥ 0 then q.response_time else 0)
      busy := a.busy + q.burst_time
      completed := a.completed + 1
      sum_x := a.sum_x + q.turnaround_time
      sum_x2 := a.sum_x2 + wrap32 (q.turnaround_time * q.turnaround_time) }
  else { a with busy := a.busy + (p.burst_time - p.remaining_time) }

/-- The accumulators after the loop of `calculate_metrics`. -/
def metrics_sums (procs : List Process) : MetricsAcc :=
  procs.foldl metrics_accumulate ⟨0, 0, 0, 0, 0, 0, 0⟩

/-- The function `calculate_metrics`: the updated process array and `*metrics`. -/
def calculate_metrics (procs : List Process) (total_time : Int) : List Process × Metrics :=
  let a := metrics_sums procs
  let n := procs.length
  (procs.map metrics_update,
    { avg_turnaround_time := if a.completed > 0 then (a.sum_tat : ℚ) / a.completed else 0
      avg_waiting_time := if a.completed > 0 then (a.sum_wt : ℚ) / a.completed else 0
      avg_response_time := if a.completed > 0 then (a.sum_rt : ℚ) / a.completed else 0
      cpu_utilization := if total_time > 0 then (a.busy : ℚ) / total_time * 100 else 0
      throughput := if total_time > 0 then (a.completed : ℚ) / total_time else 0
      fairness_index :=
        if n > 0 ∧ a.sum_x2 > 0 then ((a.sum_x : ℚ) * a.sum_x) / ((n : ℚ) * a.sum_x2) else 0 })

/-! ## The five policies under one name -/

/-- A policy together with its parameters, as `main` selects it. -/
inductive Policy where
  | fifo
  | sjf
  | stcf
  | rr (quantum : Int)
  | mlfq (cfg : MlfqConfig)
deriving DecidableEq, Repr

/-- Run a policy on a process array. -/
def run_policy (pol : Policy) (fuel : Nat) (processes : List Process) : Option SchedResult :=
  match pol with
  | .fifo => some (schedule_fifo processes)
  | .sjf => schedule_sjf fuel processes
  | .stcf => schedule_stcf fuel processes
  | .rr quantum => schedule_rr fuel processes quantum
  | .mlfq cfg => schedule_mlfq fuel processes cfg

end Sched

namespace Sched

/-! ## Notions used to state the properties -/

/-- A timeline tiles the interval from `t0` to `t`: every event starts where
the previous one ended, the first starts at `t0` and the last ends at `t`. -/
def Contig : Int → List TimelineEvent → Int → Prop
  | t0, [], t => t0 = t
  | t0, e :: rest, t => e.time = t0 ∧ Contig (t0 + e.duration) rest t

/-- Number of processes not yet marked finished. -/
def unfinishedCount (procs : List Process) : Nat :=
  (procs.map fun p => if p.finished = 0 then 1 else 0).sum

/-- Total remaining CPU time. -/
def workLeft (procs : List Process) : Nat :=
  (procs.map fun p => p.remaining_time.toNat).sum

/-- The largest element of a list of integers (0 for the empty list). -/
def maxList : List Int → Int
  | [] => 0
  | [x] => x
  | x :: y :: rest => max x (maxList (y :: rest))

/-- The least element of a list of integers (0 for the empty list). -/
def minList : List Int → Int
  | [] => 0
  | [x] => x
  | x :: y :: rest => min x (minList (y :: rest))

/-- The maximum completion time over a process array. -/
def maxCompletion (procs : List Process) : Int := maxList (procs.map (·.completion_time))

/-- The minimum arrival time over a process array. -/
def minArrival (procs : List Process) : Int := minList (procs.map (·.arrival_time))

end Sched

namespace Sched

/-- Ascending order on the keys `(arrival_time, pid)` of two array indices. -/
def fifo_key_le (procs : List Process) (a b : Nat) : Prop :=
  (getP procs a).arrival_time < (getP procs b).arrival_time ∨
    ((getP procs a).arrival_time = (getP procs b).arrival_time ∧
      (getP procs a).pid ≤ (getP procs b).pid)

/-- The fields no policy writes agree between two arrays, index by index. -/
def StaticEq (ps0 procs : List Process) : Prop :=
  procs.length = ps0.length ∧
    ∀ i, i < ps0.length →
      (getP procs i).pid = (getP ps0 i).pid ∧
      (getP procs i).arrival_time = (getP ps0 i).arrival_time ∧
      (getP procs i).burst_time = (getP ps0 i).burst_time

end Sched

namespace Sched

/-- Entries before position `i` are in their final place: each is below
everything after it. -/
def SortedBefore (procs : List Process) (idx : List Nat) (i : Nat) : Prop :=
  ∀ a b, a < i → a < b → b < idx.length →
    fifo_key_le procs (idx.getD a 0) (idx.getD b 0)

/-- The entry at position `i` is below the entries at positions `i+1 .. j-1`. -/
def MinUpTo (procs : List Process) (idx : List Nat) (i j : Nat) : Prop :=
  ∀ b, i < b → b < j → fifo_key_le procs (idx.getD i 0) (idx.getD b 0)

/-- The run-state facts every policy maintains, relative to the array `ps0`
on entry to the loop and the start of the clock `t0`: the input fields are
untouched; an unfinished process has work left; a finished one has none, was
started, and completed after `t0` and no later than the clock; and once all
are finished the clock stands at a completion time. -/
structure ProcInv (ps0 : List Process) (t0 : Int) (procs : List Process) (time : Int) :
    Prop where
  static : StaticEq ps0 procs
  t0_le : t0 ≤ time
  unfin : ∀ i, i < ps0.length → (getP procs i).finished = 0 →
    1 ≤ (getP procs i).remaining_time ∧
      ((getP procs i).start_time = -1 ∨ t0 ≤ (getP procs i).start_time)
  fin : ∀ i, i < ps0.length → (getP procs i).finished ≠ 0 →
    (getP procs i).finished = 1 ∧ (getP procs i).remaining_time = 0 ∧
      t0 < (getP procs i).completion_time ∧ (getP procs i).completion_time ≤ time ∧
      t0 ≤ (getP procs i).start_time
  last : (∀ i, i < ps0.length → (getP procs i).finished ≠ 0) → 0 < ps0.length →
    ∃ i, i < ps0.length ∧ (getP procs i).completion_time = time

/-- Index `b` is the first, in array order, among the eligible processes
that no eligible process beats under `better`. -/
def IsFirstBest (better : Process → Process → Prop) (procs : List Process) (time : Int)
    (b : Nat) : Prop :=
  b < procs.length ∧ eligible (getP procs b) time ∧
    (∀ j, j < procs.length → eligible (getP procs j) time →
      ¬ better (getP procs j) (getP procs b)) ∧
    (∀ j, j < b → eligible (getP procs j) time → better (getP procs b) (getP procs j))

end Sched

namespace Sched

/-- A run that ended well: the run-state facts hold at the final clock value,
the timeline tiles the interval from `t0` to it, and every process is marked
finished. -/
def GoodRun (ps0 : List Process) (t0 : Int) (r : SchedResult) : Prop :=
  ∃ time, ProcInv ps0 t0 r.procs time ∧ Contig t0 r.timeline time ∧
    ∀ i, i < ps0.length → (getP r.procs i).finished ≠ 0

/-- The pid and duration of the events that do not carry the idle pid -1. -/
def busy_events (timeline : List TimelineEvent) : List (Int × Int) :=
  (timeline.filter fun e => decide (e.pid ≠ -1)).map fun e => (e.pid, e.duration)

end Sched

namespace Sched

/-- Strict lexicographic order on pairs of integers. -/
def lexLt (a b : Int × Int) : Prop := a.1 < b.1 ∨ (a.1 = b.1 ∧ a.2 < b.2)

/-- Lexicographic order on pairs of integers. -/
def lexLe (a b : Int × Int) : Prop := a.1 < b.1 ∨ (a.1 = b.1 ∧ a.2 ≤ b.2)

/-- Index `b` is the first, in array order, of the `ready` indices whose key
is least in the lexicographic order. -/
def FirstMinAt (key : Nat → Int × Int) (ready : Nat → Prop) (b : Nat) : Prop :=
  ready b ∧ (∀ j, ready j → lexLe (key b) (key j)) ∧
    ∀ j, j < b → ready j → lexLt (key b) (key j)

/-- Process `j` has arrived by time `t` and, as far as the array `procs`
records it, is not finished at `t`: it is unfinished or completes after `t`. -/
def ReadyAt (procs : List Process) (t : Int) (j : Nat) : Prop :=
  j < procs.length ∧ (getP procs j).arrival_time ≤ t ∧
    ((getP procs j).finished ≠ 0 → t < (getP procs j).completion_time)

/-- The key `(burst_time, arrival_time)` that `schedule_sjf` minimises. -/
def sjf_key (p : Process) : Int × Int := (p.burst_time, p.arrival_time)

/-- What the timeline of `schedule_sjf` records about a non-idle event `e`:
it is the single run, from start to completion, of a process `b` that was
the first least-key process among those ready at `e.time`. -/
def SjfEvent (ps0 procs : List Process) (e : TimelineEvent) : Prop :=
  ∃ b, b < ps0.length ∧ e.pid = (getP ps0 b).pid ∧ e.duration = (getP ps0 b).burst_time ∧
    (getP procs b).finished ≠ 0 ∧ (getP procs b).completion_time = e.time + e.duration ∧
    FirstMinAt (fun j => sjf_key (getP ps0 j)) (ReadyAt procs e.time) b

/-- Loop invariant of `schedule_sjf`. -/
structure SjfInv (ps0 : List Process) (t0 : Int) (s : SjfState) : Prop where
  procs : ProcInv ps0 t0 s.core.procs s.core.time
  contig : Contig t0 s.core.timeline s.core.time
  count : s.completed + unfinishedCount s.core.procs = ps0.length
  hist : ∀ e ∈ s.core.timeline, e.pid ≠ -1 → SjfEvent ps0 s.core.procs e

/-- Termination measure of the loop of `schedule_sjf`. -/
def sjf_measure (s : SjfState) : Nat :=
  2 * unfinishedCount s.core.procs +
    (if pick_best sjf_better s.core.procs s.core.time = none then 1 else 0)

end Sched

namespace Sched

/-- Where the closed part of the `schedule_stcf` timeline ends: at the start
of the open event when there is one, at the clock otherwise. -/
def StcfState.closed_end (s : StcfState) : Int :=
  match s.current_idx with
  | none => s.core.time
  | some _ => s.current_start

/-- Loop invariant of `schedule_stcf`. -/
structure StcfInv (ps0 : List Process) (t0 : Int) (s : StcfState) : Prop where
  procs : ProcInv ps0 t0 s.core.procs s.core.time
  contig : Contig t0 s.core.timeline s.closed_end
  count : s.completed + unfinishedCount s.core.procs = ps0.length
  cur : ∀ c, s.current_idx = some c →
    c < ps0.length ∧ (getP s.core.procs c).finished = 0 ∧
      (getP s.core.procs c).arrival_time ≤ s.core.time ∧ s.current_start ≤ s.core.time

/-- Termination measure of the loop of `schedule_stcf`. -/
def stcf_measure (s : StcfState) : Nat :=
  2 * workLeft s.core.procs +
    (if pick_best stcf_better s.core.procs s.core.time = none then 1 else 0)

end Sched

namespace Sched

/-- Total CPU time requested by a workload. -/
def total_burst (ps : List Process) : Nat := (ps.map fun p => p.burst_time.toNat).sum

/-- A number of loop iterations that suffices for every policy. -/
def fuel_bound (ps : List Process) : Nat := 2 * total_burst ps + 2

/-- The indices an arrival scan at clock value `time` enqueues, in order. -/
def new_arrivals (procs : List Process) (time : Int) (added : List Bool) : List Nat :=
  (List.range procs.length).filter fun i =>
    decide (added.getD i false = false ∧ (getP procs i).arrival_time ≤ time)

/-- The bookkeeping of the ready queues, for a list `L` of waiting indices:
exactly the unfinished processes marked `added` wait, each once, and a
process not marked `added` is unfinished and has not arrived. -/
structure QueueInv (n : Nat) (procs : List Process) (time : Int) (added : List Bool)
    (L : List Nat) : Prop where
  added_len : added.length = n
  pend : ∀ i ∈ L, i < n ∧ (getP procs i).finished = 0 ∧ added.getD i false = true
  nodup : L.Nodup
  queued : ∀ i, i < n → (getP procs i).finished = 0 → added.getD i false = true → i ∈ L
  arrived : ∀ i, i < n → added.getD i false = false →
    (getP procs i).finished = 0 ∧ time < (getP procs i).arrival_time

/-- Loop invariant of `schedule_rr`. -/
structure RrInv (ps0 : List Process) (t0 : Int) (s : RrState) : Prop where
  procs : ProcInv ps0 t0 s.core.procs s.core.time
  contig : Contig t0 s.core.timeline s.core.time
  head_le : s.queue.head ≤ s.queue.buf.length
  queue : QueueInv ps0.length s.core.procs s.core.time s.added s.queue.pending

/-- Termination measure of the loop of `schedule_rr`. -/
def rr_measure (s : RrState) : Nat :=
  2 * workLeft s.core.procs + (if s.queue.head = s.queue.buf.length then 1 else 0)

end Sched

namespace Sched

/-- The waiting indices of all levels, level 0 first. -/
def all_pending (levels : List IdxQueue) : List Nat :=
  (levels.map IdxQueue.pending).flatten

/-- A configuration `schedule_mlfq` can run on: at least one queue, one
quantum per queue, every quantum positive. -/
def MlfqConfig.Valid (cfg : MlfqConfig) : Prop :=
  1 ≤ cfg.num_queues ∧ cfg.quantums.length = cfg.num_queues.toNat ∧
    ∀ q ∈ cfg.quantums, 1 ≤ q

/-- Every level's read position is within the written part. -/
def HeadsOk (levels : List IdxQueue) : Prop :=
  ∀ q ∈ levels, q.head ≤ q.buf.length

/-- Loop invariant of `schedule_mlfq`. -/
structure MlfqInv (cfg : MlfqConfig) (ps0 : List Process) (t0 : Int) (s : MlfqState) :
    Prop where
  procs : ProcInv ps0 t0 s.core.procs s.core.time
  contig : Contig t0 s.core.timeline s.core.time
  count : s.completed + unfinishedCount s.core.procs = ps0.length
  levels_len : s.levels.length = cfg.num_queues.toNat
  heads : HeadsOk s.levels
  queue : QueueInv ps0.length s.core.procs s.core.time s.added (all_pending s.levels)

/-- Termination measure of the loop of `schedule_mlfq`. -/
def mlfq_measure (s : MlfqState) : Nat :=
  2 * workLeft s.core.procs + (if all_pending s.levels = [] then 1 else 0)

/-- Validity of a policy's parameters. -/
def Policy.Valid : Policy → Prop
  | .fifo => True
  | .sjf => True
  | .stcf => True
  | .rr quantum => 1 ≤ quantum
  | .mlfq cfg => cfg.Valid

end Sched

namespace Sched

/-- The workload of `tests/test_fifo.c` and `tests/test_stcf.c`, with the
initial field values the tests give. -/
def test_workload : List Process :=
  [ ⟨1, 0, 5, 1, 5, 0, 0, 0, 0, 0, 0⟩,
    ⟨2, 1, 3, 2, 3, 0, 0, 0, 0, 0, 0⟩,
    ⟨3, 2, 8, 1, 8, 0, 0, 0, 0, 0, 0⟩ ]

/-- A one-process workload whose arrival time is `INT_MAX`. -/
def late_workload : List Process := [⟨1, 2147483647, 1, 0, 0, 0, 0, 0, 0, 0, 0⟩]

/-- An MLFQ configuration with a single queue of quantum 1 and no boost. -/
def one_queue : MlfqConfig := ⟨1, [1], 0⟩

/-- The value `x` prints as `target` with two decimals: it lies within half a
hundredth of it. -/
def two_decimals (x target : ℚ) : Prop := |x - target| < 1 / 200

end Sched

namespace Sched

/-- What `schedule_stcf` leaves behind on the test workload. -/
def stcf_test_result : SchedResult :=
  { procs :=
      [ ⟨1, 0, 5, 1, 0, 0, 8, 0, 0, -1, 1⟩,
        ⟨2, 1, 3, 2, 0, 1, 4, 0, 0, -1, 1⟩,
        ⟨3, 2, 8, 1, 0, 8, 16, 0, 0, -1, 1⟩ ]
    timeline := [⟨0, 1, 1⟩, ⟨1, 2, 3⟩, ⟨4, 1, 4⟩, ⟨8, 3, 8⟩] }

end Sched

namespace Sched

/-- What an idle iteration of `schedule_rr` does: the queue is empty, one
idle event leads to `next_arr`, and the arrivals up to it are enqueued. -/
structure RrIdle (s s' : RrState) : Prop where
  empty : s.queue.head = s.queue.buf.length
  core : s'.core = idle_until s.core (next_arrival s.core.procs)
  head : s'.queue.head = s.queue.head
  buf : s'.queue.buf =
    s.queue.buf ++ new_arrivals s.core.procs (next_arrival s.core.procs) s.added

/-- What a dispatching iteration of `schedule_rr` does with the process `idx`
at the head of the queue, which runs for `use` time units: one event, the
clock advanced, the arrivals up to the new clock value enqueued and, only
then, `idx` enqueued again if it has work left. -/
structure RrDispatch (quantum : Int) (s s' : RrState) (idx : Nat) (use : Int) : Prop where
  head_lt : s.queue.head < s.queue.buf.length
  idx_eq : s.queue.buf.getD s.queue.head 0 = idx
  use_eq : use = if (getP s.core.procs idx).remaining_time < quantum
    then (getP s.core.procs idx).remaining_time else quantum
  timeline : s'.core.timeline =
    push_event s.core.timeline s.core.time (getP s.core.procs idx).pid use
  time : s'.core.time = s.core.time + use
  head : s'.queue.head = s.queue.head + 1
  buf : s'.queue.buf =
    s.queue.buf ++ new_arrivals s.core.procs (s.core.time + use) s.added ++
      (if 0 < (getP s.core.procs idx).remaining_time - use then [idx] else [])
  procs : s'.core.procs = s.core.procs.set idx
    (if 0 < (getP s.core.procs idx).remaining_time - use
      then run_slice (getP s.core.procs idx) s.core.time use
      else mark_finished (run_slice (getP s.core.procs idx) s.core.time use) (s.core.time + use))

/-- The least number of slices of length `q` that cover `a` time units. -/
def ceil_div (a q : Int) : Int := (a + q - 1) / q

/-- The timeline events carrying the pid of process `i`. -/
def events_of (ps : List Process) (tl : List TimelineEvent) (i : Nat) : List TimelineEvent :=
  tl.filter fun e => decide (e.pid = (getP ps i).pid)

/-- What the timeline of `schedule_rr` records about each process: while it
is unfinished, every one of its events lasted a full quantum and together
they account for the work done; once finished, the number of its events is
`ceil (burst_time / quantum)` and all but the last lasted a full quantum. -/
def RrHist (quantum : Int) (ps0 : List Process) (s : RrState) : Prop :=
  ∀ i, i < ps0.length →
    ((getP s.core.procs i).finished = 0 →
      (∀ e ∈ events_of ps0 s.core.timeline i, e.duration = quantum) ∧
      (getP ps0 i).burst_time - (getP s.core.procs i).remaining_time =
        quantum * (events_of ps0 s.core.timeline i).length) ∧
    ((getP s.core.procs i).finished ≠ 0 →
      ((events_of ps0 s.core.timeline i).length : Int) = ceil_div (getP ps0 i).burst_time quantum ∧
      ∀ e ∈ (events_of ps0 s.core.timeline i).dropLast, e.duration = quantum)

/-- The non-idle events of the `schedule_rr` timeline are the dispatches of
the queue entries already read, in queue order. -/
def RrOrder (ps0 : List Process) (s : RrState) : Prop :=
  (busy_events s.core.timeline).map (·.1) =
    (s.queue.buf.take s.queue.head).map fun i => (getP ps0 i).pid

end Sched

namespace Sched

/-- A workload with two equal-key processes whose pids are in descending
array order. -/
def tie_workload : List Process :=
  [⟨2, 0, 3, 0, 0, 0, 0, 0, 0, 0, 0⟩, ⟨1, 0, 3, 0, 0, 0, 0, 0, 0, 0, 0⟩]

/-- The workload of the round-robin example: pids 1 and 2 with
(arrival, burst) = (0, 4) and (2, 2). -/
def rr_example : List Process :=
  [⟨1, 0, 4, 0, 0, 0, 0, 0, 0, 0, 0⟩, ⟨2, 2, 2, 0, 0, 0, 0, 0, 0, 0, 0⟩]

end Sched

namespace Sched

/-- The state of `schedule_rr` on `rr_example` with quantum 2 after the first
slice of process 0: process 1, which arrived at time 2, is queued ahead of
the preempted process 0. -/
def rr_example_after : RrState :=
  { core :=
      { procs :=
          [ ⟨1, 0, 4, 0, 2, 0, -1, 0, 0, -1, 0⟩,
            ⟨2, 2, 2, 0, 2, -1, -1, 0, 0, -1, 0⟩ ]
        timeline := [⟨0, 1, 2⟩]
        time := 2 }
    queue := ⟨[0, 1, 0], 1⟩
    added := [true, true] }

end Sched

namespace Sched

/-- The unit time slots `[t, t+1)` an event covers, each with the event's pid. -/
def event_slots (e : TimelineEvent) : List (Int × Int) :=
  (List.range e.duration.toNat).map fun (u : Nat) => (e.time + (u : Int), e.pid)

/-- A timeline read one time unit at a time. -/
def unit_slots (tl : List TimelineEvent) : List (Int × Int) := tl.flatMap event_slots

/-- What a time slot with occupant `sl.2` (an array index, or `none` for
idle) shows in the timeline: its time and the occupant's pid, or -1. -/
def slot_label (ps : List Process) (sl : Int × Option Nat) : Int × Int :=
  (sl.1, match sl.2 with
    | some i => (getP ps i).pid
    | none => -1)

/-- The remaining time of process `j` after the slots `done` have run. -/
def stcf_remaining (ps : List Process) (done : List (Int × Option Nat)) (j : Nat) : Int :=
  (getP ps j).burst_time - ((done.filter fun sl => decide (sl.2 = some j)).length : Int)

/-- Every busy slot is occupied by the process that is first in array order
among those minimising `(remaining_time, arrival_time)` lexicographically
over the processes that have arrived and have remaining time left at the
start of the slot. -/
def StcfSlots (ps : List Process) (slots : List (Int × Option Nat)) : Prop :=
  ∀ k t b, slots[k]? = some (t, some b) →
    FirstMinAt (fun j => (stcf_remaining ps (slots.take k) j, (getP ps j).arrival_time))
      (fun j => j < ps.length ∧ (getP ps j).arrival_time ≤ t ∧
        0 < stcf_remaining ps (slots.take k) j) b

/-- The event `schedule_stcf` has open, if any, as it would be closed now. -/
def stcf_open (ps0 : List Process) (s : StcfState) : List TimelineEvent :=
  match s.current_idx with
  | some c => [⟨s.current_start, (getP ps0 c).pid, s.core.time - s.current_start⟩]
  | none => []

/-- What the timeline of `schedule_stcf`, with its open event, records: a slot
by slot schedule obeying `StcfSlots` that accounts for the remaining times. -/
def StcfHist (ps0 : List Process) (s : StcfState) : Prop :=
  ∃ slots, unit_slots (s.core.timeline ++ stcf_open ps0 s) = slots.map (slot_label ps0) ∧
    StcfSlots ps0 slots ∧
    ∀ j, j < ps0.length → (getP s.core.procs j).remaining_time = stcf_remaining ps0 slots j

end Sched

namespace Sched

/-! ## States a loop passes through -/

/-- The loop state after `k` iterations of the loop body `step`, or `none`
when the loop has left before. -/
def iterate_loop {σ : Type} (step : σ → Option σ) : Nat → σ → Option σ
  | 0, s => some s
  | k + 1, s => (iterate_loop step k s).bind step

/-- The state of `schedule_mlfq` at the head of its main loop after `k`
iterations. -/
def mlfq_state_at (cfg : MlfqConfig) (processes : List Process) (k : Nat) : Option MlfqState :=
  iterate_loop (mlfq_step cfg) k (mlfq_init cfg processes)

/-! ## The parts of one MLFQ iteration -/

/-- The boost condition of line 259. -/
def mlfq_boost_due (cfg : MlfqConfig) (s : MlfqState) : Prop :=
  cfg.boost_interval > 0 ∧ s.core.time - s.last_boost ≥ cfg.boost_interval

instance (cfg : MlfqConfig) (s : MlfqState) : Decidable (mlfq_boost_due cfg s) := by
  unfold mlfq_boost_due; infer_instance

/-- The loop state after lines 259-269 of an iteration: when the boost is due
the levels are flattened into level 0 and `last_boost` is set to the clock. -/
def mlfq_boost_phase (cfg : MlfqConfig) (s : MlfqState) : MlfqState :=
  if mlfq_boost_due cfg s then
    { s with levels := mlfq_boost cfg.num_queues.toNat s.levels, last_boost := s.core.time }
  else s

/-- The configuration `cfg` with the boost switched off. -/
def MlfqConfig.no_boost (cfg : MlfqConfig) : MlfqConfig := { cfg with boost_interval := 0 }

/-- The entry `q[level][qhead[level]]` read by line 284. -/
def mlfq_front (levels : List IdxQueue) (level : Nat) : Nat :=
  (getLevel levels level).buf.getD (getLevel levels level).head 0

/-- The increment `qhead[level]++` of line 284. -/
def mlfq_pop (levels : List IdxQueue) (level : Nat) : List IdxQueue :=
  levels.set level { getLevel levels level with head := (getLevel levels level).head + 1 }

/-- The store `q[level][qtail[level]++] = idx`. -/
def mlfq_push (levels : List IdxQueue) (level idx : Nat) : List IdxQueue :=
  levels.set level ((getLevel levels level).push idx)

/-- The waiting entries of levels 1 to `k`, level by level, each level in
its queue order. -/
def mlfq_lower (levels : List IdxQueue) (k : Nat) : List Nat :=
  ((List.range k).map fun j => (getLevel levels (j + 1)).pending).flatten

/-- Every read position is within the written part of its level and every
entry written is an index below `n`. -/
def LevelsOk (n : Nat) (levels : List IdxQueue) : Prop :=
  HeadsOk levels ∧ ∀ q ∈ levels, ∀ i ∈ q.buf, i < n

/-- The shape of the loop state of `schedule_mlfq` on `n` processes and `numq`
levels: the arrays have their lengths, every read position is within the
written part, and every queue entry is an index into the process array. -/
structure MlfqShape (n numq : Nat) (s : MlfqState) : Prop where
  procs_len : s.core.procs.length = n
  added_len : s.added.length = n
  levels_len : s.levels.length = numq
  heads : HeadsOk s.levels
  entries : ∀ q ∈ s.levels, ∀ i ∈ q.buf, i < n

/-- What an idle iteration of `schedule_mlfq` does: after the boost phase no
level has a waiting entry, one idle event leads to `next_arr`, and the
arrivals up to it are appended to level 0. -/
structure MlfqIdle (cfg : MlfqConfig) (s s' : MlfqState) : Prop where
  in_loop : s.completed < s.core.procs.length
  empty : mlfq_find_level cfg.num_queues.toNat (mlfq_boost_phase cfg s).levels = none
  next_ne : next_arrival s.core.procs ≠ INT_MAX
  core : s'.core = idle_until s.core (next_arrival s.core.procs)
  levels : s'.levels =
    (mlfq_enqueue_arrivals s.core.procs (next_arrival s.core.procs)
      (mlfq_boost_phase cfg s).levels s.added).1
  added : s'.added =
    (mlfq_enqueue_arrivals s.core.procs (next_arrival s.core.procs)
      (mlfq_boost_phase cfg s).levels s.added).2
  completed : s'.completed = s.completed
  last_boost : s'.last_boost = (mlfq_boost_phase cfg s).last_boost

/-- What a dispatching iteration of `schedule_mlfq` does with the process
`idx` at the head of level `L`, the first non-empty level after the boost
phase, which runs for `use` time units: one event, the clock advanced, the
arrivals up to the new clock value appended to level 0 and then, if `idx` has
work left, `idx` appended to level `min (L+1) (numq-1)`; otherwise `idx` is
marked finished and appended nowhere. -/
structure MlfqDispatch (cfg : MlfqConfig) (s s' : MlfqState) (L idx : Nat) (use : Int) :
    Prop where
  in_loop : s.completed < s.core.procs.length
  level : mlfq_find_level cfg.num_queues.toNat (mlfq_boost_phase cfg s).levels = some L
  idx_eq : mlfq_front (mlfq_boost_phase cfg s).levels L = idx
  use_eq : use = if (getP s.core.procs idx).remaining_time < cfg.quantums.getD L 0
    then (getP s.core.procs idx).remaining_time else cfg.quantums.getD L 0
  timeline : s'.core.timeline =
    push_event s.core.timeline s.core.time (getP s.core.procs idx).pid use
  time : s'.core.time = s.core.time + use
  procs : s'.core.procs = s.core.procs.set idx
    (if (getP s.core.procs idx).remaining_time - use = 0
      then mark_finished (run_slice (getP s.core.procs idx) s.core.time use) (s.core.time + use)
      else run_slice (getP s.core.procs idx) s.core.time use)
  levels : s'.levels =
    if (getP s.core.procs idx).remaining_time - use = 0 then
      (mlfq_enqueue_arrivals s.core.procs (s.core.time + use)
        (mlfq_pop (mlfq_boost_phase cfg s).levels L) s.added).1
    else
      mlfq_push
        (mlfq_enqueue_arrivals s.core.procs (s.core.time + use)
          (mlfq_pop (mlfq_boost_phase cfg s).levels L) s.added).1
        (min (L + 1) (cfg.num_queues.toNat - 1)) idx
  added : s'.added =
    (mlfq_enqueue_arrivals s.core.procs (s.core.time + use)
      (mlfq_pop (mlfq_boost_phase cfg s).levels L) s.added).2
  completed : s'.completed =
    if (getP s.core.procs idx).remaining_time - use = 0 then s.completed + 1 else s.completed
  last_boost : s'.last_boost = (mlfq_boost_phase cfg s).last_boost

/-- A two-level configuration with quanta 1 and 2 and no boost. -/
def demote_cfg : MlfqConfig := ⟨2, [1, 2], 0⟩

/-- The same two levels with a boost every time unit. -/
def boost_cfg : MlfqConfig := ⟨2, [1, 2], 1⟩

/-- A single process with pid 1, arrival time 0 and burst time 3. -/
def demote_workload : List Process := [⟨1, 0, 3, 0, 0, 0, 0, 0, 0, 0, 0⟩]

/-- The state of `schedule_mlfq` on `demote_workload` under `demote_cfg` after
the first slice: the process used the whole quantum of level 0 and waits in
level 1. Under `boost_cfg` the first iteration leads to the same state. -/
def demote_after : MlfqState :=
  { core := ⟨[⟨1, 0, 3, 0, 2, 0, -1, 0, 0, -1, 0⟩], [⟨0, 1, 1⟩], 1⟩
    levels := [⟨[0], 1⟩, ⟨[0], 0⟩]
    added := [true]
    completed := 0
    last_boost := 0 }

end Sched

namespace Sched

/-! ## Idle events -/

/-- Process `j` is not finished at time `t`, as far as the array `procs`
records it: it is unfinished, or it completes after `t`. -/
def UnfinishedAt (procs : List Process) (t : Int) (j : Nat) : Prop :=
  j < procs.length ∧ ((getP procs j).finished ≠ 0 → t < (getP procs j).completion_time)

/-- The idle event `e` has positive duration and ends at the least arrival
time among the processes unfinished at its start. -/
def IdleOk (procs : List Process) (e : TimelineEvent) : Prop :=
  0 < e.duration ∧
    (∃ j, UnfinishedAt procs e.time j ∧ (getP procs j).arrival_time = e.time + e.duration) ∧
    ∀ j, UnfinishedAt procs e.time j → e.time + e.duration ≤ (getP procs j).arrival_time

/-- What a timeline records about idleness, up to the clock value `time`: no
event starts after `time`; an event with the idle pid -1 satisfies `IdleOk`;
an event with another pid starts when some process has arrived and is not
finished. -/
def EventsOk (procs : List Process) (tl : List TimelineEvent) (time : Int) : Prop :=
  ∀ e ∈ tl, e.time ≤ time ∧ (e.pid = -1 → IdleOk procs e) ∧
    (e.pid ≠ -1 → ∃ j, ReadyAt procs e.time j)

/-- Every process marked `added` has arrived by `time`. -/
def AddedArrived (ps0 : List Process) (added : List Bool) (time : Int) : Prop :=
  ∀ i, i < ps0.length → added.getD i false = true → (getP ps0 i).arrival_time ≤ time

/-- A workload with a gap: pid 1 arrives at 0 and pid 2 at 3, each with
burst time 1, so the processor is idle from 1 to 3. -/
def gap_workload : List Process :=
  [⟨1, 0, 1, 0, 0, 0, 0, 0, 0, 0, 0⟩, ⟨2, 3, 1, 0, 0, 0, 0, 0, 0, 0, 0⟩]

end Sched

namespace Sched

/-! ## Notions used to state the properties of the metrics -/

/-- The turnaround time `calculate_metrics` assigns to a completed process. -/
def turnaround (p : Process) : Int := p.completion_time - p.arrival_time

/-- All turnaround times of an array are equal. -/
def EqualTurnarounds (ps : List Process) : Prop :=
  ∀ p ∈ ps, ∀ q ∈ ps, turnaround p = turnaround q

/-- The fairness formula over exact rationals: the square of the sum over
the number of values times the sum of the squares. -/
def jain_index (xs : List Int) : ℚ :=
  ((xs.sum : Int) : ℚ) ^ 2 / ((xs.length : ℚ) * (((xs.map fun x => x ^ 2).sum : Int) : ℚ))

/-- The squared turnaround time of `p` is representable as an `int`, so that
the product at line 30 is the exact square. -/
def SquareFits (p : Process) : Prop := turnaround p ^ 2 ≤ INT_MAX

/-- The completed processes of an array: those with `completion_time >= 0`. -/
def completed_procs (ps : List Process) : List Process :=
  ps.filter fun p => decide (0 ≤ p.completion_time)

/-- The waiting time `calculate_metrics` assigns to a completed process. -/
def waiting (p : Process) : Int := turnaround p - p.burst_time

/-- What a completed process adds to the response-time sum: its response
time `start_time - arrival_time` when `start_time` is set and the difference
is not negative, and 0 otherwise. -/
def response_share (p : Process) : Int :=
  if 0 ≤ p.start_time ∧ 0 ≤ p.start_time - p.arrival_time then p.start_time - p.arrival_time
  else 0

/-- A single process with pid 1, arrival time 0 and burst time 0. -/
def zero_burst : List Process := [⟨1, 0, 0, 0, 0, 0, 0, 0, 0, 0, 0⟩]

/-- The configuration of `test_mlfq.c` with the boost interval replaced by -5. -/
def negative_boost : MlfqConfig := ⟨3, [2, 4, 8], -5⟩

/-- The state of `schedule_rr` at the head of its main loop after `k`
iterations. -/
def rr_state_at (quantum : Int) (processes : List Process) (k : Nat) : Option RrState :=
  iterate_loop (rr_step quantum) k (rr_init processes)

/-- The loop states of `schedule_stcf` on `zero_burst` from which the loop
cannot leave: nothing is counted as completed and the only process is
unfinished, has arrived, and has no positive remaining time. -/
def StcfStuck (s : StcfState) : Prop :=
  s.completed = 0 ∧ 0 ≤ s.core.time ∧
    ∃ r st, r ≤ 0 ∧ s.core.procs = [⟨1, 0, 0, 0, r, st, -1, 0, 0, -1, 0⟩]

end Sched

namespace Sched

/-! ## The command line of `main` -/

/-- The white-space characters the C library skips in front of a number:
space, tab, line feed, vertical tab, form feed and carriage return. -/
def is_space (c : Char) : Bool :=
  c.toNat = 32 || (9 ≤ c.toNat && c.toNat ≤ 13)

/-- The digits read by `atoi`, accumulated in base 10 up to the first
character that is not a digit. -/
def atoi_digits : List Char → Int → Int
  | [], acc => acc
  | c :: cs, acc =>
    if 48 ≤ c.toNat ∧ c.toNat ≤ 57 then atoi_digits cs (acc * 10 + ((c.toNat : Int) - 48))
    else acc

/-- The C library function `atoi` on the characters of a string: white space
is skipped, an optional sign is read, then the digits; the result is 0 when
no digit follows. -/
def atoi (s : List Char) : Int :=
  match s.dropWhile is_space with
  | [] => 0
  | c :: cs =>
    if c = '-' then - atoi_digits cs 0
    else if c = '+' then atoi_digits cs 0
    else atoi_digits (c :: cs) 0

/-- The tokens successive calls of the C library function `strtok` return
for one delimiter: the maximal non-empty runs of other characters. `cur`
holds the characters of the token being read, last first. -/
def strtok_all (delim : Char) : List Char → List Char → List (List Char)
  | [], cur => if cur = [] then [] else [cur.reverse]
  | c :: cs, cur =>
    if c = delim then
      (if cur = [] then strtok_all delim cs [] else cur.reverse :: strtok_all delim cs [])
    else strtok_all delim cs (c :: cur)

/-- The loop of lines 115-118 of `scheduler.c`: while there is a token and
`i < numq`, store `atoi(tok)` in `quantums[i++]`. The result is `i` and the
entries written. -/
def read_quantums (numq : Int) : List (List Char) → Nat → List Int → Nat × List Int
  | [], i, qs => (i, qs)
  | tok :: rest, i, qs =>
    if (i : Int) < numq then read_quantums numq rest (i + 1) (qs ++ [atoi tok]) else (i, qs)

/-- How `main` leaves its algorithm selection (lines 70-130): with an exit
code, or by calling the engine with a policy and its parameters. -/
inductive Launch where
  | exit (code : Int)
  | run (pol : Policy)
deriving DecidableEq, Repr

/-- The algorithm selection of `main` for the argument vector `argv`, whose
workload file yields `n` processes. -/
def main_select (n : Int) (argv : List (List Char)) : Launch :=
  if argv.length < 3 then .exit 1
  else if n ≤ 0 then .exit 2
  else
    let alg := argv.getD 2 []
    if alg = "fifo".toList then .run .fifo
    else if alg = "sjf".toList then .run .sjf
    else if alg = "stcf".toList then .run .stcf
    else if alg = "rr".toList then
      if argv.length < 4 then .exit 3
      else
        let q := atoi (argv.getD 3 [])
        if q ≤ 0 then .exit 3 else .run (.rr q)
    else if alg = "mlfq".toList then
      if argv.length < 6 then .exit 3
      else
        let numq := atoi (argv.getD 3 [])
        let boost := atoi (argv.getD 5 [])
        let iq := read_quantums numq (strtok_all ',' (argv.getD 4 []) []) 0 []
        if (iq.1 : Int) ≠ numq then .exit 4
        else .run (.mlfq ⟨numq, iq.2, boost⟩)
    else .exit 4

/-- The argument vector `scheduler w.txt mlfq <num_queues> <csv> <boost>`. -/
def mlfq_args (num_queues csv boost : String) : List (List Char) :=
  ["scheduler".toList, "w.txt".toList, "mlfq".toList, num_queues.toList, csv.toList,
    boost.toList]

end Sched

namespace Sched

/-! ## What a policy depends on -/

/-- The process `p` with its priority blanked out. -/
def erase_priority (p : Process) : Process := { p with priority := 0 }

/-- The fields of a process no policy writes. -/
def inputs (p : Process) : Int × Int × Int × Int :=
  (p.pid, p.arrival_time, p.burst_time, p.priority)

/-- A process array with the priorities blanked out. -/
def erase_all (procs : List Process) : List Process := procs.map erase_priority

/-- A result with the priorities blanked out. -/
def SchedResult.erase (r : SchedResult) : SchedResult := ⟨erase_all r.procs, r.timeline⟩

/-- The clock, array and timeline with the priorities blanked out. -/
def Core.erase (c : Core) : Core := { c with procs := erase_all c.procs }

/-- A state of `schedule_sjf` with the priorities blanked out. -/
def SjfState.erase (s : SjfState) : SjfState := { s with core := s.core.erase }

/-- A state of `schedule_stcf` with the priorities blanked out. -/
def StcfState.erase (s : StcfState) : StcfState := { s with core := s.core.erase }

/-- A state of `schedule_rr` with the priorities blanked out. -/
def RrState.erase (s : RrState) : RrState := { s with core := s.core.erase }

/-- A state of `schedule_mlfq` with the priorities blanked out. -/
def MlfqState.erase (s : MlfqState) : MlfqState := { s with core := s.core.erase }

/-- The test workload with other priorities and with left-over run state in
every process. -/
def test_workload_stale : List Process :=
  [ ⟨1, 0, 5, 9, 0, 4, 8, 8, 3, 4, 1⟩,
    ⟨2, 1, 3, -4, 2, 1, 4, 3, 0, 0, 1⟩,
    ⟨3, 2, 8, 7, -1, 8, 16, 14, 6, 6, 0⟩ ]

end Sched

namespace Sched

/-! ## What the timeline records about each process -/

/-- The pids of an array identify its processes: they are pairwise distinct
and none is the idle pid -1. -/
def PidsOk (ps0 : List Process) : Prop :=
  (∀ i j, i < ps0.length → j < ps0.length → (getP ps0 i).pid = (getP ps0 j).pid → i = j) ∧
    ∀ i, i < ps0.length → (getP ps0 i).pid ≠ -1

/-- The sum of the durations of a list of events. -/
def durations (E : List TimelineEvent) : Int := (E.map (·.duration)).sum

/-- What the events `E` carrying the pid of a process record about it, where
`q` holds its input fields and `p` its current entry: their durations add up
to the work done; and, when the clock started at `t0 >= 0`, there is no event
while `start_time` is unset and otherwise the first event starts at
`start_time`; once the process is finished the last event ends at
`completion_time`. -/
structure ProcHist (t0 : Int) (q p : Process) (E : List TimelineEvent) : Prop where
  work : durations E = q.burst_time - p.remaining_time
  fresh : 0 ≤ t0 → p.start_time = -1 → E = []
  started : 0 ≤ t0 → p.start_time ≠ -1 → E.head?.map (·.time) = some p.start_time
  done : p.finished ≠ 0 →
    E.getLast?.map (fun e => e.time + e.duration) = some p.completion_time

/-- The times of a process against the clock `time`, where `q` holds its
input fields and `p` its current entry: before its first dispatch no work is
done; afterwards it started no earlier than it arrived and the work done fits
between `start_time` and the clock; once finished, the whole burst fits
between `start_time` and `completion_time`. -/
structure ProcTimes (q p : Process) (time : Int) : Prop where
  fresh : p.start_time = -1 → p.remaining_time = q.burst_time
  started : p.start_time ≠ -1 →
    q.arrival_time ≤ p.start_time ∧ p.start_time + (q.burst_time - p.remaining_time) ≤ time
  done : p.finished ≠ 0 → p.start_time ≠ -1 ∧ p.start_time + q.burst_time ≤ p.completion_time

/-- Every event of the timeline has a duration that is not negative and
carries the idle pid -1 or the pid of a process of the array. -/
def KnownPids (ps0 : List Process) (tl : List TimelineEvent) : Prop :=
  ∀ e ∈ tl, 0 ≤ e.duration ∧ (e.pid = -1 ∨ ∃ i, i < ps0.length ∧ e.pid = (getP ps0 i).pid)

/-- The total remaining time of a process array. -/
def remaining_sum (procs : List Process) : Int := (procs.map (·.remaining_time)).sum

/-- An upper bound of the clock of every policy: the latest arrival time plus
the total burst time. -/
def last_instant (ps : List Process) : Int :=
  maxList (ps.map (·.arrival_time)) + (ps.map (·.burst_time)).sum

/-- The clock against the work: the clock is the start `t0` plus the
durations of the timeline; the remaining work is at most the total burst
time; when the clock started no later than the latest arrival, the clock
plus the remaining work is at most `last_instant`; and a `start_time` that
is set is a past value of the clock. -/
structure ClockBound (ps0 : List Process) (t0 : Int) (procs : List Process)
    (tl : List TimelineEvent) (time : Int) : Prop where
  elapsed : t0 + durations tl = time
  work : remaining_sum procs ≤ (ps0.map (·.burst_time)).sum
  bound : t0 ≤ maxList (ps0.map (·.arrival_time)) → time + remaining_sum procs ≤ last_instant ps0
  starts : ∀ i, i < procs.length →
    (getP procs i).start_time = -1 ∨ (getP procs i).start_time ≤ time

/-- The history invariant of a run on the array `ps0` whose clock started at
`t0`: `ProcHist` for every process when the pids identify the processes, and
`ProcTimes` for every process when `t0 >= 0`; every event carries a known
pid; and the clock obeys `ClockBound`. -/
def Hist (ps0 : List Process) (t0 : Int) (procs : List Process) (tl : List TimelineEvent)
    (time : Int) : Prop :=
  ((PidsOk ps0 → ∀ i, i < ps0.length →
      ProcHist t0 (getP ps0 i) (getP procs i) (events_of ps0 tl i)) ∧
    (0 ≤ t0 → ∀ i, i < ps0.length → ProcTimes (getP ps0 i) (getP procs i) time)) ∧
    KnownPids ps0 tl ∧ ClockBound ps0 t0 procs tl time

/-- What a dispatch at clock value `time` for `use` time units writes to the
entry `p` of the dispatched process, giving `p'`: `start_time` is set if
unset, `remaining_time` is reduced by `use`, and if the process is marked
finished its `completion_time` is `time + use` and no work is left. -/
structure Dispatched (p p' : Process) (time use : Int) : Prop where
  start : p'.start_time = if p.start_time = -1 then time else p.start_time
  remaining : p'.remaining_time = p.remaining_time - use
  finish : p'.finished ≠ 0 → p'.completion_time = time + use ∧ p'.remaining_time = 0

end Sched

namespace Sched

/-- A single process with pid 1 that arrives at time -1 and needs 2 time
units. -/
def early_workload : List Process := [⟨1, -1, 2, 0, 0, 0, 0, 0, 0, 0, 0⟩]

/-- A single process with pid 1 that arrives at time -5 and needs 1 time
unit. -/
def past_workload : List Process := [⟨1, -5, 1, 0, 0, 0, 0, 0, 0, 0, 0⟩]

/-- The end of the time interval of an event. -/
def TimelineEvent.stop (e : TimelineEvent) : Int := e.time + e.duration

end Sched

namespace Sched

/-- A single process with pid 1, arrival time 0 and burst time 3. -/
def three_units : List Process := [⟨1, 0, 3, 0, 0, 0, 0, 0, 0, 0, 0⟩]

/-- A single process with pid 1, arrival time 0 and burst time 7. -/
def seven_units : List Process := [⟨1, 0, 7, 0, 0, 0, 0, 0, 0, 0, 0⟩]

/-- A single process with pid 1, arrival time 0 and burst time 46341, the
least integer whose square exceeds `INT_MAX`. -/
def long_burst : List Process := [⟨1, 0, 46341, 0, 0, 0, 0, 0, 0, 0, 0⟩]

/-- The number of `int` slots `schedule_rr` allocates for its queue (line
181). -/
def rr_capacity (n : Nat) : Nat := 2 * n

/-- The number of `int` slots `schedule_mlfq` allocates for each level (line
247). -/
def mlfq_capacity (n : Nat) : Nat := n + 5

end Sched

namespace Sched

/-! ## Merged ticks in the timeline of `schedule_stcf` -/

/-- The event `e` ends at the instant the process carrying its pid is marked
finished. -/
def EndsAtFinish (ps0 procs : List Process) (e : TimelineEvent) : Prop :=
  ∃ i, i < ps0.length ∧ (getP ps0 i).pid = e.pid ∧ (getP procs i).finished ≠ 0 ∧
    (getP procs i).completion_time = e.time + e.duration

/-- What holds between an event `a` and the event `b` that follows it: they
carry different pids, and if `a` is not idle then it ends when its process
finishes or `b` is not idle either (another process was selected). -/
def MergeRel (ps0 procs : List Process) (a b : TimelineEvent) : Prop :=
  a.pid ≠ b.pid ∧ (a.pid ≠ -1 → EndsAtFinish ps0 procs a ∨ b.pid ≠ -1)

/-- The loop invariant of `schedule_stcf` about merging, on the timeline with
its open event: adjacent events satisfy `MergeRel`; and when no event is
open, the last event, if it is not idle, ends at the finish of its process
and, if it is idle, is followed by an instant at which a process is
eligible. -/
structure Merged (ps0 : List Process) (s : StcfState) : Prop where
  chain : (s.core.timeline ++ stcf_open ps0 s).Chain' (MergeRel ps0 s.core.procs)
  last : s.current_idx = none → ∀ e, s.core.timeline.getLast? = some e →
    (e.pid ≠ -1 → EndsAtFinish ps0 s.core.procs e) ∧
      (e.pid = -1 → ∃ j, j < s.core.procs.length ∧ eligible (getP s.core.procs j) s.core.time)

end Sched

namespace Sched

/-! ## Runs free of undefined behaviour

The definitions above compute over the mathematical integers and keep the
queues in lists. The source computes in `int` and writes its queues into
blocks of `2 * n` (round robin) and `n + 5` (each MLFQ level) slots. The two
agree on a workload as long as no `int` operation overflows and no queue
write falls outside its block; the predicates below single out such runs.
The timeline is the buffer of the caller, taken to be large enough for the
events of the run. With `num_queues <= 0` the source has no level to write
to and its seeding write `q[0][qtail[0]++]` is outside every allocation;
the theorems that rest on these predicates take `num_queues >= 1`. -/

/-- The clock of a run stays within the `int` range: every arrival time is
an `int`, the clock bound `last_instant` is at most `INT_MAX`, and the span
from the earliest arrival to `last_instant` is at most `INT_MAX`. Then every
time a policy computes lies between the earliest arrival and `INT_MAX`, and
every duration and difference of times between 0 and `INT_MAX`. -/
def ClockFits (ps : List Process) : Prop :=
  (∀ p ∈ ps, -INT_MAX - 1 ≤ p.arrival_time) ∧ last_instant ps ≤ INT_MAX ∧
    last_instant ps - minArrival ps ≤ INT_MAX

/-- Whether `ok` holds of the loop state `s` and of every state the loop
reaches from it within `fuel` iterations. -/
def all_states {σ : Type} (step : σ → Option σ) (ok : σ → Bool) : Nat → σ → Bool
  | 0, s => ok s
  | fuel + 1, s =>
    ok s && (match step s with
      | some s' => all_states step ok fuel s'
      | none => true)

/-- The write index `qtail` of the queue of `schedule_rr` is within the
`2 * n` slots allocated at line 181. -/
def rr_fits (n : Nat) (s : RrState) : Bool := decide (s.queue.buf.length ≤ rr_capacity n)

/-- The write index `qtail[level]` of every level of `schedule_mlfq` is
within the `n + 5` slots allocated at line 247. -/
def mlfq_fits (n : Nat) (s : MlfqState) : Bool :=
  s.levels.all fun q => decide (q.buf.length ≤ mlfq_capacity n)

/-- The queues of a run stay within the blocks the source allocates for
them; `schedule_fifo`, `schedule_sjf` and `schedule_stcf` have no queue. The
write indices are checked at the head of every iteration and at the exit of
the loop. Within an iteration a write index only grows, except that a boost
sets those of the levels below the top to 0, from where they grow again; so
a write index that is within its block at both ends of an iteration is
within it at every write of that iteration. -/
def Policy.InBounds : Policy → Nat → List Process → Prop
  | .rr quantum, fuel, ps =>
    all_states (rr_step quantum) (rr_fits ps.length) fuel (rr_init ps) = true
  | .mlfq cfg, fuel, ps =>
    all_states (mlfq_step cfg) (mlfq_fits ps.length) fuel (mlfq_init cfg ps) = true
  | _, _, _ => True

/-- A run without undefined behaviour: no `int` overflow and no queue write
outside its allocation. -/
def Policy.Safe (pol : Policy) (fuel : Nat) (ps : List Process) : Prop :=
  ClockFits ps ∧ pol.InBounds fuel ps

/-- Every time of a result is an `int`: the events start and end within the
`int` range, with a duration between 0 and `INT_MAX`, and the `start_time`
and `completion_time` of every process are within the `int` range. -/
def SchedResult.InRange (r : SchedResult) : Prop :=
  (∀ e ∈ r.timeline, -INT_MAX - 1 ≤ e.time ∧ 0 ≤ e.duration ∧ e.duration ≤ INT_MAX ∧
      e.time + e.duration ≤ INT_MAX) ∧
    ∀ p ∈ r.procs, -INT_MAX - 1 ≤ p.start_time ∧ p.start_time ≤ INT_MAX ∧
      -INT_MAX - 1 ≤ p.completion_time ∧ p.completion_time ≤ INT_MAX

/-- Two processes arriving shortly before `INT_MAX`: pid 1 at 2147483644
with burst time 6 and pid 2 at 2147483646 with burst time 5. -/
def wrap_workload : List Process :=
  [⟨1, 2147483644, 6, 0, 0, 0, 0, 0, 0, 0, 0⟩, ⟨2, 2147483646, 5, 0, 0, 0, 0, 0, 0, 0, 0⟩]

/-- The sum of two `int`s as a 32-bit machine computes it. -/
def int_add (a b : Int) : Int := wrap32 (a + b)

end Sched

namespace Sched

/-! ## The policies on a 32-bit machine

Signed overflow is undefined in C; the usual machine wraps around. The
definitions of this section repeat `schedule_fifo`, `schedule_sjf` and
`schedule_stcf` with every addition and subtraction of `int`s reduced by
`wrap32`. They serve to show what such a machine makes of a workload whose
clock leaves the `int` range. -/

/-- The difference of two `int`s as a 32-bit machine computes it. -/
def int_sub (a b : Int) : Int := wrap32 (a - b)

/-- The dispatch `run_to_completion` on a 32-bit machine: `completion_time`
is the clock after `time += burst_time`. -/
def run_to_completion_wrapped (p : Process) (time : Int) : Process :=
  { p with
    start_time := if p.start_time = -1 then time else p.start_time
    remaining_time := 0
    completion_time := int_add time p.burst_time
    finished := 1 }

/-- The statements of `run_slice` on a 32-bit machine. -/
def run_slice_wrapped (p : Process) (time use : Int) : Process :=
  { p with
    start_time := if p.start_time = -1 then time else p.start_time
    remaining_time := int_sub p.remaining_time use }

/-- The idle branch `idle_until` on a 32-bit machine: the duration of the
idle event is the wrapped difference `next_arr - time`. -/
def idle_until_wrapped (c : Core) (next_arr : Int) : Core :=
  { c with
    timeline := push_event c.timeline c.time (-1) (int_sub next_arr c.time)
    time := next_arr }

/-- Body of the dispatch loop of `schedule_fifo` (lines 64-76) on a 32-bit
machine. -/
def fifo_body_wrapped (idx : List Nat) (k : Nat) (s : Core) : Core :=
  let i := idx.getD k 0
  let p := getP s.procs i
  let s1 : Core :=
    if s.time < p.arrival_time then
      { s with
        timeline := push_event s.timeline s.time (-1) (int_sub p.arrival_time s.time)
        time := p.arrival_time }
    else s
  { procs := s.procs.set i (run_to_completion_wrapped p s1.time)
    timeline := push_event s1.timeline s1.time p.pid p.burst_time
    time := int_add s1.time p.burst_time }

/-- The policy `schedule_fifo` on a 32-bit machine. -/
def schedule_fifo_wrapped (processes : List Process) : SchedResult :=
  let procs := reset_processes processes
  let idx := fifo_sort procs
  let s := forLoop procs.length (fifo_body_wrapped idx) ⟨procs, [], first_arrival procs⟩
  ⟨s.procs, s.timeline⟩

/-- One iteration of the loop of `schedule_sjf` on a 32-bit machine. -/
def sjf_step_wrapped (s : SjfState) : Option SjfState :=
  if s.completed < s.core.procs.length then
    match pick_best sjf_better s.core.procs s.core.time with
    | none => some { s with core := idle_until_wrapped s.core (next_arrival s.core.procs) }
    | some best =>
      let p := getP s.core.procs best
      some
        { core :=
            { procs := s.core.procs.set best (run_to_completion_wrapped p s.core.time)
              timeline := push_event s.core.timeline s.core.time p.pid p.burst_time
              time := int_add s.core.time p.burst_time }
          completed := s.completed + 1 }
  else none

/-- The policy `schedule_sjf` on a 32-bit machine, with `fuel` bounding the
loop iterations. -/
def schedule_sjf_wrapped (fuel : Nat) (processes : List Process) : Option SchedResult :=
  let procs := reset_processes processes
  (whileLoop sjf_step_wrapped fuel ⟨⟨procs, [], first_arrival procs⟩, 0⟩).map
    fun s => ⟨s.core.procs, s.core.timeline⟩

/-- One iteration of the loop of `schedule_stcf` on a 32-bit machine. -/
def stcf_step_wrapped (s : StcfState) : Option StcfState :=
  if s.completed < s.core.procs.length then
    match pick_best stcf_better s.core.procs s.core.time with
    | none => some { s with core := idle_until_wrapped s.core (next_arrival s.core.procs) }
    | some best =>
      let p := getP s.core.procs best
      -- lines 150-158: close the event of the previous occupant on a switch
      let tl1 :=
        if s.current_idx ≠ some best then
          match s.current_idx with
          | some c =>
            push_event s.core.timeline s.current_start (getP s.core.procs c).pid
              (int_sub s.core.time s.current_start)
          | none => s.core.timeline
        else s.core.timeline
      let cur_start := if s.current_idx ≠ some best then s.core.time else s.current_start
      -- lines 160-161: execute one unit
      let p1 := run_slice_wrapped p s.core.time 1
      let time := int_add s.core.time 1
      if p1.remaining_time = 0 then
        some
          { core :=
              { procs := s.core.procs.set best (mark_finished p1 time)
                timeline := push_event tl1 cur_start p.pid (int_sub time cur_start)
                time := time }
            completed := s.completed + 1
            current_idx := none
            current_start := -1 }
      else
        some
          { core := { procs := s.core.procs.set best p1, timeline := tl1, time := time }
            completed := s.completed
            current_idx := some best
            current_start := cur_start }
  else none

/-- The policy `schedule_stcf` on a 32-bit machine, with `fuel` bounding the
loop iterations. -/
def schedule_stcf_wrapped (fuel : Nat) (processes : List Process) : Option SchedResult :=
  let procs := reset_processes processes
  (whileLoop stcf_step_wrapped fuel ⟨⟨procs, [], first_arrival procs⟩, 0, none, -1⟩).map
    fun s => ⟨s.core.procs, s.core.timeline⟩

/-- One iteration of the `while (1)` loop of `schedule_rr` on a 32-bit
machine. -/
def rr_step_wrapped (quantum : Int) (s : RrState) : Option RrState :=
  if all_done s.core.procs then none
  else if s.queue.head = s.queue.buf.length then
    let c := idle_until_wrapped s.core (next_arrival s.core.procs)
    let qa := enqueue_arrivals c.procs c.time s.queue s.added
    some { core := c, queue := qa.1, added := qa.2 }
  else
    let idx := s.queue.buf.getD s.queue.head 0
    let q1 : IdxQueue := { s.queue with head := s.queue.head + 1 }
    let p := getP s.core.procs idx
    let use := if p.remaining_time < quantum then p.remaining_time else quantum
    let tl := push_event s.core.timeline s.core.time p.pid use
    let time := int_add s.core.time use
    let p1 := run_slice_wrapped p s.core.time use
    let qa := enqueue_arrivals s.core.procs time q1 s.added
    if p1.remaining_time > 0 then
      some { core := ⟨s.core.procs.set idx p1, tl, time⟩, queue := qa.1.push idx, added := qa.2 }
    else
      some
        { core := ⟨s.core.procs.set idx (mark_finished p1 time), tl, time⟩
          queue := qa.1
          added := qa.2 }

/-- The policy `schedule_rr` on a 32-bit machine, with `fuel` bounding the
loop iterations. -/
def schedule_rr_wrapped (fuel : Nat) (processes : List Process) (quantum : Int) :
    Option SchedResult :=
  (whileLoop (rr_step_wrapped quantum) fuel (rr_init processes)).map
    fun s => ⟨s.core.procs, s.core.timeline⟩

/-- One iteration of the `while (completed < n)` loop of `schedule_mlfq` on a
32-bit machine. -/
def mlfq_step_wrapped (cfg : MlfqConfig) (s : MlfqState) : Option MlfqState :=
  let numq := cfg.num_queues.toNat
  if s.completed < s.core.procs.length then
    let boost : Prop :=
      cfg.boost_interval > 0 ∧ int_sub s.core.time s.last_boost ≥ cfg.boost_interval
    let levels0 := if boost then mlfq_boost numq s.levels else s.levels
    let last_boost := if boost then s.core.time else s.last_boost
    match mlfq_find_level numq levels0 with
    | none =>
      let next_arr := next_arrival s.core.procs
      if next_arr = INT_MAX then none
      else
        let c := idle_until_wrapped s.core next_arr
        let la := mlfq_enqueue_arrivals c.procs c.time levels0 s.added
        some { core := c, levels := la.1, added := la.2, completed := s.completed,
               last_boost := last_boost }
    | some level =>
      let ql := getLevel levels0 level
      let idx := ql.buf.getD ql.head 0
      let levels1 := levels0.set level { ql with head := ql.head + 1 }
      let p := getP s.core.procs idx
      let quantum := cfg.quantums.getD level 0
      let use := if p.remaining_time < quantum then p.remaining_time else quantum
      let tl := push_event s.core.timeline s.core.time p.pid use
      let time := int_add s.core.time use
      let p1 := run_slice_wrapped p s.core.time use
      let la := mlfq_enqueue_arrivals s.core.procs time levels1 s.added
      if p1.remaining_time = 0 then
        some
          { core := ⟨s.core.procs.set idx (mark_finished p1 time), tl, time⟩
            levels := la.1, added := la.2, completed := s.completed + 1
            last_boost := last_boost }
      else
        let new_level :=
          if use ≥ quantum then (if level + 1 ≥ numq then numq - 1 else level + 1) else level
        some
          { core := ⟨s.core.procs.set idx p1, tl, time⟩
            levels := la.1.set new_level ((getLevel la.1 new_level).push idx)
            added := la.2, completed := s.completed, last_boost := last_boost }
  else none

/-- The policy `schedule_mlfq` on a 32-bit machine, with `fuel` bounding the
loop iterations. -/
def schedule_mlfq_wrapped (fuel : Nat) (processes : List Process) (cfg : MlfqConfig) :
    Option SchedResult :=
  (whileLoop (mlfq_step_wrapped cfg) fuel (mlfq_init cfg processes)).map
    fun s => ⟨s.core.procs, s.core.timeline⟩

/-- Run a policy on a process array on a 32-bit machine. -/
def run_policy_wrapped (pol : Policy) (fuel : Nat) (processes : List Process) :
    Option SchedResult :=
  match pol with
  | .fifo => some (schedule_fifo_wrapped processes)
  | .sjf => schedule_sjf_wrapped fuel processes
  | .stcf => schedule_stcf_wrapped fuel processes
  | .rr quantum => schedule_rr_wrapped fuel processes quantum
  | .mlfq cfg => schedule_mlfq_wrapped fuel processes cfg

/-- The clock of a run on the array `ps0` that starts at `t0` stays within
the `int` range: `t0` is an `int`, no later than the latest arrival, and
`last_instant` is at most `INT_MAX` and at most `INT_MAX` above `t0`. -/
structure ClockWindow (ps0 : List Process) (t0 : Int) : Prop where
  lo : -INT_MAX - 1 ≤ t0
  start : t0 ≤ maxList (ps0.map (·.arrival_time))
  hi : last_instant ps0 ≤ INT_MAX
  span : last_instant ps0 - t0 ≤ INT_MAX

/-- One process arriving at 2147483000 with burst time 1000: it ends after
`INT_MAX`. -/
def edge_workload : List Process := [⟨1, 2147483000, 1000, 0, 0, 0, 0, 0, 0, 0, 0⟩]

/-- Three processes arriving at 0 with burst times `INT_MAX`, `INT_MAX` and
1. -/
def huge_workload : List Process :=
  [⟨1, 0, 2147483647, 0, 0, 0, 0, 0, 0, 0, 0⟩, ⟨2, 0, 2147483647, 0, 0, 0, 0, 0, 0, 0, 0⟩,
    ⟨3, 0, 1, 0, 0, 0, 0, 0, 0, 0, 0⟩]

/-- The timeline `schedule_stcf_wrapped` gives for `wrap_workload`. -/
def wrap_stcf_timeline : List TimelineEvent :=
  [⟨-2147483648, -1, -4⟩, ⟨2147483644, 1, 2⟩, ⟨-2147483648, -1, -2⟩,
    ⟨-2147483648, -1, -2⟩, ⟨2147483646, 2, 1⟩]

end Sched

namespace Sched

/-! ## Basic facts about the loop combinators and array accesses -/

theorem forLoop_succ {σ : Type} (k : Nat) (body : Nat → σ → σ) (init : σ) :
    forLoop (k + 1) body init = body k (forLoop k body init) := rfl

/-- Invariant rule for counted loops. -/
theorem forLoop_inv {σ : Type} (P : Nat → σ → Prop) (body : Nat → σ → σ) (init : σ) (n : Nat)
    (h0 : P 0 init) (hstep : ∀ k s, k < n → P k s → P (k + 1) (body k s)) :
    P n (forLoop n body init) := by
  induction n with
  | zero => exact h0
  | succ k ih =>
    exact hstep k _ (Nat.lt_succ_self k)
      (ih (fun j s hj hP => hstep j s (Nat.lt_succ_of_lt hj) hP))

/-- Total-correctness rule for `whileLoop`: an invariant together with a
measure that every iteration decreases gives a result once the fuel exceeds
the measure; the result satisfies the invariant and the exit condition. -/
theorem whileLoop_terminates {σ : Type} (step : σ → Option σ) (Inv : σ → Prop) (μ : σ → Nat)
    (hstep : ∀ s s', Inv s → step s = some s' → Inv s' ∧ μ s' < μ s) :
    ∀ (fuel : Nat) (s : σ), Inv s → μ s < fuel →
      ∃ r, whileLoop step fuel s = some r ∧ Inv r ∧ step r = none := by
  intro fuel
  induction fuel with
  | zero => intro s _ h; exact absurd h (Nat.not_lt_zero _)
  | succ f ih =>
    intro s hs hμ
    cases hst : step s with
    | none => exact ⟨s, by simp [whileLoop, hst], hs, hst⟩
    | some s' =>
      obtain ⟨hs', hlt⟩ := hstep s s' hs hst
      obtain ⟨r, hr, hI, hn⟩ := ih s' hs' (by omega)
      exact ⟨r, by simp [whileLoop, hst, hr], hI, hn⟩

/-- Partial-correctness rule for `whileLoop`: an invariant of the body holds
of the result. -/
theorem whileLoop_inv {σ : Type} (step : σ → Option σ) (Inv : σ → Prop)
    (hstep : ∀ s s', Inv s → step s = some s' → Inv s') :
    ∀ (fuel : Nat) (s r : σ), Inv s → whileLoop step fuel s = some r → Inv r := by
  intro fuel
  induction fuel with
  | zero => intro s r _ h; simp [whileLoop] at h
  | succ f ih =>
    intro s r hs h
    cases hst : step s with
    | none =>
      simp only [whileLoop, hst, Option.some.injEq] at h
      subst h; exact hs
    | some s' =>
      simp only [whileLoop, hst] at h
      exact ih s' r (hstep s s' hs hst) h

theorem getP_set_eq (procs : List Process) (i : Nat) (p : Process) (h : i < procs.length) :
    getP (procs.set i p) i = p := by
  simp [getP, List.getD_eq_getElem?_getD, List.getElem?_set, h]

theorem getP_set_ne (procs : List Process) (i j : Nat) (p : Process) (h : i ≠ j) :
    getP (procs.set i p) j = getP procs j := by
  simp [getP, List.getD_eq_getElem?_getD, List.getElem?_set, h]

theorem getP_set (procs : List Process) (i j : Nat) (p : Process) (h : i < procs.length) :
    getP (procs.set i p) j = if i = j then p else getP procs j := by
  by_cases hij : i = j
  · subst hij; simp [getP_set_eq _ _ _ h]
  · simp [hij, getP_set_ne _ _ _ _ hij]

theorem getP_mem (procs : List Process) (i : Nat) (h : i < procs.length) :
    getP procs i ∈ procs := by
  simp only [getP, List.getD_eq_getElem _ _ h]
  exact List.getElem_mem _

theorem exists_getP_of_mem (procs : List Process) (p : Process) (h : p ∈ procs) :
    ∃ i, i < procs.length ∧ getP procs i = p := by
  obtain ⟨i, hi, rfl⟩ := List.mem_iff_getElem.mp h
  exact ⟨i, hi, by simp only [getP, List.getD_eq_getElem _ _ hi]⟩

theorem getP_map (procs : List Process) (f : Process → Process) (i : Nat)
    (h : i < procs.length) : getP (procs.map f) i = f (getP procs i) := by
  simp [getP, List.getD_eq_getElem?_getD, List.getElem?_map, List.getElem?_eq_getElem h]

/-- Replacing one entry changes a sum over the array by the difference of
the two summands. -/
theorem sum_map_set {α : Type} (f : α → Nat) (d : α) :
    ∀ (l : List α) (i : Nat) (a : α), i < l.length →
      ((l.set i a).map f).sum + f (l.getD i d) = (l.map f).sum + f a := by
  intro l
  induction l with
  | nil => intro i a h; simp at h
  | cons x xs ih =>
    intro i a h
    cases i with
    | zero => simp [List.set]; omega
    | succ j =>
      have := ih j a (by simpa using h)
      simp [List.set] at this ⊢
      omega

theorem sum_map_pos_iff {α : Type} (f : α → Nat) (l : List α) :
    0 < (l.map f).sum ↔ ∃ x ∈ l, 0 < f x := by
  induction l with
  | nil => simp
  | cons x xs ih =>
    simp only [List.map_cons, List.sum_cons, List.mem_cons, exists_eq_or_imp]
    rw [← ih]; omega

/-! ## Tilings -/

theorem contig_push (t0 t : Int) (tl : List TimelineEvent) (pid d : Int)
    (h : Contig t0 tl t) : Contig t0 (push_event tl t pid d) (t + d) := by
  induction tl generalizing t0 with
  | nil => simp only [Contig] at h; subst h; simp [push_event, Contig]
  | cons e rest ih =>
    obtain ⟨h1, h2⟩ := h
    exact ⟨h1, ih _ h2⟩

theorem total_time_foldl (tl : List TimelineEvent) (a : Int) :
    tl.foldl (fun total e => total + e.duration) a =
      a + tl.foldl (fun total e => total + e.duration) 0 := by
  induction tl generalizing a with
  | nil => simp
  | cons e rest ih =>
    simp only [List.foldl_cons]
    rw [ih (a + e.duration), ih (0 + e.duration)]; omega

theorem contig_total (t0 t : Int) (tl : List TimelineEvent) (h : Contig t0 tl t) :
    compute_total_time tl = t - t0 := by
  induction tl generalizing t0 with
  | nil => simp only [Contig] at h; subst h; simp [compute_total_time]
  | cons e rest ih =>
    obtain ⟨_, h2⟩ := h
    have := ih _ h2
    simp only [compute_total_time, List.foldl_cons] at this ⊢
    rw [total_time_foldl]; omega

theorem contig_head (t0 t : Int) (tl : List TimelineEvent) (h : Contig t0 tl t)
    (hne : t0 ≠ t) : tl.head?.map (·.time) = some t0 := by
  cases tl with
  | nil => exact absurd h hne
  | cons e rest => simp [h.1]

theorem contig_adjacent (t0 t : Int) (tl : List TimelineEvent) (h : Contig t0 tl t) :
    ∀ i, i + 1 < tl.length →
      (tl.getD i default).time + (tl.getD i default).duration = (tl.getD (i + 1) default).time := by
  induction tl generalizing t0 with
  | nil => intro i hi; simp at hi
  | cons e rest ih =>
    intro i hi
    obtain ⟨h1, h2⟩ := h
    cases i with
    | zero =>
      cases rest with
      | nil => simp at hi
      | cons e2 r2 => simp [h2.1, h1]
    | succ j =>
      have := ih _ h2 j (by simpa using hi)
      simpa using this

end Sched

namespace Sched

/-! ## The exchange sort of `schedule_fifo` -/

theorem getD_set_nat (l : List Nat) (i j : Nat) (a : Nat) (h : i < l.length) :
    (l.set i a).getD j 0 = if i = j then a else l.getD j 0 := by
  by_cases hij : i = j
  · subst hij; simp [List.getD_eq_getElem?_getD, List.getElem?_set, h]
  · simp [List.getD_eq_getElem?_getD, List.getElem?_set, hij]

theorem perm_cons_set {α : Type} (x y : α) :
    ∀ (l : List α) (j : Nat) (h : j < l.length), l[j] = y →
      List.Perm (y :: l.set j x) (x :: l) := by
  intro l
  induction l with
  | nil => intro j h; simp at h
  | cons z r ih =>
    intro j h hy
    cases j with
    | zero =>
      simp only [List.getElem_cons_zero] at hy
      subst hy
      exact List.Perm.swap _ _ _
    | succ k =>
      simp only [List.getElem_cons_succ] at hy
      have h1 := ih k (by simpa using h) hy
      simp only [List.set_cons_succ]
      exact (List.Perm.swap z y _).trans ((h1.cons z).trans (List.Perm.swap x z _))

theorem perm_swap_set {α : Type} :
    ∀ (l : List α) (i j : Nat) (hi : i < l.length) (hj : j < l.length), i < j →
      List.Perm ((l.set i l[j]).set j l[i]) l := by
  intro l
  induction l with
  | nil => intro i j _ hj; simp at hj
  | cons x r ih =>
    intro i j hi hj hij
    cases j with
    | zero => omega
    | succ j' =>
      cases i with
      | zero =>
        simp only [List.set_cons_zero, List.set_cons_succ, List.getElem_cons_zero,
          List.getElem_cons_succ]
        exact perm_cons_set x _ r j' (by simpa using hj) rfl
      | succ i' =>
        simp only [List.set_cons_succ, List.getElem_cons_succ]
        exact (ih i' j' (by simpa using hi) (by simpa using hj) (by omega)).cons x

theorem fifo_exchange_length (procs : List Process) (i j : Nat) (idx : List Nat) :
    (fifo_exchange procs i j idx).length = idx.length := by
  unfold fifo_exchange; split <;> simp

theorem fifo_exchange_perm (procs : List Process) (i j : Nat) (idx : List Nat)
    (hi : i < j) (hj : j < idx.length) : List.Perm (fifo_exchange procs i j idx) idx := by
  unfold fifo_exchange
  split
  · have hil : i < idx.length := Nat.lt_trans hi hj
    have := perm_swap_set idx i j hil hj hi
    rw [List.getD_eq_getElem _ _ hj, List.getD_eq_getElem _ _ hil]
    exact this
  · exact List.Perm.refl _

theorem fifo_key_le_iff (procs : List Process) (a b : Nat) :
    fifo_key_le procs a b ↔ ¬ fifo_gt procs a b := by
  unfold fifo_key_le fifo_gt; omega

theorem fifo_exchange_inv (procs : List Process) (i j : Nat) (idx : List Nat)
    (hi : i < j) (hj : j < idx.length)
    (hA : SortedBefore procs idx i) (hB : MinUpTo procs idx i j) :
    SortedBefore procs (fifo_exchange procs i j idx) i ∧
      MinUpTo procs (fifo_exchange procs i j idx) i (j + 1) := by
  have hil : i < idx.length := Nat.lt_trans hi hj
  unfold fifo_exchange
  split
  next hgt =>
    have hlen : (idx.set i (idx.getD j 0)).length = idx.length := by simp
    have get : ∀ b, ((idx.set i (idx.getD j 0)).set j (idx.getD i 0)).getD b 0 =
        if j = b then idx.getD i 0 else if i = b then idx.getD j 0 else idx.getD b 0 := by
      intro b
      rw [getD_set_nat _ _ _ _ (by omega), getD_set_nat _ _ _ _ hil]
    constructor
    · intro a b ha hab hb
      simp only [List.length_set] at hb
      rw [get a, get b]
      have h1 : ¬ j = a := by omega
      have h2 : ¬ i = a := by omega
      simp only [h1, h2, if_false]
      by_cases hjb : j = b
      · simp only [hjb, if_true]; exact hA a i ha (by omega) hil
      · by_cases hib : i = b
        · simp only [hjb, hib, if_true, if_false]; exact hA a j ha (by omega) hj
        · simp only [hjb, hib, if_false]; exact hA a b ha hab hb
    · intro b hib hbj
      rw [get i, get b]
      have h1 : ¬ j = i := by omega
      have h2 : ¬ i = b := by omega
      simp only [h1, h2, if_true, if_false]
      by_cases hjb : j = b
      · simp only [hjb, if_true]
        rw [hjb] at hgt
        revert hgt; unfold fifo_key_le fifo_gt; omega
      · simp only [hjb, if_false]
        have := hB b hib (by omega)
        revert hgt this; unfold fifo_key_le fifo_gt; omega
  next hgt =>
    refine ⟨hA, ?_⟩
    intro b hib hbj
    by_cases hjb : b = j
    · subst hjb; exact (fifo_key_le_iff _ _ _).2 hgt
    · exact hB b hib (by omega)

theorem fifo_sort_inner_spec (procs : List Process) (n i : Nat) (idx : List Nat)
    (hlen : idx.length = n) (hA : SortedBefore procs idx i) :
    (fifo_sort_inner procs n i idx).length = n ∧
      List.Perm (fifo_sort_inner procs n i idx) idx ∧
      SortedBefore procs (fifo_sort_inner procs n i idx) (i + 1) := by
  have key := forLoop_inv
    (fun k (l : List Nat) => l.length = n ∧ List.Perm l idx ∧ SortedBefore procs l i ∧
      MinUpTo procs l i (i + 1 + k))
    (fun k idx => fifo_exchange procs i (i + 1 + k) idx) idx (n - (i + 1))
    ⟨hlen, List.Perm.refl _, hA, fun b h1 h2 => by omega⟩
    (by
      intro k l hk ⟨hl, hp, hs, hm⟩
      have hj : i + 1 + k < l.length := by omega
      obtain ⟨h1, h2⟩ := fifo_exchange_inv procs i (i + 1 + k) l (by omega) hj hs hm
      exact ⟨by rw [fifo_exchange_length, hl],
        (fifo_exchange_perm procs i _ l (by omega) hj).trans hp, h1, h2⟩)
  obtain ⟨h1, h2, h3, h4⟩ := key
  refine ⟨h1, h2, ?_⟩
  intro a b ha hab hb
  by_cases hai : a < i
  · exact h3 a b hai hab hb
  · have : a = i := by omega
    subst this
    have hb' : b < n := by rw [← h1]; exact hb
    exact h4 b hab (by omega)

theorem fifo_sort_spec (procs : List Process) :
    (fifo_sort procs).length = procs.length ∧
      List.Perm (fifo_sort procs) (List.range procs.length) ∧
      SortedBefore procs (fifo_sort procs) (procs.length - 1) := by
  have key := forLoop_inv
    (fun i (l : List Nat) => l.length = procs.length ∧ List.Perm l (List.range procs.length) ∧
      SortedBefore procs l i)
    (fun i idx => fifo_sort_inner procs procs.length i idx) (List.range procs.length)
    (procs.length - 1)
    ⟨by simp, List.Perm.refl _, fun a b ha => by omega⟩
    (by
      intro i l _ ⟨hl, hp, hs⟩
      obtain ⟨h1, h2, h3⟩ := fifo_sort_inner_spec procs procs.length i l hl hs
      exact ⟨h1, h2.trans hp, h3⟩)
  exact key

theorem fifo_sort_pairwise (procs : List Process) :
    List.Pairwise (fifo_key_le procs) (fifo_sort procs) := by
  obtain ⟨hl, _, hs⟩ := fifo_sort_spec procs
  rw [List.pairwise_iff_getElem]
  intro a b ha hb hab
  have := hs a b (by omega) hab hb
  rw [List.getD_eq_getElem _ _ ha, List.getD_eq_getElem _ _ hb] at this
  exact this

end Sched

namespace Sched

/-! ## The arrival scans -/

theorem first_arrival_fold (l : List Process) (acc : Int) :
    l.foldl (fun mn p => if p.arrival_time < mn then p.arrival_time else mn) acc ≤ acc ∧
    (∀ p ∈ l,
      l.foldl (fun mn p => if p.arrival_time < mn then p.arrival_time else mn) acc
        ≤ p.arrival_time) ∧
    (l.foldl (fun mn p => if p.arrival_time < mn then p.arrival_time else mn) acc = acc ∨
      ∃ p ∈ l, p.arrival_time =
        l.foldl (fun mn p => if p.arrival_time < mn then p.arrival_time else mn) acc) := by
  induction l generalizing acc with
  | nil => simp
  | cons x xs ih =>
    by_cases hx : x.arrival_time < acc
    · simp only [List.foldl_cons, if_pos hx]
      obtain ⟨h1, h2, h3⟩ := ih x.arrival_time
      refine ⟨by omega, ?_, ?_⟩
      · intro p hp
        rcases List.mem_cons.1 hp with rfl | hp
        · exact h1
        · exact h2 p hp
      · rcases h3 with h3 | ⟨p, hp, h3⟩
        · right; exact ⟨x, List.mem_cons_self _ _, h3.symm⟩
        · right; exact ⟨p, List.mem_cons_of_mem _ hp, h3⟩
    · simp only [List.foldl_cons, if_neg hx]
      obtain ⟨h1, h2, h3⟩ := ih acc
      refine ⟨h1, ?_, ?_⟩
      · intro p hp
        rcases List.mem_cons.1 hp with rfl | hp
        · omega
        · exact h2 p hp
      · rcases h3 with h3 | ⟨p, hp, h3⟩
        · left; exact h3
        · right; exact ⟨p, List.mem_cons_of_mem _ hp, h3⟩

theorem minList_spec (l : List Int) (hne : l ≠ []) :
    minList l ∈ l ∧ ∀ x ∈ l, minList l ≤ x := by
  induction l with
  | nil => exact absurd rfl hne
  | cons x xs ih =>
    cases xs with
    | nil => simp [minList]
    | cons y r =>
      obtain ⟨h1, h2⟩ := ih (by simp)
      simp only [minList]
      constructor
      · rcases min_choice x (minList (y :: r)) with h | h
        · rw [h]; exact List.mem_cons_self _ _
        · rw [h]; exact List.mem_cons_of_mem _ h1
      · intro z hz
        rcases List.mem_cons.1 hz with rfl | hz
        · exact min_le_left _ _
        · exact le_trans (min_le_right _ _) (h2 z hz)

theorem maxList_spec (l : List Int) (hne : l ≠ []) :
    maxList l ∈ l ∧ ∀ x ∈ l, x ≤ maxList l := by
  induction l with
  | nil => exact absurd rfl hne
  | cons x xs ih =>
    cases xs with
    | nil => simp [maxList]
    | cons y r =>
      obtain ⟨h1, h2⟩ := ih (by simp)
      simp only [maxList]
      constructor
      · rcases max_choice x (maxList (y :: r)) with h | h
        · rw [h]; exact List.mem_cons_self _ _
        · rw [h]; exact List.mem_cons_of_mem _ h1
      · intro z hz
        rcases List.mem_cons.1 hz with rfl | hz
        · exact le_max_left _ _
        · exact le_trans (h2 z hz) (le_max_right _ _)

/-- Below the sentinel, `first_arrival` is the minimum arrival time. -/
theorem first_arrival_eq_min (procs : List Process) (hne : procs ≠ [])
    (hlt : ∀ p ∈ procs, p.arrival_time < INT_MAX) :
    first_arrival procs = minArrival procs := by
  obtain ⟨h1, h2, h3⟩ := first_arrival_fold procs INT_MAX
  obtain ⟨m1, m2⟩ := minList_spec (procs.map (·.arrival_time)) (by simpa using hne)
  obtain ⟨q, hq, hqe⟩ := List.mem_map.1 m1
  obtain ⟨p0, hp0⟩ := List.exists_mem_of_ne_nil procs hne
  have hlt0 := hlt p0 hp0
  have hr0 := h2 p0 hp0
  simp only [first_arrival, minArrival]
  rw [if_neg (by omega)]
  rcases h3 with h3 | ⟨p, hp, h3⟩
  · omega
  · have a1 := m2 p.arrival_time (List.mem_map.2 ⟨p, hp, rfl⟩)
    have a2 := h2 q hq
    omega

theorem first_arrival_nonneg (procs : List Process) (h0 : ∀ p ∈ procs, 0 ≤ p.arrival_time) :
    0 ≤ first_arrival procs := by
  obtain ⟨h1, h2, h3⟩ := first_arrival_fold procs INT_MAX
  simp only [first_arrival]
  split
  · exact le_refl _
  · rcases h3 with h3 | ⟨p, hp, h3⟩
    · contradiction
    · rw [← h3]; exact h0 p hp

theorem next_arrival_fold (l : List Process) (acc : Int) :
    l.foldl (fun na p => if p.finished = 0 ∧ p.arrival_time < na then p.arrival_time else na)
        acc ≤ acc ∧
    (∀ p ∈ l, p.finished = 0 →
      l.foldl (fun na p => if p.finished = 0 ∧ p.arrival_time < na then p.arrival_time else na)
        acc ≤ p.arrival_time) ∧
    (l.foldl (fun na p => if p.finished = 0 ∧ p.arrival_time < na then p.arrival_time else na)
        acc = acc ∨
      ∃ p ∈ l, p.finished = 0 ∧ p.arrival_time =
        l.foldl (fun na p => if p.finished = 0 ∧ p.arrival_time < na then p.arrival_time else na)
          acc) := by
  induction l generalizing acc with
  | nil => simp
  | cons x xs ih =>
    by_cases hx : x.finished = 0 ∧ x.arrival_time < acc
    · simp only [List.foldl_cons, if_pos hx]
      obtain ⟨h1, h2, h3⟩ := ih x.arrival_time
      refine ⟨by omega, ?_, ?_⟩
      · intro p hp hf
        rcases List.mem_cons.1 hp with rfl | hp
        · exact h1
        · exact h2 p hp hf
      · rcases h3 with h3 | ⟨p, hp, h3⟩
        · right; exact ⟨x, List.mem_cons_self _ _, hx.1, h3.symm⟩
        · right; exact ⟨p, List.mem_cons_of_mem _ hp, h3⟩
    · simp only [List.foldl_cons, if_neg hx]
      obtain ⟨h1, h2, h3⟩ := ih acc
      refine ⟨h1, ?_, ?_⟩
      · intro p hp hf
        rcases List.mem_cons.1 hp with rfl | hp
        · have : ¬ p.arrival_time < acc := fun h => hx ⟨hf, h⟩
          omega
        · exact h2 p hp hf
      · rcases h3 with h3 | ⟨p, hp, h3⟩
        · left; exact h3
        · right; exact ⟨p, List.mem_cons_of_mem _ hp, h3⟩

theorem next_arrival_le (procs : List Process) (i : Nat) (hi : i < procs.length)
    (hf : (getP procs i).finished = 0) : next_arrival procs ≤ (getP procs i).arrival_time :=
  (next_arrival_fold procs INT_MAX).2.1 _ (getP_mem procs i hi) hf

/-- With arrival times in the `int` range, the scan `next_arr` ends on the
arrival time of an unfinished process whenever there is one. -/
theorem next_arrival_attained (procs : List Process)
    (hle : ∀ i, i < procs.length → (getP procs i).arrival_time ≤ INT_MAX)
    (hex : ∃ i, i < procs.length ∧ (getP procs i).finished = 0) :
    ∃ i, i < procs.length ∧ (getP procs i).finished = 0 ∧
      (getP procs i).arrival_time = next_arrival procs := by
  obtain ⟨h1, h2, h3⟩ := next_arrival_fold procs INT_MAX
  rcases h3 with h3 | ⟨p, hp, hf, h3⟩
  · obtain ⟨i, hi, hf⟩ := hex
    refine ⟨i, hi, hf, ?_⟩
    have a1 := h2 _ (getP_mem procs i hi) hf
    have a2 := hle i hi
    unfold next_arrival; omega
  · obtain ⟨i, hi, rfl⟩ := exists_getP_of_mem procs p hp
    exact ⟨i, hi, hf, h3⟩

/-! ## The selection scan -/

theorem pick_best_spec (better : Process → Process → Prop) [DecidableRel better]
    (hasym : ∀ a b, better a b → ¬ better b a)
    (hcot : ∀ a b c, better a b → better a c ∨ better c b)
    (procs : List Process) (time : Int) :
    (pick_best better procs time = none ∧
        ∀ j, j < procs.length → ¬ eligible (getP procs j) time) ∨
      ∃ b, pick_best better procs time = some b ∧ IsFirstBest better procs time b := by
  have hirr : ∀ p, ¬ better p p := fun p h => hasym p p h h
  have key := forLoop_inv
    (fun k (best : Option Nat) =>
      (best = none ∧ ∀ j, j < k → ¬ eligible (getP procs j) time) ∨
      ∃ b, best = some b ∧ b < k ∧ eligible (getP procs b) time ∧
          (∀ j, j < k → eligible (getP procs j) time → ¬ better (getP procs j) (getP procs b)) ∧
          (∀ j, j < b → eligible (getP procs j) time → better (getP procs b) (getP procs j)))
    (fun i best =>
      if eligible (getP procs i) time then
        match best with
        | none => some i
        | some b => if better (getP procs i) (getP procs b) then some i else some b
      else best)
    none procs.length (Or.inl ⟨rfl, by intro j hj; omega⟩)
    (by
      intro k best hk hP
      by_cases he : eligible (getP procs k) time
      · simp only [he, if_true]
        rcases hP with ⟨rfl, hP⟩ | ⟨b, rfl, hb, heb, hmin, hfirst⟩
        · right
          refine ⟨k, rfl, by omega, he, ?_, ?_⟩
          · intro j hj hej
            by_cases hjk : j = k
            · subst hjk; exact hirr _
            · exact absurd hej (hP j (by omega))
          · intro j hj hej; exact absurd hej (hP j hj)
        · right
          by_cases hbt : better (getP procs k) (getP procs b)
          · simp only [hbt, if_true]
            refine ⟨k, rfl, by omega, he, ?_, ?_⟩
            · intro j hj hej hjk
              by_cases hjk' : j = k
              · subst hjk'; exact hirr _ hjk
              · rcases hcot _ _ (getP procs b) hjk with h | h
                · exact hmin j (by omega) hej h
                · exact hasym _ _ hbt h
            · intro j hj hej
              rcases hcot _ _ (getP procs j) hbt with h | h
              · exact h
              · exact absurd h (hmin j (by omega) hej)
          · simp only [hbt, if_false]
            refine ⟨b, rfl, by omega, heb, ?_, hfirst⟩
            intro j hj hej
            by_cases hjk : j = k
            · subst hjk; exact hbt
            · exact hmin j (by omega) hej
      · simp only [he, if_false]
        rcases hP with ⟨rfl, hP⟩ | ⟨b, rfl, hb, heb, hmin, hfirst⟩
        · left
          refine ⟨rfl, ?_⟩
          intro j hj
          by_cases hjk : j = k
          · subst hjk; exact he
          · exact hP j (by omega)
        · right
          refine ⟨b, rfl, by omega, heb, ?_, hfirst⟩
          intro j hj hej
          by_cases hjk : j = k
          · subst hjk; exact absurd hej he
          · exact hmin j (by omega) hej)
  exact key

end Sched

namespace Sched

/-! ## Preservation of the run-state facts -/

theorem StaticEq.refl (ps0 : List Process) : StaticEq ps0 ps0 :=
  ⟨rfl, fun _ _ => ⟨rfl, rfl, rfl⟩⟩

theorem StaticEq.set {ps0 procs : List Process} (h : StaticEq ps0 procs) (i : Nat)
    (p' : Process) (hpid : p'.pid = (getP procs i).pid)
    (harr : p'.arrival_time = (getP procs i).arrival_time)
    (hb : p'.burst_time = (getP procs i).burst_time) : StaticEq ps0 (procs.set i p') := by
  refine ⟨by rw [List.length_set]; exact h.1, ?_⟩
  intro j hj
  by_cases hij : i = j
  · subst hij
    rw [getP_set_eq _ _ _ (by rw [h.1]; exact hj), hpid, harr, hb]
    exact h.2 i hj
  · rw [getP_set_ne _ _ _ _ hij]; exact h.2 j hj

theorem StaticEq.reset (ps : List Process) :
    (reset_processes ps).length = ps.length ∧
      ∀ i, i < ps.length →
        (getP (reset_processes ps) i).pid = (getP ps i).pid ∧
        (getP (reset_processes ps) i).arrival_time = (getP ps i).arrival_time ∧
        (getP (reset_processes ps) i).burst_time = (getP ps i).burst_time ∧
        (getP (reset_processes ps) i).remaining_time = (getP ps i).burst_time ∧
        (getP (reset_processes ps) i).start_time = -1 ∧
        (getP (reset_processes ps) i).completion_time = -1 ∧
        (getP (reset_processes ps) i).finished = 0 := by
  refine ⟨by simp [reset_processes], ?_⟩
  intro i hi
  simp [reset_processes, getP_map _ _ _ hi, reset_process]

theorem start_ok (t0 time s : Int) (h : s = -1 ∨ t0 ≤ s) (ht : t0 ≤ time) :
    t0 ≤ (if s = -1 then time else s) := by
  split <;> omega

theorem ProcInv.start_cases {ps0 procs : List Process} {t0 time : Int}
    (h : ProcInv ps0 t0 procs time) (i : Nat) (hi : i < ps0.length) :
    (getP procs i).start_time = -1 ∨ t0 ≤ (getP procs i).start_time := by
  by_cases hf : (getP procs i).finished = 0
  · exact (h.unfin i hi hf).2
  · exact Or.inr (h.fin i hi hf).2.2.2.2

/-- An idle span keeps the facts, provided some process is still unfinished. -/
theorem ProcInv.idle {ps0 procs : List Process} {t0 time : Int}
    (h : ProcInv ps0 t0 procs time) (time' : Int) (hle : time ≤ time')
    (hex : ∃ i, i < ps0.length ∧ (getP procs i).finished = 0) :
    ProcInv ps0 t0 procs time' where
  static := h.static
  t0_le := le_trans h.t0_le hle
  unfin := h.unfin
  fin := fun i hi hf => by
    obtain ⟨a, b, c, d, e⟩ := h.fin i hi hf
    exact ⟨a, b, c, le_trans d hle, e⟩
  last := fun hall _ => by
    obtain ⟨i, hi, hf⟩ := hex
    exact absurd hf (hall i hi)

/-- Running process `i` to completion at `time'` keeps the facts. -/
theorem ProcInv.finish {ps0 procs : List Process} {t0 time : Int}
    (h : ProcInv ps0 t0 procs time) (i : Nat) (hi : i < ps0.length) (p' : Process)
    (time' : Int) (hlt : time < time')
    (hpid : p'.pid = (getP procs i).pid)
    (harr : p'.arrival_time = (getP procs i).arrival_time)
    (hb : p'.burst_time = (getP procs i).burst_time)
    (hfin : p'.finished = 1) (hrem : p'.remaining_time = 0)
    (hcomp : p'.completion_time = time') (hstart : t0 ≤ p'.start_time) :
    ProcInv ps0 t0 (procs.set i p') time' := by
  have hil : i < procs.length := by rw [h.static.1]; exact hi
  have ht0 := h.t0_le
  refine ⟨h.static.set i p' hpid harr hb, by omega, ?_, ?_, ?_⟩
  · intro j hj hf
    rw [getP_set _ _ _ _ hil] at hf ⊢
    by_cases hij : i = j
    · simp only [hij, if_true] at hf; omega
    · simp only [hij, if_false] at hf ⊢; exact h.unfin j hj hf
  · intro j hj hf
    rw [getP_set _ _ _ _ hil] at hf ⊢
    by_cases hij : i = j
    · simp only [hij, if_true]
      exact ⟨hfin, hrem, by omega, by omega, hstart⟩
    · simp only [hij, if_false] at hf ⊢
      obtain ⟨a, b, c, d, e⟩ := h.fin j hj hf
      exact ⟨a, b, c, by omega, e⟩
  · intro _ _
    exact ⟨i, hi, by rw [getP_set_eq _ _ _ hil]; exact hcomp⟩

/-- Running process `i` without finishing it keeps the facts. -/
theorem ProcInv.progress {ps0 procs : List Process} {t0 time : Int}
    (h : ProcInv ps0 t0 procs time) (i : Nat) (hi : i < ps0.length) (p' : Process)
    (time' : Int) (hle : time ≤ time')
    (hpid : p'.pid = (getP procs i).pid)
    (harr : p'.arrival_time = (getP procs i).arrival_time)
    (hb : p'.burst_time = (getP procs i).burst_time)
    (hfin : p'.finished = 0) (hrem : 1 ≤ p'.remaining_time)
    (hstart : p'.start_time = -1 ∨ t0 ≤ p'.start_time) :
    ProcInv ps0 t0 (procs.set i p') time' := by
  have hil : i < procs.length := by rw [h.static.1]; exact hi
  have ht0 := h.t0_le
  refine ⟨h.static.set i p' hpid harr hb, by omega, ?_, ?_, ?_⟩
  · intro j hj hf
    rw [getP_set _ _ _ _ hil] at hf ⊢
    by_cases hij : i = j
    · simp only [hij, if_true]; exact ⟨hrem, hstart⟩
    · simp only [hij, if_false] at hf ⊢; exact h.unfin j hj hf
  · intro j hj hf
    rw [getP_set _ _ _ _ hil] at hf ⊢
    by_cases hij : i = j
    · simp only [hij, if_true] at hf; exact absurd hfin hf
    · simp only [hij, if_false] at hf ⊢
      obtain ⟨a, b, c, d, e⟩ := h.fin j hj hf
      exact ⟨a, b, c, by omega, e⟩
  · intro hall _
    have := hall i hi
    rw [getP_set_eq _ _ _ hil] at this
    exact absurd hfin this

@[simp]
theorem run_to_completion_pid (p : Process) (t : Int) :
    (run_to_completion p t).pid = p.pid := rfl
@[simp]
theorem run_to_completion_arrival (p : Process) (t : Int) :
    (run_to_completion p t).arrival_time = p.arrival_time := rfl
@[simp]
theorem run_to_completion_burst (p : Process) (t : Int) :
    (run_to_completion p t).burst_time = p.burst_time := rfl
@[simp]
theorem run_to_completion_finished (p : Process) (t : Int) :
    (run_to_completion p t).finished = 1 := rfl
@[simp]
theorem run_to_completion_remaining (p : Process) (t : Int) :
    (run_to_completion p t).remaining_time = 0 := rfl
@[simp]
theorem run_to_completion_completion (p : Process) (t : Int) :
    (run_to_completion p t).completion_time = t + p.burst_time := rfl
@[simp]
theorem run_slice_pid (p : Process) (t u : Int) : (run_slice p t u).pid = p.pid := rfl
@[simp]
theorem run_slice_arrival (p : Process) (t u : Int) :
    (run_slice p t u).arrival_time = p.arrival_time := rfl
@[simp]
theorem run_slice_burst (p : Process) (t u : Int) :
    (run_slice p t u).burst_time = p.burst_time := rfl
@[simp]
theorem run_slice_finished (p : Process) (t u : Int) :
    (run_slice p t u).finished = p.finished := rfl
@[simp]
theorem run_slice_remaining (p : Process) (t u : Int) :
    (run_slice p t u).remaining_time = p.remaining_time - u := rfl
@[simp]
theorem run_slice_completion (p : Process) (t u : Int) :
    (run_slice p t u).completion_time = p.completion_time := rfl
@[simp]
theorem run_slice_start (p : Process) (t u : Int) :
    (run_slice p t u).start_time = if p.start_time = -1 then t else p.start_time := rfl
@[simp]
theorem mark_finished_pid (p : Process) (t : Int) : (mark_finished p t).pid = p.pid := rfl
@[simp]
theorem mark_finished_arrival (p : Process) (t : Int) :
    (mark_finished p t).arrival_time = p.arrival_time := rfl
@[simp]
theorem mark_finished_burst (p : Process) (t : Int) :
    (mark_finished p t).burst_time = p.burst_time := rfl
@[simp]
theorem mark_finished_finished (p : Process) (t : Int) :
    (mark_finished p t).finished = 1 := rfl
@[simp]
theorem mark_finished_remaining (p : Process) (t : Int) :
    (mark_finished p t).remaining_time = p.remaining_time := rfl
@[simp]
theorem mark_finished_completion (p : Process) (t : Int) :
    (mark_finished p t).completion_time = t := rfl
@[simp]
theorem mark_finished_start (p : Process) (t : Int) :
    (mark_finished p t).start_time = p.start_time := rfl

/-- Running a slice of process `i` that brings its remaining time to zero,
then marking it finished, keeps the facts. -/
theorem ProcInv.finish_slice {ps0 procs : List Process} {t0 time : Int}
    (h : ProcInv ps0 t0 procs time) (i : Nat) (hi : i < ps0.length) (use : Int)
    (hpos : 1 ≤ use) (hrem : (getP procs i).remaining_time - use = 0) :
    ProcInv ps0 t0 (procs.set i (mark_finished (run_slice (getP procs i) time use) (time + use)))
      (time + use) :=
  h.finish i hi _ _ (by omega) rfl rfl rfl rfl hrem rfl
    (start_ok _ _ _ (h.start_cases i hi) h.t0_le)

/-- Running a slice of an unfinished process `i` that leaves work keeps the
facts. -/
theorem ProcInv.progress_slice {ps0 procs : List Process} {t0 time : Int}
    (h : ProcInv ps0 t0 procs time) (i : Nat) (hi : i < ps0.length) (use : Int)
    (hpos : 0 ≤ use) (hf : (getP procs i).finished = 0)
    (hrem : 1 ≤ (getP procs i).remaining_time - use) :
    ProcInv ps0 t0 (procs.set i (run_slice (getP procs i) time use)) (time + use) :=
  h.progress i hi _ _ (by omega) rfl rfl rfl hf hrem
    (Or.inr (start_ok _ _ _ (h.start_cases i hi) h.t0_le))

/-! ## Counting unfinished processes and remaining work -/

theorem unfinishedCount_set (procs : List Process) (i : Nat) (p' : Process)
    (hi : i < procs.length) :
    unfinishedCount (procs.set i p') + (if (getP procs i).finished = 0 then 1 else 0) =
      unfinishedCount procs + (if p'.finished = 0 then 1 else 0) :=
  sum_map_set (fun p : Process => if p.finished = 0 then 1 else 0) default procs i p' hi

theorem workLeft_set (procs : List Process) (i : Nat) (p' : Process) (hi : i < procs.length) :
    workLeft (procs.set i p') + (getP procs i).remaining_time.toNat =
      workLeft procs + p'.remaining_time.toNat :=
  sum_map_set (fun p : Process => p.remaining_time.toNat) default procs i p' hi

theorem unfinishedCount_pos_iff (procs : List Process) :
    0 < unfinishedCount procs ↔ ∃ i, i < procs.length ∧ (getP procs i).finished = 0 := by
  unfold unfinishedCount
  rw [sum_map_pos_iff]
  constructor
  · rintro ⟨p, hp, h⟩
    obtain ⟨i, hi, rfl⟩ := exists_getP_of_mem procs p hp
    refine ⟨i, hi, ?_⟩
    by_contra hc
    simp [hc] at h
  · rintro ⟨i, hi, h⟩
    exact ⟨getP procs i, getP_mem procs i hi, by simp [h]⟩

theorem unfinishedCount_le (procs : List Process) : unfinishedCount procs ≤ procs.length := by
  unfold unfinishedCount
  induction procs with
  | nil => simp
  | cons x xs ih =>
    simp only [List.map_cons, List.sum_cons, List.length_cons]
    split <;> omega

theorem all_done_iff (procs : List Process) :
    all_done procs = true ↔ ∀ i, i < procs.length → (getP procs i).finished ≠ 0 := by
  unfold all_done
  rw [List.all_eq_true]
  constructor
  · intro h i hi
    have := h _ (getP_mem procs i hi)
    simpa using this
  · intro h p hp
    obtain ⟨i, hi, rfl⟩ := exists_getP_of_mem procs p hp
    simpa using h i hi

end Sched

namespace Sched

/-! ## FIFO -/

theorem fifo_sort_lt (procs : List Process) (k : Nat) (hk : k < procs.length) :
    (fifo_sort procs).getD k 0 < procs.length := by
  obtain ⟨hl, hp, _⟩ := fifo_sort_spec procs
  have hm : (fifo_sort procs).getD k 0 ∈ fifo_sort procs := by
    rw [List.getD_eq_getElem _ _ (by omega)]; exact List.getElem_mem _
  have := (hp.mem_iff).1 hm
  simpa using this

theorem fifo_sort_surj (procs : List Process) (i : Nat) (hi : i < procs.length) :
    ∃ k, k < procs.length ∧ (fifo_sort procs).getD k 0 = i := by
  obtain ⟨hl, hp, _⟩ := fifo_sort_spec procs
  have hm : i ∈ fifo_sort procs := (hp.mem_iff).2 (by simpa using hi)
  obtain ⟨k, hk, rfl⟩ := List.mem_iff_getElem.1 hm
  exact ⟨k, by omega, by rw [List.getD_eq_getElem _ _ hk]⟩

theorem fifo_body_inv (ps0 : List Process) (t0 : Int) (idx : List Nat) (k : Nat) (s : Core)
    (hidx : idx.getD k 0 < ps0.length)
    (hburst : ∀ i, i < ps0.length → 1 ≤ (getP ps0 i).burst_time)
    (h : ProcInv ps0 t0 s.procs s.time) (hc : Contig t0 s.timeline s.time) :
    ProcInv ps0 t0 (fifo_body idx k s).procs (fifo_body idx k s).time ∧
      Contig t0 (fifo_body idx k s).timeline (fifo_body idx k s).time ∧
      (getP (fifo_body idx k s).procs (idx.getD k 0)).finished ≠ 0 ∧
      ∀ j, (getP s.procs j).finished ≠ 0 → (getP (fifo_body idx k s).procs j).finished ≠ 0 := by
  have hil : idx.getD k 0 < s.procs.length := by rw [h.static.1]; exact hidx
  have hb : 1 ≤ (getP s.procs (idx.getD k 0)).burst_time := by
    rw [(h.static.2 _ hidx).2.2]; exact hburst _ hidx
  have hst := h.start_cases _ hidx
  have ht0 := h.t0_le
  by_cases hlt : s.time < (getP s.procs (idx.getD k 0)).arrival_time
  · simp only [fifo_body, hlt, if_true]
    refine ⟨?_, ?_, ?_, ?_⟩
    · exact h.finish _ hidx (run_to_completion _ _) _ (by omega) rfl rfl rfl rfl rfl rfl
        (start_ok _ _ _ hst (by omega))
    · have h1 := contig_push t0 s.time s.timeline (-1)
        ((getP s.procs (idx.getD k 0)).arrival_time - s.time) hc
      have h2 := contig_push t0 _ _ (getP s.procs (idx.getD k 0)).pid
        (getP s.procs (idx.getD k 0)).burst_time h1
      simpa using h2
    · rw [getP_set_eq _ _ _ hil]; simp [run_to_completion]
    · intro j hj
      rw [getP_set _ _ _ _ hil]
      split
      · simp [run_to_completion]
      · exact hj
  · simp only [fifo_body, hlt, if_false]
    refine ⟨?_, ?_, ?_, ?_⟩
    · exact h.finish _ hidx (run_to_completion _ _) _ (by omega) rfl rfl rfl rfl rfl rfl
        (start_ok _ _ _ hst (by omega))
    · exact contig_push t0 _ _ _ _ hc
    · rw [getP_set_eq _ _ _ hil]; simp [run_to_completion]
    · intro j hj
      rw [getP_set _ _ _ _ hil]
      split
      · simp [run_to_completion]
      · exact hj

/-- The initial state of every policy satisfies the run-state facts. -/
theorem ProcInv.init (ps : List Process)
    (hburst : ∀ p ∈ ps, 1 ≤ p.burst_time) (t0 : Int) :
    ProcInv (reset_processes ps) t0 (reset_processes ps) t0 := by
  obtain ⟨hl, hr⟩ := StaticEq.reset ps
  refine ⟨StaticEq.refl _, le_refl _, ?_, ?_, ?_⟩
  · intro i hi _
    rw [hl] at hi
    obtain ⟨_, _, _, h4, h5, _, _⟩ := hr i hi
    rw [h4, h5]
    exact ⟨hburst _ (getP_mem ps i hi), Or.inl rfl⟩
  · intro i hi hf
    rw [hl] at hi
    exact absurd (hr i hi).2.2.2.2.2.2 hf
  · intro hall hpos
    rw [hl] at hpos
    exact absurd (hr 0 hpos).2.2.2.2.2.2 (hall 0 (by rw [hl]; exact hpos))

theorem reset_burst (ps : List Process) (hburst : ∀ p ∈ ps, 1 ≤ p.burst_time) :
    ∀ i, i < (reset_processes ps).length → 1 ≤ (getP (reset_processes ps) i).burst_time := by
  obtain ⟨hl, hr⟩ := StaticEq.reset ps
  intro i hi
  rw [hl] at hi
  rw [(hr i hi).2.2.1]
  exact hburst _ (getP_mem ps i hi)

theorem fifo_good (ps : List Process) (hburst : ∀ p ∈ ps, 1 ≤ p.burst_time) :
    GoodRun (reset_processes ps) (first_arrival (reset_processes ps)) (schedule_fifo ps) := by
  have hb := reset_burst ps hburst
  have key := forLoop_inv
    (fun k (s : Core) =>
      ProcInv (reset_processes ps) (first_arrival (reset_processes ps)) s.procs s.time ∧
      Contig (first_arrival (reset_processes ps)) s.timeline s.time ∧
      ∀ j, j < k →
        (getP s.procs ((fifo_sort (reset_processes ps)).getD j 0)).finished ≠ 0)
    (fifo_body (fifo_sort (reset_processes ps)))
    ⟨reset_processes ps, [], first_arrival (reset_processes ps)⟩
    (reset_processes ps).length
    ⟨ProcInv.init ps hburst _, rfl, fun j hj => by omega⟩
    (by
      intro k s hk ⟨h1, h2, h3⟩
      obtain ⟨a, b, c, d⟩ := fifo_body_inv _ _ (fifo_sort (reset_processes ps)) k s
        (fifo_sort_lt _ k hk) hb h1 h2
      refine ⟨a, b, ?_⟩
      intro j hj
      by_cases hjk : j = k
      · subst hjk; exact c
      · exact d _ (h3 j (by omega)))
  obtain ⟨h1, h2, h3⟩ := key
  refine ⟨_, h1, h2, ?_⟩
  intro i hi
  obtain ⟨k, hk, rfl⟩ := fifo_sort_surj _ i hi
  exact h3 k hk

end Sched

namespace Sched

/-! ## What a good run implies -/

theorem GoodRun.max_completion {ps0 : List Process} {t0 : Int} {r : SchedResult}
    (h : GoodRun ps0 t0 r) (hpos : 0 < ps0.length) :
    ∃ time, Contig t0 r.timeline time ∧ maxCompletion r.procs = time ∧ t0 < time := by
  obtain ⟨time, hP, hC, hall⟩ := h
  refine ⟨time, hC, ?_, ?_⟩
  · have hne : r.procs.map (·.completion_time) ≠ [] := by
      intro hc
      have := congrArg List.length hc
      rw [List.length_map, hP.static.1, List.length_nil] at this
      omega
    obtain ⟨m1, m2⟩ := maxList_spec _ hne
    obtain ⟨p, hp, hpe⟩ := List.mem_map.1 m1
    obtain ⟨i, hi, rfl⟩ := exists_getP_of_mem _ p hp
    rw [hP.static.1] at hi
    have h1 := (hP.fin i hi (hall i hi)).2.2.2.1
    obtain ⟨j, hj, hje⟩ := hP.last hall hpos
    have h2 := m2 time (List.mem_map.2
      ⟨getP r.procs j, getP_mem _ _ (by rw [hP.static.1]; exact hj), hje⟩)
    unfold maxCompletion
    omega
  · obtain ⟨j, hj, hje⟩ := hP.last hall hpos
    have := (hP.fin j hj (hall j hj)).2.2.1
    omega

theorem GoodRun.total {ps0 : List Process} {t0 : Int} {r : SchedResult}
    (h : GoodRun ps0 t0 r) (hpos : 0 < ps0.length) :
    compute_total_time r.timeline = maxCompletion r.procs - t0 := by
  obtain ⟨time, hC, hm, _⟩ := h.max_completion hpos
  rw [hm]; exact contig_total _ _ _ hC

theorem GoodRun.tiling {ps0 : List Process} {t0 : Int} {r : SchedResult}
    (h : GoodRun ps0 t0 r) (hpos : 0 < ps0.length) :
    r.timeline.head?.map (·.time) = some t0 ∧
      ∀ i, i + 1 < r.timeline.length →
        (r.timeline.getD i default).time + (r.timeline.getD i default).duration =
          (r.timeline.getD (i + 1) default).time := by
  obtain ⟨time, hC, _, hlt⟩ := h.max_completion hpos
  exact ⟨contig_head _ _ _ hC (by omega), contig_adjacent _ _ _ hC⟩

theorem GoodRun.finished {ps0 : List Process} {t0 : Int} {r : SchedResult}
    (h : GoodRun ps0 t0 r) :
    ∀ p ∈ r.procs, p.remaining_time = 0 ∧ p.finished = 1 ∧ t0 ≤ p.start_time ∧
      t0 < p.completion_time := by
  obtain ⟨time, hP, _, hall⟩ := h
  intro p hp
  obtain ⟨i, hi, rfl⟩ := exists_getP_of_mem _ p hp
  rw [hP.static.1] at hi
  obtain ⟨a, b, c, _, e⟩ := hP.fin i hi (hall i hi)
  exact ⟨b, a, e, c⟩

theorem minArrival_reset (ps : List Process) :
    minArrival (reset_processes ps) = minArrival ps := by
  unfold minArrival reset_processes
  rw [List.map_map]
  rfl

theorem reset_arrival_lt (ps : List Process) (b : Int) (h : ∀ p ∈ ps, p.arrival_time < b) :
    ∀ p ∈ reset_processes ps, p.arrival_time < b := by
  intro p hp
  obtain ⟨q, hq, rfl⟩ := List.mem_map.1 hp
  exact h q hq

theorem reset_arrival_le (ps : List Process) (b : Int) (h : ∀ p ∈ ps, p.arrival_time ≤ b) :
    ∀ i, i < (reset_processes ps).length →
      (getP (reset_processes ps) i).arrival_time ≤ b := by
  intro i hi
  obtain ⟨q, hq, he⟩ := List.mem_map.1 (getP_mem _ i hi)
  have := h q hq
  show (getP (List.map reset_process ps) i).arrival_time ≤ b
  rw [← he]
  exact this

theorem reset_arrival_nonneg (ps : List Process) (h : ∀ p ∈ ps, 0 ≤ p.arrival_time) :
    ∀ p ∈ reset_processes ps, 0 ≤ p.arrival_time := by
  intro p hp
  obtain ⟨q, hq, rfl⟩ := List.mem_map.1 hp
  exact h q hq

end Sched

namespace Sched

/-! ## SJF -/

theorem sjf_better_asymm (a b : Process) : sjf_better a b → ¬ sjf_better b a := by
  unfold sjf_better; omega

theorem sjf_better_cotrans (a b c : Process) :
    sjf_better a b → sjf_better a c ∨ sjf_better c b := by
  unfold sjf_better; omega

theorem idle_contig (t0 : Int) (c : Core) (next : Int) (h : Contig t0 c.timeline c.time) :
    Contig t0 (idle_until c next).timeline (idle_until c next).time := by
  have := contig_push t0 c.time c.timeline (-1) (next - c.time) h
  simp only [idle_until]
  have e : c.time + (next - c.time) = next := by omega
  rw [e] at this
  exact this

/-- When no process is eligible although one is unfinished, the scan
`next_arr` yields a later time at which some process is eligible. -/
theorem idle_progress (procs : List Process) (time : Int)
    (hle : ∀ i, i < procs.length → (getP procs i).arrival_time ≤ INT_MAX)
    (hex : ∃ i, i < procs.length ∧ (getP procs i).finished = 0)
    (hnone : ∀ j, j < procs.length → ¬ eligible (getP procs j) time) :
    time < next_arrival procs ∧
      ∃ i, i < procs.length ∧ eligible (getP procs i) (next_arrival procs) := by
  obtain ⟨i, hi, hf, ha⟩ := next_arrival_attained procs hle hex
  have := hnone i hi
  simp only [eligible, hf, true_and, not_le] at this
  exact ⟨by omega, i, hi, hf, by omega⟩

theorem readyAt_set_finish (procs : List Process) (b : Nat) (p' : Process) (t tc : Int)
    (hb : b < procs.length) (hunf : (getP procs b).finished = 0)
    (harr : p'.arrival_time = (getP procs b).arrival_time)
    (hc : p'.completion_time = tc) (hlt : t < tc) (j : Nat) :
    ReadyAt (procs.set b p') t j ↔ ReadyAt procs t j := by
  unfold ReadyAt
  rw [List.length_set, getP_set _ _ _ _ hb]
  by_cases hbj : b = j
  · subst hbj
    simp only [if_true, harr, hc, hunf]
    constructor
    · rintro ⟨h1, h2, _⟩; exact ⟨h1, h2, fun h => absurd rfl h⟩
    · rintro ⟨h1, h2, _⟩; exact ⟨h1, h2, fun _ => hlt⟩
  · simp only [hbj, if_false]

theorem firstMinAt_congr (key : Nat → Int × Int) (r1 r2 : Nat → Prop) (b : Nat)
    (h : ∀ j, r1 j ↔ r2 j) : FirstMinAt key r1 b ↔ FirstMinAt key r2 b := by
  unfold FirstMinAt
  simp only [h]

theorem sjf_step_inv (ps0 : List Process) (t0 : Int)
    (hburst : ∀ i, i < ps0.length → 1 ≤ (getP ps0 i).burst_time)
    (hrange : ∀ i, i < ps0.length → (getP ps0 i).arrival_time ≤ INT_MAX)
    (s s' : SjfState) (hI : SjfInv ps0 t0 s) (hs : sjf_step s = some s') :
    SjfInv ps0 t0 s' ∧ sjf_measure s' < sjf_measure s := by
  obtain ⟨hP, hC, hN, hH⟩ := hI
  have hlen := hP.static.1
  unfold sjf_step at hs
  by_cases hlt : s.completed < s.core.procs.length
  · rw [if_pos hlt] at hs
    have hex : ∃ i, i < s.core.procs.length ∧ (getP s.core.procs i).finished = 0 :=
      (unfinishedCount_pos_iff _).1 (by omega)
    have hle : ∀ i, i < s.core.procs.length → (getP s.core.procs i).arrival_time ≤ INT_MAX := by
      intro i hi
      rw [hlen] at hi
      rw [(hP.static.2 i hi).2.1]; exact hrange i hi
    rcases pick_best_spec sjf_better sjf_better_asymm sjf_better_cotrans s.core.procs
      s.core.time with ⟨hpick, hnone⟩ | ⟨b, hpick, hbest⟩
    · -- idle branch
      rw [hpick] at hs
      simp only [Option.some.injEq] at hs
      subst hs
      obtain ⟨hgt, i, hi, hel⟩ := idle_progress _ _ hle hex hnone
      refine ⟨⟨?_, idle_contig _ _ _ hC, hN, ?_⟩, ?_⟩
      · exact hP.idle _ (le_of_lt hgt) (by rw [← hlen]; exact hex)
      · intro e he hpid
        simp only [idle_until, push_event, List.mem_append, List.mem_singleton] at he
        rcases he with he | rfl
        · exact hH e he hpid
        · exact absurd rfl hpid
      · have h2 : pick_best sjf_better s.core.procs (next_arrival s.core.procs) ≠ none := by
          rcases pick_best_spec sjf_better sjf_better_asymm sjf_better_cotrans s.core.procs
            (next_arrival s.core.procs) with ⟨_, hn⟩ | ⟨b, hb, _⟩
          · exact absurd hel (hn i hi)
          · rw [hb]; simp
        simp only [sjf_measure, idle_until, hpick, h2, if_true, if_false]
        omega
    · -- dispatch branch
      rw [hpick] at hs
      simp only [Option.some.injEq] at hs
      subst hs
      obtain ⟨hb, ⟨hbf, hba⟩, hmin, hfirst⟩ := hbest
      have hb0 : b < ps0.length := by rw [← hlen]; exact hb
      have hbb : 1 ≤ (getP s.core.procs b).burst_time := by
        rw [(hP.static.2 b hb0).2.2]; exact hburst b hb0
      have hP' := hP.finish b hb0 (run_to_completion (getP s.core.procs b) s.core.time)
        (s.core.time + (getP s.core.procs b).burst_time) (by omega) rfl rfl rfl rfl rfl rfl
        (start_ok _ _ _ (hP.start_cases b hb0) hP.t0_le)
      have hcnt := unfinishedCount_set s.core.procs b
        (run_to_completion (getP s.core.procs b) s.core.time) hb
      rw [if_pos hbf, if_neg (by simp [run_to_completion])] at hcnt
      have hready : ∀ (t : Int), t ≤ s.core.time → ∀ j,
          ReadyAt (s.core.procs.set b (run_to_completion (getP s.core.procs b) s.core.time)) t j ↔
            ReadyAt s.core.procs t j :=
        fun t ht j => readyAt_set_finish s.core.procs b
          (run_to_completion (getP s.core.procs b) s.core.time) t
          (s.core.time + (getP s.core.procs b).burst_time) hb hbf rfl rfl (by omega) j
      refine ⟨⟨hP', contig_push _ _ _ _ _ hC, by simp only; omega, ?_⟩, ?_⟩
      · intro e he hpid
        simp only [push_event, List.mem_append, List.mem_singleton] at he
        rcases he with he | rfl
        · obtain ⟨c, hc, h1, h2, h3, h4, h5⟩ := hH e he hpid
          have hcb : b ≠ c := by
            intro hbc; subst hbc; exact h3 hbf
          have hte : e.time ≤ s.core.time := by
            have := (hP.fin c hc h3).2.2.2.1
            have := hburst c hc
            omega
          refine ⟨c, hc, h1, h2, ?_, ?_, ?_⟩
          · rw [getP_set_ne _ _ _ _ hcb]; exact h3
          · rw [getP_set_ne _ _ _ _ hcb]; exact h4
          · exact (firstMinAt_congr _ _ _ c (hready e.time hte)).2 h5
        · refine ⟨b, hb0, (hP.static.2 b hb0).1, (hP.static.2 b hb0).2.2, ?_, ?_, ?_⟩
          · rw [getP_set_eq _ _ _ hb]; simp [run_to_completion]
          · rw [getP_set_eq _ _ _ hb]; rfl
          · refine (firstMinAt_congr _ _ _ b (hready s.core.time (le_refl _))).2 ?_
            have hel : ∀ j, ReadyAt s.core.procs s.core.time j →
                j < s.core.procs.length ∧ eligible (getP s.core.procs j) s.core.time := by
              rintro j ⟨h1, h2, h3⟩
              refine ⟨h1, ?_, h2⟩
              by_contra hf
              have := (hP.fin j (by rw [← hlen]; exact h1) hf).2.2.2.1
              have := h3 hf
              omega
            have hkey : ∀ j, j < s.core.procs.length →
                sjf_key (getP ps0 j) =
                  ((getP s.core.procs j).burst_time, (getP s.core.procs j).arrival_time) := by
              intro j hj
              rw [hlen] at hj
              simp only [sjf_key, (hP.static.2 j hj).2.1, (hP.static.2 j hj).2.2]
            refine ⟨⟨hb, hba, fun h => absurd hbf h⟩, ?_, ?_⟩
            · intro j hj
              obtain ⟨hj1, hj2⟩ := hel j hj
              have := hmin j hj1 hj2
              simp only [hkey j hj1, hkey b hb, lexLe]
              revert this; unfold sjf_better; omega
            · intro j hjb hj
              obtain ⟨hj1, hj2⟩ := hel j hj
              have := hfirst j hjb hj2
              simp only [hkey j hj1, hkey b hb, lexLt]
              revert this; unfold sjf_better; omega
      · simp only [sjf_measure]
        split <;> split <;> omega
  · rw [if_neg hlt] at hs
    exact absurd hs (by simp)

theorem sjf_init_inv (ps : List Process) (hburst : ∀ p ∈ ps, 1 ≤ p.burst_time) :
    SjfInv (reset_processes ps) (first_arrival (reset_processes ps))
      ⟨⟨reset_processes ps, [], first_arrival (reset_processes ps)⟩, 0⟩ := by
  refine ⟨ProcInv.init ps hburst _, rfl, ?_, fun e he => by simp at he⟩
  have h1 := unfinishedCount_le (reset_processes ps)
  have h2 : ∀ (l : List Process), unfinishedCount (reset_processes l) = l.length := by
    intro l
    induction l with
    | nil => rfl
    | cons x xs ih =>
      simp only [unfinishedCount, reset_processes, List.map_cons, List.sum_cons,
        List.length_cons] at ih ⊢
      simp only [reset_process, if_true]
      omega
  simp only [h2, zero_add]
  simp [reset_processes]

/-- The run of `schedule_sjf` returns and satisfies the loop invariant with
all processes finished. -/
theorem sjf_run (ps : List Process) (fuel : Nat)
    (hburst : ∀ p ∈ ps, 1 ≤ p.burst_time) (hrange : ∀ p ∈ ps, p.arrival_time ≤ INT_MAX)
    (hfuel : 2 * ps.length + 2 ≤ fuel) :
    ∃ s, whileLoop sjf_step fuel
        ⟨⟨reset_processes ps, [], first_arrival (reset_processes ps)⟩, 0⟩ = some s ∧
      SjfInv (reset_processes ps) (first_arrival (reset_processes ps)) s ∧
      ∀ i, i < (reset_processes ps).length → (getP s.core.procs i).finished ≠ 0 := by
  have hlen : (reset_processes ps).length = ps.length := by simp [reset_processes]
  obtain ⟨r, hr, hI, hn⟩ := whileLoop_terminates sjf_step
    (SjfInv (reset_processes ps) (first_arrival (reset_processes ps))) sjf_measure
    (sjf_step_inv _ _ (reset_burst ps hburst) (reset_arrival_le ps _ hrange))
    fuel _ (sjf_init_inv ps hburst)
    (by
      have := unfinishedCount_le (reset_processes ps)
      simp only [sjf_measure]
      split <;> omega)
  refine ⟨r, hr, hI, ?_⟩
  intro i hi
  have hcnt := hI.count
  have hl := hI.procs.static.1
  have : ¬ r.completed < r.core.procs.length := by
    intro hlt
    unfold sjf_step at hn
    rw [if_pos hlt] at hn
    split at hn <;> simp at hn
  have hz : ¬ 0 < unfinishedCount r.core.procs := by omega
  intro hf
  exact hz ((unfinishedCount_pos_iff _).2 ⟨i, by omega, hf⟩)

theorem sjf_good (ps : List Process) (fuel : Nat)
    (hburst : ∀ p ∈ ps, 1 ≤ p.burst_time) (hrange : ∀ p ∈ ps, p.arrival_time ≤ INT_MAX)
    (hfuel : 2 * ps.length + 2 ≤ fuel) :
    ∃ r, schedule_sjf fuel ps = some r ∧
      GoodRun (reset_processes ps) (first_arrival (reset_processes ps)) r := by
  obtain ⟨s, hs, hI, hall⟩ := sjf_run ps fuel hburst hrange hfuel
  exact ⟨⟨s.core.procs, s.core.timeline⟩, by simp [schedule_sjf, hs],
    s.core.time, hI.procs, hI.contig, hall⟩

end Sched

namespace Sched

/-! ## STCF -/

theorem stcf_better_asymm (a b : Process) : stcf_better a b → ¬ stcf_better b a := by
  unfold stcf_better; omega

theorem stcf_better_cotrans (a b c : Process) :
    stcf_better a b → stcf_better a c ∨ stcf_better c b := by
  unfold stcf_better; omega

theorem unfinishedCount_reset (l : List Process) :
    unfinishedCount (reset_processes l) = l.length := by
  induction l with
  | nil => rfl
  | cons x xs ih =>
    simp only [unfinishedCount, reset_processes, List.map_cons, List.sum_cons,
      List.length_cons] at ih ⊢
    simp only [reset_process, if_true]
    omega

theorem reset_length (ps : List Process) : (reset_processes ps).length = ps.length := by
  simp [reset_processes]

/-- The timeline after lines 150-158 of `schedule_stcf` tiles the interval up
to the start of the (possibly new) open event. -/
theorem stcf_switch_contig (t0 : Int) (s : StcfState) (best : Nat)
    (hC : Contig t0 s.core.timeline s.closed_end)
    (hcur : ∀ c, s.current_idx = some c → s.current_start ≤ s.core.time) :
    Contig t0
      (if s.current_idx ≠ some best then
        match s.current_idx with
        | some c =>
          push_event s.core.timeline s.current_start (getP s.core.procs c).pid
            (s.core.time - s.current_start)
        | none => s.core.timeline
      else s.core.timeline)
      (if s.current_idx ≠ some best then s.core.time else s.current_start) ∧
    (if s.current_idx ≠ some best then s.core.time else s.current_start) ≤ s.core.time := by
  cases hci : s.current_idx with
  | none =>
    simp only [StcfState.closed_end, hci] at hC
    simp [hC]
  | some c =>
    simp only [StcfState.closed_end, hci] at hC
    have hle := hcur c hci
    by_cases hcb : c = best
    · subst hcb; simp [hC, hle]
    · have hne : (some c : Option Nat) ≠ some best := by simpa using hcb
      simp only [hne, ne_eq, not_false_eq_true, if_true, le_refl, and_true]
      have := contig_push t0 _ _ (getP s.core.procs c).pid (s.core.time - s.current_start) hC
      have e : s.current_start + (s.core.time - s.current_start) = s.core.time := by omega
      rw [e] at this
      exact this

theorem stcf_step_inv (ps0 : List Process) (t0 : Int)
    (hrange : ∀ i, i < ps0.length → (getP ps0 i).arrival_time ≤ INT_MAX)
    (s s' : StcfState) (hI : StcfInv ps0 t0 s) (hs : stcf_step s = some s') :
    StcfInv ps0 t0 s' ∧ stcf_measure s' < stcf_measure s := by
  obtain ⟨hP, hC, hN, hcur⟩ := hI
  have hlen := hP.static.1
  unfold stcf_step at hs
  by_cases hlt : s.completed < s.core.procs.length
  · rw [if_pos hlt] at hs
    have hex : ∃ i, i < s.core.procs.length ∧ (getP s.core.procs i).finished = 0 :=
      (unfinishedCount_pos_iff _).1 (by omega)
    have hle : ∀ i, i < s.core.procs.length → (getP s.core.procs i).arrival_time ≤ INT_MAX := by
      intro i hi
      rw [hlen] at hi
      rw [(hP.static.2 i hi).2.1]; exact hrange i hi
    rcases pick_best_spec stcf_better stcf_better_asymm stcf_better_cotrans s.core.procs
      s.core.time with ⟨hpick, hnone⟩ | ⟨b, hpick, hbest⟩
    · -- idle branch: there is no open event
      rw [hpick] at hs
      simp only [Option.some.injEq] at hs
      subst hs
      have hci : s.current_idx = none := by
        cases hci : s.current_idx with
        | none => rfl
        | some c =>
          obtain ⟨h1, h2, h3, _⟩ := hcur c hci
          exact absurd ⟨h2, h3⟩ (hnone c (by rw [hlen]; exact h1))
      obtain ⟨hgt, i, hi, hel⟩ := idle_progress _ _ hle hex hnone
      refine ⟨⟨hP.idle _ (le_of_lt hgt) (by rw [← hlen]; exact hex), ?_, hN, ?_⟩, ?_⟩
      · simp only [StcfState.closed_end, hci] at hC ⊢
        exact idle_contig _ _ _ hC
      · intro c hc
        simp only [hci] at hc
        exact absurd hc (by simp)
      · have h2 : pick_best stcf_better s.core.procs (next_arrival s.core.procs) ≠ none := by
          rcases pick_best_spec stcf_better stcf_better_asymm stcf_better_cotrans s.core.procs
            (next_arrival s.core.procs) with ⟨_, hn⟩ | ⟨b, hb, _⟩
          · exact absurd hel (hn i hi)
          · rw [hb]; simp
        simp only [stcf_measure, idle_until, hpick, h2, if_true, if_false]
        omega
    · -- one tick of process `b`
      rw [hpick] at hs
      obtain ⟨hb, ⟨hbf, hba⟩, _, _⟩ := hbest
      have hb0 : b < ps0.length := by rw [← hlen]; exact hb
      have hrem := (hP.unfin b hb0 hbf).1
      obtain ⟨hsw, hsle⟩ := stcf_switch_contig t0 s b hC (fun c hc => (hcur c hc).2.2.2)
      have hwl := workLeft_set s.core.procs b (run_slice (getP s.core.procs b) s.core.time 1) hb
      have hwl2 := workLeft_set s.core.procs b
        (mark_finished (run_slice (getP s.core.procs b) s.core.time 1) (s.core.time + 1)) hb
      simp only [run_slice_remaining, mark_finished_remaining] at hwl hwl2
      have ht : ((getP s.core.procs b).remaining_time - 1).toNat + 1 =
          (getP s.core.procs b).remaining_time.toNat := by omega
      by_cases hz : (run_slice (getP s.core.procs b) s.core.time 1).remaining_time = 0
      · simp only [hz, if_true, Option.some.injEq] at hs
        subst hs
        have hcnt := unfinishedCount_set s.core.procs b
          (mark_finished (run_slice (getP s.core.procs b) s.core.time 1) (s.core.time + 1)) hb
        rw [if_pos hbf, if_neg (by simp)] at hcnt
        refine ⟨⟨hP.finish_slice b hb0 1 (le_refl _) hz, ?_, by simp only; omega, ?_⟩, ?_⟩
        · simp only [StcfState.closed_end]
          have := contig_push t0 _ _ (getP s.core.procs b).pid
            (s.core.time + 1 -
              (if s.current_idx ≠ some b then s.core.time else s.current_start)) hsw
          have e : (if s.current_idx ≠ some b then s.core.time else s.current_start) +
              (s.core.time + 1 -
                (if s.current_idx ≠ some b then s.core.time else s.current_start)) =
              s.core.time + 1 := by omega
          rw [e] at this
          exact this
        · intro c hc; exact absurd hc (by simp)
        · simp only [stcf_measure]
          split <;> split <;> omega
      · simp only [hz, if_false, Option.some.injEq] at hs
        subst hs
        have hcnt := unfinishedCount_set s.core.procs b
          (run_slice (getP s.core.procs b) s.core.time 1) hb
        rw [if_pos hbf, if_pos (by simpa using hbf)] at hcnt
        simp only [run_slice_remaining] at hz
        refine ⟨⟨hP.progress_slice b hb0 1 (by omega) hbf (by omega), ?_,
          by simp only; omega, ?_⟩, ?_⟩
        · simp only [StcfState.closed_end]; exact hsw
        · intro c hc
          simp only [Option.some.injEq] at hc
          subst hc
          refine ⟨hb0, ?_, ?_, by simp only; omega⟩
          · rw [getP_set_eq _ _ _ hb]; simpa using hbf
          · rw [getP_set_eq _ _ _ hb]; simp only [run_slice_arrival]; omega
        · simp only [stcf_measure]
          split <;> split <;> omega
  · rw [if_neg hlt] at hs
    exact absurd hs (by simp)

theorem stcf_init_inv (ps : List Process) (hburst : ∀ p ∈ ps, 1 ≤ p.burst_time) :
    StcfInv (reset_processes ps) (first_arrival (reset_processes ps))
      ⟨⟨reset_processes ps, [], first_arrival (reset_processes ps)⟩, 0, none, -1⟩ := by
  refine ⟨ProcInv.init ps hburst _, rfl, ?_, fun c hc => by simp at hc⟩
  simp only [unfinishedCount_reset, zero_add, reset_length]

end Sched

namespace Sched

/-! ## The arrival scan and the queue bookkeeping -/

theorem getD_set_bool (l : List Bool) (i j : Nat) (a : Bool) (h : i < l.length) :
    (l.set i a).getD j false = if i = j then a else l.getD j false := by
  by_cases hij : i = j
  · subst hij; simp [List.getD_eq_getElem?_getD, List.getElem?_set, h]
  · simp [List.getD_eq_getElem?_getD, List.getElem?_set, hij]

theorem enqueue_arrivals_spec (procs : List Process) (time : Int) (q : IdxQueue)
    (added : List Bool) (hlen : added.length = procs.length) :
    (enqueue_arrivals procs time q added).1 =
        { q with buf := q.buf ++ new_arrivals procs time added } ∧
      (enqueue_arrivals procs time q added).2.length = procs.length ∧
      ∀ i, (enqueue_arrivals procs time q added).2.getD i false =
        (added.getD i false || decide (i < procs.length ∧ (getP procs i).arrival_time ≤ time)) := by
  have key := forLoop_inv
    (fun k (qa : IdxQueue × List Bool) =>
      qa.1 = { q with buf := q.buf ++ (List.range k).filter (fun i =>
          decide (added.getD i false = false ∧ (getP procs i).arrival_time ≤ time)) } ∧
      qa.2.length = procs.length ∧
      ∀ i, qa.2.getD i false =
        (added.getD i false || decide (i < k ∧ (getP procs i).arrival_time ≤ time)))
    (fun i qa =>
      if qa.2.getD i false = false ∧ (getP procs i).arrival_time ≤ time then
        (qa.1.push i, qa.2.set i true)
      else qa)
    (q, added) procs.length
    ⟨by simp, hlen, by intro i; simp⟩
    (by
      intro k qa hk ⟨h1, h2, h3⟩
      beta_reduce
      have hk3 := h3 k
      simp only [lt_irrefl, false_and, decide_False, Bool.or_false] at hk3
      by_cases hc : qa.2.getD k false = false ∧ (getP procs k).arrival_time ≤ time
      · rw [if_pos hc]
        have hc' : added.getD k false = false ∧ (getP procs k).arrival_time ≤ time := by
          rw [← hk3]; exact hc
        refine ⟨?_, by simp [h2], ?_⟩
        · simp only [IdxQueue.push, h1, List.range_succ, List.filter_append, List.filter_cons,
            List.filter_nil, hc', and_self, decide_True, if_true, List.append_assoc]
        · intro i
          simp only
          rw [getD_set_bool _ _ _ _ (by omega), h3 i]
          by_cases hki : k = i
          · subst hki; simp [hc.2]
          · simp only [hki, if_false]
            have : i < k + 1 ↔ i < k := by omega
            simp only [this]
      · rw [if_neg hc]
        have hc' : ¬ (added.getD k false = false ∧ (getP procs k).arrival_time ≤ time) := by
          rw [← hk3]; exact hc
        refine ⟨?_, h2, ?_⟩
        · simp only [h1, List.range_succ, List.filter_append, List.filter_cons,
            List.filter_nil, hc', decide_False, if_false, List.append_nil]
          simp
        · intro i
          rw [h3 i]
          by_cases hki : i = k
          · rw [hki]
            by_cases ha : added.getD k false = true
            · rw [ha]; rfl
            · have ha' : added.getD k false = false := by simpa using ha
              have : ¬ (getP procs k).arrival_time ≤ time := fun h => hc' ⟨ha', h⟩
              simp [ha', this]
          · have : i < k + 1 ↔ i < k := by omega
            simp only [this])
  exact key

theorem mem_new_arrivals (procs : List Process) (time : Int) (added : List Bool) (i : Nat) :
    i ∈ new_arrivals procs time added ↔
      i < procs.length ∧ added.getD i false = false ∧ (getP procs i).arrival_time ≤ time := by
  simp [new_arrivals]

theorem new_arrivals_nodup (procs : List Process) (time : Int) (added : List Bool) :
    (new_arrivals procs time added).Nodup :=
  (List.nodup_range _).filter _

theorem QueueInv.perm {n : Nat} {procs : List Process} {time : Int} {added : List Bool}
    {L L' : List Nat} (h : QueueInv n procs time added L) (hp : List.Perm L L') :
    QueueInv n procs time added L' where
  added_len := h.added_len
  pend := fun i hi => h.pend i (hp.mem_iff.2 hi)
  nodup := hp.nodup_iff.1 h.nodup
  queued := fun i hi hf ha => hp.mem_iff.1 (h.queued i hi hf ha)
  arrived := h.arrived

/-- The arrival scan at a later clock value appends the new arrivals. -/
theorem QueueInv.enqueue {n : Nat} {procs : List Process} {time : Int} {added : List Bool}
    {L : List Nat} (h : QueueInv n procs time added L) (hn : procs.length = n)
    (time' : Int) (added' : List Bool) (hal : added'.length = n)
    (hadd : ∀ i, added'.getD i false =
      (added.getD i false || decide (i < procs.length ∧ (getP procs i).arrival_time ≤ time'))) :
    QueueInv n procs time' added' (L ++ new_arrivals procs time' added) := by
  refine ⟨hal, ?_, ?_, ?_, ?_⟩
  · intro i hi
    rcases List.mem_append.1 hi with hi | hi
    · obtain ⟨a, b, c⟩ := h.pend i hi
      exact ⟨a, b, by rw [hadd, c]; rfl⟩
    · obtain ⟨a, b, c⟩ := (mem_new_arrivals _ _ _ _).1 hi
      refine ⟨by omega, (h.arrived i (by omega) b).1, ?_⟩
      rw [hadd, b]; simp [a, c]
  · refine List.Nodup.append h.nodup (new_arrivals_nodup _ _ _) ?_
    intro i hi hi'
    have := (h.pend i hi).2.2
    have := ((mem_new_arrivals _ _ _ _).1 hi').2.1
    simp_all
  · intro i hi hf ha
    rw [hadd] at ha
    by_cases hai : added.getD i false = true
    · exact List.mem_append_left _ (h.queued i hi hf hai)
    · have hai' : added.getD i false = false := by simpa using hai
      rw [hai'] at ha
      simp only [Bool.false_or, decide_eq_true_eq] at ha
      exact List.mem_append_right _ ((mem_new_arrivals _ _ _ _).2 ⟨ha.1, hai', ha.2⟩)
  · intro i hi ha
    rw [hadd] at ha
    simp only [Bool.or_eq_false_iff, decide_eq_false_iff_not, not_and, not_le] at ha
    exact ⟨(h.arrived i hi ha.1).1, ha.2 (by omega)⟩

/-- Taking the head of the waiting list and marking it finished. -/
theorem QueueInv.pop_finish {n : Nat} {procs : List Process} {time : Int} {added : List Bool}
    {idx : Nat} {rest : List Nat} (h : QueueInv n procs time added (idx :: rest))
    (hn : procs.length = n) (p' : Process) (hf : p'.finished ≠ 0) :
    QueueInv n (procs.set idx p') time added rest := by
  have hidx := h.pend idx (List.mem_cons_self _ _)
  have hnd := List.nodup_cons.1 h.nodup
  have hil : idx < procs.length := by omega
  refine ⟨h.added_len, ?_, hnd.2, ?_, ?_⟩
  · intro i hi
    have hne : idx ≠ i := fun e => hnd.1 (e ▸ hi)
    rw [getP_set_ne _ _ _ _ hne]
    exact h.pend i (List.mem_cons_of_mem _ hi)
  · intro i hi hfi ha
    by_cases hne : idx = i
    · subst hne; rw [getP_set_eq _ _ _ hil] at hfi; exact absurd hfi hf
    · rw [getP_set_ne _ _ _ _ hne] at hfi
      rcases List.mem_cons.1 (h.queued i hi hfi ha) with e | hm
      · exact absurd e.symm hne
      · exact hm
  · intro i hi ha
    have hne : idx ≠ i := by
      intro e; subst e; rw [hidx.2.2] at ha; exact absurd ha (by simp)
    rw [getP_set_ne _ _ _ _ hne]
    exact h.arrived i hi ha

/-- Replacing an entry that stays unfinished does not disturb the bookkeeping. -/
theorem QueueInv.set_unfinished {n : Nat} {procs : List Process} {time : Int}
    {added : List Bool} {L : List Nat} (h : QueueInv n procs time added L)
    (hn : procs.length = n) (idx : Nat) (p' : Process) (hidx : idx < n)
    (hf0 : (getP procs idx).finished = 0) (hf : p'.finished = 0)
    (harr : p'.arrival_time = (getP procs idx).arrival_time) :
    QueueInv n (procs.set idx p') time added L := by
  have hil : idx < procs.length := by omega
  have hfin : ∀ i, (getP (procs.set idx p') i).finished = 0 ↔ (getP procs i).finished = 0 := by
    intro i
    rw [getP_set _ _ _ _ hil]
    split
    · next e => subst e; simp [hf, hf0]
    · rfl
  have harr' : ∀ i, (getP (procs.set idx p') i).arrival_time = (getP procs i).arrival_time := by
    intro i
    rw [getP_set _ _ _ _ hil]
    split
    · next e => subst e; exact harr
    · rfl
  refine ⟨h.added_len, ?_, h.nodup, ?_, ?_⟩
  · intro i hi
    obtain ⟨a, b, c⟩ := h.pend i hi
    exact ⟨a, (hfin i).2 b, c⟩
  · intro i hi hfi ha
    exact h.queued i hi ((hfin i).1 hfi) ha
  · intro i hi ha
    obtain ⟨a, b⟩ := h.arrived i hi ha
    exact ⟨(hfin i).2 a, by rw [harr' i]; exact b⟩

end Sched

namespace Sched

/-! ## Round robin -/

theorem pending_append (buf extra : List Nat) (head : Nat) (h : head ≤ buf.length) :
    IdxQueue.pending ⟨buf ++ extra, head⟩ = IdxQueue.pending ⟨buf, head⟩ ++ extra := by
  simp only [IdxQueue.pending]
  exact List.drop_append_of_le_length h

theorem pending_pop (buf : List Nat) (head : Nat) (h : head < buf.length) :
    IdxQueue.pending ⟨buf, head⟩ = buf.getD head 0 :: IdxQueue.pending ⟨buf, head + 1⟩ := by
  simp only [IdxQueue.pending]
  rw [List.getD_eq_getElem _ _ h]
  exact List.drop_eq_getElem_cons h

theorem slice_bounds (rem quantum : Int) (hr : 1 ≤ rem) (hq : 1 ≤ quantum) :
    1 ≤ (if rem < quantum then rem else quantum) ∧
      (if rem < quantum then rem else quantum) ≤ rem := by
  split <;> omega

theorem ite_some_ne_none {α : Type} (c : Prop) [Decidable c] (a b : α) :
    (if c then some a else some b) ≠ none := by
  split <;> simp

theorem rr_step_inv (ps0 : List Process) (t0 : Int) (quantum : Int) (hq : 1 ≤ quantum)
    (hrange : ∀ i, i < ps0.length → (getP ps0 i).arrival_time ≤ INT_MAX)
    (s s' : RrState) (hI : RrInv ps0 t0 s) (hs : rr_step quantum s = some s') :
    RrInv ps0 t0 s' ∧ rr_measure s' < rr_measure s := by
  obtain ⟨hP, hC, hH, hQ⟩ := hI
  have hlen := hP.static.1
  have hal : s.added.length = s.core.procs.length := by rw [hQ.added_len, hlen]
  unfold rr_step at hs
  by_cases hdone : all_done s.core.procs = true
  · rw [if_pos hdone] at hs; exact absurd hs (by simp)
  · rw [if_neg hdone] at hs
    have hex : ∃ i, i < s.core.procs.length ∧ (getP s.core.procs i).finished = 0 := by
      by_contra hc
      apply hdone
      rw [all_done_iff]
      intro i hi hf
      exact hc ⟨i, hi, hf⟩
    have hle : ∀ i, i < s.core.procs.length → (getP s.core.procs i).arrival_time ≤ INT_MAX := by
      intro i hi
      rw [hlen] at hi
      rw [(hP.static.2 i hi).2.1]; exact hrange i hi
    by_cases hemp : s.queue.head = s.queue.buf.length
    · -- idle branch
      rw [if_pos hemp] at hs
      simp only [Option.some.injEq] at hs
      subst hs
      have hpe : s.queue.pending = [] := by
        simp [IdxQueue.pending, hemp]
      have hnone : ∀ j, j < s.core.procs.length → ¬ eligible (getP s.core.procs j) s.core.time := by
        intro j hj ⟨hf, ha⟩
        rw [hlen] at hj
        by_cases hadd : s.added.getD j false = true
        · have := hQ.queued j hj hf hadd
          rw [hpe] at this
          exact absurd this (by simp)
        · have := (hQ.arrived j hj (by simpa using hadd)).2
          omega
      obtain ⟨hgt, i, hi, hel⟩ := idle_progress _ _ hle hex hnone
      obtain ⟨e1, e2, e3⟩ := enqueue_arrivals_spec s.core.procs (next_arrival s.core.procs)
        s.queue s.added hal
      have hQ' := hQ.enqueue hlen (next_arrival s.core.procs) _ (by rw [e2, hlen]) e3
      have hmem : i ∈ new_arrivals s.core.procs (next_arrival s.core.procs) s.added := by
        rw [mem_new_arrivals]
        refine ⟨hi, ?_, hel.2⟩
        by_contra hadd
        have := hQ.queued i (by omega) hel.1 (by simpa using hadd)
        rw [hpe] at this
        exact absurd this (by simp)
      simp only [idle_until]
      refine ⟨⟨hP.idle _ (le_of_lt hgt) (by rw [← hlen]; exact hex), idle_contig _ _ _ hC,
        ?_, ?_⟩, ?_⟩
      · rw [e1]; simp only [List.length_append]; omega
      · rw [e1]
        show QueueInv _ _ _ _ (IdxQueue.pending ⟨s.queue.buf ++ _, s.queue.head⟩)
        rw [pending_append _ _ _ hH]
        exact hQ'
      · simp only [rr_measure, idle_until, e1, hemp, if_true]
        have : (new_arrivals s.core.procs (next_arrival s.core.procs) s.added).length ≠ 0 := by
          intro h0
          rw [List.length_eq_zero] at h0
          rw [h0] at hmem
          exact absurd hmem (by simp)
        rw [if_neg (by simp only [List.length_append]; omega)]
        omega
    · -- dispatch branch
      rw [if_neg hemp] at hs
      dsimp only at hs
      have hhead : s.queue.head < s.queue.buf.length := by omega
      have hpop := pending_pop s.queue.buf s.queue.head hhead
      have hQc : QueueInv ps0.length s.core.procs s.core.time s.added
          (s.queue.buf.getD s.queue.head 0 :: IdxQueue.pending ⟨s.queue.buf, s.queue.head + 1⟩) := by
        rw [← hpop]; exact hQ
      generalize hidx : s.queue.buf.getD s.queue.head 0 = idx at hs hQc
      generalize hrest : IdxQueue.pending ⟨s.queue.buf, s.queue.head + 1⟩ = rest at hQc
      obtain ⟨hi0, hif, _⟩ := hQc.pend idx (List.mem_cons_self _ _)
      have hil : idx < s.core.procs.length := by omega
      have hrem := (hP.unfin idx hi0 hif).1
      obtain ⟨hu1, hu2⟩ := slice_bounds _ quantum hrem hq
      generalize huse : (if (getP s.core.procs idx).remaining_time < quantum then
        (getP s.core.procs idx).remaining_time else quantum) = use at hs hu1 hu2
      obtain ⟨e1, e2, e3⟩ := enqueue_arrivals_spec s.core.procs (s.core.time + use)
        ⟨s.queue.buf, s.queue.head + 1⟩ s.added hal
      have hQ' := hQc.enqueue hlen (s.core.time + use) _ (by rw [e2, hlen]) e3
      have hwl := workLeft_set s.core.procs idx (run_slice (getP s.core.procs idx) s.core.time use)
        hil
      have hwl2 := workLeft_set s.core.procs idx
        (mark_finished (run_slice (getP s.core.procs idx) s.core.time use) (s.core.time + use)) hil
      simp only [run_slice_remaining, mark_finished_remaining] at hwl hwl2
      by_cases hpos : (run_slice (getP s.core.procs idx) s.core.time use).remaining_time > 0
      · rw [if_pos hpos] at hs
        simp only [Option.some.injEq] at hs
        subst hs
        simp only [run_slice_remaining] at hpos
        refine ⟨⟨hP.progress_slice idx hi0 use (by omega) hif (by omega),
          contig_push _ _ _ _ _ hC, ?_, ?_⟩, ?_⟩
        · rw [e1]; simp only [IdxQueue.push, List.length_append]; omega
        · rw [e1]
          show QueueInv _ _ _ _ (IdxQueue.pending ⟨(s.queue.buf ++ _) ++ [idx], s.queue.head + 1⟩)
          rw [pending_append _ _ _ (by simp only [List.length_append]; omega),
            pending_append _ _ _ (by omega), hrest]
          have h1 := hQ'.set_unfinished hlen idx
            (run_slice (getP s.core.procs idx) s.core.time use) hi0 hif (by simpa using hif) rfl
          refine h1.perm ?_
          simp only [List.cons_append]
          exact (List.perm_append_singleton idx _).symm
        · simp only [rr_measure, e1, IdxQueue.push, if_neg hemp]
          split <;> omega
      · rw [if_neg hpos] at hs
        simp only [Option.some.injEq] at hs
        subst hs
        simp only [run_slice_remaining] at hpos
        have hz : (getP s.core.procs idx).remaining_time - use = 0 := by omega
        refine ⟨⟨hP.finish_slice idx hi0 use hu1 hz, contig_push _ _ _ _ _ hC, ?_, ?_⟩, ?_⟩
        · rw [e1]; simp only [List.length_append]; omega
        · rw [e1]
          show QueueInv _ _ _ _ (IdxQueue.pending ⟨s.queue.buf ++ _, s.queue.head + 1⟩)
          rw [pending_append _ _ _ (by omega), hrest]
          simp only [List.cons_append] at hQ'
          exact hQ'.pop_finish hlen _ (by simp)
        · simp only [rr_measure, e1, if_neg hemp]
          split <;> omega

theorem rr_init_inv (ps : List Process) (hburst : ∀ p ∈ ps, 1 ≤ p.burst_time) :
    RrInv (reset_processes ps) (first_arrival (reset_processes ps)) (rr_init ps) := by
  obtain ⟨hl, hr⟩ := StaticEq.reset ps
  obtain ⟨e1, e2, e3⟩ := enqueue_arrivals_spec (reset_processes ps)
    (first_arrival (reset_processes ps)) ⟨[], 0⟩
    (List.replicate (reset_processes ps).length false) (by simp)
  have hfalse : ∀ i, (List.replicate (reset_processes ps).length false).getD i false = false := by
    intro i
    simp only [List.getD_eq_getElem?_getD, List.getElem?_replicate]
    split <;> rfl
  simp only [rr_init]
  refine ⟨ProcInv.init ps hburst _, rfl, by rw [e1]; simp, ?_⟩
  rw [e1]
  simp only [IdxQueue.pending, List.nil_append, List.drop_zero]
  refine ⟨e2, ?_, new_arrivals_nodup _ _ _, ?_, ?_⟩
  · intro i hi
    obtain ⟨a, b, c⟩ := (mem_new_arrivals _ _ _ _).1 hi
    refine ⟨a, (hr i (by omega)).2.2.2.2.2.2, ?_⟩
    rw [e3, b]; simp [a, c]
  · intro i hi _ ha
    rw [e3, hfalse] at ha
    simp only [Bool.false_or, decide_eq_true_eq] at ha
    exact (mem_new_arrivals _ _ _ _).2 ⟨ha.1, hfalse i, ha.2⟩
  · intro i hi ha
    rw [e3, hfalse] at ha
    simp only [Bool.false_or, decide_eq_false_iff_not, not_and, not_le] at ha
    exact ⟨(hr i (by omega)).2.2.2.2.2.2, ha hi⟩

theorem length_le_total_burst (ps : List Process) (hburst : ∀ p ∈ ps, 1 ≤ p.burst_time) :
    ps.length ≤ total_burst ps := by
  unfold total_burst
  induction ps with
  | nil => simp
  | cons x xs ih =>
    have hx := hburst x (List.mem_cons_self _ _)
    have := ih (fun p hp => hburst p (List.mem_cons_of_mem _ hp))
    simp only [List.map_cons, List.sum_cons, List.length_cons]
    omega

theorem workLeft_reset (ps : List Process) : workLeft (reset_processes ps) = total_burst ps := by
  simp [workLeft, total_burst, reset_processes, List.map_map, Function.comp_def, reset_process]

theorem rr_good (ps : List Process) (fuel : Nat) (quantum : Int) (hq : 1 ≤ quantum)
    (hburst : ∀ p ∈ ps, 1 ≤ p.burst_time) (hrange : ∀ p ∈ ps, p.arrival_time ≤ INT_MAX)
    (hfuel : fuel_bound ps ≤ fuel) :
    ∃ s, whileLoop (rr_step quantum) fuel (rr_init ps) = some s ∧
      RrInv (reset_processes ps) (first_arrival (reset_processes ps)) s ∧
      GoodRun (reset_processes ps) (first_arrival (reset_processes ps))
        ⟨s.core.procs, s.core.timeline⟩ := by
  obtain ⟨r, hr, hI, hn⟩ := whileLoop_terminates (rr_step quantum)
    (RrInv (reset_processes ps) (first_arrival (reset_processes ps))) rr_measure
    (rr_step_inv _ _ quantum hq (reset_arrival_le ps _ hrange))
    fuel _ (rr_init_inv ps hburst)
    (by
      have h1 : workLeft (rr_init ps).core.procs = total_burst ps := workLeft_reset ps
      simp only [rr_measure, h1]
      unfold fuel_bound at hfuel
      split <;> omega)
  refine ⟨r, hr, hI, r.core.time, hI.procs, hI.contig, ?_⟩
  have hd : all_done r.core.procs = true := by
    by_contra hd
    unfold rr_step at hn
    rw [if_neg hd] at hn
    by_cases hemp : r.queue.head = r.queue.buf.length
    · rw [if_pos hemp] at hn; simp at hn
    · rw [if_neg hemp] at hn
      exact ite_some_ne_none _ _ _ hn
  intro i hi
  exact (all_done_iff _).1 hd i (by rw [hI.procs.static.1]; exact hi)

end Sched

namespace Sched

/-- The run of `schedule_stcf` returns, satisfies the loop invariant, has no
open event left and has finished every process. -/
theorem stcf_run (ps : List Process) (fuel : Nat)
    (hburst : ∀ p ∈ ps, 1 ≤ p.burst_time) (hrange : ∀ p ∈ ps, p.arrival_time ≤ INT_MAX)
    (hfuel : fuel_bound ps ≤ fuel) :
    ∃ s, whileLoop stcf_step fuel
        ⟨⟨reset_processes ps, [], first_arrival (reset_processes ps)⟩, 0, none, -1⟩ = some s ∧
      StcfInv (reset_processes ps) (first_arrival (reset_processes ps)) s ∧
      s.current_idx = none ∧
      ∀ i, i < (reset_processes ps).length → (getP s.core.procs i).finished ≠ 0 := by
  obtain ⟨r, hr, hI, hn⟩ := whileLoop_terminates stcf_step
    (StcfInv (reset_processes ps) (first_arrival (reset_processes ps))) stcf_measure
    (stcf_step_inv _ _ (reset_arrival_le ps _ hrange))
    fuel _ (stcf_init_inv ps hburst)
    (by
      have h1 := workLeft_reset ps
      simp only [stcf_measure, h1]
      unfold fuel_bound at hfuel
      split <;> omega)
  have hcnt := hI.count
  have hl := hI.procs.static.1
  have hnlt : ¬ r.completed < r.core.procs.length := by
    intro hlt
    unfold stcf_step at hn
    rw [if_pos hlt] at hn
    dsimp only at hn
    split at hn
    · simp at hn
    · exact ite_some_ne_none _ _ _ hn
  have hz : ¬ 0 < unfinishedCount r.core.procs := by omega
  have hall : ∀ i, i < (reset_processes ps).length → (getP r.core.procs i).finished ≠ 0 := by
    intro i hi hf
    exact hz ((unfinishedCount_pos_iff _).2 ⟨i, by omega, hf⟩)
  refine ⟨r, hr, hI, ?_, hall⟩
  cases hci : r.current_idx with
  | none => rfl
  | some c =>
    obtain ⟨h1, h2, _⟩ := hI.cur c hci
    exact absurd h2 (hall c h1)

theorem stcf_good (ps : List Process) (fuel : Nat)
    (hburst : ∀ p ∈ ps, 1 ≤ p.burst_time) (hrange : ∀ p ∈ ps, p.arrival_time ≤ INT_MAX)
    (hfuel : fuel_bound ps ≤ fuel) :
    ∃ r, schedule_stcf fuel ps = some r ∧
      GoodRun (reset_processes ps) (first_arrival (reset_processes ps)) r := by
  obtain ⟨s, hs, hI, hc, hall⟩ := stcf_run ps fuel hburst hrange hfuel
  refine ⟨⟨s.core.procs, s.core.timeline⟩, by simp [schedule_stcf, hs],
    s.core.time, hI.procs, ?_, hall⟩
  have := hI.contig
  simp only [StcfState.closed_end, hc] at this
  exact this

theorem sjf_good' (ps : List Process) (fuel : Nat)
    (hburst : ∀ p ∈ ps, 1 ≤ p.burst_time) (hrange : ∀ p ∈ ps, p.arrival_time ≤ INT_MAX)
    (hfuel : fuel_bound ps ≤ fuel) :
    ∃ r, schedule_sjf fuel ps = some r ∧
      GoodRun (reset_processes ps) (first_arrival (reset_processes ps)) r :=
  sjf_good ps fuel hburst hrange (by
    have := length_le_total_burst ps hburst
    unfold fuel_bound at hfuel
    omega)

theorem rr_good' (ps : List Process) (fuel : Nat) (quantum : Int) (hq : 1 ≤ quantum)
    (hburst : ∀ p ∈ ps, 1 ≤ p.burst_time) (hrange : ∀ p ∈ ps, p.arrival_time ≤ INT_MAX)
    (hfuel : fuel_bound ps ≤ fuel) :
    ∃ r, schedule_rr fuel ps quantum = some r ∧
      GoodRun (reset_processes ps) (first_arrival (reset_processes ps)) r := by
  obtain ⟨s, hs, _, hg⟩ := rr_good ps fuel quantum hq hburst hrange hfuel
  exact ⟨⟨s.core.procs, s.core.timeline⟩, by simp [schedule_rr, hs], hg⟩

end Sched

namespace Sched

/-! ## MLFQ: the level queues -/

theorem getLevel_set (levels : List IdxQueue) (i j : Nat) (q : IdxQueue)
    (h : i < levels.length) :
    getLevel (levels.set i q) j = if i = j then q else getLevel levels j := by
  by_cases hij : i = j
  · subst hij; simp [getLevel, List.getD_eq_getElem?_getD, List.getElem?_set, h]
  · simp [getLevel, List.getD_eq_getElem?_getD, List.getElem?_set, hij]

theorem getLevel_mem (levels : List IdxQueue) (i : Nat) (h : i < levels.length) :
    getLevel levels i ∈ levels := by
  simp only [getLevel, List.getD_eq_getElem _ _ h]
  exact List.getElem_mem _

theorem HeadsOk.set_level {levels : List IdxQueue} (h : HeadsOk levels) (i : Nat) (q : IdxQueue)
    (hq : q.head ≤ q.buf.length) : HeadsOk (levels.set i q) := by
  intro x hx
  rcases List.mem_or_eq_of_mem_set hx with hx | rfl
  · exact h x hx
  · exact hq

/-- Replacing one level exchanges its waiting entries for those of the new
queue. -/
theorem all_pending_set :
    ∀ (levels : List IdxQueue) (i : Nat) (q : IdxQueue), i < levels.length →
      List.Perm (all_pending (levels.set i q) ++ (getLevel levels i).pending)
        (all_pending levels ++ q.pending) := by
  intro levels
  induction levels with
  | nil => intro i q h; simp at h
  | cons x xs ih =>
    intro i q h
    cases i with
    | zero =>
      simp only [List.set_cons_zero, all_pending, List.map_cons, List.flatten_cons, getLevel,
        List.getD_cons_zero]
      -- q.pending ++ R ++ x.pending ~ x.pending ++ R ++ q.pending
      have h1 : List.Perm (q.pending ++ (xs.map IdxQueue.pending).flatten ++ x.pending)
          (x.pending ++ (q.pending ++ (xs.map IdxQueue.pending).flatten)) :=
        List.perm_append_comm
      refine h1.trans ?_
      rw [List.append_assoc]
      exact List.Perm.append_left _ List.perm_append_comm
    | succ j =>
      have := ih j q (by simpa using h)
      simp only [List.set_cons_succ, all_pending, List.map_cons, List.flatten_cons, getLevel,
        List.getD_cons_succ, List.append_assoc] at this ⊢
      exact List.Perm.append_left _ this

theorem all_pending_set_append (levels : List IdxQueue) (i : Nat) (extra : List Nat)
    (hi : i < levels.length) (hh : (getLevel levels i).head ≤ (getLevel levels i).buf.length) :
    List.Perm
      (all_pending (levels.set i
        { getLevel levels i with buf := (getLevel levels i).buf ++ extra }))
      (all_pending levels ++ extra) := by
  have h := all_pending_set levels i
    { getLevel levels i with buf := (getLevel levels i).buf ++ extra } hi
  have e : IdxQueue.pending { getLevel levels i with buf := (getLevel levels i).buf ++ extra } =
      (getLevel levels i).pending ++ extra := pending_append _ _ _ hh
  rw [e, ← List.append_assoc] at h
  have h2 : List.Perm (all_pending levels ++ (getLevel levels i).pending ++ extra)
      (all_pending levels ++ extra ++ (getLevel levels i).pending) := by
    rw [List.append_assoc, List.append_assoc]
    exact List.Perm.append_left _ List.perm_append_comm
  exact (List.perm_append_right_iff _).1 (h.trans h2)

theorem all_pending_pop (levels : List IdxQueue) (i : Nat) (hi : i < levels.length)
    (hh : (getLevel levels i).head < (getLevel levels i).buf.length) :
    List.Perm (all_pending levels)
      ((getLevel levels i).buf.getD (getLevel levels i).head 0 ::
        all_pending (levels.set i
          { getLevel levels i with head := (getLevel levels i).head + 1 })) := by
  have h := all_pending_set levels i
    { getLevel levels i with head := (getLevel levels i).head + 1 } hi
  have e := pending_pop (getLevel levels i).buf (getLevel levels i).head hh
  have e' : (getLevel levels i).pending =
      (getLevel levels i).buf.getD (getLevel levels i).head 0 ::
        IdxQueue.pending { getLevel levels i with head := (getLevel levels i).head + 1 } := e
  rw [e'] at h
  -- A' ++ (x :: r) ~ A ++ r
  have h3 : List.Perm
      (all_pending (levels.set i { getLevel levels i with head := (getLevel levels i).head + 1 })
        ++ (getLevel levels i).buf.getD (getLevel levels i).head 0 ::
          IdxQueue.pending { getLevel levels i with head := (getLevel levels i).head + 1 })
      (((getLevel levels i).buf.getD (getLevel levels i).head 0 ::
        all_pending (levels.set i
          { getLevel levels i with head := (getLevel levels i).head + 1 })) ++
          IdxQueue.pending { getLevel levels i with head := (getLevel levels i).head + 1 }) := by
    simp only [List.cons_append]
    exact List.perm_middle
  exact ((List.perm_append_right_iff _).1 (h3.symm.trans h)).symm

theorem all_pending_eq_nil (levels : List IdxQueue) :
    all_pending levels = [] ↔ ∀ i, i < levels.length → (getLevel levels i).pending = [] := by
  unfold all_pending
  rw [List.flatten_eq_nil_iff]
  constructor
  · intro h i hi
    exact h _ (List.mem_map.2 ⟨_, getLevel_mem levels i hi, rfl⟩)
  · intro h l hl
    obtain ⟨q, hq, rfl⟩ := List.mem_map.1 hl
    obtain ⟨i, hi, rfl⟩ := List.mem_iff_getElem.1 hq
    have := h i hi
    rw [getLevel, List.getD_eq_getElem _ _ hi] at this
    exact this

theorem pending_eq_nil_iff (q : IdxQueue) (h : q.head ≤ q.buf.length) :
    q.pending = [] ↔ ¬ q.head < q.buf.length := by
  simp only [IdxQueue.pending, List.drop_eq_nil_iff]
  omega

theorem mlfq_find_level_spec (numq : Nat) (levels : List IdxQueue)
    (hlen : levels.length = numq) (hh : HeadsOk levels) :
    (mlfq_find_level numq levels = none ∧ all_pending levels = []) ∨
      ∃ level, mlfq_find_level numq levels = some level ∧ level < numq ∧
        (getLevel levels level).head < (getLevel levels level).buf.length := by
  cases hf : mlfq_find_level numq levels with
  | none =>
    left
    refine ⟨rfl, ?_⟩
    rw [all_pending_eq_nil]
    intro i hi
    unfold mlfq_find_level at hf
    rw [List.find?_eq_none] at hf
    have := hf i (by simp; omega)
    rw [pending_eq_nil_iff _ (hh _ (getLevel_mem levels i hi))]
    simpa using this
  | some level =>
    right
    unfold mlfq_find_level at hf
    have h1 := List.find?_some hf
    have h2 := List.mem_of_find?_eq_some hf
    exact ⟨level, rfl, by simpa using h2, by simpa using h1⟩

/-! ## MLFQ: the boost -/

theorem mlfq_boost_spec (numq : Nat) (levels : List IdxQueue)
    (hlen : levels.length = numq) (hh : HeadsOk levels) :
    (mlfq_boost numq levels).length = numq ∧ HeadsOk (mlfq_boost numq levels) ∧
      List.Perm (all_pending (mlfq_boost numq levels)) (all_pending levels) := by
  have key := forLoop_inv
    (fun (_ : Nat) (lv : List IdxQueue) =>
      lv.length = numq ∧ HeadsOk lv ∧ List.Perm (all_pending lv) (all_pending levels))
    (fun k lv =>
      let level := k + 1
      let q0 := getLevel lv 0
      let ql := getLevel lv level
      (lv.set 0 { q0 with buf := q0.buf ++ ql.pending }).set level ⟨[], 0⟩)
    levels (numq - 1) ⟨hlen, hh, List.Perm.refl _⟩
    (by
      intro k lv hk ⟨h1, h2, h3⟩
      dsimp only
      have h0 : 0 < lv.length := by omega
      have hk1 : k + 1 < lv.length := by omega
      have hq0 := h2 _ (getLevel_mem lv 0 h0)
      refine ⟨by simp [h1], ?_, ?_⟩
      · refine (h2.set_level 0 _ ?_).set_level (k + 1) _ (by simp)
        simp only [List.length_append]; omega
      · have p1 := all_pending_set_append lv 0 (getLevel lv (k + 1)).pending h0 hq0
        have p2 := all_pending_set
          (lv.set 0 { getLevel lv 0 with
            buf := (getLevel lv 0).buf ++ (getLevel lv (k + 1)).pending })
          (k + 1) ⟨[], 0⟩ (by simp; omega)
        rw [getLevel_set _ _ _ _ h0, if_neg (by omega)] at p2
        have e : IdxQueue.pending ⟨[], 0⟩ = [] := rfl
        rw [e, List.append_nil] at p2
        exact ((List.perm_append_right_iff _).1 (p2.trans p1)).trans h3)
  exact key

end Sched

namespace Sched

/-! ## MLFQ: the main loop -/

theorem mlfq_enqueue_spec (procs : List Process) (time : Int) (levels : List IdxQueue)
    (added : List Bool) (h0 : 0 < levels.length) (hh : HeadsOk levels)
    (hal : added.length = procs.length) :
    (mlfq_enqueue_arrivals procs time levels added).1.length = levels.length ∧
      HeadsOk (mlfq_enqueue_arrivals procs time levels added).1 ∧
      List.Perm (all_pending (mlfq_enqueue_arrivals procs time levels added).1)
        (all_pending levels ++ new_arrivals procs time added) ∧
      (mlfq_enqueue_arrivals procs time levels added).2.length = procs.length ∧
      ∀ i, (mlfq_enqueue_arrivals procs time levels added).2.getD i false =
        (added.getD i false || decide (i < procs.length ∧ (getP procs i).arrival_time ≤ time)) := by
  obtain ⟨e1, e2, e3⟩ := enqueue_arrivals_spec procs time (getLevel levels 0) added hal
  have hq0 := hh _ (getLevel_mem levels 0 h0)
  simp only [mlfq_enqueue_arrivals, e1]
  refine ⟨by simp, hh.set_level 0 _ (by simp only [List.length_append]; omega), ?_, e2, e3⟩
  exact all_pending_set_append levels 0 _ h0 hq0

theorem mlfq_step_inv (cfg : MlfqConfig) (hv : cfg.Valid) (ps0 : List Process) (t0 : Int)
    (hrange : ∀ i, i < ps0.length → (getP ps0 i).arrival_time ≤ INT_MAX)
    (s s' : MlfqState) (hI : MlfqInv cfg ps0 t0 s) (hs : mlfq_step cfg s = some s') :
    MlfqInv cfg ps0 t0 s' ∧ mlfq_measure s' < mlfq_measure s := by
  obtain ⟨hP, hC, hN, hLl, hLh, hQ⟩ := hI
  obtain ⟨hv1, hv2, hv3⟩ := hv
  have hlen := hP.static.1
  have hal : s.added.length = s.core.procs.length := by rw [hQ.added_len, hlen]
  have hnq : 0 < cfg.num_queues.toNat := by omega
  unfold mlfq_step at hs
  by_cases hlt : s.completed < s.core.procs.length
  · dsimp only at hs
    rw [if_pos hlt] at hs
    have hex : ∃ i, i < s.core.procs.length ∧ (getP s.core.procs i).finished = 0 :=
      (unfinishedCount_pos_iff _).1 (by omega)
    have hle : ∀ i, i < s.core.procs.length → (getP s.core.procs i).arrival_time ≤ INT_MAX := by
      intro i hi
      rw [hlen] at hi
      rw [(hP.static.2 i hi).2.1]; exact hrange i hi
    have hb : (if cfg.boost_interval > 0 ∧ s.core.time - s.last_boost ≥ cfg.boost_interval
          then mlfq_boost cfg.num_queues.toNat s.levels else s.levels).length
          = cfg.num_queues.toNat ∧
        HeadsOk (if cfg.boost_interval > 0 ∧ s.core.time - s.last_boost ≥ cfg.boost_interval
          then mlfq_boost cfg.num_queues.toNat s.levels else s.levels) ∧
        List.Perm (all_pending
          (if cfg.boost_interval > 0 ∧ s.core.time - s.last_boost ≥ cfg.boost_interval
            then mlfq_boost cfg.num_queues.toNat s.levels else s.levels))
          (all_pending s.levels) := by
      split
      · exact mlfq_boost_spec _ _ hLl hLh
      · exact ⟨hLl, hLh, List.Perm.refl _⟩
    generalize (if cfg.boost_interval > 0 ∧ s.core.time - s.last_boost ≥ cfg.boost_interval
          then mlfq_boost cfg.num_queues.toNat s.levels else s.levels) = levels0 at hs hb
    generalize (if cfg.boost_interval > 0 ∧ s.core.time - s.last_boost ≥ cfg.boost_interval
          then s.core.time else s.last_boost) = lb at hs
    obtain ⟨hb1, hb2, hb3⟩ := hb
    have hQ0 := hQ.perm hb3.symm
    rcases mlfq_find_level_spec _ levels0 hb1 hb2 with ⟨hfl, hnil⟩ | ⟨level, hfl, hlv, hhd⟩
    · -- no ready process
      rw [hfl] at hs
      dsimp only at hs
      by_cases hmax : next_arrival s.core.procs = INT_MAX
      · rw [if_pos hmax] at hs; exact absurd hs (by simp)
      · rw [if_neg hmax] at hs
        simp only [Option.some.injEq] at hs
        subst hs
        have hnone : ∀ j, j < s.core.procs.length →
            ¬ eligible (getP s.core.procs j) s.core.time := by
          intro j hj ⟨hf, ha⟩
          rw [hlen] at hj
          by_cases hadd : s.added.getD j false = true
          · have := hQ0.queued j hj hf hadd
            rw [hnil] at this
            exact absurd this (by simp)
          · have := (hQ0.arrived j hj (by simpa using hadd)).2
            omega
        obtain ⟨hgt, i, hi, hel⟩ := idle_progress _ _ hle hex hnone
        obtain ⟨m1, m2, m3, m4, m5⟩ := mlfq_enqueue_spec s.core.procs
          (next_arrival s.core.procs) levels0 s.added (by omega) hb2 hal
        have hQ' := hQ0.enqueue hlen (next_arrival s.core.procs) _ (by rw [m4, hlen]) m5
        have hmem : i ∈ new_arrivals s.core.procs (next_arrival s.core.procs) s.added := by
          rw [mem_new_arrivals]
          refine ⟨hi, ?_, hel.2⟩
          by_contra hadd
          have := hQ0.queued i (by omega) hel.1 (by simpa using hadd)
          rw [hnil] at this
          exact absurd this (by simp)
        simp only [idle_until]
        refine ⟨⟨hP.idle _ (le_of_lt hgt) (by rw [← hlen]; exact hex), idle_contig _ _ _ hC,
          hN, by rw [m1, hb1], m2, hQ'.perm m3.symm⟩, ?_⟩
        have hne : all_pending (mlfq_enqueue_arrivals s.core.procs (next_arrival s.core.procs)
            levels0 s.added).1 ≠ [] := by
          intro h0
          have := m3.symm.mem_iff.1 (List.mem_append_right _ hmem)
          rw [h0] at this
          exact absurd this (by simp)
        have hold : all_pending s.levels = [] := by
          have := hb3.length_eq
          rw [hnil, List.length_nil] at this
          exact List.length_eq_zero.1 this.symm
        simp only [mlfq_measure, idle_until, hne, hold, if_true, if_false]
        omega
    · -- dispatch from `level`
      rw [hfl] at hs
      dsimp only at hs
      have hli : level < levels0.length := by omega
      have hpop := all_pending_pop levels0 level hli hhd
      have hQc := hQ0.perm hpop
      generalize (getLevel levels0 level).buf.getD (getLevel levels0 level).head 0 = idx
        at hs hQc
      have hL1l : (levels0.set level
          { getLevel levels0 level with head := (getLevel levels0 level).head + 1 }).length =
          cfg.num_queues.toNat := by simp [hb1]
      have hL1h : HeadsOk (levels0.set level
          { getLevel levels0 level with head := (getLevel levels0 level).head + 1 }) :=
        hb2.set_level level _ (by simp only; omega)
      generalize levels0.set level
          { getLevel levels0 level with head := (getLevel levels0 level).head + 1 } = levels1
        at hs hQc hL1l hL1h
      obtain ⟨hi0, hif, _⟩ := hQc.pend idx (List.mem_cons_self _ _)
      have hil : idx < s.core.procs.length := by omega
      have hrem := (hP.unfin idx hi0 hif).1
      have hquant : 1 ≤ cfg.quantums.getD level 0 := by
        have hlq : level < cfg.quantums.length := by omega
        rw [List.getD_eq_getElem _ _ hlq]
        exact hv3 _ (List.getElem_mem _)
      obtain ⟨hu1, hu2⟩ := slice_bounds _ _ hrem hquant
      generalize huse : (if (getP s.core.procs idx).remaining_time < cfg.quantums.getD level 0
        then (getP s.core.procs idx).remaining_time else cfg.quantums.getD level 0) = use
        at hs hu1 hu2
      obtain ⟨m1, m2, m3, m4, m5⟩ := mlfq_enqueue_spec s.core.procs (s.core.time + use)
        levels1 s.added (by omega) hL1h hal
      have hQ' := hQc.enqueue hlen (s.core.time + use) _ (by rw [m4, hlen]) m5
      have hwl := workLeft_set s.core.procs idx (run_slice (getP s.core.procs idx) s.core.time use)
        hil
      have hwl2 := workLeft_set s.core.procs idx
        (mark_finished (run_slice (getP s.core.procs idx) s.core.time use) (s.core.time + use)) hil
      simp only [run_slice_remaining, mark_finished_remaining] at hwl hwl2
      have hold : all_pending s.levels ≠ [] := by
        intro h0
        have := (hb3.symm.trans hpop).length_eq
        rw [h0] at this
        simp at this
      by_cases hz : (run_slice (getP s.core.procs idx) s.core.time use).remaining_time = 0
      · rw [if_pos hz] at hs
        simp only [Option.some.injEq] at hs
        subst hs
        simp only [run_slice_remaining] at hz
        have hcnt := unfinishedCount_set s.core.procs idx
          (mark_finished (run_slice (getP s.core.procs idx) s.core.time use) (s.core.time + use))
          hil
        rw [if_pos hif, if_neg (by simp)] at hcnt
        refine ⟨⟨hP.finish_slice idx hi0 use hu1 hz, contig_push _ _ _ _ _ hC,
          by simp only; omega, by rw [m1, hL1l], m2, ?_⟩, ?_⟩
        · simp only [List.cons_append] at hQ'
          exact (hQ'.pop_finish hlen _ (by simp)).perm m3.symm
        · simp only [mlfq_measure, hold, if_false]
          split <;> omega
      · rw [if_neg hz] at hs
        simp only [Option.some.injEq] at hs
        subst hs
        simp only [run_slice_remaining] at hz
        have hcnt := unfinishedCount_set s.core.procs idx
          (run_slice (getP s.core.procs idx) s.core.time use) hil
        rw [if_pos hif, if_pos (by simpa using hif)] at hcnt
        have hnl : (if use ≥ cfg.quantums.getD level 0 then
            (if level + 1 ≥ cfg.num_queues.toNat then cfg.num_queues.toNat - 1 else level + 1)
            else level) < cfg.num_queues.toNat := by
          split
          · split <;> omega
          · exact hlv
        generalize (if use ≥ cfg.quantums.getD level 0 then
            (if level + 1 ≥ cfg.num_queues.toNat then cfg.num_queues.toNat - 1 else level + 1)
            else level) = new_level at hnl ⊢
        have hnl' : new_level < (mlfq_enqueue_arrivals s.core.procs (s.core.time + use)
            levels1 s.added).1.length := by rw [m1, hL1l]; exact hnl
        have hqh := m2 _ (getLevel_mem _ new_level hnl')
        have hp := all_pending_set_append _ new_level [idx] hnl' hqh
        refine ⟨⟨hP.progress_slice idx hi0 use (by omega) hif (by omega),
          contig_push _ _ _ _ _ hC, by simp only; omega, by simp [m1, hL1l],
          m2.set_level new_level _ (by simp only [IdxQueue.push, List.length_append]; omega), ?_⟩, ?_⟩
        · have h1 := hQ'.set_unfinished hlen idx
            (run_slice (getP s.core.procs idx) s.core.time use) hi0 hif (by simpa using hif) rfl
          refine h1.perm ?_
          refine List.Perm.trans ?_ hp.symm
          simp only [List.cons_append]
          exact (List.perm_append_singleton idx _).symm.trans
            (List.Perm.append_right _ m3.symm)
        · simp only [mlfq_measure, hold, if_false]
          split <;> omega
  · dsimp only at hs
    rw [if_neg hlt] at hs
    exact absurd hs (by simp)

end Sched

namespace Sched

theorem getD_replicate_false (n i : Nat) : (List.replicate n false).getD i false = false := by
  simp only [List.getD_eq_getElem?_getD, List.getElem?_replicate]
  split <;> rfl

/-- The seeding scan establishes the queue bookkeeping. -/
theorem QueueInv.seeded (ps : List Process) (t0 : Int) (added' : List Bool)
    (hal : added'.length = (reset_processes ps).length)
    (hadd : ∀ i, added'.getD i false =
      ((List.replicate (reset_processes ps).length false).getD i false ||
        decide (i < (reset_processes ps).length ∧
          (getP (reset_processes ps) i).arrival_time ≤ t0))) :
    QueueInv (reset_processes ps).length (reset_processes ps) t0 added'
      (new_arrivals (reset_processes ps) t0 (List.replicate (reset_processes ps).length false)) := by
  obtain ⟨hl, hr⟩ := StaticEq.reset ps
  refine ⟨hal, ?_, new_arrivals_nodup _ _ _, ?_, ?_⟩
  · intro i hi
    obtain ⟨a, b, c⟩ := (mem_new_arrivals _ _ _ _).1 hi
    refine ⟨a, (hr i (by omega)).2.2.2.2.2.2, ?_⟩
    rw [hadd, b]; simp [a, c]
  · intro i hi _ ha
    rw [hadd, getD_replicate_false] at ha
    simp only [Bool.false_or, decide_eq_true_eq] at ha
    exact (mem_new_arrivals _ _ _ _).2 ⟨ha.1, getD_replicate_false _ i, ha.2⟩
  · intro i hi ha
    rw [hadd, getD_replicate_false] at ha
    simp only [Bool.false_or, decide_eq_false_iff_not, not_and, not_le] at ha
    exact ⟨(hr i (by omega)).2.2.2.2.2.2, ha hi⟩

theorem all_pending_replicate (k : Nat) : all_pending (List.replicate k ⟨[], 0⟩) = [] := by
  rw [all_pending_eq_nil]
  intro i hi
  have : getLevel (List.replicate k ⟨[], 0⟩) i = ⟨[], 0⟩ := by
    simp only [getLevel, List.getD_eq_getElem _ _ hi, List.getElem_replicate]
  rw [this]; rfl

theorem mlfq_init_inv (cfg : MlfqConfig) (hv : cfg.Valid) (ps : List Process)
    (hburst : ∀ p ∈ ps, 1 ≤ p.burst_time) :
    MlfqInv cfg (reset_processes ps) (first_arrival (reset_processes ps)) (mlfq_init cfg ps) := by
  have hnq : 0 < cfg.num_queues.toNat := by have := hv.1; omega
  have hh : HeadsOk (List.replicate cfg.num_queues.toNat (⟨[], 0⟩ : IdxQueue)) := by
    intro q hq
    rw [List.eq_of_mem_replicate hq]
    exact Nat.le_refl _
  obtain ⟨m1, m2, m3, m4, m5⟩ := mlfq_enqueue_spec (reset_processes ps)
    (first_arrival (reset_processes ps)) (List.replicate cfg.num_queues.toNat ⟨[], 0⟩)
    (List.replicate (reset_processes ps).length false) (by simpa using hnq) hh (by simp)
  simp only [mlfq_init]
  refine ⟨ProcInv.init ps hburst _, rfl, ?_, by rw [m1]; simp, m2, ?_⟩
  · simp only [unfinishedCount_reset, zero_add, reset_length]
  · rw [all_pending_replicate, List.nil_append] at m3
    exact (QueueInv.seeded ps _ _ m4 m5).perm m3.symm

theorem mlfq_step_none (cfg : MlfqConfig) (s : MlfqState) (h : mlfq_step cfg s = none) :
    ¬ s.completed < s.core.procs.length ∨ next_arrival s.core.procs = INT_MAX := by
  by_cases hlt : s.completed < s.core.procs.length
  · right
    unfold mlfq_step at h
    dsimp only at h
    rw [if_pos hlt] at h
    split at h
    · by_contra hmax
      rw [if_neg hmax] at h
      exact absurd h (by simp)
    · exact absurd h (ite_some_ne_none _ _ _)
  · exact Or.inl hlt

theorem mlfq_good (cfg : MlfqConfig) (hv : cfg.Valid) (ps : List Process) (fuel : Nat)
    (hburst : ∀ p ∈ ps, 1 ≤ p.burst_time) (hrange : ∀ p ∈ ps, p.arrival_time < INT_MAX)
    (hfuel : fuel_bound ps ≤ fuel) :
    ∃ s, whileLoop (mlfq_step cfg) fuel (mlfq_init cfg ps) = some s ∧
      MlfqInv cfg (reset_processes ps) (first_arrival (reset_processes ps)) s ∧
      GoodRun (reset_processes ps) (first_arrival (reset_processes ps))
        ⟨s.core.procs, s.core.timeline⟩ := by
  have hrle : ∀ p ∈ ps, p.arrival_time ≤ INT_MAX := fun p hp => le_of_lt (hrange p hp)
  obtain ⟨r, hr, hI, hn⟩ := whileLoop_terminates (mlfq_step cfg)
    (MlfqInv cfg (reset_processes ps) (first_arrival (reset_processes ps))) mlfq_measure
    (mlfq_step_inv cfg hv _ _ (reset_arrival_le ps _ hrle))
    fuel _ (mlfq_init_inv cfg hv ps hburst)
    (by
      have h1 : workLeft (mlfq_init cfg ps).core.procs = total_burst ps := workLeft_reset ps
      simp only [mlfq_measure, h1]
      unfold fuel_bound at hfuel
      split <;> omega)
  refine ⟨r, hr, hI, r.core.time, hI.procs, hI.contig, ?_⟩
  have hcnt := hI.count
  have hl := hI.procs.static.1
  have hz : ¬ 0 < unfinishedCount r.core.procs := by
    intro hpos
    rcases mlfq_step_none cfg r hn with h | h
    · omega
    · obtain ⟨i, hi, hf, ha⟩ := next_arrival_attained r.core.procs
        (fun i hi => by
          rw [hl] at hi
          rw [(hI.procs.static.2 i hi).2.1]
          exact reset_arrival_le ps _ hrle i hi)
        ((unfinishedCount_pos_iff _).1 hpos)
      rw [hl] at hi
      have h1 := (hI.procs.static.2 i hi).2.1
      obtain ⟨q, hq, he⟩ := List.mem_map.1 (getP_mem (reset_processes ps) i hi)
      have h2 := hrange q hq
      have h3 : (getP (reset_processes ps) i).arrival_time = q.arrival_time := by
        rw [← he]; rfl
      omega
  intro i hi hf
  exact hz ((unfinishedCount_pos_iff _).2 ⟨i, by omega, hf⟩)

theorem mlfq_good' (cfg : MlfqConfig) (hv : cfg.Valid) (ps : List Process) (fuel : Nat)
    (hburst : ∀ p ∈ ps, 1 ≤ p.burst_time) (hrange : ∀ p ∈ ps, p.arrival_time < INT_MAX)
    (hfuel : fuel_bound ps ≤ fuel) :
    ∃ r, schedule_mlfq fuel ps cfg = some r ∧
      GoodRun (reset_processes ps) (first_arrival (reset_processes ps)) r := by
  obtain ⟨s, hs, _, hg⟩ := mlfq_good cfg hv ps fuel hburst hrange hfuel
  exact ⟨⟨s.core.procs, s.core.timeline⟩, by simp [schedule_mlfq, hs], hg⟩

/-- Every policy, run on valid parameters and a workload with positive
bursts and arrival times below `INT_MAX`, returns a good run. -/
theorem run_policy_good (pol : Policy) (hv : pol.Valid) (ps : List Process) (fuel : Nat)
    (hburst : ∀ p ∈ ps, 1 ≤ p.burst_time) (hrange : ∀ p ∈ ps, p.arrival_time < INT_MAX)
    (hfuel : fuel_bound ps ≤ fuel) :
    ∃ r, run_policy pol fuel ps = some r ∧
      GoodRun (reset_processes ps) (first_arrival (reset_processes ps)) r := by
  have hrle : ∀ p ∈ ps, p.arrival_time ≤ INT_MAX := fun p hp => le_of_lt (hrange p hp)
  cases pol with
  | fifo => exact ⟨_, rfl, fifo_good ps hburst⟩
  | sjf => exact sjf_good' ps fuel hburst hrle hfuel
  | stcf => exact stcf_good ps fuel hburst hrle hfuel
  | rr quantum => exact rr_good' ps fuel quantum hv hburst hrle hfuel
  | mlfq cfg => exact mlfq_good' cfg hv ps fuel hburst hrange hfuel

end Sched

namespace Sched

/-! ## FIFO: the order of dispatch -/

theorem busy_events_push (tl : List TimelineEvent) (time pid d : Int) :
    busy_events (push_event tl time pid d) =
      busy_events tl ++ (if pid ≠ -1 then [(pid, d)] else []) := by
  unfold busy_events push_event
  rw [List.filter_append, List.map_append]
  by_cases h : pid = -1
  · simp [h]
  · simp [h]

theorem fifo_body_events (ps0 : List Process) (idx : List Nat) (k : Nat) (s : Core)
    (hidx : idx.getD k 0 < ps0.length)
    (hpid : ∀ i, i < ps0.length → (getP ps0 i).pid ≠ -1)
    (h : StaticEq ps0 s.procs) :
    StaticEq ps0 (fifo_body idx k s).procs ∧
      busy_events (fifo_body idx k s).timeline =
        busy_events s.timeline ++
          [((getP ps0 (idx.getD k 0)).pid, (getP ps0 (idx.getD k 0)).burst_time)] := by
  obtain ⟨e1, _, e3⟩ := h.2 _ hidx
  have hp := hpid _ hidx
  refine ⟨h.set _ _ rfl rfl rfl, ?_⟩
  unfold fifo_body
  generalize idx.getD k 0 = i at e1 e3 hp ⊢
  by_cases hlt : s.time < (getP s.procs i).arrival_time
  · simp only [hlt, if_true, busy_events_push, e1, e3]
    simp [hp]
  · simp only [hlt, if_false, busy_events_push, e1, e3]
    simp [hp]

theorem fifo_events (ps : List Process) (hpid : ∀ p ∈ ps, p.pid ≠ -1) :
    busy_events (schedule_fifo ps).timeline =
      (fifo_sort (reset_processes ps)).map
        fun i => ((getP (reset_processes ps) i).pid, (getP (reset_processes ps) i).burst_time) := by
  obtain ⟨hl, hr⟩ := StaticEq.reset ps
  have hpid0 : ∀ i, i < (reset_processes ps).length → (getP (reset_processes ps) i).pid ≠ -1 := by
    intro i hi
    rw [hl] at hi
    rw [(hr i hi).1]
    exact hpid _ (getP_mem ps i hi)
  obtain ⟨sl, _, _⟩ := fifo_sort_spec (reset_processes ps)
  have key := forLoop_inv
    (fun k (s : Core) =>
      StaticEq (reset_processes ps) s.procs ∧
      busy_events s.timeline = ((fifo_sort (reset_processes ps)).take k).map
        fun i => ((getP (reset_processes ps) i).pid, (getP (reset_processes ps) i).burst_time))
    (fifo_body (fifo_sort (reset_processes ps)))
    ⟨reset_processes ps, [], first_arrival (reset_processes ps)⟩
    (reset_processes ps).length
    ⟨StaticEq.refl _, by simp [busy_events]⟩
    (by
      intro k s hk ⟨h1, h2⟩
      obtain ⟨a, b⟩ := fifo_body_events _ (fifo_sort (reset_processes ps)) k s
        (fifo_sort_lt _ k hk) hpid0 h1
      refine ⟨a, ?_⟩
      rw [b, h2, List.take_succ, List.map_append]
      have hk' : k < (fifo_sort (reset_processes ps)).length := by omega
      simp [List.getElem?_eq_getElem hk', List.getD_eq_getElem _ _ hk'])
  have h2 := key.2
  have ht : (fifo_sort (reset_processes ps)).take (reset_processes ps).length =
      fifo_sort (reset_processes ps) := by
    rw [← sl]; exact List.take_length _
  rw [ht] at h2
  exact h2

end Sched

namespace Sched

/-! ## Round robin: what one iteration does -/

theorem rr_step_cases (quantum : Int) (s s' : RrState)
    (hal : s.added.length = s.core.procs.length)
    (hH : s.queue.head ≤ s.queue.buf.length)
    (hs : rr_step quantum s = some s') :
    RrIdle s s' ∨ ∃ idx use, RrDispatch quantum s s' idx use := by
  unfold rr_step at hs
  by_cases hdone : all_done s.core.procs = true
  · rw [if_pos hdone] at hs; exact absurd hs (by simp)
  · rw [if_neg hdone] at hs
    by_cases hemp : s.queue.head = s.queue.buf.length
    · rw [if_pos hemp] at hs
      simp only [Option.some.injEq] at hs
      subst hs
      obtain ⟨e1, _, _⟩ := enqueue_arrivals_spec s.core.procs (next_arrival s.core.procs)
        s.queue s.added hal
      left
      exact ⟨hemp, rfl, by simp only [idle_until, e1], by simp only [idle_until, e1]⟩
    · rw [if_neg hemp] at hs
      dsimp only at hs
      right
      generalize hidx : s.queue.buf.getD s.queue.head 0 = idx at hs
      generalize huse : (if (getP s.core.procs idx).remaining_time < quantum then
        (getP s.core.procs idx).remaining_time else quantum) = use at hs
      obtain ⟨e1, _, _⟩ := enqueue_arrivals_spec s.core.procs (s.core.time + use)
        ⟨s.queue.buf, s.queue.head + 1⟩ s.added hal
      refine ⟨idx, use, ?_⟩
      by_cases hpos : (run_slice (getP s.core.procs idx) s.core.time use).remaining_time > 0
      · rw [if_pos hpos] at hs
        simp only [Option.some.injEq] at hs
        subst hs
        simp only [run_slice_remaining] at hpos
        have hpos' : 0 < (getP s.core.procs idx).remaining_time - use := hpos
        exact ⟨by omega, hidx, huse.symm, rfl, rfl, by simp only [e1, IdxQueue.push],
          by simp only [e1, IdxQueue.push, if_pos hpos'], by simp only [if_pos hpos']⟩
      · rw [if_neg hpos] at hs
        simp only [Option.some.injEq] at hs
        subst hs
        simp only [run_slice_remaining] at hpos
        have hpos' : ¬ 0 < (getP s.core.procs idx).remaining_time - use := hpos
        exact ⟨by omega, hidx, huse.symm, rfl, rfl, by simp only [e1],
          by simp only [e1, if_neg hpos', List.append_nil], by simp only [if_neg hpos']⟩

end Sched

namespace Sched

/-! ## Round robin: events per process and order of dispatch -/

theorem events_of_push (ps : List Process) (tl : List TimelineEvent) (time pid d : Int)
    (i : Nat) :
    events_of ps (push_event tl time pid d) i =
      events_of ps tl i ++ (if pid = (getP ps i).pid then [⟨time, pid, d⟩] else []) := by
  unfold events_of push_event
  rw [List.filter_append]
  by_cases h : pid = (getP ps i).pid
  · simp [h]
  · simp [h]

theorem ceil_div_last (q len rem : Int) (h1 : 1 ≤ rem) (h2 : rem ≤ q) :
    ceil_div (q * len + rem) q = len + 1 := by
  unfold ceil_div
  have hq : q ≠ 0 := by omega
  have e : q * len + rem + q - 1 = (rem - 1) + q * (len + 1) := by ring
  rw [e, Int.add_mul_ediv_left _ _ hq, Int.ediv_eq_zero_of_lt (by omega) (by omega)]
  omega

theorem ceil_div_dvd (b q : Int) (hq : 1 ≤ q) (h : q ∣ b) : ceil_div b q = b / q := by
  obtain ⟨k, rfl⟩ := h
  unfold ceil_div
  have hq0 : q ≠ 0 := by omega
  have e : q * k + q - 1 = (q - 1) + q * k := by ring
  rw [e, Int.add_mul_ediv_left _ _ hq0, Int.ediv_eq_zero_of_lt (by omega) (by omega),
    Int.mul_ediv_cancel_left _ hq0]
  omega

theorem rr_dispatch_facts (ps0 : List Process) (t0 quantum : Int) (hq : 1 ≤ quantum)
    (s s' : RrState) (idx : Nat) (use : Int) (hI : RrInv ps0 t0 s)
    (hd : RrDispatch quantum s s' idx use) :
    idx < ps0.length ∧ (getP s.core.procs idx).finished = 0 ∧
      1 ≤ use ∧ use ≤ (getP s.core.procs idx).remaining_time ∧
      (0 < (getP s.core.procs idx).remaining_time - use → use = quantum) ∧
      (¬ 0 < (getP s.core.procs idx).remaining_time - use →
        use = (getP s.core.procs idx).remaining_time ∧ use ≤ quantum) := by
  have hpop := pending_pop s.queue.buf s.queue.head hd.head_lt
  rw [hd.idx_eq] at hpop
  have hm : idx ∈ s.queue.pending := by
    show idx ∈ IdxQueue.pending ⟨s.queue.buf, s.queue.head⟩
    rw [hpop]; exact List.mem_cons_self _ _
  obtain ⟨h1, h2, _⟩ := hI.queue.pend idx hm
  have hrem := (hI.procs.unfin idx h1 h2).1
  have hu := hd.use_eq
  refine ⟨h1, h2, ?_, ?_, ?_, ?_⟩
  · rw [hu]; split <;> omega
  · rw [hu]; split <;> omega
  · intro hpos
    rw [hu] at hpos ⊢
    by_cases hlt : (getP s.core.procs idx).remaining_time < quantum
    · rw [if_pos hlt] at hpos; omega
    · rw [if_neg hlt]
  · intro hpos
    rw [hu] at hpos ⊢
    by_cases hlt : (getP s.core.procs idx).remaining_time < quantum
    · rw [if_pos hlt]; exact ⟨rfl, by omega⟩
    · rw [if_neg hlt] at hpos; omega

theorem rr_hist_step (ps0 : List Process) (t0 quantum : Int) (hq : 1 ≤ quantum)
    (hinj : ∀ i j, i < ps0.length → j < ps0.length →
      (getP ps0 i).pid = (getP ps0 j).pid → i = j)
    (hpid : ∀ i, i < ps0.length → (getP ps0 i).pid ≠ -1)
    (s s' : RrState) (hI : RrInv ps0 t0 s) (hH : RrHist quantum ps0 s)
    (hs : rr_step quantum s = some s') : RrHist quantum ps0 s' := by
  have hlen := hI.procs.static.1
  have hal : s.added.length = s.core.procs.length := by rw [hI.queue.added_len, hlen]
  rcases rr_step_cases quantum s s' hal hI.head_le hs with hid | ⟨idx, use, hd⟩
  · -- idle: no event of any process is added
    intro i hi
    have hev : events_of ps0 s'.core.timeline i = events_of ps0 s.core.timeline i := by
      rw [hid.core]
      simp only [idle_until, events_of_push]
      rw [if_neg (fun h => hpid i hi h.symm), List.append_nil]
    have hpr : s'.core.procs = s.core.procs := by rw [hid.core]; rfl
    rw [hev, hpr]
    exact hH i hi
  · obtain ⟨hi0, hif, hu1, hu2, hfull, hlast⟩ := rr_dispatch_facts ps0 t0 quantum hq s s' idx use
      hI hd
    have hil : idx < s.core.procs.length := by omega
    have hpidx : (getP s.core.procs idx).pid = (getP ps0 idx).pid := (hI.procs.static.2 idx hi0).1
    intro i hi
    by_cases hii : idx = i
    · subst hii
      have hev : events_of ps0 s'.core.timeline idx =
          events_of ps0 s.core.timeline idx ++ [⟨s.core.time, (getP ps0 idx).pid, use⟩] := by
        rw [hd.timeline, events_of_push, hpidx, if_pos rfl]
      obtain ⟨hA, hB⟩ := (hH idx hi).1 hif
      rw [hev, hd.procs, getP_set_eq _ _ _ hil]
      by_cases hpos : 0 < (getP s.core.procs idx).remaining_time - use
      · rw [if_pos hpos]
        have huq := hfull hpos
        refine ⟨fun _ => ⟨?_, ?_⟩, fun hf => absurd (by simpa using hif) hf⟩
        · intro e he
          rcases List.mem_append.1 he with he | he
          · exact hA e he
          · rw [List.mem_singleton.1 he]; exact huq
        · simp only [run_slice_remaining, List.length_append, List.length_singleton]
          push_cast
          rw [mul_add, mul_one]
          omega
      · rw [if_neg hpos]
        obtain ⟨hur, huq⟩ := hlast hpos
        refine ⟨fun hf => absurd hf (by simp), fun _ => ⟨?_, ?_⟩⟩
        · simp only [List.length_append, List.length_singleton]
          push_cast
          have hb : (getP ps0 idx).burst_time =
              quantum * ((events_of ps0 s.core.timeline idx).length : Int) +
                (getP s.core.procs idx).remaining_time := by omega
          rw [hb, ceil_div_last _ _ _ (by omega) (by omega)]
        · rw [List.dropLast_concat]; exact hA
    · have hne : (getP s.core.procs idx).pid ≠ (getP ps0 i).pid := by
        rw [hpidx]; intro h; exact hii (hinj idx i hi0 hi h)
      have hev : events_of ps0 s'.core.timeline i = events_of ps0 s.core.timeline i := by
        rw [hd.timeline, events_of_push, if_neg hne, List.append_nil]
      rw [hev, hd.procs, getP_set_ne _ _ _ _ hii]
      exact hH i hi

theorem rr_order_step (ps0 : List Process) (t0 quantum : Int)
    (hpid : ∀ i, i < ps0.length → (getP ps0 i).pid ≠ -1)
    (s s' : RrState) (hI : RrInv ps0 t0 s) (hO : RrOrder ps0 s)
    (hs : rr_step quantum s = some s') : RrOrder ps0 s' := by
  have hlen := hI.procs.static.1
  have hal : s.added.length = s.core.procs.length := by rw [hI.queue.added_len, hlen]
  unfold RrOrder at hO ⊢
  rcases rr_step_cases quantum s s' hal hI.head_le hs with hid | ⟨idx, use, hd⟩
  · rw [hid.core, hid.buf, hid.head]
    simp only [idle_until, busy_events_push]
    rw [if_neg (by simp), List.append_nil, List.take_append_of_le_length hI.head_le]
    exact hO
  · have hpop := pending_pop s.queue.buf s.queue.head hd.head_lt
    rw [hd.idx_eq] at hpop
    have hm : idx ∈ s.queue.pending := by
      show idx ∈ IdxQueue.pending ⟨s.queue.buf, s.queue.head⟩
      rw [hpop]; exact List.mem_cons_self _ _
    obtain ⟨hi0, _, _⟩ := hI.queue.pend idx hm
    have hpidx : (getP s.core.procs idx).pid = (getP ps0 idx).pid := (hI.procs.static.2 idx hi0).1
    rw [hd.timeline, hd.buf, hd.head, busy_events_push, hpidx, if_pos (hpid idx hi0),
      List.append_assoc, List.take_append_of_le_length (by have := hd.head_lt; omega),
      List.take_succ, List.map_append, List.map_append, hO]
    have hh := hd.head_lt
    simp [List.getElem?_eq_getElem hh, ← hd.idx_eq, List.getD_eq_getElem _ _ hh]

end Sched

namespace Sched

/-! ## Round robin: complete runs -/

theorem rr_init_hist (quantum : Int) (ps : List Process) :
    RrHist quantum (reset_processes ps) (rr_init ps) ∧ RrOrder (reset_processes ps) (rr_init ps) := by
  obtain ⟨hl, hr⟩ := StaticEq.reset ps
  obtain ⟨e1, _, _⟩ := enqueue_arrivals_spec (reset_processes ps)
    (first_arrival (reset_processes ps)) ⟨[], 0⟩
    (List.replicate (reset_processes ps).length false) (by simp)
  constructor
  · intro i hi
    simp only [rr_init, events_of, List.filter_nil, List.not_mem_nil, false_implies,
      implies_true, List.length_nil, true_and, List.dropLast_nil, and_true]
    rw [hl] at hi
    obtain ⟨_, _, h3, h4, _, _, h7⟩ := hr i hi
    refine ⟨fun _ => by rw [h3, h4]; simp, fun hf => absurd h7 hf⟩
  · simp only [RrOrder, rr_init, e1, busy_events]
    simp

theorem pid_injective (ps : List Process) (hnodup : (ps.map (·.pid)).Nodup) :
    ∀ i j, i < ps.length → j < ps.length → (getP ps i).pid = (getP ps j).pid → i = j := by
  intro i j hi hj h
  have hi' : i < (ps.map (·.pid)).length := by simpa using hi
  have hj' : j < (ps.map (·.pid)).length := by simpa using hj
  have e : (ps.map (·.pid))[i] = (ps.map (·.pid))[j] := by
    simp only [List.getElem_map]
    simp only [getP, List.getD_eq_getElem _ _ hi, List.getD_eq_getElem _ _ hj] at h
    exact h
  exact (hnodup.getElem_inj_iff).1 e

/-- A complete run of `schedule_rr` with the facts its timeline records. -/
theorem rr_run_hist (ps : List Process) (fuel : Nat) (quantum : Int) (hq : 1 ≤ quantum)
    (hburst : ∀ p ∈ ps, 1 ≤ p.burst_time) (hrange : ∀ p ∈ ps, p.arrival_time ≤ INT_MAX)
    (hpid : ∀ p ∈ ps, p.pid ≠ -1) (hfuel : fuel_bound ps ≤ fuel) :
    ∃ s, whileLoop (rr_step quantum) fuel (rr_init ps) = some s ∧
      schedule_rr fuel ps quantum = some ⟨s.core.procs, s.core.timeline⟩ ∧
      RrInv (reset_processes ps) (first_arrival (reset_processes ps)) s ∧
      (∀ i, i < ps.length → (getP s.core.procs i).finished ≠ 0) ∧
      RrOrder (reset_processes ps) s ∧
      ((ps.map (·.pid)).Nodup → RrHist quantum (reset_processes ps) s) := by
  obtain ⟨hl, hr⟩ := StaticEq.reset ps
  obtain ⟨s, hs, hI, hg⟩ := rr_good ps fuel quantum hq hburst hrange hfuel
  obtain ⟨_, _, _, hall⟩ := hg
  have hpid0 : ∀ i, i < (reset_processes ps).length → (getP (reset_processes ps) i).pid ≠ -1 := by
    intro i hi
    rw [hl] at hi
    rw [(hr i hi).1]
    exact hpid _ (getP_mem ps i hi)
  have hrle := reset_arrival_le ps _ hrange
  refine ⟨s, hs, by simp [schedule_rr, hs], hI, fun i hi => hall i (by rw [hl]; exact hi), ?_, ?_⟩
  · have := whileLoop_inv (rr_step quantum)
      (fun s => RrInv (reset_processes ps) (first_arrival (reset_processes ps)) s ∧
        RrOrder (reset_processes ps) s)
      (fun a b ⟨h1, h2⟩ hab =>
        ⟨(rr_step_inv _ _ quantum hq hrle a b h1 hab).1,
          rr_order_step _ _ quantum hpid0 a b h1 h2 hab⟩)
      fuel _ s ⟨rr_init_inv ps hburst, (rr_init_hist quantum ps).2⟩ hs
    exact this.2
  · intro hnodup
    have hinj : ∀ i j, i < (reset_processes ps).length → j < (reset_processes ps).length →
        (getP (reset_processes ps) i).pid = (getP (reset_processes ps) j).pid → i = j := by
      intro i j hi hj h
      rw [hl] at hi hj
      rw [(hr i hi).1, (hr j hj).1] at h
      exact pid_injective ps hnodup i j hi hj h
    have := whileLoop_inv (rr_step quantum)
      (fun s => RrInv (reset_processes ps) (first_arrival (reset_processes ps)) s ∧
        RrHist quantum (reset_processes ps) s)
      (fun a b ⟨h1, h2⟩ hab =>
        ⟨(rr_step_inv _ _ quantum hq hrle a b h1 hab).1,
          rr_hist_step _ _ quantum hq hinj hpid0 a b h1 h2 hab⟩)
      fuel _ s ⟨rr_init_inv ps hburst, (rr_init_hist quantum ps).1⟩ hs
    exact this.2

theorem events_of_reset (ps : List Process) (tl : List TimelineEvent) (i : Nat)
    (hi : i < ps.length) : events_of (reset_processes ps) tl i = events_of ps tl i := by
  unfold events_of
  rw [((StaticEq.reset ps).2 i hi).1]

end Sched

namespace Sched

/-! ## STCF: the timeline one time unit at a time -/

theorem unit_slots_append (a b : List TimelineEvent) :
    unit_slots (a ++ b) = unit_slots a ++ unit_slots b := by
  simp [unit_slots, List.flatMap_append]

theorem unit_slots_single (e : TimelineEvent) : unit_slots [e] = event_slots e := by
  simp [unit_slots]

theorem event_slots_one (t pid : Int) : event_slots ⟨t, pid, 1⟩ = [(t, pid)] := by
  simp [event_slots, List.range_succ]

theorem event_slots_succ (t pid d : Int) (hd : 0 ≤ d) :
    event_slots ⟨t, pid, d + 1⟩ = event_slots ⟨t, pid, d⟩ ++ [(t + d, pid)] := by
  have e : (d + 1).toNat = d.toNat + 1 := by omega
  simp only [event_slots, e, List.range_succ, List.map_append, List.map_cons, List.map_nil]
  rw [Int.toNat_of_nonneg hd]

theorem stcf_step_cases (ps0 : List Process) (t0 : Int) (s s' : StcfState)
    (hI : StcfInv ps0 t0 s) (hs : stcf_step s = some s') :
    (s.current_idx = none ∧ s'.current_idx = none ∧
      s'.core = idle_until s.core (next_arrival s.core.procs)) ∨
    ∃ b, IsFirstBest stcf_better s.core.procs s.core.time b ∧
      s'.core.time = s.core.time + 1 ∧
      (∀ j, (getP s'.core.procs j).remaining_time =
        if j = b then (getP s.core.procs b).remaining_time - 1
        else (getP s.core.procs j).remaining_time) ∧
      s'.core.timeline ++ stcf_open ps0 s' =
        if s.current_idx = some b then
          s.core.timeline ++
            [⟨s.current_start, (getP ps0 b).pid, s.core.time - s.current_start + 1⟩]
        else (s.core.timeline ++ stcf_open ps0 s) ++ [⟨s.core.time, (getP ps0 b).pid, 1⟩] := by
  obtain ⟨hP, hC, hN, hcur⟩ := hI
  have hlen := hP.static.1
  unfold stcf_step at hs
  by_cases hlt : s.completed < s.core.procs.length
  · rw [if_pos hlt] at hs
    rcases pick_best_spec stcf_better stcf_better_asymm stcf_better_cotrans s.core.procs
      s.core.time with ⟨hpick, hnone⟩ | ⟨b, hpick, hbest⟩
    · rw [hpick] at hs
      simp only [Option.some.injEq] at hs
      subst hs
      left
      have hci : s.current_idx = none := by
        cases hci : s.current_idx with
        | none => rfl
        | some c =>
          obtain ⟨h1, h2, h3, _⟩ := hcur c hci
          exact absurd ⟨h2, h3⟩ (hnone c (by rw [hlen]; exact h1))
      exact ⟨hci, hci, rfl⟩
    · rw [hpick] at hs
      right
      have hb := hbest.1
      have hb0 : b < ps0.length := by rw [← hlen]; exact hb
      have hpid : (getP s.core.procs b).pid = (getP ps0 b).pid := (hP.static.2 b hb0).1
      refine ⟨b, hbest, ?_⟩
      dsimp only at hs
      by_cases hz : (run_slice (getP s.core.procs b) s.core.time 1).remaining_time = 0
      · rw [if_pos hz] at hs
        simp only [Option.some.injEq] at hs
        subst hs
        refine ⟨rfl, ?_, ?_⟩
        · intro j
          simp only
          rw [getP_set _ _ _ _ hb]
          by_cases hj : j = b
          · subst hj; simp
          · rw [if_neg (fun h => hj h.symm), if_neg hj]
        · simp only [stcf_open, List.append_nil, hpid]
          cases hci : s.current_idx with
          | none => simp [push_event]
          | some c =>
            by_cases hcb : c = b
            · subst hcb
              simp [push_event]
              omega
            · have hne : (some c : Option Nat) ≠ some b := by simpa using hcb
              have hpc : (getP s.core.procs c).pid = (getP ps0 c).pid :=
                (hP.static.2 c (hcur c hci).1).1
              simp [push_event, hne, hcb, hpc]
      · rw [if_neg hz] at hs
        simp only [Option.some.injEq] at hs
        subst hs
        refine ⟨rfl, ?_, ?_⟩
        · intro j
          simp only
          rw [getP_set _ _ _ _ hb]
          by_cases hj : j = b
          · subst hj; simp
          · rw [if_neg (fun h => hj h.symm), if_neg hj]
        · simp only [stcf_open]
          cases hci : s.current_idx with
          | none => simp [push_event]
          | some c =>
            by_cases hcb : c = b
            · subst hcb
              simp [push_event]
              omega
            · have hne : (some c : Option Nat) ≠ some b := by simpa using hcb
              have hpc : (getP s.core.procs c).pid = (getP ps0 c).pid :=
                (hP.static.2 c (hcur c hci).1).1
              simp [push_event, hne, hcb, hpc]
  · rw [if_neg hlt] at hs
    exact absurd hs (by simp)

end Sched

namespace Sched

theorem stcf_remaining_append_idle (ps : List Process) (slots : List (Int × Option Nat))
    (extra : List (Int × Option Nat)) (hex : ∀ sl ∈ extra, sl.2 = none) (j : Nat) :
    stcf_remaining ps (slots ++ extra) j = stcf_remaining ps slots j := by
  unfold stcf_remaining
  rw [List.filter_append]
  have : extra.filter (fun sl => decide (sl.2 = some j)) = [] := by
    rw [List.filter_eq_nil_iff]
    intro sl hsl
    rw [hex sl hsl]
    simp
  rw [this, List.append_nil]

theorem stcf_remaining_append_tick (ps : List Process) (slots : List (Int × Option Nat))
    (t : Int) (b j : Nat) :
    stcf_remaining ps (slots ++ [(t, some b)]) j =
      if j = b then stcf_remaining ps slots j - 1 else stcf_remaining ps slots j := by
  unfold stcf_remaining
  rw [List.filter_append]
  by_cases hj : j = b
  · subst hj
    simp only [List.filter_cons, List.filter_nil, decide_True, if_true, List.length_append,
      List.length_singleton]
    push_cast
    omega
  · have : ¬ (some b = some j) := by
      intro h; exact hj (Option.some.inj h).symm
    simp [hj, this]

theorem stcfSlots_append (ps : List Process) (slots extra : List (Int × Option Nat))
    (h : StcfSlots ps slots)
    (hex : ∀ k t b, extra[k]? = some (t, some b) →
      FirstMinAt
        (fun j => (stcf_remaining ps ((slots ++ extra).take (slots.length + k)) j,
          (getP ps j).arrival_time))
        (fun j => j < ps.length ∧ (getP ps j).arrival_time ≤ t ∧
          0 < stcf_remaining ps ((slots ++ extra).take (slots.length + k)) j) b) :
    StcfSlots ps (slots ++ extra) := by
  intro k t b hk
  by_cases hlt : k < slots.length
  · rw [List.getElem?_append_left hlt] at hk
    rw [List.take_append_of_le_length (le_of_lt hlt)]
    exact h k t b hk
  · rw [List.getElem?_append_right (by omega)] at hk
    have := hex (k - slots.length) t b hk
    have e : slots.length + (k - slots.length) = k := by omega
    rw [e] at this
    exact this

theorem stcf_hist_step (ps0 : List Process) (t0 : Int) (s s' : StcfState)
    (hI : StcfInv ps0 t0 s) (hH : StcfHist ps0 s) (hs : stcf_step s = some s') :
    StcfHist ps0 s' := by
  obtain ⟨slots, h1, h2, h3⟩ := hH
  have hlen := hI.procs.static.1
  rcases stcf_step_cases ps0 t0 s s' hI hs with ⟨hci, hci', hcore⟩ | ⟨b, hbest, htime, hrem, hview⟩
  · -- idle
    refine ⟨slots ++ (List.range (next_arrival s.core.procs - s.core.time).toNat).map
      (fun (u : Nat) => (s.core.time + (u : Int), (none : Option Nat))), ?_, ?_, ?_⟩
    · simp only [stcf_open, hci, hci', List.append_nil] at h1 ⊢
      rw [hcore]
      simp only [idle_until, push_event]
      rw [unit_slots_append, h1, unit_slots_single, List.map_append, List.map_map]
      rfl
    · apply stcfSlots_append _ _ _ h2
      intro k t b hk
      exfalso
      rw [List.getElem?_map] at hk
      cases hr : (List.range (next_arrival s.core.procs - s.core.time).toNat)[k]? with
      | none => rw [hr] at hk; simp at hk
      | some u => rw [hr] at hk; simp at hk
    · intro j hj
      rw [hcore, stcf_remaining_append_idle _ _ _ (by
        intro sl hsl
        obtain ⟨u, _, rfl⟩ := List.mem_map.1 hsl
        rfl)]
      exact h3 j hj
  · -- one tick of process `b`
    obtain ⟨hb, hel, hmin, hfirst⟩ := hbest
    have hb0 : b < ps0.length := by rw [← hlen]; exact hb
    refine ⟨slots ++ [(s.core.time, some b)], ?_, ?_, ?_⟩
    · rw [hview, List.map_append]
      by_cases hcb : s.current_idx = some b
      · rw [if_pos hcb]
        simp only [stcf_open, hcb] at h1
        have hd : 0 ≤ s.core.time - s.current_start := by
          have := (hI.cur b hcb).2.2.2; omega
        rw [unit_slots_append, unit_slots_single] at h1 ⊢
        rw [event_slots_succ _ _ _ hd, ← List.append_assoc, h1]
        simp only [List.map_cons, List.map_nil, slot_label]
        have e : s.current_start + (s.core.time - s.current_start) = s.core.time := by omega
        rw [e]
      · rw [if_neg hcb, unit_slots_append, h1, unit_slots_single, event_slots_one]
        simp only [List.map_cons, List.map_nil, slot_label]
    · apply stcfSlots_append _ _ _ h2
      intro k t c hk
      cases k with
      | succ k' => simp at hk
      | zero =>
        simp only [List.getElem?_cons_zero, Option.some.injEq, Prod.mk.injEq] at hk
        obtain ⟨rfl, hbc⟩ := hk
        subst hbc
        rw [Nat.add_zero, List.take_left]
        have hready : ∀ j, (j < ps0.length ∧ (getP ps0 j).arrival_time ≤ s.core.time ∧
            0 < stcf_remaining ps0 slots j) →
            j < s.core.procs.length ∧ eligible (getP s.core.procs j) s.core.time := by
          rintro j ⟨a1, a2, a3⟩
          rw [← h3 j a1] at a3
          refine ⟨by omega, ?_, by rw [(hI.procs.static.2 j a1).2.1]; exact a2⟩
          by_contra hf
          have := (hI.procs.fin j a1 hf).2.1
          omega
        refine ⟨⟨hb0, ?_, ?_⟩, ?_, ?_⟩
        · rw [← (hI.procs.static.2 b hb0).2.1]; exact hel.2
        · rw [← h3 b hb0]
          have := (hI.procs.unfin b hb0 hel.1).1
          omega
        · intro j hj
          obtain ⟨j1, j2⟩ := hready j hj
          have := hmin j j1 j2
          simp only [lexLe, ← h3 j hj.1, ← h3 b hb0, ← (hI.procs.static.2 j hj.1).2.1,
            ← (hI.procs.static.2 b hb0).2.1]
          revert this; unfold stcf_better; omega
        · intro j hjb hj
          obtain ⟨_, j2⟩ := hready j hj
          have := hfirst j hjb j2
          simp only [lexLt, ← h3 j hj.1, ← h3 b hb0, ← (hI.procs.static.2 j hj.1).2.1,
            ← (hI.procs.static.2 b hb0).2.1]
          revert this; unfold stcf_better; omega
    · intro j hj
      rw [hrem j, stcf_remaining_append_tick]
      by_cases hjb : j = b
      · subst hjb; simp only [if_true]; rw [h3 j hj]
      · simp only [hjb, if_false]; exact h3 j hj

theorem stcf_init_hist (ps : List Process) :
    StcfHist (reset_processes ps)
      ⟨⟨reset_processes ps, [], first_arrival (reset_processes ps)⟩, 0, none, -1⟩ := by
  refine ⟨[], by simp [stcf_open, unit_slots], ?_, ?_⟩
  · intro k t b hk; simp at hk
  · intro j hj
    rw [reset_length] at hj
    simp only [stcf_remaining, List.filter_nil, List.length_nil, Nat.cast_zero, sub_zero]
    obtain ⟨_, _, h3, h4, _⟩ := (StaticEq.reset ps).2 j hj
    rw [h3, h4]

end Sched

namespace Sched

/-! ## States a loop passes through -/

theorem iterate_inv {σ : Type} (step : σ → Option σ) (Inv : σ → Prop)
    (hstep : ∀ s s', Inv s → step s = some s' → Inv s') (init : σ) (h0 : Inv init) :
    ∀ (k : Nat) (s : σ), iterate_loop step k init = some s → Inv s := by
  intro k
  induction k with
  | zero =>
    intro s h
    simp only [iterate_loop, Option.some.injEq] at h
    subst h; exact h0
  | succ k ih =>
    intro s h
    simp only [iterate_loop] at h
    cases hk : iterate_loop step k init with
    | none => rw [hk] at h; simp at h
    | some m =>
      rw [hk] at h
      exact hstep m s (ih m hk) h

/-! ## MLFQ: what one iteration does -/

theorem boost_phase_levels (cfg : MlfqConfig) (s : MlfqState) :
    (mlfq_boost_phase cfg s).levels =
      if cfg.boost_interval > 0 ∧ s.core.time - s.last_boost ≥ cfg.boost_interval then
        mlfq_boost cfg.num_queues.toNat s.levels else s.levels := by
  unfold mlfq_boost_phase mlfq_boost_due
  split <;> rfl

theorem boost_phase_last (cfg : MlfqConfig) (s : MlfqState) :
    (mlfq_boost_phase cfg s).last_boost =
      if cfg.boost_interval > 0 ∧ s.core.time - s.last_boost ≥ cfg.boost_interval then
        s.core.time else s.last_boost := by
  unfold mlfq_boost_phase mlfq_boost_due
  split <;> rfl

theorem boost_phase_core (cfg : MlfqConfig) (s : MlfqState) :
    (mlfq_boost_phase cfg s).core = s.core ∧ (mlfq_boost_phase cfg s).added = s.added ∧
      (mlfq_boost_phase cfg s).completed = s.completed := by
  unfold mlfq_boost_phase
  split <;> exact ⟨rfl, rfl, rfl⟩

theorem mlfq_find_level_lt (numq : Nat) (levels : List IdxQueue) (L : Nat)
    (h : mlfq_find_level numq levels = some L) :
    L < numq ∧ (getLevel levels L).head < (getLevel levels L).buf.length := by
  unfold mlfq_find_level at h
  have h1 := List.find?_some h
  have h2 := List.mem_of_find?_eq_some h
  exact ⟨by simpa using h2, by simpa using h1⟩

theorem mlfq_step_cases (cfg : MlfqConfig) (s s' : MlfqState)
    (hs : mlfq_step cfg s = some s') :
    MlfqIdle cfg s s' ∨ ∃ L idx use, MlfqDispatch cfg s s' L idx use := by
  unfold mlfq_step at hs
  by_cases hlt : s.completed < s.core.procs.length
  · dsimp only at hs
    rw [if_pos hlt, ← boost_phase_levels, ← boost_phase_last] at hs
    cases hf : mlfq_find_level cfg.num_queues.toNat (mlfq_boost_phase cfg s).levels with
    | none =>
      rw [hf] at hs
      dsimp only at hs
      by_cases hmax : next_arrival s.core.procs = INT_MAX
      · rw [if_pos hmax] at hs; exact absurd hs (by simp)
      · rw [if_neg hmax] at hs
        simp only [Option.some.injEq] at hs
        subst hs
        left
        exact ⟨hlt, hf, hmax, rfl, rfl, rfl, rfl, rfl⟩
    | some L =>
      rw [hf] at hs
      dsimp only at hs
      obtain ⟨hL, _⟩ := mlfq_find_level_lt _ _ _ hf
      right
      have hidx : (getLevel (mlfq_boost_phase cfg s).levels L).buf.getD
          (getLevel (mlfq_boost_phase cfg s).levels L).head 0 =
          mlfq_front (mlfq_boost_phase cfg s).levels L := rfl
      rw [hidx] at hs
      generalize hidx2 : mlfq_front (mlfq_boost_phase cfg s).levels L = idx at hs
      have hpop : (mlfq_boost_phase cfg s).levels.set L
          { getLevel (mlfq_boost_phase cfg s).levels L with
            head := (getLevel (mlfq_boost_phase cfg s).levels L).head + 1 } =
          mlfq_pop (mlfq_boost_phase cfg s).levels L := rfl
      rw [hpop] at hs
      generalize huse : (if (getP s.core.procs idx).remaining_time < cfg.quantums.getD L 0 then
        (getP s.core.procs idx).remaining_time else cfg.quantums.getD L 0) = use at hs
      refine ⟨L, idx, use, ?_⟩
      by_cases hz : (run_slice (getP s.core.procs idx) s.core.time use).remaining_time = 0
      · rw [if_pos hz] at hs
        simp only [Option.some.injEq] at hs
        subst hs
        simp only [run_slice_remaining] at hz
        exact ⟨hlt, hf, hidx2, huse.symm, rfl, rfl, by simp only [if_pos hz],
          by simp only [if_pos hz], rfl, by simp only [if_pos hz], rfl⟩
      · rw [if_neg hz] at hs
        simp only [Option.some.injEq] at hs
        subst hs
        simp only [run_slice_remaining] at hz
        have hfull : use = cfg.quantums.getD L 0 := by
          by_cases hrq : (getP s.core.procs idx).remaining_time < cfg.quantums.getD L 0
          · rw [if_pos hrq] at huse; omega
          · rw [if_neg hrq] at huse; exact huse.symm
        have hnl : (if use ≥ cfg.quantums.getD L 0 then
            (if L + 1 ≥ cfg.num_queues.toNat then cfg.num_queues.toNat - 1 else L + 1)
            else L) = min (L + 1) (cfg.num_queues.toNat - 1) := by
          rw [if_pos (by omega)]
          split <;> omega
        exact ⟨hlt, hf, hidx2, huse.symm, rfl, rfl, by simp only [if_neg hz],
          by simp only [if_neg hz, hnl, mlfq_push], rfl, by simp only [if_neg hz], rfl⟩
  · rw [if_neg hlt] at hs; exact absurd hs (by simp)

end Sched

namespace Sched

/-! ## MLFQ: the shape of the loop state -/

theorem getLevel_cases (levels : List IdxQueue) (i : Nat) :
    getLevel levels i ∈ levels ∨ getLevel levels i = ⟨[], 0⟩ := by
  by_cases h : i < levels.length
  · exact Or.inl (getLevel_mem levels i h)
  · right
    simp only [getLevel]
    rw [List.getD_eq_default _ _ (by omega)]
    rfl

theorem LevelsOk.get {n : Nat} {levels : List IdxQueue} (h : LevelsOk n levels) (i : Nat) :
    (getLevel levels i).head ≤ (getLevel levels i).buf.length ∧
      ∀ x ∈ (getLevel levels i).buf, x < n := by
  rcases getLevel_cases levels i with hm | he
  · exact ⟨h.1 _ hm, h.2 _ hm⟩
  · rw [he]; exact ⟨Nat.le_refl _, by simp⟩

theorem LevelsOk.store {n : Nat} {levels : List IdxQueue} (h : LevelsOk n levels) (i : Nat)
    (q : IdxQueue) (hq : q.head ≤ q.buf.length) (he : ∀ x ∈ q.buf, x < n) :
    LevelsOk n (levels.set i q) := by
  refine ⟨h.1.set_level i q hq, ?_⟩
  intro x hx
  rcases List.mem_or_eq_of_mem_set hx with hx | rfl
  · exact h.2 x hx
  · exact he

theorem pending_subset (q : IdxQueue) : ∀ x ∈ q.pending, x ∈ q.buf := by
  intro x hx
  exact List.mem_of_mem_drop hx

theorem mlfq_boost_ok (n numq : Nat) (levels : List IdxQueue) (h : LevelsOk n levels) :
    (mlfq_boost numq levels).length = levels.length ∧ LevelsOk n (mlfq_boost numq levels) := by
  have key := forLoop_inv
    (fun (_ : Nat) (lv : List IdxQueue) => lv.length = levels.length ∧ LevelsOk n lv)
    (fun k lv =>
      let level := k + 1
      let q0 := getLevel lv 0
      let ql := getLevel lv level
      (lv.set 0 { q0 with buf := q0.buf ++ ql.pending }).set level ⟨[], 0⟩)
    levels (numq - 1) ⟨rfl, h⟩
    (by
      intro k lv _ ⟨h1, h2⟩
      dsimp only
      refine ⟨by simp [h1], ?_⟩
      refine (h2.store 0 _ ?_ ?_).store (k + 1) _ (Nat.le_refl _) (by simp)
      · simp only [List.length_append]
        have := (h2.get 0).1
        omega
      · intro x hx
        rcases List.mem_append.1 hx with hx | hx
        · exact (h2.get 0).2 x hx
        · exact (h2.get (k + 1)).2 x (pending_subset _ x hx))
  exact key

theorem mem_new_arrivals_lt (procs : List Process) (time : Int) (added : List Bool) :
    ∀ i ∈ new_arrivals procs time added, i < procs.length := by
  intro i hi
  unfold new_arrivals at hi
  have := (List.mem_filter.1 hi).1
  simpa using this

theorem mlfq_enqueue_ok (procs : List Process) (time : Int) (levels : List IdxQueue)
    (added : List Bool) (hal : added.length = procs.length)
    (h : LevelsOk procs.length levels) :
    (mlfq_enqueue_arrivals procs time levels added).1.length = levels.length ∧
      LevelsOk procs.length (mlfq_enqueue_arrivals procs time levels added).1 ∧
      (mlfq_enqueue_arrivals procs time levels added).2.length = procs.length := by
  obtain ⟨e1, e2, _⟩ := enqueue_arrivals_spec procs time (getLevel levels 0) added hal
  simp only [mlfq_enqueue_arrivals, e1]
  refine ⟨by simp, ?_, e2⟩
  refine h.store 0 _ ?_ ?_
  · simp only [List.length_append]
    have := (h.get 0).1
    omega
  · intro x hx
    rcases List.mem_append.1 hx with hx | hx
    · exact (h.get 0).2 x hx
    · exact mem_new_arrivals_lt procs time added x hx

theorem MlfqShape.levelsOk {n numq : Nat} {s : MlfqState} (h : MlfqShape n numq s) :
    LevelsOk n s.levels := ⟨h.heads, h.entries⟩

theorem boost_phase_ok (cfg : MlfqConfig) (n : Nat) (s : MlfqState)
    (h : LevelsOk n s.levels) :
    (mlfq_boost_phase cfg s).levels.length = s.levels.length ∧
      LevelsOk n (mlfq_boost_phase cfg s).levels := by
  rw [boost_phase_levels]
  split
  · exact mlfq_boost_ok n _ s.levels h
  · exact ⟨rfl, h⟩

theorem mlfq_shape_step (cfg : MlfqConfig) (n : Nat) (s s' : MlfqState)
    (hI : MlfqShape n cfg.num_queues.toNat s) (hs : mlfq_step cfg s = some s') :
    MlfqShape n cfg.num_queues.toNat s' := by
  obtain ⟨hb1, hb2⟩ := boost_phase_ok cfg n s hI.levelsOk
  have hal : s.added.length = s.core.procs.length := by rw [hI.added_len, hI.procs_len]
  rcases mlfq_step_cases cfg s s' hs with hi | ⟨L, idx, use, hd⟩
  · have hb2' : LevelsOk s.core.procs.length (mlfq_boost_phase cfg s).levels := by
      rw [hI.procs_len]; exact hb2
    obtain ⟨e1, e2, e3⟩ := mlfq_enqueue_ok s.core.procs (next_arrival s.core.procs)
      (mlfq_boost_phase cfg s).levels s.added hal hb2'
    rw [hI.procs_len] at e2 e3
    refine ⟨?_, ?_, ?_, ?_, ?_⟩
    · rw [hi.core]; exact hI.procs_len
    · rw [hi.added]; exact e3
    · rw [hi.levels, e1, hb1]; exact hI.levels_len
    · rw [hi.levels]; exact e2.1
    · rw [hi.levels]; exact e2.2
  · obtain ⟨hL, hhead⟩ := mlfq_find_level_lt _ _ _ hd.level
    have hpop : LevelsOk n (mlfq_pop (mlfq_boost_phase cfg s).levels L) := by
      unfold mlfq_pop
      exact hb2.store L _ (by simpa using hhead) (hb2.get L).2
    have hpop' : LevelsOk s.core.procs.length (mlfq_pop (mlfq_boost_phase cfg s).levels L) := by
      rw [hI.procs_len]; exact hpop
    obtain ⟨e1, e2, e3⟩ := mlfq_enqueue_ok s.core.procs (s.core.time + use)
      (mlfq_pop (mlfq_boost_phase cfg s).levels L) s.added hal hpop'
    rw [hI.procs_len] at e2 e3
    have hplen : (mlfq_pop (mlfq_boost_phase cfg s).levels L).length = cfg.num_queues.toNat := by
      unfold mlfq_pop
      rw [List.length_set, hb1]; exact hI.levels_len
    have hidx : idx < n := by
      have h1 := (hb2.get L).2
      rw [← hd.idx_eq]
      unfold mlfq_front
      rw [List.getD_eq_getElem _ _ hhead]
      exact h1 _ (List.getElem_mem _)
    refine ⟨?_, ?_, ?_, ?_, ?_⟩
    · rw [hd.procs, List.length_set]; exact hI.procs_len
    · rw [hd.added]; exact e3
    · rw [hd.levels]
      split
      · rw [e1]; exact hplen
      · unfold mlfq_push; rw [List.length_set, e1]; exact hplen
    · rw [hd.levels]
      split
      · exact e2.1
      · unfold mlfq_push
        refine (e2.store _ _ ?_ ?_).1
        · simp only [IdxQueue.push, List.length_append, List.length_singleton]
          have := (e2.get (min (L + 1) (cfg.num_queues.toNat - 1))).1
          omega
        · intro x hx
          simp only [IdxQueue.push] at hx
          rcases List.mem_append.1 hx with hx | hx
          · exact (e2.get _).2 x hx
          · simp only [List.mem_singleton] at hx; omega
    · rw [hd.levels]
      split
      · exact e2.2
      · unfold mlfq_push
        refine (e2.store _ _ ?_ ?_).2
        · simp only [IdxQueue.push, List.length_append, List.length_singleton]
          have := (e2.get (min (L + 1) (cfg.num_queues.toNat - 1))).1
          omega
        · intro x hx
          simp only [IdxQueue.push] at hx
          rcases List.mem_append.1 hx with hx | hx
          · exact (e2.get _).2 x hx
          · simp only [List.mem_singleton] at hx; omega

theorem mlfq_shape_init (cfg : MlfqConfig) (ps : List Process) :
    MlfqShape ps.length cfg.num_queues.toNat (mlfq_init cfg ps) := by
  have hrl : (reset_processes ps).length = ps.length := by simp [reset_processes]
  have h0 : LevelsOk (reset_processes ps).length
      (List.replicate cfg.num_queues.toNat (⟨[], 0⟩ : IdxQueue)) := by
    refine ⟨?_, ?_⟩
    · intro q hq
      rw [List.eq_of_mem_replicate hq]
      exact Nat.le_refl _
    · intro q hq
      rw [List.eq_of_mem_replicate hq]
      simp
  obtain ⟨e1, e2, e3⟩ := mlfq_enqueue_ok (reset_processes ps)
    (first_arrival (reset_processes ps))
    (List.replicate cfg.num_queues.toNat ⟨[], 0⟩)
    (List.replicate (reset_processes ps).length false) (by simp) h0
  have e2' : LevelsOk ps.length (mlfq_init cfg ps).levels := by
    rw [← hrl]; exact e2
  refine ⟨hrl, e3.trans hrl, ?_, e2'.1, e2'.2⟩
  simp only [mlfq_init]; rw [e1]; simp

theorem mlfq_shape_at (cfg : MlfqConfig) (ps : List Process) (k : Nat) (s : MlfqState)
    (h : mlfq_state_at cfg ps k = some s) : MlfqShape ps.length cfg.num_queues.toNat s :=
  iterate_inv (mlfq_step cfg) (MlfqShape ps.length cfg.num_queues.toNat)
    (fun s s' hI hs => mlfq_shape_step cfg ps.length s s' hI hs)
    (mlfq_init cfg ps) (mlfq_shape_init cfg ps) k s h

end Sched

namespace Sched

/-! ## MLFQ: the boost, exactly -/

theorem mlfq_lower_succ (levels : List IdxQueue) (k : Nat) :
    mlfq_lower levels (k + 1) = mlfq_lower levels k ++ (getLevel levels (k + 1)).pending := by
  simp [mlfq_lower, List.range_succ]

theorem all_pending_eq (lv : List IdxQueue) (h : 0 < lv.length) :
    all_pending lv = (getLevel lv 0).pending ++ mlfq_lower lv (lv.length - 1) := by
  cases lv with
  | nil => simp at h
  | cons q rest =>
    have e : ∀ (l : List IdxQueue),
        ((List.range l.length).map fun j => (getLevel (q :: l) (j + 1)).pending) =
          l.map IdxQueue.pending := by
      intro l
      apply List.ext_getElem
      · simp
      · intro i h1 h2
        simp only [List.getElem_map, List.getElem_range, getLevel, List.getD_cons_succ]
        rw [List.getD_eq_getElem _ _ (by simpa using h1)]
    simp only [all_pending, mlfq_lower, List.map_cons, List.flatten_cons, List.length_cons,
      Nat.add_sub_cancel, e]
    rfl

/-- After the boost loop, level 0 has gained the waiting entries of levels
1 to `numq-1` in level order, those levels are empty, and nothing else moved. -/
theorem mlfq_boost_exact (numq : Nat) (levels : List IdxQueue) (hlen : levels.length = numq) :
    (mlfq_boost numq levels).length = numq ∧
      getLevel (mlfq_boost numq levels) 0 =
        { getLevel levels 0 with
          buf := (getLevel levels 0).buf ++ mlfq_lower levels (numq - 1) } ∧
      ∀ j, 1 ≤ j → j < numq → getLevel (mlfq_boost numq levels) j = ⟨[], 0⟩ := by
  have key := forLoop_inv
    (fun (k : Nat) (lv : List IdxQueue) =>
      lv.length = numq ∧
      getLevel lv 0 =
        { getLevel levels 0 with buf := (getLevel levels 0).buf ++ mlfq_lower levels k } ∧
      (∀ j, 1 ≤ j → j ≤ k → getLevel lv j = ⟨[], 0⟩) ∧
      ∀ j, k < j → getLevel lv j = getLevel levels j)
    (fun k lv =>
      let level := k + 1
      let q0 := getLevel lv 0
      let ql := getLevel lv level
      (lv.set 0 { q0 with buf := q0.buf ++ ql.pending }).set level ⟨[], 0⟩)
    levels (numq - 1)
    ⟨hlen, by simp [mlfq_lower], fun j h1 h2 => by omega, fun j _ => rfl⟩
    (by
      intro k lv hk ⟨h1, h2, h3, h4⟩
      dsimp only
      have h0 : 0 < lv.length := by omega
      have hk1 : k + 1 < lv.length := by omega
      have hs0 : 0 < (lv.set 0 { getLevel lv 0 with
          buf := (getLevel lv 0).buf ++ (getLevel lv (k + 1)).pending }).length := by
        simpa using h0
      have hsk : k + 1 < (lv.set 0 { getLevel lv 0 with
          buf := (getLevel lv 0).buf ++ (getLevel lv (k + 1)).pending }).length := by
        simpa using hk1
      refine ⟨by simp [h1], ?_, ?_, ?_⟩
      · rw [getLevel_set _ _ _ _ hsk, if_neg (by omega), getLevel_set _ _ _ _ h0, if_pos rfl,
          h2, h4 (k + 1) (by omega), mlfq_lower_succ]
        simp
      · intro j hj1 hj2
        rw [getLevel_set _ _ _ _ hsk]
        by_cases hjk : k + 1 = j
        · rw [if_pos hjk]
        · rw [if_neg hjk, getLevel_set _ _ _ _ h0, if_neg (by omega)]
          exact h3 j hj1 (by omega)
      · intro j hj
        rw [getLevel_set _ _ _ _ hsk, if_neg (by omega), getLevel_set _ _ _ _ h0,
          if_neg (by omega)]
        exact h4 j (by omega))
  obtain ⟨k1, k2, k3, _⟩ := key
  exact ⟨k1, k2, fun j h1 h2 => k3 j h1 (by omega)⟩

theorem mlfq_lower_nil (lv : List IdxQueue) (k : Nat)
    (h : ∀ j, 1 ≤ j → j ≤ k → getLevel lv j = ⟨[], 0⟩) : mlfq_lower lv k = [] := by
  unfold mlfq_lower
  rw [List.flatten_eq_nil_iff]
  intro l hl
  obtain ⟨j, hj, rfl⟩ := List.mem_map.1 hl
  rw [h (j + 1) (by omega) (by simpa using hj)]
  rfl

end Sched

namespace Sched

/-- An iteration of the MLFQ loop is its boost phase followed by an iteration
that performs no boost. -/
theorem mlfq_step_boost_phase (cfg : MlfqConfig) (s : MlfqState) :
    mlfq_step cfg s = mlfq_step cfg.no_boost (mlfq_boost_phase cfg s) := by
  obtain ⟨e1, e2, e3⟩ := boost_phase_core cfg s
  have hno : ¬ ((0 : Int) > 0 ∧
      s.core.time - (mlfq_boost_phase cfg s).last_boost ≥ 0) := by
    intro h; exact absurd h.1 (by decide)
  unfold mlfq_step
  simp only [MlfqConfig.no_boost, e1, e2, e3, if_neg hno, ← boost_phase_levels,
    ← boost_phase_last]

end Sched

namespace Sched

/-! ## Idle events: facts shared by the policies -/

theorem unfinishedAt_set (procs : List Process) (b : Nat) (p' : Process) (t : Int)
    (hb : b < procs.length) (hunf : (getP procs b).finished = 0)
    (hfin : p'.finished ≠ 0 → t < p'.completion_time) (j : Nat) :
    UnfinishedAt (procs.set b p') t j ↔ UnfinishedAt procs t j := by
  unfold UnfinishedAt
  rw [List.length_set, getP_set _ _ _ _ hb]
  by_cases hbj : b = j
  · subst hbj
    simp only [if_true, hunf]
    constructor
    · rintro ⟨h1, _⟩; exact ⟨h1, fun h => absurd rfl h⟩
    · rintro ⟨h1, _⟩; exact ⟨h1, hfin⟩
  · simp only [hbj, if_false]

theorem readyAt_set (procs : List Process) (b : Nat) (p' : Process) (t : Int)
    (hb : b < procs.length) (hunf : (getP procs b).finished = 0)
    (harr : p'.arrival_time = (getP procs b).arrival_time)
    (hfin : p'.finished ≠ 0 → t < p'.completion_time) (j : Nat) :
    ReadyAt (procs.set b p') t j ↔ ReadyAt procs t j := by
  unfold ReadyAt
  rw [List.length_set, getP_set _ _ _ _ hb]
  by_cases hbj : b = j
  · subst hbj
    simp only [if_true, harr, hunf]
    constructor
    · rintro ⟨h1, h2, _⟩; exact ⟨h1, h2, fun h => absurd rfl h⟩
    · rintro ⟨h1, h2, _⟩; exact ⟨h1, h2, hfin⟩
  · simp only [hbj, if_false]

theorem getP_set_arrival (procs : List Process) (b : Nat) (p' : Process)
    (harr : p'.arrival_time = (getP procs b).arrival_time) (j : Nat) :
    (getP (procs.set b p') j).arrival_time = (getP procs j).arrival_time := by
  by_cases hb : b < procs.length
  · rw [getP_set _ _ _ _ hb]
    by_cases hbj : b = j
    · subst hbj; simp only [if_true, harr]
    · simp only [hbj, if_false]
  · rw [List.set_eq_of_length_le (by omega)]

theorem EventsOk.mono {procs : List Process} {tl : List TimelineEvent} {time time' : Int}
    (h : EventsOk procs tl time) (hle : time ≤ time') : EventsOk procs tl time' := by
  intro e he
  obtain ⟨h1, h2, h3⟩ := h e he
  exact ⟨by omega, h2, h3⟩

/-- Writing the result of a slice to an unfinished process, which then is
still unfinished or completes after the clock value, leaves what the
timeline records intact. -/
theorem EventsOk.set_proc {procs : List Process} {tl : List TimelineEvent} {time : Int}
    (h : EventsOk procs tl time) (b : Nat) (p' : Process)
    (hb : b < procs.length) (hunf : (getP procs b).finished = 0)
    (harr : p'.arrival_time = (getP procs b).arrival_time)
    (hfin : p'.finished ≠ 0 → time < p'.completion_time) :
    EventsOk (procs.set b p') tl time := by
  intro e he
  obtain ⟨h1, h2, h3⟩ := h e he
  have hf : p'.finished ≠ 0 → e.time < p'.completion_time := fun hne => by
    have := hfin hne; omega
  refine ⟨h1, ?_, ?_⟩
  · intro hp
    obtain ⟨a1, ⟨j, a2, a3⟩, a4⟩ := h2 hp
    refine ⟨a1, ⟨j, (unfinishedAt_set procs b p' e.time hb hunf hf j).2 a2, ?_⟩, ?_⟩
    · rw [getP_set_arrival procs b p' harr]; exact a3
    · intro j hj
      rw [getP_set_arrival procs b p' harr]
      exact a4 j ((unfinishedAt_set procs b p' e.time hb hunf hf j).1 hj)
  · intro hp
    obtain ⟨j, hj⟩ := h3 hp
    exact ⟨j, (readyAt_set procs b p' e.time hb hunf harr hf j).2 hj⟩

theorem EventsOk.push_busy {procs : List Process} {tl : List TimelineEvent} {time : Int}
    (h : EventsOk procs tl time) (t pid d : Int) (ht : t ≤ time) (hpid : pid ≠ -1)
    (hr : ∃ j, ReadyAt procs t j) : EventsOk procs (push_event tl t pid d) time := by
  intro e he
  simp only [push_event, List.mem_append, List.mem_singleton] at he
  rcases he with he | rfl
  · exact h e he
  · exact ⟨ht, fun hp => absurd hp hpid, fun _ => hr⟩

/-- An idle event up to `next`, pushed when every finished process completed
by the clock value and `next`, later than the clock value, is the least
arrival time of the unfinished ones. -/
theorem EventsOk.push_idle {procs : List Process} {tl : List TimelineEvent} {time : Int}
    (h : EventsOk procs tl time) (next : Int) (hgt : time < next)
    (hfin : ∀ j, j < procs.length → (getP procs j).finished ≠ 0 →
      (getP procs j).completion_time ≤ time)
    (hatt : ∃ j, j < procs.length ∧ (getP procs j).finished = 0 ∧
      (getP procs j).arrival_time = next)
    (hmin : ∀ j, j < procs.length → (getP procs j).finished = 0 →
      next ≤ (getP procs j).arrival_time) :
    EventsOk procs (push_event tl time (-1) (next - time)) next := by
  intro e he
  simp only [push_event, List.mem_append, List.mem_singleton] at he
  rcases he with he | rfl
  · exact (h.mono (le_of_lt hgt)) e he
  · refine ⟨le_of_lt hgt, fun _ => ?_, fun hp => absurd rfl hp⟩
    obtain ⟨j, hj, hjf, hja⟩ := hatt
    refine ⟨by simp only; omega, ⟨j, ⟨hj, fun hne => absurd hjf hne⟩, by simp only; omega⟩, ?_⟩
    intro i ⟨hi, hiu⟩
    simp only at hiu ⊢
    by_cases hif : (getP procs i).finished = 0
    · have := hmin i hi hif; omega
    · have := hfin i hi hif
      have := hiu hif
      omega

/-- An idle event is one at whose start no process has arrived unfinished. -/
theorem IdleOk.none_ready {procs : List Process} {e : TimelineEvent} (h : IdleOk procs e) :
    ¬ ∃ j, ReadyAt procs e.time j := by
  rintro ⟨j, hj, ha, hf⟩
  have := h.2.2 j ⟨hj, hf⟩
  have := h.1
  omega

end Sched

namespace Sched

/-- A dispatch of the eligible process `b` at the clock value: its array
entry is overwritten by `p'`, still unfinished or completing later, and an
event with its pid is pushed. -/
theorem EventsOk.dispatch {procs : List Process} {tl : List TimelineEvent} {time : Int}
    (h : EventsOk procs tl time) (b : Nat) (p' : Process) (pid d time' : Int)
    (hb : b < procs.length) (hel : eligible (getP procs b) time)
    (harr : p'.arrival_time = (getP procs b).arrival_time) (hpid : pid ≠ -1)
    (hle : time ≤ time') (hfin : p'.finished ≠ 0 → time < p'.completion_time) :
    EventsOk (procs.set b p') (push_event tl time pid d) time' := by
  refine ((h.set_proc b p' hb hel.1 harr hfin).mono hle).push_busy time pid d hle hpid ?_
  refine ⟨b, by rw [List.length_set]; exact hb, ?_, ?_⟩
  · rw [getP_set_eq _ _ _ hb, harr]; exact hel.2
  · rw [getP_set_eq _ _ _ hb]; exact hfin

/-- The idle branch shared by the policies, taken when no process is
eligible although some are unfinished. -/
theorem EventsOk.idle_branch {ps0 : List Process} {t0 : Int} {c : Core}
    (h : EventsOk c.procs c.timeline c.time) (hP : ProcInv ps0 t0 c.procs c.time)
    (hrange : ∀ i, i < ps0.length → (getP ps0 i).arrival_time ≤ INT_MAX)
    (hex : ∃ i, i < c.procs.length ∧ (getP c.procs i).finished = 0)
    (hnone : ∀ j, j < c.procs.length → ¬ eligible (getP c.procs j) c.time) :
    EventsOk (idle_until c (next_arrival c.procs)).procs
      (idle_until c (next_arrival c.procs)).timeline
      (idle_until c (next_arrival c.procs)).time := by
  have hlen := hP.static.1
  have hle : ∀ i, i < c.procs.length → (getP c.procs i).arrival_time ≤ INT_MAX := by
    intro i hi
    rw [hlen] at hi
    rw [(hP.static.2 i hi).2.1]; exact hrange i hi
  obtain ⟨hgt, _⟩ := idle_progress _ _ hle hex hnone
  obtain ⟨i, hi, hf, ha⟩ := next_arrival_attained c.procs hle hex
  simp only [idle_until]
  refine h.push_idle (next_arrival c.procs) hgt ?_ ⟨i, hi, hf, ha⟩
    (fun j hj hjf => next_arrival_le c.procs j hj hjf)
  intro j hj hjf
  exact (hP.fin j (by rw [← hlen]; exact hj) hjf).2.2.2.1

/-! ## Idle events: SJF -/

theorem sjf_events_step (ps0 : List Process) (t0 : Int)
    (hburst : ∀ i, i < ps0.length → 1 ≤ (getP ps0 i).burst_time)
    (hrange : ∀ i, i < ps0.length → (getP ps0 i).arrival_time ≤ INT_MAX)
    (hpid : ∀ i, i < ps0.length → (getP ps0 i).pid ≠ -1)
    (s s' : SjfState) (hI : SjfInv ps0 t0 s)
    (hE : EventsOk s.core.procs s.core.timeline s.core.time) (hs : sjf_step s = some s') :
    EventsOk s'.core.procs s'.core.timeline s'.core.time := by
  have hP := hI.procs
  have hN := hI.count
  have hlen := hP.static.1
  unfold sjf_step at hs
  by_cases hlt : s.completed < s.core.procs.length
  · rw [if_pos hlt] at hs
    have hex : ∃ i, i < s.core.procs.length ∧ (getP s.core.procs i).finished = 0 :=
      (unfinishedCount_pos_iff _).1 (by omega)
    rcases pick_best_spec sjf_better sjf_better_asymm sjf_better_cotrans s.core.procs
      s.core.time with ⟨hpick, hnone⟩ | ⟨b, hpick, hbest⟩
    · rw [hpick] at hs
      simp only [Option.some.injEq] at hs
      subst hs
      exact hE.idle_branch hP hrange hex hnone
    · rw [hpick] at hs
      simp only [Option.some.injEq] at hs
      subst hs
      obtain ⟨hb, hel, _, _⟩ := hbest
      have hb0 : b < ps0.length := by rw [← hlen]; exact hb
      have hbb : 1 ≤ (getP s.core.procs b).burst_time := by
        rw [(hP.static.2 b hb0).2.2]; exact hburst b hb0
      refine hE.dispatch b _ _ _ _ hb hel rfl ?_ (by simp only; omega) ?_
      · rw [(hP.static.2 b hb0).1]; exact hpid b hb0
      · intro _
        simp only [run_to_completion]
        omega
  · rw [if_neg hlt] at hs; exact absurd hs (by simp)

end Sched

namespace Sched

theorem events_ok_nil (procs : List Process) (time : Int) : EventsOk procs [] time := by
  intro e he
  simp at he

theorem reset_pid_ne (ps : List Process) (hpid : ∀ p ∈ ps, p.pid ≠ -1) :
    ∀ i, i < (reset_processes ps).length → (getP (reset_processes ps) i).pid ≠ -1 := by
  obtain ⟨hl, hr⟩ := StaticEq.reset ps
  intro i hi
  rw [hl] at hi
  rw [(hr i hi).1]
  exact hpid _ (getP_mem ps i hi)

/-- A complete run of `schedule_sjf` with what its timeline records about
idleness. -/
theorem sjf_events_run (ps : List Process) (fuel : Nat)
    (hburst : ∀ p ∈ ps, 1 ≤ p.burst_time) (hrange : ∀ p ∈ ps, p.arrival_time ≤ INT_MAX)
    (hpid : ∀ p ∈ ps, p.pid ≠ -1) (hfuel : fuel_bound ps ≤ fuel) :
    ∃ r time, schedule_sjf fuel ps = some r ∧ EventsOk r.procs r.timeline time := by
  have hf2 : 2 * ps.length + 2 ≤ fuel := by
    have := length_le_total_burst ps hburst
    unfold fuel_bound at hfuel
    omega
  obtain ⟨s, hs, _, _⟩ := sjf_run ps fuel hburst hrange hf2
  have := whileLoop_inv sjf_step
    (fun s => SjfInv (reset_processes ps) (first_arrival (reset_processes ps)) s ∧
      EventsOk s.core.procs s.core.timeline s.core.time)
    (fun a b ⟨h1, h2⟩ hab =>
      ⟨(sjf_step_inv _ _ (reset_burst ps hburst) (reset_arrival_le ps _ hrange) a b h1 hab).1,
        sjf_events_step _ _ (reset_burst ps hburst) (reset_arrival_le ps _ hrange)
          (reset_pid_ne ps hpid) a b h1 h2 hab⟩)
    fuel _ s ⟨sjf_init_inv ps hburst, events_ok_nil _ _⟩ hs
  exact ⟨⟨s.core.procs, s.core.timeline⟩, s.core.time, by simp [schedule_sjf, hs], this.2⟩

/-! ## Idle events: STCF -/

theorem EventsOk.extend_last {procs : List Process} {tl : List TimelineEvent} {time : Int}
    {t pid d : Int} (h : EventsOk procs (tl ++ [⟨t, pid, d⟩]) time) (hpid : pid ≠ -1)
    (d' : Int) : EventsOk procs (tl ++ [⟨t, pid, d'⟩]) time := by
  intro e he
  simp only [List.mem_append, List.mem_singleton] at he
  rcases he with he | rfl
  · exact h e (List.mem_append.2 (Or.inl he))
  · obtain ⟨h1, _, h3⟩ := h ⟨t, pid, d⟩ (by simp)
    exact ⟨h1, fun hp => absurd hp hpid, h3⟩

theorem stcf_events_step (ps0 : List Process) (t0 : Int)
    (hrange : ∀ i, i < ps0.length → (getP ps0 i).arrival_time ≤ INT_MAX)
    (hpid : ∀ i, i < ps0.length → (getP ps0 i).pid ≠ -1)
    (s s' : StcfState) (hI : StcfInv ps0 t0 s)
    (hE : EventsOk s.core.procs (s.core.timeline ++ stcf_open ps0 s) s.core.time)
    (hs : stcf_step s = some s') :
    EventsOk s'.core.procs (s'.core.timeline ++ stcf_open ps0 s') s'.core.time := by
  have hP := hI.procs
  have hlen := hP.static.1
  have hN := hI.count
  unfold stcf_step at hs
  by_cases hlt : s.completed < s.core.procs.length
  · rw [if_pos hlt] at hs
    have hex : ∃ i, i < s.core.procs.length ∧ (getP s.core.procs i).finished = 0 :=
      (unfinishedCount_pos_iff _).1 (by omega)
    rcases pick_best_spec stcf_better stcf_better_asymm stcf_better_cotrans s.core.procs
      s.core.time with ⟨hpick, hnone⟩ | ⟨b, hpick, hbest⟩
    · rw [hpick] at hs
      simp only [Option.some.injEq] at hs
      subst hs
      have hci : s.current_idx = none := by
        cases hci : s.current_idx with
        | none => rfl
        | some c =>
          obtain ⟨h1, h2, h3, _⟩ := hI.cur c hci
          exact absurd ⟨h2, h3⟩ (hnone c (by rw [hlen]; exact h1))
      simp only [stcf_open, hci, List.append_nil] at hE ⊢
      exact hE.idle_branch hP hrange hex hnone
    · rw [hpick] at hs
      dsimp only at hs
      obtain ⟨hb, hel, _, _⟩ := hbest
      have hb0 : b < ps0.length := by rw [← hlen]; exact hb
      have hpb : (getP s.core.procs b).pid = (getP ps0 b).pid := (hP.static.2 b hb0).1
      by_cases hcur : s.current_idx = some b
      · have hE' := hE
        simp only [stcf_open, hcur] at hE'
        by_cases hz : (run_slice (getP s.core.procs b) s.core.time 1).remaining_time = 0
        · rw [if_pos hz] at hs
          simp only [Option.some.injEq] at hs
          subst hs
          simp only [stcf_open, List.append_nil, hcur, ne_eq, not_true_eq_false, if_false,
            push_event, hpb]
          refine ((hE'.set_proc b
            (mark_finished (run_slice (getP s.core.procs b) s.core.time 1) (s.core.time + 1))
            hb hel.1 rfl ?_).mono
            (by omega : s.core.time ≤ s.core.time + 1)).extend_last (hpid b hb0) _
          intro _
          simp only [mark_finished_completion]
          omega
        · rw [if_neg hz] at hs
          simp only [Option.some.injEq] at hs
          subst hs
          simp only [stcf_open, hcur, ne_eq, not_true_eq_false, if_false]
          refine ((hE'.set_proc b (run_slice (getP s.core.procs b) s.core.time 1)
            hb hel.1 rfl ?_).mono
            (by omega : s.core.time ≤ s.core.time + 1)).extend_last (hpid b hb0) _
          intro hne
          simp only [run_slice_finished] at hne
          exact absurd hel.1 hne
      · have hcur' : s.current_idx ≠ some b := hcur
        simp only [if_pos hcur'] at hs
        have hview : ∀ tl1 : List TimelineEvent, tl1 = s.core.timeline ++ stcf_open ps0 s →
            ∀ (p' : Process) (d : Int), p'.arrival_time = (getP s.core.procs b).arrival_time →
            (p'.finished ≠ 0 → s.core.time < p'.completion_time) →
            EventsOk (s.core.procs.set b p') (tl1 ++ [⟨s.core.time, (getP ps0 b).pid, d⟩])
              (s.core.time + 1) := by
          intro tl1 htl p' d harr hfin
          rw [htl]
          have := hE.dispatch b p' (getP ps0 b).pid d (s.core.time + 1) hb hel harr
            (hpid b hb0) (by omega) hfin
          simpa only [push_event] using this
        have htl1 : (match s.current_idx with
            | some c => push_event s.core.timeline s.current_start (getP s.core.procs c).pid
                (s.core.time - s.current_start)
            | none => s.core.timeline) = s.core.timeline ++ stcf_open ps0 s := by
          cases hci : s.current_idx with
          | none => simp [stcf_open, hci]
          | some c =>
            obtain ⟨h1, _⟩ := hI.cur c hci
            simp only [stcf_open, hci, push_event, (hP.static.2 c h1).1]
        by_cases hz : (run_slice (getP s.core.procs b) s.core.time 1).remaining_time = 0
        · rw [if_pos hz] at hs
          simp only [Option.some.injEq] at hs
          subst hs
          simp only [stcf_open, List.append_nil, push_event, hpb]
          refine hview _ htl1 _ _ rfl ?_
          intro _
          simp only [mark_finished_completion]
          omega
        · rw [if_neg hz] at hs
          simp only [Option.some.injEq] at hs
          subst hs
          simp only [stcf_open]
          refine hview _ htl1 _ _ rfl ?_
          intro hne
          simp only [run_slice_finished] at hne
          exact absurd hel.1 hne
  · rw [if_neg hlt] at hs; exact absurd hs (by simp)

end Sched

namespace Sched

/-- A complete run of `schedule_stcf` with what its timeline records about
idleness. -/
theorem stcf_events_run (ps : List Process) (fuel : Nat)
    (hburst : ∀ p ∈ ps, 1 ≤ p.burst_time) (hrange : ∀ p ∈ ps, p.arrival_time ≤ INT_MAX)
    (hpid : ∀ p ∈ ps, p.pid ≠ -1) (hfuel : fuel_bound ps ≤ fuel) :
    ∃ r time, schedule_stcf fuel ps = some r ∧ EventsOk r.procs r.timeline time := by
  obtain ⟨s, hs, _, hc, _⟩ := stcf_run ps fuel hburst hrange hfuel
  have := whileLoop_inv stcf_step
    (fun s => StcfInv (reset_processes ps) (first_arrival (reset_processes ps)) s ∧
      EventsOk s.core.procs (s.core.timeline ++ stcf_open (reset_processes ps) s) s.core.time)
    (fun a b ⟨h1, h2⟩ hab =>
      ⟨(stcf_step_inv _ _ (reset_arrival_le ps _ hrange) a b h1 hab).1,
        stcf_events_step _ _ (reset_arrival_le ps _ hrange)
          (reset_pid_ne ps hpid) a b h1 h2 hab⟩)
    fuel _ s ⟨stcf_init_inv ps hburst, by simp [stcf_open]; exact events_ok_nil _ _⟩ hs
  have h2 := this.2
  simp only [stcf_open, hc, List.append_nil] at h2
  exact ⟨⟨s.core.procs, s.core.timeline⟩, s.core.time, by simp [schedule_stcf, hs], h2⟩

/-! ## Idle events: round robin -/

theorem rr_step_added (quantum : Int) (s s' : RrState)
    (hal : s.added.length = s.core.procs.length) (hs : rr_step quantum s = some s') :
    all_done s.core.procs = false ∧
      ∀ i, s'.added.getD i false =
        (s.added.getD i false ||
          decide (i < s.core.procs.length ∧ (getP s.core.procs i).arrival_time ≤ s'.core.time)) := by
  unfold rr_step at hs
  by_cases hdone : all_done s.core.procs = true
  · rw [if_pos hdone] at hs; exact absurd hs (by simp)
  · rw [if_neg hdone] at hs
    refine ⟨by simpa using hdone, ?_⟩
    by_cases hemp : s.queue.head = s.queue.buf.length
    · rw [if_pos hemp] at hs
      simp only [Option.some.injEq] at hs
      subst hs
      exact (enqueue_arrivals_spec s.core.procs (next_arrival s.core.procs) s.queue s.added
        hal).2.2
    · rw [if_neg hemp] at hs
      dsimp only at hs
      generalize s.queue.buf.getD s.queue.head 0 = idx at hs
      generalize (if (getP s.core.procs idx).remaining_time < quantum then
        (getP s.core.procs idx).remaining_time else quantum) = use at hs
      by_cases hpos : (run_slice (getP s.core.procs idx) s.core.time use).remaining_time > 0
      · rw [if_pos hpos] at hs
        simp only [Option.some.injEq] at hs
        subst hs
        exact (enqueue_arrivals_spec s.core.procs _ _ s.added hal).2.2
      · rw [if_neg hpos] at hs
        simp only [Option.some.injEq] at hs
        subst hs
        exact (enqueue_arrivals_spec s.core.procs _ _ s.added hal).2.2

theorem rr_events_step (ps0 : List Process) (t0 quantum : Int) (hq : 1 ≤ quantum)
    (hrange : ∀ i, i < ps0.length → (getP ps0 i).arrival_time ≤ INT_MAX)
    (hpid : ∀ i, i < ps0.length → (getP ps0 i).pid ≠ -1)
    (s s' : RrState) (hI : RrInv ps0 t0 s)
    (hA : AddedArrived ps0 s.added s.core.time)
    (hE : EventsOk s.core.procs s.core.timeline s.core.time)
    (hs : rr_step quantum s = some s') :
    AddedArrived ps0 s'.added s'.core.time ∧
      EventsOk s'.core.procs s'.core.timeline s'.core.time := by
  have hP := hI.procs
  have hlen := hP.static.1
  have hal : s.added.length = s.core.procs.length := by rw [hI.queue.added_len, hlen]
  obtain ⟨hnd, hadd⟩ := rr_step_added quantum s s' hal hs
  have hex : ∃ i, i < s.core.procs.length ∧ (getP s.core.procs i).finished = 0 := by
    by_contra hne
    have : all_done s.core.procs = true := by
      rw [all_done_iff]
      intro i hi hf
      exact hne ⟨i, hi, hf⟩
    rw [this] at hnd
    exact absurd hnd (by simp)
  have hadded : s.core.time ≤ s'.core.time → AddedArrived ps0 s'.added s'.core.time := by
    intro hle i hi ht
    rw [hadd i] at ht
    simp only [Bool.or_eq_true, decide_eq_true_eq] at ht
    rcases ht with ht | ⟨_, ht⟩
    · have := hA i hi ht; omega
    · rw [(hP.static.2 i hi).2.1] at ht; exact ht
  rcases rr_step_cases quantum s s' hal hI.head_le hs with hi | ⟨idx, use, hd⟩
  · have hnone : ∀ j, j < s.core.procs.length → ¬ eligible (getP s.core.procs j) s.core.time := by
      intro j hj ⟨hf, ha⟩
      rw [hlen] at hj
      by_cases hadj : s.added.getD j false = true
      · have hm := hI.queue.queued j hj hf hadj
        have hnil : s.queue.pending = [] := by
          simp only [IdxQueue.pending, hi.empty, List.drop_length]
        rw [hnil] at hm
        exact absurd hm (List.not_mem_nil _)
      · have := (hI.queue.arrived j hj (by simpa using hadj)).2
        omega
    have hle : ∀ i, i < s.core.procs.length → (getP s.core.procs i).arrival_time ≤ INT_MAX := by
      intro i hi
      rw [hlen] at hi
      rw [(hP.static.2 i hi).2.1]; exact hrange i hi
    obtain ⟨hgt, _⟩ := idle_progress _ _ hle hex hnone
    have hE' := hE.idle_branch hP hrange hex hnone
    rw [← hi.core] at hE'
    refine ⟨hadded ?_, hE'⟩
    rw [hi.core]
    exact le_of_lt hgt
  · obtain ⟨h1, h2, h3, _⟩ := rr_dispatch_facts ps0 t0 quantum hq s s' idx use hI hd
    have hidx : idx < s.core.procs.length := by rw [hlen]; exact h1
    have hm : idx ∈ s.queue.pending := by
      have hpop := pending_pop s.queue.buf s.queue.head hd.head_lt
      rw [hd.idx_eq] at hpop
      show idx ∈ IdxQueue.pending ⟨s.queue.buf, s.queue.head⟩
      rw [hpop]; exact List.mem_cons_self _ _
    have harr : (getP s.core.procs idx).arrival_time ≤ s.core.time := by
      rw [(hP.static.2 idx h1).2.1]
      exact hA idx h1 (hI.queue.pend idx hm).2.2
    refine ⟨hadded (by rw [hd.time]; omega), ?_⟩
    rw [hd.procs, hd.timeline, hd.time]
    refine hE.dispatch idx _ _ _ _ hidx ⟨h2, harr⟩ ?_ ?_ (by omega) ?_
    · split <;> rfl
    · rw [(hP.static.2 idx h1).1]; exact hpid idx h1
    · split
      · intro hne
        simp only [run_slice_finished] at hne
        exact absurd h2 hne
      · intro _
        simp only [mark_finished_completion]
        omega

theorem added_arrived_init (ps : List Process) (added : List Bool) (time : Int)
    (h : ∀ i, added.getD i false =
      ((List.replicate (reset_processes ps).length false).getD i false ||
        decide (i < (reset_processes ps).length ∧
          (getP (reset_processes ps) i).arrival_time ≤ time))) :
    AddedArrived (reset_processes ps) added time := by
  intro i _ ht
  rw [h i, getD_replicate_false] at ht
  simp only [Bool.false_or, decide_eq_true_eq] at ht
  exact ht.2

/-- A complete run of `schedule_rr` with what its timeline records about
idleness. -/
theorem rr_events_run (ps : List Process) (fuel : Nat) (quantum : Int) (hq : 1 ≤ quantum)
    (hburst : ∀ p ∈ ps, 1 ≤ p.burst_time) (hrange : ∀ p ∈ ps, p.arrival_time ≤ INT_MAX)
    (hpid : ∀ p ∈ ps, p.pid ≠ -1) (hfuel : fuel_bound ps ≤ fuel) :
    ∃ r time, schedule_rr fuel ps quantum = some r ∧ EventsOk r.procs r.timeline time := by
  obtain ⟨s, hs, _, _⟩ := rr_good ps fuel quantum hq hburst hrange hfuel
  have hrle := reset_arrival_le ps _ hrange
  have h0 : AddedArrived (reset_processes ps) (rr_init ps).added (rr_init ps).core.time :=
    added_arrived_init ps _ _
      (enqueue_arrivals_spec (reset_processes ps) (first_arrival (reset_processes ps)) ⟨[], 0⟩
        (List.replicate (reset_processes ps).length false) (by simp)).2.2
  have := whileLoop_inv (rr_step quantum)
    (fun s => RrInv (reset_processes ps) (first_arrival (reset_processes ps)) s ∧
      AddedArrived (reset_processes ps) s.added s.core.time ∧
      EventsOk s.core.procs s.core.timeline s.core.time)
    (fun a b ⟨h1, h2, h3⟩ hab =>
      ⟨(rr_step_inv _ _ quantum hq hrle a b h1 hab).1,
        rr_events_step _ _ quantum hq hrle (reset_pid_ne ps hpid) a b h1 h2 h3 hab⟩)
    fuel _ s ⟨rr_init_inv ps hburst, h0, events_ok_nil _ _⟩ hs
  exact ⟨⟨s.core.procs, s.core.timeline⟩, s.core.time, by simp [schedule_rr, hs], this.2.2⟩

end Sched

namespace Sched

/-! ## Idle events: MLFQ -/

theorem boost_phase_spec (cfg : MlfqConfig) (s : MlfqState)
    (hlen : s.levels.length = cfg.num_queues.toNat) (hh : HeadsOk s.levels) :
    (mlfq_boost_phase cfg s).levels.length = cfg.num_queues.toNat ∧
      HeadsOk (mlfq_boost_phase cfg s).levels ∧
      List.Perm (all_pending (mlfq_boost_phase cfg s).levels) (all_pending s.levels) := by
  rw [boost_phase_levels]
  split
  · exact mlfq_boost_spec _ _ hlen hh
  · exact ⟨hlen, hh, List.Perm.refl _⟩

theorem mlfq_events_step (cfg : MlfqConfig) (hv : cfg.Valid) (ps0 : List Process) (t0 : Int)
    (hrange : ∀ i, i < ps0.length → (getP ps0 i).arrival_time ≤ INT_MAX)
    (hpid : ∀ i, i < ps0.length → (getP ps0 i).pid ≠ -1)
    (s s' : MlfqState) (hI : MlfqInv cfg ps0 t0 s)
    (hA : AddedArrived ps0 s.added s.core.time)
    (hE : EventsOk s.core.procs s.core.timeline s.core.time)
    (hs : mlfq_step cfg s = some s') :
    AddedArrived ps0 s'.added s'.core.time ∧
      EventsOk s'.core.procs s'.core.timeline s'.core.time := by
  have hP := hI.procs
  have hlen := hP.static.1
  have hN := hI.count
  have hal : s.added.length = s.core.procs.length := by rw [hI.queue.added_len, hlen]
  obtain ⟨hv1, hv2, hv3⟩ := hv
  have hnq : 0 < cfg.num_queues.toNat := by omega
  obtain ⟨hb1, hb2, hb3⟩ := boost_phase_spec cfg s hI.levels_len hI.heads
  have hadded : ∀ (time' : Int) (levels : List IdxQueue), 0 < levels.length → HeadsOk levels →
      s.core.time ≤ time' →
      AddedArrived ps0 (mlfq_enqueue_arrivals s.core.procs time' levels s.added).2 time' := by
    intro time' levels h0 hh hle i hi ht
    obtain ⟨_, _, _, _, m5⟩ := mlfq_enqueue_spec s.core.procs time' levels s.added h0 hh hal
    rw [m5 i] at ht
    simp only [Bool.or_eq_true, decide_eq_true_eq] at ht
    rcases ht with ht | ⟨_, ht⟩
    · have := hA i hi ht; omega
    · rw [(hP.static.2 i hi).2.1] at ht; exact ht
  rcases mlfq_step_cases cfg s s' hs with hi | ⟨L, idx, use, hd⟩
  · have hex : ∃ i, i < s.core.procs.length ∧ (getP s.core.procs i).finished = 0 :=
      (unfinishedCount_pos_iff _).1 (by have := hi.in_loop; omega)
    have hnil : all_pending s.levels = [] := by
      rcases mlfq_find_level_spec _ _ hb1 hb2 with ⟨_, h⟩ | ⟨l, h, _⟩
      · rw [h] at hb3; exact List.Perm.eq_nil hb3.symm
      · rw [hi.empty] at h; exact absurd h (by simp)
    have hnone : ∀ j, j < s.core.procs.length → ¬ eligible (getP s.core.procs j) s.core.time := by
      intro j hj ⟨hf, ha⟩
      rw [hlen] at hj
      by_cases hadj : s.added.getD j false = true
      · have hm := hI.queue.queued j hj hf hadj
        rw [hnil] at hm
        exact absurd hm (List.not_mem_nil _)
      · have := (hI.queue.arrived j hj (by simpa using hadj)).2
        omega
    have hle : ∀ i, i < s.core.procs.length → (getP s.core.procs i).arrival_time ≤ INT_MAX := by
      intro i hi
      rw [hlen] at hi
      rw [(hP.static.2 i hi).2.1]; exact hrange i hi
    obtain ⟨hgt, _⟩ := idle_progress _ _ hle hex hnone
    have hE' := hE.idle_branch hP hrange hex hnone
    rw [← hi.core] at hE'
    refine ⟨?_, hE'⟩
    rw [hi.added, hi.core]
    exact hadded _ _ (by rw [hb1]; exact hnq) hb2 (le_of_lt hgt)
  · obtain ⟨hL, hhead⟩ := mlfq_find_level_lt _ _ _ hd.level
    have hLl : L < (mlfq_boost_phase cfg s).levels.length := by rw [hb1]; exact hL
    have hm : idx ∈ all_pending s.levels := by
      have hp := all_pending_pop (mlfq_boost_phase cfg s).levels L hLl hhead
      have : idx ∈ all_pending (mlfq_boost_phase cfg s).levels := by
        refine hp.symm.subset ?_
        rw [← hd.idx_eq]
        exact List.mem_cons_self _ _
      exact hb3.subset this
    obtain ⟨h1, h2, h3⟩ := hI.queue.pend idx hm
    have hidx : idx < s.core.procs.length := by rw [hlen]; exact h1
    have hrem := (hP.unfin idx h1 h2).1
    have hquant : 1 ≤ cfg.quantums.getD L 0 := by
      have hLq : L < cfg.quantums.length := by rw [hv2]; exact hL
      rw [List.getD_eq_getElem _ _ hLq]
      exact hv3 _ (List.getElem_mem _)
    have huse : 1 ≤ use := by
      rw [hd.use_eq]
      exact (slice_bounds _ _ hrem hquant).1
    have harr : (getP s.core.procs idx).arrival_time ≤ s.core.time := by
      rw [(hP.static.2 idx h1).2.1]
      exact hA idx h1 h3
    have hpopl : 0 < (mlfq_pop (mlfq_boost_phase cfg s).levels L).length := by
      unfold mlfq_pop
      rw [List.length_set, hb1]; exact hnq
    have hpoph : HeadsOk (mlfq_pop (mlfq_boost_phase cfg s).levels L) := by
      unfold mlfq_pop
      exact hb2.set_level L _ (by simpa using hhead)
    refine ⟨?_, ?_⟩
    · rw [hd.added, hd.time]
      exact hadded _ _ hpopl hpoph (by omega)
    · rw [hd.procs, hd.timeline, hd.time]
      refine hE.dispatch idx _ _ _ _ hidx ⟨h2, harr⟩ ?_ ?_ (by omega) ?_
      · split <;> rfl
      · rw [(hP.static.2 idx h1).1]; exact hpid idx h1
      · split
        · intro _
          simp only [mark_finished_completion]
          omega
        · intro hne
          simp only [run_slice_finished] at hne
          exact absurd h2 hne

/-- A complete run of `schedule_mlfq` with what its timeline records about
idleness. -/
theorem mlfq_events_run (cfg : MlfqConfig) (hv : cfg.Valid) (ps : List Process) (fuel : Nat)
    (hburst : ∀ p ∈ ps, 1 ≤ p.burst_time) (hrange : ∀ p ∈ ps, p.arrival_time ≤ INT_MAX)
    (hpid : ∀ p ∈ ps, p.pid ≠ -1) (hfuel : fuel_bound ps ≤ fuel) :
    ∃ r time, schedule_mlfq fuel ps cfg = some r ∧ EventsOk r.procs r.timeline time := by
  have hrle := reset_arrival_le ps _ hrange
  obtain ⟨s, hs, _, _⟩ := whileLoop_terminates (mlfq_step cfg)
    (MlfqInv cfg (reset_processes ps) (first_arrival (reset_processes ps))) mlfq_measure
    (mlfq_step_inv cfg hv _ _ hrle)
    fuel _ (mlfq_init_inv cfg hv ps hburst)
    (by
      have h1 : workLeft (mlfq_init cfg ps).core.procs = total_burst ps := workLeft_reset ps
      simp only [mlfq_measure, h1]
      unfold fuel_bound at hfuel
      split <;> omega)
  have hnq : 0 < cfg.num_queues.toNat := by have := hv.1; omega
  have hh : HeadsOk (List.replicate cfg.num_queues.toNat (⟨[], 0⟩ : IdxQueue)) := by
    intro q hq
    rw [List.eq_of_mem_replicate hq]
    exact Nat.le_refl _
  have h0 : AddedArrived (reset_processes ps) (mlfq_init cfg ps).added
      (mlfq_init cfg ps).core.time :=
    added_arrived_init ps _ _
      (mlfq_enqueue_spec (reset_processes ps) (first_arrival (reset_processes ps))
        (List.replicate cfg.num_queues.toNat ⟨[], 0⟩)
        (List.replicate (reset_processes ps).length false) (by simpa using hnq) hh
        (by simp)).2.2.2.2
  have := whileLoop_inv (mlfq_step cfg)
    (fun s => MlfqInv cfg (reset_processes ps) (first_arrival (reset_processes ps)) s ∧
      AddedArrived (reset_processes ps) s.added s.core.time ∧
      EventsOk s.core.procs s.core.timeline s.core.time)
    (fun a b ⟨h1, h2, h3⟩ hab =>
      ⟨(mlfq_step_inv cfg hv _ _ hrle a b h1 hab).1,
        mlfq_events_step cfg hv _ _ hrle (reset_pid_ne ps hpid) a b h1 h2 h3 hab⟩)
    fuel _ s ⟨mlfq_init_inv cfg hv ps hburst, h0, events_ok_nil _ _⟩ hs
  exact ⟨⟨s.core.procs, s.core.timeline⟩, s.core.time, by simp [schedule_mlfq, hs], this.2.2⟩

end Sched

namespace Sched

/-! ## Idle events: FIFO -/

theorem fifo_events_body (ps0 : List Process) (t0 : Int) (idx : List Nat) (k : Nat) (s : Core)
    (hidx : idx.getD k 0 < ps0.length)
    (hburst : ∀ i, i < ps0.length → 1 ≤ (getP ps0 i).burst_time)
    (hpid : ∀ i, i < ps0.length → (getP ps0 i).pid ≠ -1)
    (hP : ProcInv ps0 t0 s.procs s.time)
    (hunf : (getP s.procs (idx.getD k 0)).finished = 0)
    (hmin : ∀ j, j < ps0.length → (getP s.procs j).finished = 0 →
      (getP ps0 (idx.getD k 0)).arrival_time ≤ (getP ps0 j).arrival_time)
    (hE : EventsOk s.procs s.timeline s.time) :
    EventsOk (fifo_body idx k s).procs (fifo_body idx k s).timeline (fifo_body idx k s).time ∧
      ∀ j, j ≠ idx.getD k 0 → getP (fifo_body idx k s).procs j = getP s.procs j := by
  have hlen := hP.static.1
  have hil : idx.getD k 0 < s.procs.length := by rw [hlen]; exact hidx
  obtain ⟨e1, e2, e3⟩ := hP.static.2 _ hidx
  have hb := hburst _ hidx
  have hp := hpid _ hidx
  refine ⟨?_, ?_⟩
  · unfold fifo_body
    generalize idx.getD k 0 = i at *
    by_cases hlt : s.time < (getP s.procs i).arrival_time
    · simp only [hlt, if_true]
      have h1 : EventsOk s.procs
          (push_event s.timeline s.time (-1) ((getP s.procs i).arrival_time - s.time))
          (getP s.procs i).arrival_time := by
        refine hE.push_idle _ hlt ?_ ⟨i, hil, hunf, rfl⟩ ?_
        · intro j hj hjf
          exact (hP.fin j (by rw [← hlen]; exact hj) hjf).2.2.2.1
        · intro j hj hjf
          rw [hlen] at hj
          rw [e2, (hP.static.2 j hj).2.1]
          exact hmin j hj hjf
      refine h1.dispatch i _ _ _ _ hil ⟨hunf, le_refl _⟩ rfl (by rw [e1]; exact hp)
        (by omega) ?_
      intro _
      simp only [run_to_completion]
      omega
    · simp only [hlt, if_false]
      refine hE.dispatch i _ _ _ _ hil ⟨hunf, by omega⟩ rfl (by rw [e1]; exact hp)
        (by omega) ?_
      intro _
      simp only [run_to_completion]
      omega
  · intro j hj
    unfold fifo_body
    exact getP_set_ne _ _ _ _ (Ne.symm hj)

theorem fifo_sort_inj (procs : List Process) (a b : Nat) (ha : a < procs.length)
    (hb : b < procs.length) (h : (fifo_sort procs).getD a 0 = (fifo_sort procs).getD b 0) :
    a = b := by
  obtain ⟨hl, hp, _⟩ := fifo_sort_spec procs
  have hnd : (fifo_sort procs).Nodup := hp.nodup_iff.2 (List.nodup_range _)
  have ha' : a < (fifo_sort procs).length := by omega
  have hb' : b < (fifo_sort procs).length := by omega
  rw [List.getD_eq_getElem _ _ ha', List.getD_eq_getElem _ _ hb'] at h
  exact (hnd.getElem_inj_iff).1 h

theorem fifo_sort_arrival_le (procs : List Process) (a b : Nat) (hab : a < b)
    (hb : b < procs.length) :
    (getP procs ((fifo_sort procs).getD a 0)).arrival_time ≤
      (getP procs ((fifo_sort procs).getD b 0)).arrival_time := by
  obtain ⟨hl, _, _⟩ := fifo_sort_spec procs
  have hpw := fifo_sort_pairwise procs
  rw [List.pairwise_iff_getElem] at hpw
  have ha' : a < (fifo_sort procs).length := by omega
  have hb' : b < (fifo_sort procs).length := by omega
  have := hpw a b ha' hb' hab
  rw [List.getD_eq_getElem _ _ ha', List.getD_eq_getElem _ _ hb']
  rcases this with h | ⟨h, _⟩ <;> omega

/-- The run of `schedule_fifo` with what its timeline records about idleness. -/
theorem fifo_events_run (ps : List Process) (hburst : ∀ p ∈ ps, 1 ≤ p.burst_time)
    (hpid : ∀ p ∈ ps, p.pid ≠ -1) :
    ∃ time, EventsOk (schedule_fifo ps).procs (schedule_fifo ps).timeline time := by
  have hb := reset_burst ps hburst
  obtain ⟨hl, hr⟩ := StaticEq.reset ps
  have key := forLoop_inv
    (fun k (s : Core) =>
      ProcInv (reset_processes ps) (first_arrival (reset_processes ps)) s.procs s.time ∧
      Contig (first_arrival (reset_processes ps)) s.timeline s.time ∧
      (∀ j, j < k →
        (getP s.procs ((fifo_sort (reset_processes ps)).getD j 0)).finished ≠ 0) ∧
      (∀ m, k ≤ m → m < (reset_processes ps).length →
        (getP s.procs ((fifo_sort (reset_processes ps)).getD m 0)).finished = 0) ∧
      EventsOk s.procs s.timeline s.time)
    (fifo_body (fifo_sort (reset_processes ps)))
    ⟨reset_processes ps, [], first_arrival (reset_processes ps)⟩
    (reset_processes ps).length
    ⟨ProcInv.init ps hburst _, rfl, fun j hj => by omega,
      fun m _ hm => by
        have h1 := fifo_sort_lt (reset_processes ps) m hm
        rw [hl] at h1
        exact (hr _ h1).2.2.2.2.2.2,
      events_ok_nil _ _⟩
    (by
      intro k s hk ⟨h1, h2, h3, h4, h5⟩
      have hik := fifo_sort_lt _ k hk
      obtain ⟨a, b, c, d⟩ := fifo_body_inv _ _ (fifo_sort (reset_processes ps)) k s hik hb h1 h2
      have hmin : ∀ j, j < (reset_processes ps).length → (getP s.procs j).finished = 0 →
          (getP (reset_processes ps) ((fifo_sort (reset_processes ps)).getD k 0)).arrival_time ≤
            (getP (reset_processes ps) j).arrival_time := by
        intro j hj hjf
        obtain ⟨m, hm, rfl⟩ := fifo_sort_surj _ j hj
        rcases Nat.lt_trichotomy m k with hmk | hmk | hmk
        · exact absurd hjf (h3 m hmk)
        · subst hmk; exact le_refl _
        · exact fifo_sort_arrival_le _ k m hmk hm
      obtain ⟨e, f⟩ := fifo_events_body _ _ (fifo_sort (reset_processes ps)) k s hik hb
        (reset_pid_ne ps hpid) h1 (h4 k (le_refl _) hk) hmin h5
      refine ⟨a, b, ?_, ?_, e⟩
      · intro j hj
        by_cases hjk : j = k
        · subst hjk; exact c
        · exact d _ (h3 j (by omega))
      · intro m hm1 hm2
        rw [f _ (fun h => by
          have := fifo_sort_inj _ m k hm2 hk h
          omega)]
        exact h4 m (by omega) hm2)
  exact ⟨_, key.2.2.2.2⟩

end Sched

namespace Sched

/-! ## The fairness index -/

theorem wrap32_of_fits (x : Int) (h0 : 0 ≤ x) (h1 : x ≤ INT_MAX) : wrap32 x = x := by
  unfold wrap32
  unfold INT_MAX at h1
  omega

theorem sum_sq_diff (x : Int) (l : List Int) :
    (l.map fun y => (x - y) ^ 2).sum =
      (l.length : Int) * x ^ 2 - 2 * x * l.sum + (l.map fun y => y ^ 2).sum := by
  induction l with
  | nil => simp
  | cons y l ih =>
    simp only [List.map_cons, List.sum_cons, List.length_cons, ih]
    push_cast
    ring

/-- The gap in the Cauchy-Schwarz inequality for a list of integers. -/
theorem sq_sum_gap (x : Int) (l : List Int) :
    ((x :: l).length : Int) * ((x :: l).map fun y => y ^ 2).sum - (x :: l).sum ^ 2 =
      ((l.length : Int) * (l.map fun y => y ^ 2).sum - l.sum ^ 2) +
        (l.map fun y => (x - y) ^ 2).sum := by
  rw [sum_sq_diff]
  simp only [List.map_cons, List.sum_cons, List.length_cons]
  push_cast
  ring

theorem sum_sq_nonneg (l : List Int) (f : Int → Int) : 0 ≤ (l.map fun y => f y ^ 2).sum := by
  induction l with
  | nil => simp
  | cons y l ih =>
    simp only [List.map_cons, List.sum_cons]
    have := sq_nonneg (f y)
    omega

theorem sum_sq_eq_zero (l : List Int) (f : Int → Int) :
    (l.map fun y => f y ^ 2).sum = 0 ↔ ∀ y ∈ l, f y = 0 := by
  induction l with
  | nil => simp
  | cons y l ih =>
    simp only [List.map_cons, List.sum_cons, List.mem_cons, forall_eq_or_imp]
    have h1 := sq_nonneg (f y)
    have h2 := sum_sq_nonneg l f
    constructor
    · intro h
      have hy : f y ^ 2 = 0 := by omega
      exact ⟨by simpa using hy, ih.1 (by omega)⟩
    · rintro ⟨hy, hl⟩
      rw [hy, ih.2 hl]
      simp

/-- Cauchy-Schwarz for a list of integers, with its equality case. -/
theorem sq_sum_le (l : List Int) :
    l.sum ^ 2 ≤ (l.length : Int) * (l.map fun y => y ^ 2).sum ∧
      (l.sum ^ 2 = (l.length : Int) * (l.map fun y => y ^ 2).sum ↔
        ∀ a ∈ l, ∀ b ∈ l, a = b) := by
  induction l with
  | nil => simp
  | cons x l ih =>
    have hgap := sq_sum_gap x l
    have hnn := sum_sq_nonneg l (fun y => x - y)
    obtain ⟨ih1, ih2⟩ := ih
    refine ⟨by omega, ?_⟩
    constructor
    · intro h
      have h0 : (l.map fun y => (x - y) ^ 2).sum = 0 := by omega
      have hl : l.sum ^ 2 = (l.length : Int) * (l.map fun y => y ^ 2).sum := by omega
      have hx : ∀ y ∈ l, x - y = 0 := (sum_sq_eq_zero l (fun y => x - y)).1 h0
      have hall := ih2.1 hl
      intro a ha b hb
      simp only [List.mem_cons] at ha hb
      rcases ha with rfl | ha <;> rcases hb with rfl | hb
      · rfl
      · have := hx b hb; omega
      · have := hx a ha; omega
      · exact hall a ha b hb
    · intro h
      have hl := ih2.2 (fun a ha b hb =>
        h a (List.mem_cons_of_mem _ ha) b (List.mem_cons_of_mem _ hb))
      have h0 : (l.map fun y => (x - y) ^ 2).sum = 0 :=
        (sum_sq_eq_zero l (fun y => x - y)).2 (fun y hy => by
          have := h x (List.mem_cons_self _ _) y (List.mem_cons_of_mem _ hy)
          omega)
      omega

end Sched

namespace Sched

/-! ## The accumulators of `calculate_metrics` -/

theorem metrics_update_turnaround (p : Process) (h : 0 ≤ p.completion_time) :
    (metrics_update p).turnaround_time = turnaround p ∧
      (metrics_update p).waiting_time = waiting p ∧
      (metrics_update p).burst_time = p.burst_time ∧
      (if (metrics_update p).response_time ≥ 0 then (metrics_update p).response_time else 0) =
        response_share p := by
  unfold metrics_update
  rw [if_pos (ge_iff_le.2 h)]
  refine ⟨rfl, rfl, rfl, ?_⟩
  unfold response_share
  simp only
  by_cases hs : 0 ≤ p.start_time
  · by_cases hr : 0 ≤ p.start_time - p.arrival_time
    · simp only [ge_iff_le, hs, hr, if_true, and_self]
    · simp only [ge_iff_le, hs, hr, if_true, if_false, and_false]
  · simp only [ge_iff_le, hs, if_false, false_and]
    rfl

theorem metrics_fold (ps : List Process) :
    ∀ a : MetricsAcc,
      (ps.foldl metrics_accumulate a).sum_tat =
          a.sum_tat + ((completed_procs ps).map turnaround).sum ∧
        (ps.foldl metrics_accumulate a).sum_wt =
          a.sum_wt + ((completed_procs ps).map waiting).sum ∧
        (ps.foldl metrics_accumulate a).sum_rt =
          a.sum_rt + ((completed_procs ps).map response_share).sum ∧
        (ps.foldl metrics_accumulate a).completed = a.completed + (completed_procs ps).length ∧
        (ps.foldl metrics_accumulate a).sum_x =
          a.sum_x + ((completed_procs ps).map turnaround).sum ∧
        (ps.foldl metrics_accumulate a).sum_x2 =
          a.sum_x2 +
            ((completed_procs ps).map fun p => wrap32 (turnaround p * turnaround p)).sum := by
  induction ps with
  | nil => intro a; simp [completed_procs]
  | cons p ps ih =>
    intro a
    obtain ⟨h1, h2, h3, h4, h5, h6⟩ := ih (metrics_accumulate a p)
    simp only [List.foldl_cons]
    rw [h1, h2, h3, h4, h5, h6]
    by_cases hc : 0 ≤ p.completion_time
    · obtain ⟨u1, u2, _, u4⟩ := metrics_update_turnaround p hc
      have hcp : completed_procs (p :: ps) = p :: completed_procs ps := by
        simp [completed_procs, hc]
      simp only [hcp, List.map_cons, List.sum_cons, List.length_cons, metrics_accumulate,
        if_pos (ge_iff_le.2 hc), u1, u2, u4]
      refine ⟨by ring, by ring, by ring, by omega, by ring, by ring⟩
    · have hcp : completed_procs (p :: ps) = completed_procs ps := by
        simp [completed_procs, hc]
      have hc' : ¬ p.completion_time ≥ 0 := hc
      simp [hcp, metrics_accumulate, hc']

theorem metrics_sums_spec (ps : List Process) :
    (metrics_sums ps).sum_tat = ((completed_procs ps).map turnaround).sum ∧
      (metrics_sums ps).sum_wt = ((completed_procs ps).map waiting).sum ∧
      (metrics_sums ps).sum_rt = ((completed_procs ps).map response_share).sum ∧
      (metrics_sums ps).completed = (completed_procs ps).length ∧
      (metrics_sums ps).sum_x = ((completed_procs ps).map turnaround).sum ∧
      (metrics_sums ps).sum_x2 =
        ((completed_procs ps).map fun p => wrap32 (turnaround p * turnaround p)).sum := by
  obtain ⟨h1, h2, h3, h4, h5, h6⟩ := metrics_fold ps ⟨0, 0, 0, 0, 0, 0, 0⟩
  unfold metrics_sums
  rw [h1, h2, h3, h4, h5, h6]
  simp

theorem completed_procs_all (ps : List Process) (h : ∀ p ∈ ps, 0 ≤ p.completion_time) :
    completed_procs ps = ps := by
  unfold completed_procs
  rw [List.filter_eq_self]
  intro p hp
  simpa using h p hp

theorem sum_wrap32_squares (ps : List Process) (h : ∀ p ∈ ps, SquareFits p) :
    (ps.map fun p => wrap32 (turnaround p * turnaround p)).sum =
      ((ps.map turnaround).map fun x => x ^ 2).sum := by
  induction ps with
  | nil => simp
  | cons p ps ih =>
    simp only [List.map_cons, List.sum_cons, List.map_map] at ih ⊢
    rw [ih (fun q hq => h q (List.mem_cons_of_mem _ hq))]
    have hp := h p (List.mem_cons_self _ _)
    unfold SquareFits at hp
    rw [← sq, wrap32_of_fits _ (sq_nonneg _) hp]

end Sched

namespace Sched

/-! ## Policies do not read the priority -/

theorem getP_erase (procs : List Process) (i : Nat) :
    getP (erase_all procs) i = erase_priority (getP procs i) := by
  by_cases h : i < procs.length
  · exact getP_map procs erase_priority i h
  · simp only [getP, erase_all]
    rw [List.getD_eq_default _ _ (by simpa using h), List.getD_eq_default _ _ (by omega)]
    rfl

@[simp]
theorem erase_all_length (procs : List Process) : (erase_all procs).length = procs.length := by
  simp [erase_all]

theorem erase_all_set (procs : List Process) (i : Nat) (p : Process) :
    (erase_all procs).set i (erase_priority p) = erase_all (procs.set i p) := by
  simp [erase_all, List.map_set]

theorem first_arrival_erase (procs : List Process) :
    first_arrival (erase_all procs) = first_arrival procs := by
  simp only [first_arrival, erase_all, List.foldl_map]
  rfl

theorem next_arrival_erase (procs : List Process) :
    next_arrival (erase_all procs) = next_arrival procs := by
  simp only [next_arrival, erase_all, List.foldl_map]
  rfl

theorem all_done_erase (procs : List Process) :
    all_done (erase_all procs) = all_done procs := by
  simp only [all_done, erase_all, List.all_map]
  rfl

theorem reset_erase (procs : List Process) :
    reset_processes (erase_all procs) = erase_all (reset_processes procs) := by
  simp only [reset_processes, erase_all, List.map_map]
  rfl

theorem pick_best_erase (better : Process → Process → Prop) [DecidableRel better]
    (hb : ∀ p q, better (erase_priority p) (erase_priority q) ↔ better p q)
    (procs : List Process) (time : Int) :
    pick_best better (erase_all procs) time = pick_best better procs time := by
  unfold pick_best
  rw [erase_all_length]
  congr 1
  funext i best
  simp only [getP_erase, hb]
  rfl

theorem run_to_completion_erase (p : Process) (t : Int) :
    run_to_completion (erase_priority p) t = erase_priority (run_to_completion p t) := rfl

theorem run_slice_erase (p : Process) (t u : Int) :
    run_slice (erase_priority p) t u = erase_priority (run_slice p t u) := rfl

theorem mark_finished_erase (p : Process) (t : Int) :
    mark_finished (erase_priority p) t = erase_priority (mark_finished p t) := rfl

theorem erase_fields (p : Process) :
    (erase_priority p).pid = p.pid ∧ (erase_priority p).arrival_time = p.arrival_time ∧
      (erase_priority p).burst_time = p.burst_time ∧
      (erase_priority p).remaining_time = p.remaining_time ∧
      (erase_priority p).start_time = p.start_time ∧
      (erase_priority p).completion_time = p.completion_time ∧
      (erase_priority p).finished = p.finished := ⟨rfl, rfl, rfl, rfl, rfl, rfl, rfl⟩

theorem idle_until_erase (c : Core) (t : Int) : idle_until c.erase t = (idle_until c t).erase := rfl

theorem sjf_step_erase (s : SjfState) : sjf_step s.erase = (sjf_step s).map SjfState.erase := by
  unfold sjf_step
  simp only [SjfState.erase, Core.erase, erase_all_length,
    pick_best_erase sjf_better (fun _ _ => Iff.rfl), next_arrival_erase, getP_erase]
  split
  · split
    · rfl
    · simp only [Option.map_some', Option.some.injEq, SjfState.erase, Core.erase,
        ← erase_all_set, run_to_completion_erase, (erase_fields _).1, (erase_fields _).2.2.1]
  · rfl

theorem whileLoop_map {σ : Type} (step : σ → Option σ) (E : σ → σ)
    (h : ∀ s, step (E s) = (step s).map E) :
    ∀ (fuel : Nat) (s : σ), whileLoop step fuel (E s) = (whileLoop step fuel s).map E := by
  intro fuel
  induction fuel with
  | zero => intro s; rfl
  | succ f ih =>
    intro s
    simp only [whileLoop, h s]
    cases step s with
    | none => rfl
    | some s' => exact ih s'

theorem forLoop_map {σ τ : Type} (E : σ → τ) (body : Nat → σ → σ) (body' : Nat → τ → τ)
    (h : ∀ k s, body' k (E s) = E (body k s)) (n : Nat) (init : σ) :
    forLoop n body' (E init) = E (forLoop n body init) := by
  induction n with
  | zero => rfl
  | succ k ih => simp only [forLoop, ih, h]

theorem stcf_step_erase (s : StcfState) :
    stcf_step s.erase = (stcf_step s).map StcfState.erase := by
  unfold stcf_step
  simp only [StcfState.erase, Core.erase, erase_all_length,
    pick_best_erase stcf_better (fun _ _ => Iff.rfl), next_arrival_erase, getP_erase,
    run_slice_erase, mark_finished_erase, erase_all_set, (erase_fields _).1,
    (erase_fields _).2.2.2.1]
  split
  · split
    · rfl
    · split <;> rfl
  · rfl

theorem enqueue_arrivals_erase (procs : List Process) (time : Int) (q : IdxQueue)
    (added : List Bool) :
    enqueue_arrivals (erase_all procs) time q added = enqueue_arrivals procs time q added := by
  unfold enqueue_arrivals
  rw [erase_all_length]
  congr 1
  funext i qa
  simp only [getP_erase, (erase_fields _).2.1]

theorem mlfq_enqueue_erase (procs : List Process) (time : Int) (levels : List IdxQueue)
    (added : List Bool) :
    mlfq_enqueue_arrivals (erase_all procs) time levels added =
      mlfq_enqueue_arrivals procs time levels added := by
  unfold mlfq_enqueue_arrivals
  rw [enqueue_arrivals_erase]

theorem rr_step_erase (quantum : Int) (s : RrState) :
    rr_step quantum s.erase = (rr_step quantum s).map RrState.erase := by
  unfold rr_step
  simp only [RrState.erase, Core.erase, all_done_erase, idle_until, next_arrival_erase,
    enqueue_arrivals_erase, getP_erase, run_slice_erase, mark_finished_erase, erase_all_set,
    (erase_fields _).1, (erase_fields _).2.2.2.1, apply_ite (Option.map RrState.erase),
    Option.map_some', Option.map_none']

theorem rr_init_erase (ps : List Process) : rr_init (erase_all ps) = (rr_init ps).erase := by
  simp only [rr_init, reset_erase, first_arrival_erase, enqueue_arrivals_erase, erase_all_length,
    RrState.erase, Core.erase]

theorem mlfq_step_erase (cfg : MlfqConfig) (s : MlfqState) :
    mlfq_step cfg s.erase = (mlfq_step cfg s).map MlfqState.erase := by
  unfold mlfq_step
  simp only [MlfqState.erase, Core.erase, erase_all_length, idle_until, next_arrival_erase,
    mlfq_enqueue_erase, getP_erase, run_slice_erase, mark_finished_erase, erase_all_set,
    (erase_fields _).1, (erase_fields _).2.2.2.1, apply_ite (Option.map MlfqState.erase),
    Option.map_some', Option.map_none']
  split
  · split <;>
      simp only [apply_ite (Option.map MlfqState.erase), Option.map_some', Option.map_none',
        MlfqState.erase, Core.erase]
  · rfl

theorem mlfq_init_erase (cfg : MlfqConfig) (ps : List Process) :
    mlfq_init cfg (erase_all ps) = (mlfq_init cfg ps).erase := by
  simp only [mlfq_init, reset_erase, first_arrival_erase, mlfq_enqueue_erase, erase_all_length,
    MlfqState.erase, Core.erase]

theorem fifo_exchange_erase (procs : List Process) (i j : Nat) (idx : List Nat) :
    fifo_exchange (erase_all procs) i j idx = fifo_exchange procs i j idx := by
  unfold fifo_exchange
  have h : fifo_gt (erase_all procs) (idx.getD i 0) (idx.getD j 0) ↔
      fifo_gt procs (idx.getD i 0) (idx.getD j 0) := by
    simp only [fifo_gt, getP_erase, (erase_fields _).1, (erase_fields _).2.1]
  by_cases hg : fifo_gt procs (idx.getD i 0) (idx.getD j 0)
  · rw [if_pos hg, if_pos (h.2 hg)]
  · rw [if_neg hg, if_neg (fun hc => hg (h.1 hc))]

theorem fifo_sort_erase (procs : List Process) :
    fifo_sort (erase_all procs) = fifo_sort procs := by
  unfold fifo_sort fifo_sort_inner
  simp only [erase_all_length, fifo_exchange_erase]

theorem fifo_body_erase (idx : List Nat) (k : Nat) (s : Core) :
    fifo_body idx k s.erase = (fifo_body idx k s).erase := by
  unfold fifo_body
  simp only [Core.erase, getP_erase, run_to_completion_erase, erase_all_set, (erase_fields _).1,
    (erase_fields _).2.1, (erase_fields _).2.2.1]
  split <;> rfl

theorem schedule_fifo_erase (ps : List Process) :
    schedule_fifo (erase_all ps) = (schedule_fifo ps).erase := by
  unfold schedule_fifo
  simp only [reset_erase, fifo_sort_erase, first_arrival_erase, erase_all_length]
  have h := forLoop_map Core.erase (fifo_body (fifo_sort (reset_processes ps)))
    (fifo_body (fifo_sort (reset_processes ps)))
    (fun k s => fifo_body_erase _ k s) (reset_processes ps).length
    ⟨reset_processes ps, [], first_arrival (reset_processes ps)⟩
  simp only [Core.erase] at h
  rw [h]
  rfl

/-- Every policy commutes with blanking out the priorities. -/
theorem run_policy_erase (pol : Policy) (fuel : Nat) (ps : List Process) :
    run_policy pol fuel (erase_all ps) = (run_policy pol fuel ps).map SchedResult.erase := by
  cases pol with
  | fifo => simp only [run_policy, schedule_fifo_erase, Option.map_some']
  | sjf =>
    simp only [run_policy, schedule_sjf, reset_erase, first_arrival_erase]
    have h := whileLoop_map sjf_step SjfState.erase sjf_step_erase fuel
      ⟨⟨reset_processes ps, [], first_arrival (reset_processes ps)⟩, 0⟩
    simp only [SjfState.erase, Core.erase] at h
    rw [h, Option.map_map, Option.map_map]
    rfl
  | stcf =>
    simp only [run_policy, schedule_stcf, reset_erase, first_arrival_erase]
    have h := whileLoop_map stcf_step StcfState.erase stcf_step_erase fuel
      ⟨⟨reset_processes ps, [], first_arrival (reset_processes ps)⟩, 0, none, -1⟩
    simp only [StcfState.erase, Core.erase] at h
    rw [h, Option.map_map, Option.map_map]
    rfl
  | rr quantum =>
    simp only [run_policy, schedule_rr, rr_init_erase]
    rw [whileLoop_map (rr_step quantum) RrState.erase (rr_step_erase quantum),
      Option.map_map, Option.map_map]
    rfl
  | mlfq cfg =>
    simp only [run_policy, schedule_mlfq, mlfq_init_erase]
    rw [whileLoop_map (mlfq_step cfg) MlfqState.erase (mlfq_step_erase cfg),
      Option.map_map, Option.map_map]
    rfl

end Sched

namespace Sched

/-! ## Policies do not write the input fields -/

theorem map_inputs_set (procs : List Process) (i : Nat) (p' : Process)
    (h : inputs p' = inputs (getP procs i)) :
    (procs.set i p').map inputs = procs.map inputs := by
  by_cases hi : i < procs.length
  · apply List.ext_getElem
    · simp
    · intro k h1 h2
      simp only [List.getElem_map, List.getElem_set]
      split
      · rename_i hik
        subst hik
        rw [h, getP, List.getD_eq_getElem _ _ hi]
      · rfl
  · rw [List.set_eq_of_length_le (by omega)]

theorem inputs_run_to_completion (p : Process) (t : Int) :
    inputs (run_to_completion p t) = inputs p := rfl

theorem inputs_run_slice (p : Process) (t u : Int) : inputs (run_slice p t u) = inputs p := rfl

theorem inputs_mark_finished (p : Process) (t : Int) : inputs (mark_finished p t) = inputs p := rfl

theorem inputs_reset (ps : List Process) :
    (reset_processes ps).map inputs = ps.map inputs := by
  simp only [reset_processes, List.map_map]
  rfl

theorem sjf_step_inputs (s s' : SjfState) (h : sjf_step s = some s') :
    s'.core.procs.map inputs = s.core.procs.map inputs := by
  unfold sjf_step at h
  dsimp only at h
  repeat' split at h
  all_goals first
    | (simp only [Option.some.injEq] at h
       subst h
       simp only [idle_until, map_inputs_set, inputs_run_to_completion, inputs_run_slice,
         inputs_mark_finished])
    | cases h

theorem stcf_step_inputs (s s' : StcfState) (h : stcf_step s = some s') :
    s'.core.procs.map inputs = s.core.procs.map inputs := by
  unfold stcf_step at h
  dsimp only at h
  repeat' split at h
  all_goals first
    | (simp only [Option.some.injEq] at h
       subst h
       simp only [idle_until, map_inputs_set, inputs_run_to_completion, inputs_run_slice,
         inputs_mark_finished])
    | cases h

theorem rr_step_inputs (quantum : Int) (s s' : RrState) (h : rr_step quantum s = some s') :
    s'.core.procs.map inputs = s.core.procs.map inputs := by
  unfold rr_step at h
  dsimp only at h
  repeat' split at h
  all_goals first
    | (simp only [Option.some.injEq] at h
       subst h
       simp only [idle_until, map_inputs_set, inputs_run_to_completion, inputs_run_slice,
         inputs_mark_finished])
    | cases h

theorem mlfq_step_inputs (cfg : MlfqConfig) (s s' : MlfqState) (h : mlfq_step cfg s = some s') :
    s'.core.procs.map inputs = s.core.procs.map inputs := by
  unfold mlfq_step at h
  dsimp only at h
  repeat' split at h
  all_goals first
    | (simp only [Option.some.injEq] at h
       subst h
       simp only [idle_until, map_inputs_set, inputs_run_to_completion, inputs_run_slice,
         inputs_mark_finished])
    | cases h

theorem fifo_body_inputs (idx : List Nat) (k : Nat) (s : Core) :
    (fifo_body idx k s).procs.map inputs = s.procs.map inputs := by
  unfold fifo_body
  simp only [map_inputs_set, inputs_run_to_completion]

/-- Every policy leaves pid, arrival time, burst time and priority of every
process as they were. -/
theorem run_policy_inputs (pol : Policy) (fuel : Nat) (ps : List Process) (r : SchedResult)
    (h : run_policy pol fuel ps = some r) : r.procs.map inputs = ps.map inputs := by
  cases pol with
  | fifo =>
    simp only [run_policy, Option.some.injEq] at h
    subst h
    have key := forLoop_inv (fun (_ : Nat) (s : Core) => s.procs.map inputs = ps.map inputs)
      (fifo_body (fifo_sort (reset_processes ps)))
      ⟨reset_processes ps, [], first_arrival (reset_processes ps)⟩ (reset_processes ps).length
      (inputs_reset ps) (fun k s _ hs => (fifo_body_inputs _ k s).trans hs)
    exact key
  | sjf =>
    simp only [run_policy, schedule_sjf, Option.map_eq_some'] at h
    obtain ⟨s, hs, rfl⟩ := h
    exact whileLoop_inv sjf_step (fun s => s.core.procs.map inputs = ps.map inputs)
      (fun a b ha hab => (sjf_step_inputs a b hab).trans ha) fuel _ s (inputs_reset ps) hs
  | stcf =>
    simp only [run_policy, schedule_stcf, Option.map_eq_some'] at h
    obtain ⟨s, hs, rfl⟩ := h
    exact whileLoop_inv stcf_step (fun s => s.core.procs.map inputs = ps.map inputs)
      (fun a b ha hab => (stcf_step_inputs a b hab).trans ha) fuel _ s (inputs_reset ps) hs
  | rr quantum =>
    simp only [run_policy, schedule_rr, Option.map_eq_some'] at h
    obtain ⟨s, hs, rfl⟩ := h
    exact whileLoop_inv (rr_step quantum) (fun s => s.core.procs.map inputs = ps.map inputs)
      (fun a b ha hab => (rr_step_inputs quantum a b hab).trans ha) fuel _ s
      (inputs_reset ps) hs
  | mlfq cfg =>
    simp only [run_policy, schedule_mlfq, Option.map_eq_some'] at h
    obtain ⟨s, hs, rfl⟩ := h
    exact whileLoop_inv (mlfq_step cfg) (fun s => s.core.procs.map inputs = ps.map inputs)
      (fun a b ha hab => (mlfq_step_inputs cfg a b hab).trans ha) fuel _ s
      (inputs_reset ps) hs

theorem reset_of_inputs (a b : List Process) (h : a.map inputs = b.map inputs) :
    reset_processes a = reset_processes b := by
  have e : ∀ l : List Process, reset_processes l =
      (l.map inputs).map
        (fun t => (⟨t.1, t.2.1, t.2.2.1, t.2.2.2, t.2.2.1, -1, -1, 0, 0, -1, 0⟩ : Process)) := by
    intro l
    simp only [reset_processes, List.map_map]
    rfl
  rw [e a, e b, h]

/-- A policy sees its argument only through `reset_processes`. -/
theorem run_policy_congr (pol : Policy) (fuel : Nat) (a b : List Process)
    (h : reset_processes a = reset_processes b) : run_policy pol fuel a = run_policy pol fuel b := by
  cases pol <;>
    simp only [run_policy, schedule_fifo, schedule_sjf, schedule_stcf, schedule_rr, schedule_mlfq,
      rr_init, mlfq_init, h]

theorem erase_inputs_agree (a b : List Process) (hlen : a.length = b.length)
    (hagree : ∀ i, i < a.length →
      (getP a i).pid = (getP b i).pid ∧ (getP a i).arrival_time = (getP b i).arrival_time ∧
        (getP a i).burst_time = (getP b i).burst_time) :
    (erase_all a).map inputs = (erase_all b).map inputs := by
  apply List.ext_getElem
  · simp [hlen]
  · intro i h1 h2
    have hi : i < a.length := by simpa using h1
    have hj : i < b.length := by omega
    obtain ⟨e1, e2, e3⟩ := hagree i hi
    simp only [getP, List.getD_eq_getElem _ _ hi, List.getD_eq_getElem _ _ hj] at e1 e2 e3
    simp only [erase_all, List.getElem_map, inputs, erase_priority, e1, e2, e3]

end Sched

namespace Sched

/-! ## The history invariant: facts shared by the policies -/

theorem ProcTimes.later {q p : Process} {time time' : Int} (h : ProcTimes q p time)
    (hle : time ≤ time') : ProcTimes q p time' :=
  ⟨h.fresh, fun hs => ⟨(h.started hs).1, by have := (h.started hs).2; omega⟩, h.done⟩

theorem ProcTimes.after_run {q p p' : Process} {time use : Int} (h : ProcTimes q p time)
    (hd : Dispatched p p' time use) (harr : q.arrival_time ≤ time)
    (h0 : 0 ≤ time) : ProcTimes q p' (time + use) := by
  have hst : p'.start_time ≠ -1 := by
    rw [hd.start]
    split
    · omega
    · assumption
  have hstarted : q.arrival_time ≤ p'.start_time ∧
      p'.start_time + (q.burst_time - p'.remaining_time) ≤ time + use := by
    rw [hd.start, hd.remaining]
    by_cases hs : p.start_time = -1
    · rw [if_pos hs]
      have := h.fresh hs
      exact ⟨harr, by omega⟩
    · rw [if_neg hs]
      have := h.started hs
      exact ⟨this.1, by omega⟩
  refine ⟨fun hs => absurd hs hst, fun _ => hstarted, fun hf => ⟨hst, ?_⟩⟩
  obtain ⟨hc, hr⟩ := hd.finish hf
  rw [hc]
  have := hstarted.2
  rw [hr] at this
  omega

theorem durations_append (a b : List TimelineEvent) :
    durations (a ++ b) = durations a + durations b := by
  simp [durations]

/-- A new event of the process appended to its events. -/
theorem ProcHist.with_event {t0 : Int} {q p p' : Process} {E : List TimelineEvent} {time use : Int}
    (h : ProcHist t0 q p E) (hd : Dispatched p p' time use) (pid : Int)
    (ht : t0 ≤ time) : ProcHist t0 q p' (E ++ [⟨time, pid, use⟩]) := by
  refine ⟨?_, ?_, ?_, ?_⟩
  · rw [durations_append, h.work, hd.remaining]
    simp only [durations, List.map_cons, List.map_nil, List.sum_cons, List.sum_nil]
    omega
  · intro h0 hs
    rw [hd.start] at hs
    split at hs
    · omega
    · contradiction
  · intro h0 _
    rw [hd.start]
    by_cases hs : p.start_time = -1
    · rw [if_pos hs, h.fresh h0 hs]
      rfl
    · rw [if_neg hs]
      have := h.started h0 hs
      cases E with
      | nil => simp at this
      | cons e rest => simpa using this
  · intro hf
    rw [(hd.finish hf).1]
    simp

/-- The last event of the process, which ends at the clock value, prolonged
by one tick. -/
theorem ProcHist.prolong {t0 : Int} {q p p' : Process} {E0 : List TimelineEvent}
    {time cs pid d : Int} (h : ProcHist t0 q p (E0 ++ [⟨cs, pid, d⟩]))
    (hd : Dispatched p p' time 1) (hend : cs + d = time) :
    ProcHist t0 q p' (E0 ++ [⟨cs, pid, d + 1⟩]) := by
  have hw := h.work
  rw [durations_append] at hw
  simp only [durations, List.map_cons, List.map_nil, List.sum_cons, List.sum_nil] at hw
  have hne : ∀ h0 : 0 ≤ t0, p.start_time ≠ -1 := by
    intro h0 hs
    have := h.fresh h0 hs
    simp at this
  refine ⟨?_, ?_, ?_, ?_⟩
  · rw [durations_append, hd.remaining]
    simp only [durations, List.map_cons, List.map_nil, List.sum_cons, List.sum_nil]
    omega
  · intro h0 hs
    rw [hd.start, if_neg (hne h0)] at hs
    exact absurd hs (hne h0)
  · intro h0 _
    rw [hd.start, if_neg (hne h0)]
    have := h.started h0 (hne h0)
    cases E0 with
    | nil => simpa using this
    | cons e rest => simpa using this
  · intro hf
    rw [(hd.finish hf).1]
    simp
    omega

theorem events_of_append_one (ps : List Process) (tl : List TimelineEvent) (e : TimelineEvent)
    (i : Nat) :
    events_of ps (tl ++ [e]) i =
      events_of ps tl i ++ (if e.pid = (getP ps i).pid then [e] else []) := by
  unfold events_of
  rw [List.filter_append]
  by_cases h : e.pid = (getP ps i).pid
  · simp [h]
  · simp [h]

theorem KnownPids.push {ps0 : List Process} {tl : List TimelineEvent} (h : KnownPids ps0 tl)
    (e : TimelineEvent)
    (he : 0 ≤ e.duration ∧ (e.pid = -1 ∨ ∃ i, i < ps0.length ∧ e.pid = (getP ps0 i).pid)) :
    KnownPids ps0 (tl ++ [e]) := by
  intro x hx
  rcases List.mem_append.1 hx with hx | hx
  · exact h x hx
  · rw [List.mem_singleton.1 hx]; exact he

theorem arrival_le_max (ps0 : List Process) (i : Nat) (hi : i < ps0.length) :
    (getP ps0 i).arrival_time ≤ maxList (ps0.map (·.arrival_time)) := by
  have hne : ps0.map (·.arrival_time) ≠ [] := by
    intro h
    have h2 := congrArg List.length h
    rw [List.length_map, List.length_nil] at h2
    omega
  exact (maxList_spec _ hne).2 _ (List.mem_map.2 ⟨getP ps0 i, getP_mem ps0 i hi, rfl⟩)

theorem next_arrival_le_max (ps0 procs : List Process) (hs : StaticEq ps0 procs)
    (hle : ∀ i, i < procs.length → (getP procs i).arrival_time ≤ INT_MAX)
    (hex : ∃ i, i < procs.length ∧ (getP procs i).finished = 0) :
    next_arrival procs ≤ maxList (ps0.map (·.arrival_time)) := by
  obtain ⟨i, hi, _, ha⟩ := next_arrival_attained procs hle hex
  rw [hs.1] at hi
  rw [← ha, (hs.2 i hi).2.1]
  exact arrival_le_max ps0 i hi

theorem remaining_sum_set (procs : List Process) (b : Nat) (p' : Process)
    (hb : b < procs.length) :
    remaining_sum (procs.set b p') =
      remaining_sum procs - (getP procs b).remaining_time + p'.remaining_time := by
  unfold remaining_sum
  induction procs generalizing b with
  | nil => simp at hb
  | cons x xs ih =>
    cases b with
    | zero => simp [getP]; ring
    | succ j =>
      have := ih j (by simpa using hb)
      simp only [List.set_cons_succ, List.map_cons, List.sum_cons, this, getP,
        List.getD_cons_succ]
      ring

theorem starts_after_run {procs : List Process} {time : Int}
    (h : ∀ i, i < procs.length →
      (getP procs i).start_time = -1 ∨ (getP procs i).start_time ≤ time)
    (b : Nat) (p' : Process) (use : Int) (hb : b < procs.length) (hu : 0 ≤ use)
    (hd : Dispatched (getP procs b) p' time use) (i : Nat) (hi : i < procs.length) :
    (getP (procs.set b p') i).start_time = -1 ∨
      (getP (procs.set b p') i).start_time ≤ time + use := by
  by_cases hib : b = i
  · subst hib
    rw [getP_set_eq _ _ _ hb, hd.start]
    split
    · exact Or.inr (by omega)
    · rcases h b hb with h1 | h1
      · exact Or.inl h1
      · exact Or.inr (by omega)
  · rw [getP_set_ne _ _ _ _ hib]
    rcases h i hi with h1 | h1
    · exact Or.inl h1
    · exact Or.inr (by omega)

theorem ClockBound.wait_until {ps0 : List Process} {t0 : Int} {procs : List Process}
    {tl : List TimelineEvent} {time : Int} (h : ClockBound ps0 t0 procs tl time) (next : Int)
    (hle : time ≤ next) (hnext : next ≤ maxList (ps0.map (·.arrival_time))) :
    ClockBound ps0 t0 procs (tl ++ [⟨time, -1, next - time⟩]) next := by
  refine ⟨?_, h.work, fun _ => ?_, fun i hi => ?_⟩
  · have := h.elapsed
    rw [durations_append]
    simp only [durations, List.map_cons, List.map_nil, List.sum_cons, List.sum_nil] at this ⊢
    omega
  · have := h.work
    unfold last_instant
    omega
  · rcases h.starts i hi with h1 | h1
    · exact Or.inl h1
    · exact Or.inr (by omega)

theorem ClockBound.busy {ps0 : List Process} {t0 : Int} {procs : List Process}
    {tl : List TimelineEvent} {time : Int} (h : ClockBound ps0 t0 procs tl time)
    (b : Nat) (p' : Process) (pid use : Int) (hb : b < procs.length) (hu : 0 ≤ use)
    (hd : Dispatched (getP procs b) p' time use) :
    ClockBound ps0 t0 (procs.set b p') (tl ++ [⟨time, pid, use⟩]) (time + use) := by
  have hs := remaining_sum_set procs b p' hb
  have hr := hd.remaining
  refine ⟨?_, ?_, fun h0 => ?_, fun i hi => ?_⟩
  · have := h.elapsed
    rw [durations_append]
    simp only [durations, List.map_cons, List.map_nil, List.sum_cons, List.sum_nil] at this ⊢
    omega
  · have := h.work
    omega
  · have := h.bound h0
    omega
  · rw [List.length_set] at hi
    exact starts_after_run h.starts b p' use hb hu hd i hi

theorem ClockBound.longer {ps0 : List Process} {t0 : Int} {procs : List Process}
    {tl : List TimelineEvent} {time cs pid d : Int}
    (h : ClockBound ps0 t0 procs (tl ++ [⟨cs, pid, d⟩]) time)
    (b : Nat) (p' : Process) (hb : b < procs.length)
    (hd : Dispatched (getP procs b) p' time 1) :
    ClockBound ps0 t0 (procs.set b p') (tl ++ [⟨cs, pid, d + 1⟩]) (time + 1) := by
  have hs := remaining_sum_set procs b p' hb
  have hr := hd.remaining
  refine ⟨?_, ?_, fun h0 => ?_, fun i hi => ?_⟩
  · have := h.elapsed
    rw [durations_append] at this ⊢
    simp only [durations, List.map_cons, List.map_nil, List.sum_cons, List.sum_nil] at this ⊢
    omega
  · have := h.work
    omega
  · have := h.bound h0
    omega
  · rw [List.length_set] at hi
    exact starts_after_run h.starts b p' 1 hb (by omega) hd i hi

theorem clock_bound_nil (ps : List Process) (t0 : Int) :
    ClockBound (reset_processes ps) t0 (reset_processes ps) [] t0 := by
  have e : remaining_sum (reset_processes ps) =
      ((reset_processes ps).map (·.burst_time)).sum := by
    simp [remaining_sum, reset_processes, List.map_map, Function.comp_def, reset_process]
  refine ⟨by simp [durations], by rw [e], fun h0 => ?_, fun i hi => ?_⟩
  · rw [e]
    unfold last_instant
    omega
  · rw [(StaticEq.reset ps).1] at hi
    exact Or.inl ((StaticEq.reset ps).2 i hi).2.2.2.2.1

theorem hist_nil (ps : List Process) (t0 : Int) :
    Hist (reset_processes ps) t0 (reset_processes ps) [] t0 := by
  obtain ⟨hl, hr⟩ := StaticEq.reset ps
  refine ⟨⟨fun _ i hi => ?_, fun _ i hi => ?_⟩, fun e he => absurd he (List.not_mem_nil e),
    clock_bound_nil ps t0⟩
  · rw [hl] at hi
    obtain ⟨_, _, h3, h4, h5, h6, h7⟩ := hr i hi
    refine ⟨?_, fun _ _ => rfl, fun _ hs => absurd h5 hs, fun hf => absurd h7 hf⟩
    simp only [events_of, List.filter_nil, durations, List.map_nil, List.sum_nil, h3, h4]
    omega
  · rw [hl] at hi
    obtain ⟨_, _, h3, h4, h5, h6, h7⟩ := hr i hi
    exact ⟨fun _ => by rw [h3, h4], fun hs => absurd h5 hs, fun hf => absurd h7 hf⟩

theorem Hist.idle_push {ps0 : List Process} {t0 : Int} {procs : List Process}
    {tl : List TimelineEvent} {time : Int} (h : Hist ps0 t0 procs tl time) (next d : Int)
    (hle : time ≤ next) (hd : d = next - time)
    (hnext : next ≤ maxList (ps0.map (·.arrival_time))) :
    Hist ps0 t0 procs (push_event tl time (-1) d) next := by
  refine ⟨⟨fun hp i hi => ?_, fun h0 i hi => (h.1.2 h0 i hi).later hle⟩, ?_, ?_⟩
  · rw [events_of_push, if_neg (fun hc => hp.2 i hi hc.symm), List.append_nil]
    exact h.1.1 hp i hi
  · exact h.2.1.push _ ⟨by simp only; omega, Or.inl rfl⟩
  · rw [hd]
    exact h.2.2.wait_until next hle hnext

theorem Hist.after_dispatch {ps0 : List Process} {t0 : Int} {procs : List Process}
    {tl : List TimelineEvent} {time : Int} (h : Hist ps0 t0 procs tl time)
    (hlen : procs.length = ps0.length) (b : Nat) (p' : Process) (use : Int)
    (hb : b < ps0.length) (hd : Dispatched (getP procs b) p' time use)
    (harr : (getP ps0 b).arrival_time ≤ time) (ht : t0 ≤ time) (hu : 0 ≤ use) :
    Hist ps0 t0 (procs.set b p') (push_event tl time (getP ps0 b).pid use) (time + use) := by
  have hbl : b < procs.length := by rw [hlen]; exact hb
  refine ⟨⟨fun hp i hi => ?_, fun h0 i hi => ?_⟩, h.2.1.push _ ⟨hu, Or.inr ⟨b, hb, rfl⟩⟩,
    h.2.2.busy b p' _ use hbl hu hd⟩
  · rw [events_of_push]
    by_cases hib : b = i
    · subst hib
      rw [getP_set_eq _ _ _ hbl, if_pos rfl]
      exact (h.1.1 hp b hb).with_event hd _ ht
    · rw [getP_set_ne _ _ _ _ hib, if_neg (fun hc => hib (hp.1 b i hb hi hc)), List.append_nil]
      exact h.1.1 hp i hi
  · by_cases hib : b = i
    · subst hib
      rw [getP_set_eq _ _ _ hbl]
      exact (h.1.2 h0 b hb).after_run hd harr (by omega)
    · rw [getP_set_ne _ _ _ _ hib]
      exact (h.1.2 h0 i hi).later (by omega)

theorem Hist.prolong_last {ps0 : List Process} {t0 : Int} {procs : List Process}
    {tl : List TimelineEvent} {time cs d : Int} (b : Nat)
    (h : Hist ps0 t0 procs (tl ++ [⟨cs, (getP ps0 b).pid, d⟩]) time)
    (hlen : procs.length = ps0.length) (p' : Process)
    (hb : b < ps0.length) (hd : Dispatched (getP procs b) p' time 1)
    (harr : (getP ps0 b).arrival_time ≤ time) (ht : t0 ≤ time) (hend : cs + d = time) :
    Hist ps0 t0 (procs.set b p') (tl ++ [⟨cs, (getP ps0 b).pid, d + 1⟩]) (time + 1) := by
  have hbl : b < procs.length := by rw [hlen]; exact hb
  refine ⟨⟨fun hp i hi => ?_, fun h0 i hi => ?_⟩, ?_, h.2.2.longer b p' hbl hd⟩
  · have hi1 := h.1.1 hp i hi
    rw [events_of_append_one] at hi1 ⊢
    by_cases hib : b = i
    · subst hib
      rw [getP_set_eq _ _ _ hbl, if_pos rfl]
      rw [if_pos rfl] at hi1
      exact hi1.prolong hd hend
    · rw [getP_set_ne _ _ _ _ hib, if_neg (fun hc => hib (hp.1 b i hb hi hc)), List.append_nil]
      rw [if_neg (fun hc => hib (hp.1 b i hb hi hc)), List.append_nil] at hi1
      exact hi1
  · by_cases hib : b = i
    · subst hib
      rw [getP_set_eq _ _ _ hbl]
      exact (h.1.2 h0 b hb).after_run hd harr (by omega)
    · rw [getP_set_ne _ _ _ _ hib]
      exact (h.1.2 h0 i hi).later (by omega)
  · intro x hx
    rcases List.mem_append.1 hx with hx | hx
    · exact h.2.1 x (List.mem_append.2 (Or.inl hx))
    · rw [List.mem_singleton.1 hx]
      have h0 := (h.2.1 ⟨cs, (getP ps0 b).pid, d⟩ (by simp)).1
      exact ⟨by simp only at h0 ⊢; omega, Or.inr ⟨b, hb, rfl⟩⟩

theorem dispatched_slice (p : Process) (time use : Int) (hunf : p.finished = 0) :
    Dispatched p (run_slice p time use) time use :=
  ⟨rfl, rfl, fun hf => absurd hunf hf⟩

theorem dispatched_finish (p : Process) (time use : Int)
    (hz : p.remaining_time - use = 0) :
    Dispatched p (mark_finished (run_slice p time use) (time + use)) time use :=
  ⟨rfl, rfl, fun _ => ⟨rfl, hz⟩⟩

theorem dispatched_completion (p : Process) (time : Int)
    (hrem : p.remaining_time = p.burst_time) :
    Dispatched p (run_to_completion p time) time p.burst_time :=
  ⟨rfl, by simp only [run_to_completion]; omega, fun _ => ⟨rfl, rfl⟩⟩

end Sched

namespace Sched

/-! ## The history invariant: SJF and FIFO -/

theorem fresh_set {procs : List Process}
    (hF : ∀ i, i < procs.length → (getP procs i).finished = 0 →
      (getP procs i).remaining_time = (getP procs i).burst_time)
    (b : Nat) (p' : Process) (hfin : p'.finished ≠ 0) :
    ∀ i, i < (procs.set b p').length → (getP (procs.set b p') i).finished = 0 →
      (getP (procs.set b p') i).remaining_time = (getP (procs.set b p') i).burst_time := by
  intro i hi hf
  rw [List.length_set] at hi
  by_cases hb : b < procs.length
  · rw [getP_set _ _ _ _ hb] at hf ⊢
    by_cases hbi : b = i
    · rw [if_pos hbi] at hf; exact absurd hf hfin
    · rw [if_neg hbi] at hf ⊢; exact hF i hi hf
  · rw [List.set_eq_of_length_le (by omega)] at hf ⊢
    exact hF i hi hf

theorem sjf_trace_step (ps0 : List Process) (t0 : Int) (s s' : SjfState)
    (hburst : ∀ i, i < ps0.length → 1 ≤ (getP ps0 i).burst_time)
    (hrange : ∀ i, i < ps0.length → (getP ps0 i).arrival_time ≤ INT_MAX)
    (hI : SjfInv ps0 t0 s)
    (hF : ∀ i, i < s.core.procs.length → (getP s.core.procs i).finished = 0 →
      (getP s.core.procs i).remaining_time = (getP s.core.procs i).burst_time)
    (hH : Hist ps0 t0 s.core.procs s.core.timeline s.core.time) (hs : sjf_step s = some s') :
    (∀ i, i < s'.core.procs.length → (getP s'.core.procs i).finished = 0 →
      (getP s'.core.procs i).remaining_time = (getP s'.core.procs i).burst_time) ∧
      Hist ps0 t0 s'.core.procs s'.core.timeline s'.core.time := by
  have hP := hI.procs
  have hN := hI.count
  have hlen := hP.static.1
  unfold sjf_step at hs
  by_cases hlt : s.completed < s.core.procs.length
  · rw [if_pos hlt] at hs
    have hex : ∃ i, i < s.core.procs.length ∧ (getP s.core.procs i).finished = 0 :=
      (unfinishedCount_pos_iff _).1 (by omega)
    have hle : ∀ i, i < s.core.procs.length → (getP s.core.procs i).arrival_time ≤ INT_MAX := by
      intro i hi
      rw [hlen] at hi
      rw [(hP.static.2 i hi).2.1]; exact hrange i hi
    rcases pick_best_spec sjf_better sjf_better_asymm sjf_better_cotrans s.core.procs
      s.core.time with ⟨hpick, hnone⟩ | ⟨b, hpick, hbest⟩
    · rw [hpick] at hs
      simp only [Option.some.injEq] at hs
      subst hs
      obtain ⟨hgt, _⟩ := idle_progress _ _ hle hex hnone
      exact ⟨hF, hH.idle_push _ _ (le_of_lt hgt) rfl (next_arrival_le_max _ _ hP.static hle hex)⟩
    · rw [hpick] at hs
      simp only [Option.some.injEq] at hs
      subst hs
      obtain ⟨hb, hel, _, _⟩ := hbest
      have hb0 : b < ps0.length := by rw [← hlen]; exact hb
      obtain ⟨e1, e2, e3⟩ := hP.static.2 b hb0
      have hbb := hburst b hb0
      refine ⟨fresh_set hF b _ (by simp [run_to_completion]), ?_⟩
      simp only
      rw [e1]
      exact hH.after_dispatch hlen b _ _ hb0
        (dispatched_completion _ _ (hF b hb hel.1))
        (by rw [← e2]; exact hel.2) hP.t0_le (by omega)
  · rw [if_neg hlt] at hs; exact absurd hs (by simp)

theorem fifo_trace_body (ps0 : List Process) (t0 : Int) (idx : List Nat) (k : Nat) (s : Core)
    (hidx : idx.getD k 0 < ps0.length)
    (hburst : ∀ i, i < ps0.length → 1 ≤ (getP ps0 i).burst_time)
    (hP : ProcInv ps0 t0 s.procs s.time)
    (hunf : (getP s.procs (idx.getD k 0)).finished = 0)
    (hF : ∀ i, i < s.procs.length → (getP s.procs i).finished = 0 →
      (getP s.procs i).remaining_time = (getP s.procs i).burst_time)
    (hH : Hist ps0 t0 s.procs s.timeline s.time) :
    (∀ i, i < (fifo_body idx k s).procs.length → (getP (fifo_body idx k s).procs i).finished = 0 →
      (getP (fifo_body idx k s).procs i).remaining_time =
        (getP (fifo_body idx k s).procs i).burst_time) ∧
      Hist ps0 t0 (fifo_body idx k s).procs (fifo_body idx k s).timeline
        (fifo_body idx k s).time := by
  have hlen := hP.static.1
  have hil : idx.getD k 0 < s.procs.length := by rw [hlen]; exact hidx
  obtain ⟨e1, e2, e3⟩ := hP.static.2 _ hidx
  have hb := hburst _ hidx
  have ht0 := hP.t0_le
  have hrem := hF _ hil hunf
  unfold fifo_body
  generalize idx.getD k 0 = i at *
  refine ⟨fresh_set hF i _ (by simp [run_to_completion]), ?_⟩
  by_cases hlt : s.time < (getP s.procs i).arrival_time
  · simp only [hlt, if_true]
    rw [e1]
    have h1 := hH.idle_push (getP s.procs i).arrival_time
      ((getP s.procs i).arrival_time - s.time) (le_of_lt hlt) rfl
      (by rw [e2]; exact arrival_le_max ps0 i hidx)
    exact h1.after_dispatch hlen i _ _ hidx (dispatched_completion _ _ hrem)
      (by rw [← e2]) (by omega) (by omega)
  · simp only [hlt, if_false]
    rw [e1]
    exact hH.after_dispatch hlen i _ _ hidx (dispatched_completion _ _ hrem)
      (by rw [← e2]; omega) ht0 (by omega)

end Sched

namespace Sched

/-! ## The history invariant: STCF, round robin and MLFQ -/

theorem stcf_trace_step (ps0 : List Process) (t0 : Int)
    (hrange : ∀ i, i < ps0.length → (getP ps0 i).arrival_time ≤ INT_MAX)
    (s s' : StcfState) (hI : StcfInv ps0 t0 s)
    (hH : Hist ps0 t0 s.core.procs (s.core.timeline ++ stcf_open ps0 s) s.core.time)
    (hs : stcf_step s = some s') :
    Hist ps0 t0 s'.core.procs (s'.core.timeline ++ stcf_open ps0 s') s'.core.time := by
  have hP := hI.procs
  have hlen := hP.static.1
  have hN := hI.count
  unfold stcf_step at hs
  by_cases hlt : s.completed < s.core.procs.length
  · rw [if_pos hlt] at hs
    have hex : ∃ i, i < s.core.procs.length ∧ (getP s.core.procs i).finished = 0 :=
      (unfinishedCount_pos_iff _).1 (by omega)
    have hle : ∀ i, i < s.core.procs.length → (getP s.core.procs i).arrival_time ≤ INT_MAX := by
      intro i hi
      rw [hlen] at hi
      rw [(hP.static.2 i hi).2.1]; exact hrange i hi
    rcases pick_best_spec stcf_better stcf_better_asymm stcf_better_cotrans s.core.procs
      s.core.time with ⟨hpick, hnone⟩ | ⟨b, hpick, hbest⟩
    · rw [hpick] at hs
      simp only [Option.some.injEq] at hs
      subst hs
      have hci : s.current_idx = none := by
        cases hci : s.current_idx with
        | none => rfl
        | some c =>
          obtain ⟨h1, h2, h3, _⟩ := hI.cur c hci
          exact absurd ⟨h2, h3⟩ (hnone c (by rw [hlen]; exact h1))
      obtain ⟨hgt, _⟩ := idle_progress _ _ hle hex hnone
      simp only [stcf_open, hci, List.append_nil] at hH ⊢
      exact hH.idle_push _ _ (le_of_lt hgt) rfl (next_arrival_le_max _ _ hP.static hle hex)
    · rw [hpick] at hs
      dsimp only at hs
      obtain ⟨hb, hel, _, _⟩ := hbest
      have hb0 : b < ps0.length := by rw [← hlen]; exact hb
      obtain ⟨hpb, hab, _⟩ := hP.static.2 b hb0
      have harr : (getP ps0 b).arrival_time ≤ s.core.time := by rw [← hab]; exact hel.2
      have hdisp : ∀ p' : Process,
          (p' = mark_finished (run_slice (getP s.core.procs b) s.core.time 1) (s.core.time + 1) ∧
            (run_slice (getP s.core.procs b) s.core.time 1).remaining_time = 0) ∨
          (p' = run_slice (getP s.core.procs b) s.core.time 1) →
          Dispatched (getP s.core.procs b) p' s.core.time 1 := by
        intro p' hp
        rcases hp with ⟨rfl, hz⟩ | rfl
        · exact dispatched_finish _ _ _ (by simpa only [run_slice_remaining] using hz)
        · exact dispatched_slice _ _ _ hel.1
      by_cases hcur : s.current_idx = some b
      · have hH' := hH
        simp only [stcf_open, hcur] at hH'
        have hext : ∀ p' : Process, Dispatched (getP s.core.procs b) p' s.core.time 1 →
            Hist ps0 t0 (s.core.procs.set b p')
              (s.core.timeline ++
                [⟨s.current_start, (getP ps0 b).pid, s.core.time + 1 - s.current_start⟩])
              (s.core.time + 1) := by
          intro p' hd
          have e : s.core.time + 1 - s.current_start = s.core.time - s.current_start + 1 := by
            ring
          rw [e]
          exact Hist.prolong_last b hH' hlen p' hb0 hd harr hP.t0_le (by ring)
        by_cases hz : (run_slice (getP s.core.procs b) s.core.time 1).remaining_time = 0
        · rw [if_pos hz] at hs
          simp only [Option.some.injEq] at hs
          subst hs
          simp only [stcf_open, List.append_nil, hcur, ne_eq, not_true_eq_false, if_false,
            push_event, hpb]
          exact hext _ (hdisp _ (Or.inl ⟨rfl, hz⟩))
        · rw [if_neg hz] at hs
          simp only [Option.some.injEq] at hs
          subst hs
          simp only [stcf_open, hcur, ne_eq, not_true_eq_false, if_false]
          exact hext _ (hdisp _ (Or.inr rfl))
      · have hcur' : s.current_idx ≠ some b := hcur
        simp only [if_pos hcur'] at hs
        have hview : ∀ tl1 : List TimelineEvent, tl1 = s.core.timeline ++ stcf_open ps0 s →
            ∀ (p' : Process), Dispatched (getP s.core.procs b) p' s.core.time 1 →
            Hist ps0 t0 (s.core.procs.set b p')
              (tl1 ++ [⟨s.core.time, (getP ps0 b).pid, s.core.time + 1 - s.core.time⟩])
              (s.core.time + 1) := by
          intro tl1 htl p' hd
          rw [htl]
          have e : s.core.time + 1 - s.core.time = 1 := by ring
          rw [e]
          have := hH.after_dispatch hlen b p' 1 hb0 hd harr hP.t0_le (by omega)
          simpa only [push_event] using this
        have htl1 : (match s.current_idx with
            | some c => push_event s.core.timeline s.current_start (getP s.core.procs c).pid
                (s.core.time - s.current_start)
            | none => s.core.timeline) = s.core.timeline ++ stcf_open ps0 s := by
          cases hci : s.current_idx with
          | none => simp [stcf_open, hci]
          | some c =>
            obtain ⟨h1, _⟩ := hI.cur c hci
            simp only [stcf_open, hci, push_event, (hP.static.2 c h1).1]
        by_cases hz : (run_slice (getP s.core.procs b) s.core.time 1).remaining_time = 0
        · rw [if_pos hz] at hs
          simp only [Option.some.injEq] at hs
          subst hs
          simp only [stcf_open, List.append_nil, push_event, hpb]
          exact hview _ htl1 _ (hdisp _ (Or.inl ⟨rfl, hz⟩))
        · rw [if_neg hz] at hs
          simp only [Option.some.injEq] at hs
          subst hs
          simp only [stcf_open]
          exact hview _ htl1 _ (hdisp _ (Or.inr rfl))
  · rw [if_neg hlt] at hs; exact absurd hs (by simp)

end Sched

namespace Sched

theorem rr_trace_step (ps0 : List Process) (t0 quantum : Int) (hq : 1 ≤ quantum)
    (hrange : ∀ i, i < ps0.length → (getP ps0 i).arrival_time ≤ INT_MAX)
    (s s' : RrState) (hI : RrInv ps0 t0 s)
    (hA : AddedArrived ps0 s.added s.core.time)
    (hH : Hist ps0 t0 s.core.procs s.core.timeline s.core.time)
    (hs : rr_step quantum s = some s') :
    AddedArrived ps0 s'.added s'.core.time ∧
      Hist ps0 t0 s'.core.procs s'.core.timeline s'.core.time := by
  have hP := hI.procs
  have hlen := hP.static.1
  have hal : s.added.length = s.core.procs.length := by rw [hI.queue.added_len, hlen]
  obtain ⟨hnd, hadd⟩ := rr_step_added quantum s s' hal hs
  have hex : ∃ i, i < s.core.procs.length ∧ (getP s.core.procs i).finished = 0 := by
    by_contra hne
    have : all_done s.core.procs = true := by
      rw [all_done_iff]
      intro i hi hf
      exact hne ⟨i, hi, hf⟩
    rw [this] at hnd
    exact absurd hnd (by simp)
  have hadded : s.core.time ≤ s'.core.time → AddedArrived ps0 s'.added s'.core.time := by
    intro hle i hi ht
    rw [hadd i] at ht
    simp only [Bool.or_eq_true, decide_eq_true_eq] at ht
    rcases ht with ht | ⟨_, ht⟩
    · have := hA i hi ht; omega
    · rw [(hP.static.2 i hi).2.1] at ht; exact ht
  rcases rr_step_cases quantum s s' hal hI.head_le hs with hi | ⟨idx, use, hd⟩
  · have hnone : ∀ j, j < s.core.procs.length → ¬ eligible (getP s.core.procs j) s.core.time := by
      intro j hj ⟨hf, ha⟩
      rw [hlen] at hj
      by_cases hadj : s.added.getD j false = true
      · have hm := hI.queue.queued j hj hf hadj
        have hnil : s.queue.pending = [] := by
          simp only [IdxQueue.pending, hi.empty, List.drop_length]
        rw [hnil] at hm
        exact absurd hm (List.not_mem_nil _)
      · have := (hI.queue.arrived j hj (by simpa using hadj)).2
        omega
    have hle : ∀ i, i < s.core.procs.length → (getP s.core.procs i).arrival_time ≤ INT_MAX := by
      intro i hi
      rw [hlen] at hi
      rw [(hP.static.2 i hi).2.1]; exact hrange i hi
    obtain ⟨hgt, _⟩ := idle_progress _ _ hle hex hnone
    have hH' := hH.idle_push (next_arrival s.core.procs)
      (next_arrival s.core.procs - s.core.time) (le_of_lt hgt) rfl
      (next_arrival_le_max _ _ hP.static hle hex)
    refine ⟨hadded ?_, ?_⟩
    · rw [hi.core]; exact le_of_lt hgt
    · rw [hi.core]; exact hH'
  · obtain ⟨h1, h2, h3, h4, _, h6⟩ := rr_dispatch_facts ps0 t0 quantum hq s s' idx use hI hd
    have hm : idx ∈ s.queue.pending := by
      have hpop := pending_pop s.queue.buf s.queue.head hd.head_lt
      rw [hd.idx_eq] at hpop
      show idx ∈ IdxQueue.pending ⟨s.queue.buf, s.queue.head⟩
      rw [hpop]; exact List.mem_cons_self _ _
    have harr : (getP ps0 idx).arrival_time ≤ s.core.time :=
      hA idx h1 (hI.queue.pend idx hm).2.2
    refine ⟨hadded (by rw [hd.time]; omega), ?_⟩
    rw [hd.procs, hd.timeline, hd.time, (hP.static.2 idx h1).1]
    refine hH.after_dispatch hlen idx _ use h1 ?_ harr hP.t0_le (by omega)
    split
    · exact dispatched_slice _ _ _ h2
    · rename_i hpos
      exact dispatched_finish _ _ _ (by have := (h6 hpos).1; omega)

theorem mlfq_trace_step (cfg : MlfqConfig) (hv : cfg.Valid) (ps0 : List Process) (t0 : Int)
    (hrange : ∀ i, i < ps0.length → (getP ps0 i).arrival_time ≤ INT_MAX)
    (s s' : MlfqState) (hI : MlfqInv cfg ps0 t0 s)
    (hA : AddedArrived ps0 s.added s.core.time)
    (hH : Hist ps0 t0 s.core.procs s.core.timeline s.core.time)
    (hs : mlfq_step cfg s = some s') :
    AddedArrived ps0 s'.added s'.core.time ∧
      Hist ps0 t0 s'.core.procs s'.core.timeline s'.core.time := by
  have hP := hI.procs
  have hlen := hP.static.1
  have hN := hI.count
  have hal : s.added.length = s.core.procs.length := by rw [hI.queue.added_len, hlen]
  obtain ⟨hv1, hv2, hv3⟩ := hv
  have hnq : 0 < cfg.num_queues.toNat := by omega
  obtain ⟨hb1, hb2, hb3⟩ := boost_phase_spec cfg s hI.levels_len hI.heads
  have hadded : ∀ (time' : Int) (levels : List IdxQueue), 0 < levels.length → HeadsOk levels →
      s.core.time ≤ time' →
      AddedArrived ps0 (mlfq_enqueue_arrivals s.core.procs time' levels s.added).2 time' := by
    intro time' levels h0 hh hle i hi ht
    obtain ⟨_, _, _, _, m5⟩ := mlfq_enqueue_spec s.core.procs time' levels s.added h0 hh hal
    rw [m5 i] at ht
    simp only [Bool.or_eq_true, decide_eq_true_eq] at ht
    rcases ht with ht | ⟨_, ht⟩
    · have := hA i hi ht; omega
    · rw [(hP.static.2 i hi).2.1] at ht; exact ht
  rcases mlfq_step_cases cfg s s' hs with hi | ⟨L, idx, use, hd⟩
  · have hex : ∃ i, i < s.core.procs.length ∧ (getP s.core.procs i).finished = 0 :=
      (unfinishedCount_pos_iff _).1 (by have := hi.in_loop; omega)
    have hnil : all_pending s.levels = [] := by
      rcases mlfq_find_level_spec _ _ hb1 hb2 with ⟨_, h⟩ | ⟨l, h, _⟩
      · rw [h] at hb3; exact List.Perm.eq_nil hb3.symm
      · rw [hi.empty] at h; exact absurd h (by simp)
    have hnone : ∀ j, j < s.core.procs.length → ¬ eligible (getP s.core.procs j) s.core.time := by
      intro j hj ⟨hf, ha⟩
      rw [hlen] at hj
      by_cases hadj : s.added.getD j false = true
      · have hm := hI.queue.queued j hj hf hadj
        rw [hnil] at hm
        exact absurd hm (List.not_mem_nil _)
      · have := (hI.queue.arrived j hj (by simpa using hadj)).2
        omega
    have hle : ∀ i, i < s.core.procs.length → (getP s.core.procs i).arrival_time ≤ INT_MAX := by
      intro i hi
      rw [hlen] at hi
      rw [(hP.static.2 i hi).2.1]; exact hrange i hi
    obtain ⟨hgt, _⟩ := idle_progress _ _ hle hex hnone
    have hH' := hH.idle_push (next_arrival s.core.procs)
      (next_arrival s.core.procs - s.core.time) (le_of_lt hgt) rfl
      (next_arrival_le_max _ _ hP.static hle hex)
    refine ⟨?_, ?_⟩
    · rw [hi.added, hi.core]
      exact hadded _ _ (by rw [hb1]; exact hnq) hb2 (le_of_lt hgt)
    · rw [hi.core]; exact hH'
  · obtain ⟨hL, hhead⟩ := mlfq_find_level_lt _ _ _ hd.level
    have hLl : L < (mlfq_boost_phase cfg s).levels.length := by rw [hb1]; exact hL
    have hm : idx ∈ all_pending s.levels := by
      have hp := all_pending_pop (mlfq_boost_phase cfg s).levels L hLl hhead
      have : idx ∈ all_pending (mlfq_boost_phase cfg s).levels := by
        refine hp.symm.subset ?_
        rw [← hd.idx_eq]
        exact List.mem_cons_self _ _
      exact hb3.subset this
    obtain ⟨h1, h2, h3⟩ := hI.queue.pend idx hm
    have hrem := (hP.unfin idx h1 h2).1
    have hquant : 1 ≤ cfg.quantums.getD L 0 := by
      have hLq : L < cfg.quantums.length := by rw [hv2]; exact hL
      rw [List.getD_eq_getElem _ _ hLq]
      exact hv3 _ (List.getElem_mem _)
    have huse : 1 ≤ use := by
      rw [hd.use_eq]
      exact (slice_bounds _ _ hrem hquant).1
    have harr : (getP ps0 idx).arrival_time ≤ s.core.time := hA idx h1 h3
    have hpopl : 0 < (mlfq_pop (mlfq_boost_phase cfg s).levels L).length := by
      unfold mlfq_pop
      rw [List.length_set, hb1]; exact hnq
    have hpoph : HeadsOk (mlfq_pop (mlfq_boost_phase cfg s).levels L) := by
      unfold mlfq_pop
      exact hb2.set_level L _ (by simpa using hhead)
    refine ⟨?_, ?_⟩
    · rw [hd.added, hd.time]
      exact hadded _ _ hpopl hpoph (by omega)
    · rw [hd.procs, hd.timeline, hd.time, (hP.static.2 idx h1).1]
      refine hH.after_dispatch hlen idx _ use h1 ?_ harr hP.t0_le (by omega)
      split
      · rename_i hz
        exact dispatched_finish _ _ _ hz
      · exact dispatched_slice _ _ _ h2

end Sched

namespace Sched

/-! ## The history invariant at the end of a run -/

theorem reset_fresh (ps : List Process) :
    ∀ i, i < (reset_processes ps).length → (getP (reset_processes ps) i).finished = 0 →
      (getP (reset_processes ps) i).remaining_time = (getP (reset_processes ps) i).burst_time := by
  obtain ⟨hl, hr⟩ := StaticEq.reset ps
  intro i hi _
  rw [hl] at hi
  obtain ⟨_, _, h3, h4, _⟩ := hr i hi
  rw [h4, h3]

theorem sjf_trace_run (ps : List Process) (fuel : Nat)
    (hburst : ∀ p ∈ ps, 1 ≤ p.burst_time) (hrange : ∀ p ∈ ps, p.arrival_time ≤ INT_MAX)
    (hfuel : fuel_bound ps ≤ fuel) :
    ∃ r time, schedule_sjf fuel ps = some r ∧
      Hist (reset_processes ps) (first_arrival (reset_processes ps)) r.procs r.timeline time := by
  have hf2 : 2 * ps.length + 2 ≤ fuel := by
    have := length_le_total_burst ps hburst
    unfold fuel_bound at hfuel
    omega
  obtain ⟨s, hs, _, _⟩ := sjf_run ps fuel hburst hrange hf2
  have := whileLoop_inv sjf_step
    (fun s => SjfInv (reset_processes ps) (first_arrival (reset_processes ps)) s ∧
      (∀ i, i < s.core.procs.length → (getP s.core.procs i).finished = 0 →
        (getP s.core.procs i).remaining_time = (getP s.core.procs i).burst_time) ∧
      Hist (reset_processes ps) (first_arrival (reset_processes ps)) s.core.procs
        s.core.timeline s.core.time)
    (fun a b ⟨h1, h2, h3⟩ hab =>
      ⟨(sjf_step_inv _ _ (reset_burst ps hburst) (reset_arrival_le ps _ hrange) a b h1 hab).1,
        sjf_trace_step _ _ a b (reset_burst ps hburst) (reset_arrival_le ps _ hrange)
          h1 h2 h3 hab⟩)
    fuel _ s ⟨sjf_init_inv ps hburst, reset_fresh ps, hist_nil ps _⟩ hs
  exact ⟨⟨s.core.procs, s.core.timeline⟩, s.core.time, by simp [schedule_sjf, hs], this.2.2⟩

theorem stcf_trace_run (ps : List Process) (fuel : Nat)
    (hburst : ∀ p ∈ ps, 1 ≤ p.burst_time) (hrange : ∀ p ∈ ps, p.arrival_time ≤ INT_MAX)
    (hfuel : fuel_bound ps ≤ fuel) :
    ∃ r time, schedule_stcf fuel ps = some r ∧
      Hist (reset_processes ps) (first_arrival (reset_processes ps)) r.procs r.timeline time := by
  obtain ⟨s, hs, _, hc, _⟩ := stcf_run ps fuel hburst hrange hfuel
  have := whileLoop_inv stcf_step
    (fun s => StcfInv (reset_processes ps) (first_arrival (reset_processes ps)) s ∧
      Hist (reset_processes ps) (first_arrival (reset_processes ps)) s.core.procs
        (s.core.timeline ++ stcf_open (reset_processes ps) s) s.core.time)
    (fun a b ⟨h1, h2⟩ hab =>
      ⟨(stcf_step_inv _ _ (reset_arrival_le ps _ hrange) a b h1 hab).1,
        stcf_trace_step _ _ (reset_arrival_le ps _ hrange) a b h1 h2 hab⟩)
    fuel _ s ⟨stcf_init_inv ps hburst, by simp [stcf_open]; exact hist_nil ps _⟩ hs
  have h2 := this.2
  simp only [stcf_open, hc, List.append_nil] at h2
  exact ⟨⟨s.core.procs, s.core.timeline⟩, s.core.time, by simp [schedule_stcf, hs], h2⟩

theorem rr_trace_run (ps : List Process) (fuel : Nat) (quantum : Int) (hq : 1 ≤ quantum)
    (hburst : ∀ p ∈ ps, 1 ≤ p.burst_time) (hrange : ∀ p ∈ ps, p.arrival_time ≤ INT_MAX)
    (hfuel : fuel_bound ps ≤ fuel) :
    ∃ r time, schedule_rr fuel ps quantum = some r ∧
      Hist (reset_processes ps) (first_arrival (reset_processes ps)) r.procs r.timeline time := by
  obtain ⟨s, hs, _, _⟩ := rr_good ps fuel quantum hq hburst hrange hfuel
  have hrle := reset_arrival_le ps _ hrange
  have h0 : AddedArrived (reset_processes ps) (rr_init ps).added (rr_init ps).core.time :=
    added_arrived_init ps _ _
      (enqueue_arrivals_spec (reset_processes ps) (first_arrival (reset_processes ps)) ⟨[], 0⟩
        (List.replicate (reset_processes ps).length false) (by simp)).2.2
  have := whileLoop_inv (rr_step quantum)
    (fun s => RrInv (reset_processes ps) (first_arrival (reset_processes ps)) s ∧
      AddedArrived (reset_processes ps) s.added s.core.time ∧
      Hist (reset_processes ps) (first_arrival (reset_processes ps)) s.core.procs
        s.core.timeline s.core.time)
    (fun a b ⟨h1, h2, h3⟩ hab =>
      ⟨(rr_step_inv _ _ quantum hq hrle a b h1 hab).1,
        rr_trace_step _ _ quantum hq hrle a b h1 h2 h3 hab⟩)
    fuel _ s ⟨rr_init_inv ps hburst, h0, hist_nil ps _⟩ hs
  exact ⟨⟨s.core.procs, s.core.timeline⟩, s.core.time, by simp [schedule_rr, hs], this.2.2⟩

theorem mlfq_trace_run (cfg : MlfqConfig) (hv : cfg.Valid) (ps : List Process) (fuel : Nat)
    (hburst : ∀ p ∈ ps, 1 ≤ p.burst_time) (hrange : ∀ p ∈ ps, p.arrival_time < INT_MAX)
    (hfuel : fuel_bound ps ≤ fuel) :
    ∃ r time, schedule_mlfq fuel ps cfg = some r ∧
      Hist (reset_processes ps) (first_arrival (reset_processes ps)) r.procs r.timeline time := by
  have hrl : ∀ p ∈ ps, p.arrival_time ≤ INT_MAX := fun p hp => le_of_lt (hrange p hp)
  have hrle := reset_arrival_le ps _ hrl
  obtain ⟨s, hs, _, _⟩ := mlfq_good cfg hv ps fuel hburst hrange hfuel
  have hnq : 0 < cfg.num_queues.toNat := by have := hv.1; omega
  have hh : HeadsOk (List.replicate cfg.num_queues.toNat (⟨[], 0⟩ : IdxQueue)) := by
    intro q hq
    rw [List.eq_of_mem_replicate hq]
    exact Nat.le_refl _
  have h0 : AddedArrived (reset_processes ps) (mlfq_init cfg ps).added
      (mlfq_init cfg ps).core.time :=
    added_arrived_init ps _ _
      (mlfq_enqueue_spec (reset_processes ps) (first_arrival (reset_processes ps))
        (List.replicate cfg.num_queues.toNat ⟨[], 0⟩)
        (List.replicate (reset_processes ps).length false) (by simpa using hnq) hh
        (by simp)).2.2.2.2
  have := whileLoop_inv (mlfq_step cfg)
    (fun s => MlfqInv cfg (reset_processes ps) (first_arrival (reset_processes ps)) s ∧
      AddedArrived (reset_processes ps) s.added s.core.time ∧
      Hist (reset_processes ps) (first_arrival (reset_processes ps)) s.core.procs
        s.core.timeline s.core.time)
    (fun a b ⟨h1, h2, h3⟩ hab =>
      ⟨(mlfq_step_inv cfg hv _ _ hrle a b h1 hab).1,
        mlfq_trace_step cfg hv _ _ hrle a b h1 h2 h3 hab⟩)
    fuel _ s ⟨mlfq_init_inv cfg hv ps hburst, h0, hist_nil ps _⟩ hs
  exact ⟨⟨s.core.procs, s.core.timeline⟩, s.core.time, by simp [schedule_mlfq, hs], this.2.2⟩

theorem fifo_trace_run (ps : List Process) (hburst : ∀ p ∈ ps, 1 ≤ p.burst_time) :
    ∃ time, Hist (reset_processes ps) (first_arrival (reset_processes ps))
      (schedule_fifo ps).procs (schedule_fifo ps).timeline time := by
  have hb := reset_burst ps hburst
  obtain ⟨hl, hr⟩ := StaticEq.reset ps
  have key := forLoop_inv
    (fun k (s : Core) =>
      ProcInv (reset_processes ps) (first_arrival (reset_processes ps)) s.procs s.time ∧
      Contig (first_arrival (reset_processes ps)) s.timeline s.time ∧
      (∀ m, k ≤ m → m < (reset_processes ps).length →
        (getP s.procs ((fifo_sort (reset_processes ps)).getD m 0)).finished = 0) ∧
      (∀ i, i < s.procs.length → (getP s.procs i).finished = 0 →
        (getP s.procs i).remaining_time = (getP s.procs i).burst_time) ∧
      Hist (reset_processes ps) (first_arrival (reset_processes ps)) s.procs s.timeline s.time)
    (fifo_body (fifo_sort (reset_processes ps)))
    ⟨reset_processes ps, [], first_arrival (reset_processes ps)⟩
    (reset_processes ps).length
    ⟨ProcInv.init ps hburst _, rfl,
      fun m _ hm => by
        have h1 := fifo_sort_lt (reset_processes ps) m hm
        rw [hl] at h1
        exact (hr _ h1).2.2.2.2.2.2,
      reset_fresh ps, hist_nil ps _⟩
    (by
      intro k s hk ⟨h1, h2, h4, h5, h6⟩
      have hik := fifo_sort_lt _ k hk
      obtain ⟨a, b, _, _⟩ := fifo_body_inv _ _ (fifo_sort (reset_processes ps)) k s hik hb h1 h2
      obtain ⟨e, f⟩ := fifo_trace_body _ _ (fifo_sort (reset_processes ps)) k s hik hb h1
        (h4 k (le_refl _) hk) h5 h6
      refine ⟨a, b, ?_, e, f⟩
      intro m hm1 hm2
      have hne : (fifo_sort (reset_processes ps)).getD m 0 ≠
          (fifo_sort (reset_processes ps)).getD k 0 := fun h => by
        have := fifo_sort_inj _ m k hm2 hk h
        omega
      have : getP (fifo_body (fifo_sort (reset_processes ps)) k s).procs
          ((fifo_sort (reset_processes ps)).getD m 0) =
          getP s.procs ((fifo_sort (reset_processes ps)).getD m 0) := by
        unfold fifo_body
        exact getP_set_ne _ _ _ _ (Ne.symm hne)
      rw [this]
      exact h4 m (by omega) hm2)
  exact ⟨_, key.2.2.2.2⟩

/-- Every policy, run on valid parameters and a workload with positive bursts
and arrival times below `INT_MAX`, returns a good run whose timeline and
process fields satisfy the history invariant. -/
theorem run_policy_trace (pol : Policy) (hv : pol.Valid) (ps : List Process) (fuel : Nat)
    (hburst : ∀ p ∈ ps, 1 ≤ p.burst_time) (hrange : ∀ p ∈ ps, p.arrival_time < INT_MAX)
    (hfuel : fuel_bound ps ≤ fuel) :
    ∃ r, run_policy pol fuel ps = some r ∧
      GoodRun (reset_processes ps) (first_arrival (reset_processes ps)) r ∧
      ∃ time, Hist (reset_processes ps) (first_arrival (reset_processes ps))
        r.procs r.timeline time := by
  have hrle : ∀ p ∈ ps, p.arrival_time ≤ INT_MAX := fun p hp => le_of_lt (hrange p hp)
  obtain ⟨r, hr, hg⟩ := run_policy_good pol hv ps fuel hburst hrange hfuel
  refine ⟨r, hr, hg, ?_⟩
  cases pol with
  | fifo =>
    simp only [run_policy, Option.some.injEq] at hr
    subst hr
    exact fifo_trace_run ps hburst
  | sjf =>
    obtain ⟨r', t, h1, h2⟩ := sjf_trace_run ps fuel hburst hrle hfuel
    simp only [run_policy, h1, Option.some.injEq] at hr
    subst hr
    exact ⟨t, h2⟩
  | stcf =>
    obtain ⟨r', t, h1, h2⟩ := stcf_trace_run ps fuel hburst hrle hfuel
    simp only [run_policy, h1, Option.some.injEq] at hr
    subst hr
    exact ⟨t, h2⟩
  | rr quantum =>
    obtain ⟨r', t, h1, h2⟩ := rr_trace_run ps fuel quantum hv hburst hrle hfuel
    simp only [run_policy, h1, Option.some.injEq] at hr
    subst hr
    exact ⟨t, h2⟩
  | mlfq cfg =>
    obtain ⟨r', t, h1, h2⟩ := mlfq_trace_run cfg hv ps fuel hburst hrange hfuel
    simp only [run_policy, h1, Option.some.injEq] at hr
    subst hr
    exact ⟨t, h2⟩

end Sched

namespace Sched

/-! ## Durations by pid, and the busy time of `calculate_metrics` -/

theorem pids_ok_reset (ps : List Process) (hnodup : (ps.map (·.pid)).Nodup)
    (hpid : ∀ p ∈ ps, p.pid ≠ -1) : PidsOk (reset_processes ps) := by
  obtain ⟨hl, hr⟩ := StaticEq.reset ps
  refine ⟨fun i j hi hj h => ?_, fun i hi => ?_⟩
  · rw [hl] at hi hj
    rw [(hr i hi).1, (hr j hj).1] at h
    exact pid_injective ps hnodup i j hi hj h
  · rw [hl] at hi
    rw [(hr i hi).1]
    exact hpid _ (getP_mem ps i hi)

theorem compute_total_time_eq (tl : List TimelineEvent) : compute_total_time tl = durations tl := by
  unfold compute_total_time durations
  induction tl with
  | nil => rfl
  | cons e rest ih =>
    simp only [List.foldl_cons, List.map_cons, List.sum_cons]
    rw [total_time_foldl, ih]
    omega

theorem durations_split (tl : List TimelineEvent) :
    durations tl = durations (tl.filter fun e => decide (e.pid ≠ -1)) +
      durations (tl.filter fun e => decide (e.pid = -1)) := by
  unfold durations
  induction tl with
  | nil => rfl
  | cons e rest ih =>
    by_cases h : e.pid = -1
    · simp only [List.map_cons, List.sum_cons, List.filter_cons, h, ne_eq, not_true_eq_false,
        decide_False, decide_True, if_true, ih]
      simp only [Bool.false_eq_true, if_false]
      ring
    · simp only [List.map_cons, List.sum_cons, List.filter_cons, h, ne_eq, not_false_eq_true,
        decide_False, decide_True, if_true, ih]
      simp only [Bool.false_eq_true, if_false, List.map_cons, List.sum_cons]
      ring

theorem sum_indicator (n b : Nat) (d : Int) (hb : b < n) :
    ((List.range n).map fun i => if i = b then d else 0).sum = d := by
  induction n with
  | zero => omega
  | succ n ih =>
    rw [List.range_succ, List.map_append, List.sum_append]
    by_cases h : b = n
    · subst h
      have : ((List.range b).map fun i => if i = b then d else (0 : Int)) =
          (List.range b).map fun _ => (0 : Int) := by
        apply List.map_congr_left
        intro i hi
        rw [List.mem_range] at hi
        rw [if_neg (by omega)]
      rw [this]
      simp
    · rw [ih (by omega)]
      have : ¬ n = b := fun hc => h hc.symm
      simp [this]

theorem durations_busy (ps0 : List Process) (tl : List TimelineEvent) (hp : PidsOk ps0)
    (hk : KnownPids ps0 tl) :
    durations (tl.filter fun e => decide (e.pid ≠ -1)) =
      ((List.range ps0.length).map fun i => durations (events_of ps0 tl i)).sum := by
  induction tl with
  | nil => simp [durations, events_of]
  | cons e rest ih =>
    have hk' : KnownPids ps0 rest := fun x hx => hk x (List.mem_cons_of_mem _ hx)
    have ih := ih hk'
    rcases (hk e (List.mem_cons_self _ _)).2 with he | ⟨b, hb, he⟩
    · have h1 : (List.filter (fun e => decide (e.pid ≠ -1)) (e :: rest)) =
          List.filter (fun e => decide (e.pid ≠ -1)) rest := by
        simp [List.filter_cons, he]
      have h2 : ((List.range ps0.length).map fun i => durations (events_of ps0 (e :: rest) i)) =
          (List.range ps0.length).map fun i => durations (events_of ps0 rest i) := by
        apply List.map_congr_left
        intro i hi
        rw [List.mem_range] at hi
        have : e.pid ≠ (getP ps0 i).pid := fun hc => hp.2 i hi (by rw [← hc]; exact he)
        simp [events_of, List.filter_cons, this]
      rw [h1, h2, ih]
    · have hne : e.pid ≠ -1 := by rw [he]; exact hp.2 b hb
      have h1 : (List.filter (fun e => decide (e.pid ≠ -1)) (e :: rest)) =
          e :: List.filter (fun e => decide (e.pid ≠ -1)) rest := by
        simp [List.filter_cons, hne]
      have h2 : ((List.range ps0.length).map fun i => durations (events_of ps0 (e :: rest) i)) =
          (List.range ps0.length).map fun i =>
            (if i = b then e.duration else 0) + durations (events_of ps0 rest i) := by
        apply List.map_congr_left
        intro i hi
        rw [List.mem_range] at hi
        by_cases hib : i = b
        · subst hib
          simp [events_of, List.filter_cons, he, durations]
        · have : e.pid ≠ (getP ps0 i).pid := fun hc => hib (hp.1 i b hi hb (by rw [← hc, he]))
          simp [events_of, List.filter_cons, this, hib]
      rw [h1, h2, List.sum_map_add, sum_indicator _ _ _ hb, ← ih]
      simp [durations]

theorem map_range_getP (l : List Process) (f : Process → Int) :
    ((List.range l.length).map fun i => f (getP l i)) = l.map f := by
  apply List.ext_getElem
  · simp
  · intro i h1 h2
    simp only [List.getElem_map, List.getElem_range, getP]
    rw [List.getD_eq_getElem _ _ (by simpa using h2)]

theorem metrics_busy_fold (ps : List Process) :
    ∀ a : MetricsAcc, (ps.foldl metrics_accumulate a).busy =
      a.busy + (ps.map fun p =>
        if 0 ≤ p.completion_time then p.burst_time else p.burst_time - p.remaining_time).sum := by
  induction ps with
  | nil => intro a; simp
  | cons p ps ih =>
    intro a
    simp only [List.foldl_cons, List.map_cons, List.sum_cons]
    rw [ih]
    by_cases hc : 0 ≤ p.completion_time
    · simp only [metrics_accumulate, if_pos (ge_iff_le.2 hc), hc, if_true,
        (metrics_update_turnaround p hc).2.2.1]
      ring
    · have hc' : ¬ p.completion_time ≥ 0 := hc
      simp only [metrics_accumulate, hc', hc, if_false]
      ring

/-- The busy time `calculate_metrics` accumulates when no process has work
left: the sum of the burst times, whatever the completion times are. -/
theorem metrics_busy_done (ps : List Process) (h : ∀ p ∈ ps, p.remaining_time = 0) :
    (metrics_sums ps).busy = (ps.map (·.burst_time)).sum := by
  unfold metrics_sums
  rw [metrics_busy_fold]
  simp only [zero_add]
  congr 1
  apply List.map_congr_left
  intro p hp
  rw [h p hp]
  split <;> simp

theorem getP_calculate_metrics (ps : List Process) (total_time : Int) (i : Nat)
    (hi : i < ps.length) :
    getP (calculate_metrics ps total_time).1 i = metrics_update (getP ps i) := by
  simp only [calculate_metrics, getP]
  rw [List.getD_eq_getElem _ _ (by simpa using hi), List.getD_eq_getElem _ _ hi,
    List.getElem_map]

end Sched

namespace Sched

/-! ## The timeline is in chronological order -/

theorem contig_sorted (tl : List TimelineEvent) (t0 t : Int) (h : Contig t0 tl t)
    (hd : ∀ e ∈ tl, 0 ≤ e.duration) :
    t0 ≤ t ∧ (∀ e ∈ tl, t0 ≤ e.time ∧ e.stop ≤ t) ∧
      tl.Pairwise (fun a b => a.stop ≤ b.time) := by
  induction tl generalizing t0 with
  | nil =>
    simp only [Contig] at h
    exact ⟨by omega, fun e he => absurd he (List.not_mem_nil e), List.Pairwise.nil⟩
  | cons e rest ih =>
    obtain ⟨h1, h2⟩ := h
    obtain ⟨i1, i2, i3⟩ := ih _ h2 (fun x hx => hd x (List.mem_cons_of_mem _ hx))
    have hde := hd e (List.mem_cons_self _ _)
    refine ⟨by omega, ?_, List.Pairwise.cons ?_ i3⟩
    · intro x hx
      rcases List.mem_cons.1 hx with rfl | hx
      · simp only [TimelineEvent.stop]; omega
      · have := i2 x hx; omega
    · intro x hx
      have := (i2 x hx).1
      simp only [TimelineEvent.stop]; omega

theorem pairwise_head (l : List TimelineEvent) (R : TimelineEvent → TimelineEvent → Prop)
    (h : l.Pairwise R) (a : TimelineEvent) (ha : l.head? = some a) :
    ∀ b ∈ l, b = a ∨ R a b := by
  cases l with
  | nil => simp at ha
  | cons x rest =>
    simp only [List.head?_cons, Option.some.injEq] at ha
    subst ha
    intro b hb
    rcases List.mem_cons.1 hb with rfl | hb
    · exact Or.inl rfl
    · exact Or.inr (List.rel_of_pairwise_cons h hb)

theorem pairwise_last (l : List TimelineEvent) (R : TimelineEvent → TimelineEvent → Prop)
    (h : l.Pairwise R) (z : TimelineEvent) (hz : l.getLast? = some z) :
    ∀ b ∈ l, b = z ∨ R b z := by
  have hr : l.reverse.Pairwise (fun a b => R b a) := List.pairwise_reverse.2 h
  have hh : l.reverse.head? = some z := by rw [List.head?_reverse]; exact hz
  cases hl : l.reverse with
  | nil => rw [hl] at hh; simp at hh
  | cons x rest =>
    rw [hl] at hr hh
    simp only [List.head?_cons, Option.some.injEq] at hh
    subst hh
    intro b hb
    have hb' : b ∈ l.reverse := List.mem_reverse.2 hb
    rw [hl] at hb'
    rcases List.mem_cons.1 hb' with rfl | hb'
    · exact Or.inl rfl
    · exact Or.inr (List.rel_of_pairwise_cons hr hb')

/-- In a timeline that tiles an interval with durations that are not
negative, the first event of a pid is its earliest and the last event of a
pid is the one that ends latest. -/
theorem events_of_extremes (ps : List Process) (tl : List TimelineEvent) (t0 t : Int) (i : Nat)
    (h : Contig t0 tl t) (hd : ∀ e ∈ tl, 0 ≤ e.duration) (s c : Int)
    (hs : (events_of ps tl i).head?.map (·.time) = some s)
    (hc : (events_of ps tl i).getLast?.map (fun e => e.time + e.duration) = some c) :
    ∀ e ∈ events_of ps tl i, s ≤ e.time ∧ e.time + e.duration ≤ c := by
  obtain ⟨_, _, hpw⟩ := contig_sorted tl t0 t h hd
  have hpw' : (events_of ps tl i).Pairwise (fun a b => a.stop ≤ b.time) := by
    unfold events_of
    exact hpw.filter _
  have hdur : ∀ e ∈ events_of ps tl i, 0 ≤ e.duration := by
    intro e he
    unfold events_of at he
    exact hd e (List.mem_filter.1 he).1
  obtain ⟨a, ha, ha2⟩ := Option.map_eq_some'.1 hs
  obtain ⟨z, hz, hz2⟩ := Option.map_eq_some'.1 hc
  have hdz := hdur z (List.mem_of_mem_getLast? hz)
  intro e he
  refine ⟨?_, ?_⟩
  · rcases pairwise_head _ _ hpw' a ha e he with rfl | hr
    · omega
    · have := hdur a (List.mem_of_mem_head? ha)
      simp only [TimelineEvent.stop] at hr
      omega
  · rcases pairwise_last _ _ hpw' z hz e he with rfl | hr
    · omega
    · have := hdur e he
      simp only [TimelineEvent.stop] at hr
      omega

end Sched

namespace Sched

/-! ## Idle time and utilization -/

theorem sum_pos_of_pos (l : List Int) (h : ∀ x ∈ l, 0 < x) (hne : l ≠ []) : 0 < l.sum := by
  induction l with
  | nil => exact absurd rfl hne
  | cons x rest ih =>
    simp only [List.sum_cons]
    have hx := h x (List.mem_cons_self _ _)
    by_cases hr : rest = []
    · subst hr; simpa using hx
    · have := ih (fun y hy => h y (List.mem_cons_of_mem _ hy)) hr
      omega

theorem run_policy_events (pol : Policy) (hv : pol.Valid) (ps : List Process) (fuel : Nat)
    (hburst : ∀ p ∈ ps, 1 ≤ p.burst_time) (hrange : ∀ p ∈ ps, p.arrival_time ≤ INT_MAX)
    (hpid : ∀ p ∈ ps, p.pid ≠ -1) (hfuel : fuel_bound ps ≤ fuel) :
    ∃ r time, run_policy pol fuel ps = some r ∧ EventsOk r.procs r.timeline time := by
  cases pol with
  | fifo =>
    obtain ⟨time, h⟩ := fifo_events_run ps hburst hpid
    exact ⟨_, time, rfl, h⟩
  | sjf => exact sjf_events_run ps fuel hburst hrange hpid hfuel
  | stcf => exact stcf_events_run ps fuel hburst hrange hpid hfuel
  | rr quantum => exact rr_events_run ps fuel quantum hv hburst hrange hpid hfuel
  | mlfq cfg => exact mlfq_events_run cfg hv ps fuel hburst hrange hpid hfuel

theorem idle_durations (tl : List TimelineEvent)
    (h : ∀ e ∈ tl, e.pid = -1 → 0 < e.duration) :
    0 ≤ durations (tl.filter fun e => decide (e.pid = -1)) ∧
      (durations (tl.filter fun e => decide (e.pid = -1)) = 0 ↔ ∀ e ∈ tl, e.pid ≠ -1) := by
  by_cases hnil : (tl.filter fun e => decide (e.pid = -1)) = []
  · rw [hnil]
    refine ⟨le_refl _, fun _ => ?_, fun _ => rfl⟩
    intro e he hp
    have : e ∈ tl.filter fun e => decide (e.pid = -1) :=
      List.mem_filter.2 ⟨he, by simpa using hp⟩
    rw [hnil] at this
    exact absurd this (List.not_mem_nil e)
  · have hpos : 0 < durations (tl.filter fun e => decide (e.pid = -1)) := by
      unfold durations
      apply sum_pos_of_pos
      · intro x hx
        obtain ⟨e, he, rfl⟩ := List.mem_map.1 hx
        obtain ⟨h1, h2⟩ := List.mem_filter.1 he
        exact h e h1 (by simpa using h2)
      · simpa using hnil
    refine ⟨le_of_lt hpos, fun h0 => by omega, fun hall => ?_⟩
    obtain ⟨e, he⟩ := List.exists_mem_of_ne_nil _ hnil
    obtain ⟨h1, h2⟩ := List.mem_filter.1 he
    exact absurd (by simpa using h2) (hall e h1)

theorem map_burst_of_inputs (a b : List Process) (h : a.map inputs = b.map inputs) :
    a.map (·.burst_time) = b.map (·.burst_time) := by
  have := congrArg (List.map fun x : Int × Int × Int × Int => x.2.2.1) h
  simpa only [List.map_map, Function.comp, inputs] using this

end Sched

namespace Sched

/-! ## `schedule_stcf` merges the ticks of one occupant -/

theorem EndsAtFinish.set_other {ps0 procs : List Process} {e : TimelineEvent}
    (h : EndsAtFinish ps0 procs e) (b : Nat) (p' : Process)
    (hunf : (getP procs b).finished = 0) : EndsAtFinish ps0 (procs.set b p') e := by
  obtain ⟨i, hi, h1, h2, h3⟩ := h
  have hib : b ≠ i := fun hc => h2 (by rw [← hc]; exact hunf)
  exact ⟨i, hi, h1, by rw [getP_set_ne _ _ _ _ hib]; exact h2,
    by rw [getP_set_ne _ _ _ _ hib]; exact h3⟩

theorem MergeRel.keep {ps0 procs : List Process} {a c : TimelineEvent}
    (h : MergeRel ps0 procs a c) (b : Nat) (p' : Process)
    (hunf : (getP procs b).finished = 0) : MergeRel ps0 (procs.set b p') a c :=
  ⟨h.1, fun hp => (h.2 hp).imp (fun he => he.set_other b p' hunf) id⟩

theorem chain_replace_last (R : TimelineEvent → TimelineEvent → Prop) (tl : List TimelineEvent)
    (e e' : TimelineEvent) (h : (tl ++ [e]).Chain' R) (hR : ∀ x, R x e → R x e') :
    (tl ++ [e']).Chain' R := by
  rw [List.chain'_append] at h ⊢
  obtain ⟨h1, _, h3⟩ := h
  refine ⟨h1, List.chain'_singleton _, fun x hx y hy => ?_⟩
  simp only [List.head?_cons, Option.mem_def, Option.some.injEq] at hy
  subst hy
  exact hR x (h3 x hx e (by simp))

theorem chain_push (R : TimelineEvent → TimelineEvent → Prop) (tl : List TimelineEvent)
    (e : TimelineEvent) (h : tl.Chain' R) (hR : ∀ x, tl.getLast? = some x → R x e) :
    (tl ++ [e]).Chain' R := by
  rw [List.chain'_append]
  refine ⟨h, List.chain'_singleton _, fun x hx y hy => ?_⟩
  simp only [List.head?_cons, Option.mem_def, Option.some.injEq] at hy
  subst hy
  exact hR x hx

theorem getLast_append_one (tl : List TimelineEvent) (e : TimelineEvent) :
    (tl ++ [e]).getLast? = some e := by
  simp

theorem merged_step (ps0 : List Process) (t0 : Int) (hp : PidsOk ps0)
    (hrange : ∀ i, i < ps0.length → (getP ps0 i).arrival_time ≤ INT_MAX)
    (s s' : StcfState) (hI : StcfInv ps0 t0 s) (hM : Merged ps0 s)
    (hs : stcf_step s = some s') : Merged ps0 s' := by
  have hP := hI.procs
  have hlen := hP.static.1
  have hN := hI.count
  unfold stcf_step at hs
  by_cases hlt : s.completed < s.core.procs.length
  · rw [if_pos hlt] at hs
    have hex : ∃ i, i < s.core.procs.length ∧ (getP s.core.procs i).finished = 0 :=
      (unfinishedCount_pos_iff _).1 (by omega)
    have hle : ∀ i, i < s.core.procs.length → (getP s.core.procs i).arrival_time ≤ INT_MAX := by
      intro i hi
      rw [hlen] at hi
      rw [(hP.static.2 i hi).2.1]; exact hrange i hi
    rcases pick_best_spec stcf_better stcf_better_asymm stcf_better_cotrans s.core.procs
      s.core.time with ⟨hpick, hnone⟩ | ⟨b, hpick, hbest⟩
    · rw [hpick] at hs
      simp only [Option.some.injEq] at hs
      subst hs
      have hci : s.current_idx = none := by
        cases hci : s.current_idx with
        | none => rfl
        | some c =>
          obtain ⟨h1, h2, h3, _⟩ := hI.cur c hci
          exact absurd ⟨h2, h3⟩ (hnone c (by rw [hlen]; exact h1))
      obtain ⟨hgt, hel⟩ := idle_progress _ _ hle hex hnone
      have hch := hM.chain
      simp only [stcf_open, hci, List.append_nil] at hch
      refine ⟨?_, ?_⟩
      · simp only [stcf_open, hci, List.append_nil, idle_until, push_event]
        refine chain_push _ _ _ hch (fun x hx => ?_)
        obtain ⟨l1, l2⟩ := hM.last hci x hx
        have hxp : x.pid ≠ -1 := fun hc => by
          obtain ⟨j, hj, hje⟩ := l2 hc
          exact hnone j hj hje
        exact ⟨hxp, fun _ => Or.inl (l1 hxp)⟩
      · intro _ e he
        simp only [idle_until, push_event, getLast_append_one, Option.some.injEq] at he
        subst he
        exact ⟨fun hc => absurd rfl hc, fun _ => hel⟩
    · rw [hpick] at hs
      dsimp only at hs
      obtain ⟨hb, hel, _, _⟩ := hbest
      have hb0 : b < ps0.length := by rw [← hlen]; exact hb
      obtain ⟨hpb, hab, _⟩ := hP.static.2 b hb0
      have hpbne : (getP ps0 b).pid ≠ -1 := hp.2 b hb0
      have hfinish : ∀ cs : Int, EndsAtFinish ps0
          (s.core.procs.set b
            (mark_finished (run_slice (getP s.core.procs b) s.core.time 1) (s.core.time + 1)))
          ⟨cs, (getP ps0 b).pid, s.core.time + 1 - cs⟩ := by
        intro cs
        refine ⟨b, hb0, rfl, ?_, ?_⟩
        · rw [getP_set_eq _ _ _ hb]; simp [mark_finished]
        · rw [getP_set_eq _ _ _ hb]
          simp only [mark_finished_completion]
          ring
      by_cases hcur : s.current_idx = some b
      · have hch := hM.chain
        simp only [stcf_open, hcur] at hch
        have hext : ∀ p' : Process,
            List.Chain' (MergeRel ps0 (s.core.procs.set b p'))
              (s.core.timeline ++
                [⟨s.current_start, (getP ps0 b).pid, s.core.time + 1 - s.current_start⟩]) := by
          intro p'
          exact chain_replace_last (MergeRel ps0 (s.core.procs.set b p')) _ _ _
            (hch.imp fun a c h => h.keep b p' hel.1) (fun x hx => ⟨hx.1, hx.2⟩)
        by_cases hz : (run_slice (getP s.core.procs b) s.core.time 1).remaining_time = 0
        · rw [if_pos hz] at hs
          simp only [Option.some.injEq] at hs
          subst hs
          refine ⟨?_, ?_⟩
          · simp only [stcf_open, List.append_nil, hcur, ne_eq, not_true_eq_false, if_false,
              push_event, hpb]
            exact hext _
          · intro _ e he
            simp only [hcur, ne_eq, not_true_eq_false, if_false, push_event, hpb,
              getLast_append_one, Option.some.injEq] at he
            subst he
            exact ⟨fun _ => hfinish _, fun hc => absurd hc hpbne⟩
        · rw [if_neg hz] at hs
          simp only [Option.some.injEq] at hs
          subst hs
          refine ⟨?_, ?_⟩
          · simp only [stcf_open, hcur, ne_eq, not_true_eq_false, if_false]
            exact hext _
          · intro hc
            simp at hc
      · have hcur' : s.current_idx ≠ some b := hcur
        simp only [if_pos hcur'] at hs
        have htl1 : (match s.current_idx with
            | some c => push_event s.core.timeline s.current_start (getP s.core.procs c).pid
                (s.core.time - s.current_start)
            | none => s.core.timeline) = s.core.timeline ++ stcf_open ps0 s := by
          cases hci : s.current_idx with
          | none => simp [stcf_open, hci]
          | some c =>
            obtain ⟨h1, _⟩ := hI.cur c hci
            simp only [stcf_open, hci, push_event, (hP.static.2 c h1).1]
        have hnew : ∀ tl1 : List TimelineEvent, tl1 = s.core.timeline ++ stcf_open ps0 s →
            ∀ (p' : Process) (d : Int),
            List.Chain' (MergeRel ps0 (s.core.procs.set b p'))
              (tl1 ++ [⟨s.core.time, (getP ps0 b).pid, d⟩]) := by
          intro tl1 htl p' d
          rw [htl]
          refine chain_push (MergeRel ps0 (s.core.procs.set b p')) _ _
            (hM.chain.imp fun a c h => h.keep b p' hel.1) (fun x hx => ?_)
          refine ⟨?_, fun _ => Or.inr hpbne⟩
          cases hci : s.current_idx with
          | some c =>
            obtain ⟨h1, _⟩ := hI.cur c hci
            simp only [stcf_open, hci, getLast_append_one, Option.some.injEq] at hx
            subst hx
            intro hc
            exact hcur (by rw [hci, hp.1 c b h1 hb0 hc])
          | none =>
            simp only [stcf_open, hci, List.append_nil] at hx
            obtain ⟨l1, _⟩ := hM.last hci x hx
            by_cases hxp : x.pid = -1
            · rw [hxp]; exact fun hc => hpbne hc.symm
            · obtain ⟨i, hi, h1, h2, _⟩ := l1 hxp
              intro hc
              have : i = b := hp.1 i b hi hb0 (by rw [h1, hc])
              rw [this] at h2
              exact h2 hel.1
        by_cases hz : (run_slice (getP s.core.procs b) s.core.time 1).remaining_time = 0
        · rw [if_pos hz] at hs
          simp only [Option.some.injEq] at hs
          subst hs
          refine ⟨?_, ?_⟩
          · simp only [stcf_open, List.append_nil, push_event, hpb]
            exact hnew _ htl1 _ _
          · intro _ e he
            simp only [push_event, hpb, getLast_append_one, Option.some.injEq] at he
            subst he
            exact ⟨fun _ => hfinish _, fun hc => absurd hc hpbne⟩
        · rw [if_neg hz] at hs
          simp only [Option.some.injEq] at hs
          subst hs
          refine ⟨?_, ?_⟩
          · simp only [stcf_open]
            exact hnew _ htl1 _ _
          · intro hc
            simp at hc
  · rw [if_neg hlt] at hs; exact absurd hs (by simp)

end Sched

namespace Sched

theorem merged_init (ps : List Process) :
    Merged (reset_processes ps)
      ⟨⟨reset_processes ps, [], first_arrival (reset_processes ps)⟩, 0, none, -1⟩ :=
  ⟨by simp [stcf_open], fun _ e he => by simp at he⟩

/-- A complete run of `schedule_stcf` with the merge invariant on its final
state, in which no event is open. -/
theorem stcf_merged_run (ps : List Process) (fuel : Nat)
    (hburst : ∀ p ∈ ps, 1 ≤ p.burst_time) (hrange : ∀ p ∈ ps, p.arrival_time ≤ INT_MAX)
    (hnodup : (ps.map (·.pid)).Nodup) (hpid : ∀ p ∈ ps, p.pid ≠ -1)
    (hfuel : fuel_bound ps ≤ fuel) :
    ∃ s, schedule_stcf fuel ps = some ⟨s.core.procs, s.core.timeline⟩ ∧
      StcfInv (reset_processes ps) (first_arrival (reset_processes ps)) s ∧
      s.current_idx = none ∧ Merged (reset_processes ps) s := by
  obtain ⟨s, hs, hI, hc, _⟩ := stcf_run ps fuel hburst hrange hfuel
  have := whileLoop_inv stcf_step
    (fun s => StcfInv (reset_processes ps) (first_arrival (reset_processes ps)) s ∧
      Merged (reset_processes ps) s)
    (fun a b ⟨h1, h2⟩ hab =>
      ⟨(stcf_step_inv _ _ (reset_arrival_le ps _ hrange) a b h1 hab).1,
        merged_step _ _ (pids_ok_reset ps hnodup hpid) (reset_arrival_le ps _ hrange)
          a b h1 h2 hab⟩)
    fuel _ s ⟨stcf_init_inv ps hburst, merged_init ps⟩ hs
  exact ⟨s, by simp [schedule_stcf, hs], hI, hc, this.2⟩

theorem getLast_getD (l : List TimelineEvent) (k : Nat) (h : k + 1 = l.length) :
    l.getLast? = some (l.getD k default) := by
  have hk : k < l.length := by omega
  rw [List.getD_eq_getElem _ _ hk, List.getLast?_eq_getElem?]
  have : l.length - 1 = k := by omega
  rw [this, List.getElem?_eq_getElem hk]

theorem chain_getD (R : TimelineEvent → TimelineEvent → Prop) (l : List TimelineEvent)
    (h : l.Chain' R) (k : Nat) (hk : k + 1 < l.length) :
    R (l.getD k default) (l.getD (k + 1) default) := by
  have := List.chain'_iff_get.1 h k (by omega)
  rw [List.getD_eq_getElem _ _ (by omega), List.getD_eq_getElem _ _ hk]
  simpa only [List.get_eq_getElem] using this

end Sched

namespace Sched

/-! ## Runs within the `int` range -/

theorem sum_ge_of_mem (l : List Int) (h : ∀ x ∈ l, 0 ≤ x) (a : Int) (ha : a ∈ l) :
    a ≤ l.sum := by
  induction l with
  | nil => simp at ha
  | cons x rest ih =>
    simp only [List.sum_cons]
    have hx := h x (List.mem_cons_self _ _)
    have hr : 0 ≤ rest.sum := List.sum_nonneg fun y hy => h y (List.mem_cons_of_mem _ hy)
    rcases List.mem_cons.1 ha with rfl | ha
    · omega
    · have := ih (fun y hy => h y (List.mem_cons_of_mem _ hy)) ha
      omega

theorem ClockFits.arrival_lt {ps : List Process} (h : ClockFits ps)
    (hburst : ∀ p ∈ ps, 1 ≤ p.burst_time) : ∀ p ∈ ps, p.arrival_time < INT_MAX := by
  intro p hp
  obtain ⟨i, hi, rfl⟩ := exists_getP_of_mem ps p hp
  have h1 := arrival_le_max ps i hi
  have h2 : (getP ps i).burst_time ≤ (ps.map (·.burst_time)).sum := by
    apply sum_ge_of_mem
    · intro x hx
      obtain ⟨q, hq, rfl⟩ := List.mem_map.1 hx
      have := hburst q hq
      omega
    · exact List.mem_map.2 ⟨_, hp, rfl⟩
  have h3 := hburst _ hp
  have h4 := h.2.1
  unfold last_instant at h4
  omega

theorem ClockFits.arrival_le {ps : List Process} (h : ClockFits ps)
    (hburst : ∀ p ∈ ps, 1 ≤ p.burst_time) : ∀ p ∈ ps, p.arrival_time ≤ INT_MAX :=
  fun p hp => le_of_lt (h.arrival_lt hburst p hp)

theorem last_instant_reset (ps : List Process) :
    last_instant (reset_processes ps) = last_instant ps := by
  simp [last_instant, reset_processes, List.map_map, Function.comp_def, reset_process]

/-- The clock of a run that fits starts within the `int` range, no later
than the latest arrival, and at most `INT_MAX` before `last_instant`. -/
theorem ClockFits.clock_start {ps : List Process} (h : ClockFits ps)
    (hburst : ∀ p ∈ ps, 1 ≤ p.burst_time) :
    -INT_MAX - 1 ≤ first_arrival ps ∧
      first_arrival ps ≤ maxList (ps.map (·.arrival_time)) ∧
      last_instant ps - first_arrival ps ≤ INT_MAX := by
  by_cases hne : ps = []
  · subst hne
    simp [first_arrival, maxList, last_instant, INT_MAX]
  · rw [first_arrival_eq_min ps hne (h.arrival_lt hburst)]
    obtain ⟨m1, m2⟩ := minList_spec (ps.map (·.arrival_time)) (by simpa using hne)
    obtain ⟨q, hq, hqe⟩ := List.mem_map.1 m1
    obtain ⟨i, hi, rfl⟩ := exists_getP_of_mem ps q hq
    have h1 := arrival_le_max ps i hi
    have h2 := h.1 _ hq
    have h3 := h.2.2
    have hqe2 : (getP ps i).arrival_time = minList (ps.map (·.arrival_time)) := hqe
    unfold minArrival at h3 ⊢
    exact ⟨by omega, by omega, by omega⟩

/-- Every policy, run on valid parameters and a workload with positive bursts
that satisfies `ClockFits`, returns a good run, with the history invariant,
all of whose times are `int`s. -/
theorem run_policy_in_range (pol : Policy) (hv : pol.Valid) (ps : List Process) (fuel : Nat)
    (hburst : ∀ p ∈ ps, 1 ≤ p.burst_time) (hfits : ClockFits ps)
    (hfuel : fuel_bound ps ≤ fuel) :
    ∃ r, run_policy pol fuel ps = some r ∧
      GoodRun (reset_processes ps) (first_arrival (reset_processes ps)) r ∧
      (∃ time, Hist (reset_processes ps) (first_arrival (reset_processes ps))
        r.procs r.timeline time) ∧
      r.InRange := by
  obtain ⟨r, hr, ⟨T, hP, hC, hall⟩, t, hH⟩ :=
    run_policy_trace pol hv ps fuel hburst (hfits.arrival_lt hburst) hfuel
  refine ⟨r, hr, ⟨T, hP, hC, hall⟩, ⟨t, hH⟩, ?_⟩
  have hfr : ClockFits (reset_processes ps) := by
    refine ⟨fun p hp => ?_, by rw [last_instant_reset]; exact hfits.2.1,
      by rw [last_instant_reset, minArrival_reset]; exact hfits.2.2⟩
    obtain ⟨q, hq, rfl⟩ := List.mem_map.1 hp
    exact hfits.1 q hq
  have hbr : ∀ p ∈ reset_processes ps, 1 ≤ p.burst_time := by
    intro p hp
    obtain ⟨q, hq, rfl⟩ := List.mem_map.1 hp
    exact hburst q hq
  obtain ⟨ht0, htm, hspan⟩ := hfr.clock_start hbr
  rw [last_instant_reset] at hspan
  have hb := hH.2.2.bound htm
  rw [last_instant_reset] at hb
  have hT : T = t := by
    have h1 := contig_total _ _ _ hC
    rw [compute_total_time_eq] at h1
    have h2 := hH.2.2.elapsed
    omega
  have hrs : 0 ≤ remaining_sum r.procs := by
    unfold remaining_sum
    apply List.sum_nonneg
    intro x hx
    obtain ⟨p, hp, rfl⟩ := List.mem_map.1 hx
    obtain ⟨i, hi, rfl⟩ := exists_getP_of_mem _ p hp
    rw [hP.static.1] at hi
    rw [(hP.fin i hi (hall i hi)).2.1]
  have hmax := hfits.2.1
  obtain ⟨_, hev, _⟩ := contig_sorted r.timeline _ _ hC (fun e he => (hH.2.1 e he).1)
  refine ⟨fun e he => ?_, fun p hp => ?_⟩
  · obtain ⟨e1, e2⟩ := hev e he
    have e3 := (hH.2.1 e he).1
    simp only [TimelineEvent.stop] at e2
    exact ⟨by omega, e3, by omega, by omega⟩
  · obtain ⟨i, hi, rfl⟩ := exists_getP_of_mem _ p hp
    have hs := hH.2.2.starts i hi
    rw [hP.static.1] at hi
    obtain ⟨_, _, f3, f4, f5⟩ := hP.fin i hi (hall i hi)
    have hI : INT_MAX = 2147483647 := rfl
    refine ⟨by omega, ?_, by omega, by omega⟩
    rcases hs with hs | hs
    · rw [hs, hI]; omega
    · omega

theorem in_range_of_run (pol : Policy) (hv : pol.Valid) (ps : List Process) (fuel : Nat)
    (hburst : ∀ p ∈ ps, 1 ≤ p.burst_time) (hfits : ClockFits ps)
    (hfuel : fuel_bound ps ≤ fuel) (r : SchedResult) (hr : run_policy pol fuel ps = some r) :
    r.InRange := by
  obtain ⟨r', hr', _, _, hin⟩ := run_policy_in_range pol hv ps fuel hburst hfits hfuel
  rw [hr] at hr'
  simp only [Option.some.injEq] at hr'
  rw [hr']; exact hin

theorem iterate_loop_first {σ : Type} (step : σ → Option σ) (k : Nat) (s : σ) :
    iterate_loop step (k + 1) s = (step s).bind (iterate_loop step k) := by
  induction k with
  | zero =>
    show (some s).bind step = (step s).bind fun x => some x
    rw [Option.some_bind, Option.bind_some]
  | succ k ih =>
    show (iterate_loop step (k + 1) s).bind step = _
    rw [ih, Option.bind_assoc]
    rfl

/-- A check `all_states step ok fuel s` covers every state the loop reaches
from `s` within `fuel` iterations. -/
theorem all_states_sound {σ : Type} (step : σ → Option σ) (ok : σ → Bool) (fuel : Nat) :
    ∀ s, all_states step ok fuel s = true →
      ∀ k, k ≤ fuel → ∀ s', iterate_loop step k s = some s' → ok s' = true := by
  induction fuel with
  | zero =>
    intro s h k hk s' hs
    obtain rfl : k = 0 := by omega
    obtain rfl : s = s' := by simpa [iterate_loop] using hs
    exact h
  | succ fuel ih =>
    intro s h k hk s' hs
    simp only [all_states, Bool.and_eq_true] at h
    cases k with
    | zero =>
      obtain rfl : s = s' := by simpa [iterate_loop] using hs
      exact h.1
    | succ k =>
      rw [iterate_loop_first] at hs
      cases hst : step s with
      | none => rw [hst] at hs; simp at hs
      | some s1 =>
        rw [hst] at hs
        have h2 := h.2
        rw [hst] at h2
        exact ih s1 h2 k (by omega) s' hs

/-- On a run within bounds the write index of the queue of `schedule_rr` is
at most `2 * n` at the head of every iteration. -/
theorem rr_queue_within (quantum : Int) (fuel : Nat) (ps : List Process)
    (h : (Policy.rr quantum).InBounds fuel ps) (k : Nat) (hk : k ≤ fuel) (s : RrState)
    (hs : rr_state_at quantum ps k = some s) : s.queue.buf.length ≤ rr_capacity ps.length := by
  have := all_states_sound (rr_step quantum) (rr_fits ps.length) fuel _ h k hk s hs
  simpa [rr_fits] using this

/-- On a run within bounds the write index of every level of `schedule_mlfq`
is at most `n + 5` at the head of every iteration. -/
theorem mlfq_levels_within (cfg : MlfqConfig) (fuel : Nat) (ps : List Process)
    (h : (Policy.mlfq cfg).InBounds fuel ps) (k : Nat) (hk : k ≤ fuel) (s : MlfqState)
    (hs : mlfq_state_at cfg ps k = some s) :
    ∀ q ∈ s.levels, q.buf.length ≤ mlfq_capacity ps.length := by
  have := all_states_sound (mlfq_step cfg) (mlfq_fits ps.length) fuel _ h k hk s hs
  simpa [mlfq_fits] using this

end Sched

namespace Sched

/-! ## The 32-bit machine -/

/-- On the test workload, whose clock stays far below `INT_MAX`, the 32-bit
machine and the definitions over the integers give the same timelines and
the same start and completion times. -/
theorem wrapped_agrees_on_test :
    ((schedule_fifo_wrapped test_workload).timeline,
        (schedule_fifo_wrapped test_workload).procs.map
          fun p => (p.start_time, p.completion_time)) =
      ([⟨0, 1, 5⟩, ⟨5, 2, 3⟩, ⟨8, 3, 8⟩], [(0, 5), (5, 8), (8, 16)]) ∧
      ((schedule_fifo test_workload).timeline,
        (schedule_fifo test_workload).procs.map fun p => (p.start_time, p.completion_time)) =
      ([⟨0, 1, 5⟩, ⟨5, 2, 3⟩, ⟨8, 3, 8⟩], [(0, 5), (5, 8), (8, 16)]) ∧
      (schedule_sjf_wrapped 34 test_workload).map
          (fun r => (r.timeline, r.procs.map fun p => (p.start_time, p.completion_time))) =
        some ([⟨0, 1, 5⟩, ⟨5, 2, 3⟩, ⟨8, 3, 8⟩], [(0, 5), (5, 8), (8, 16)]) ∧
      (schedule_sjf 34 test_workload).map
          (fun r => (r.timeline, r.procs.map fun p => (p.start_time, p.completion_time))) =
        some ([⟨0, 1, 5⟩, ⟨5, 2, 3⟩, ⟨8, 3, 8⟩], [(0, 5), (5, 8), (8, 16)]) ∧
      (schedule_stcf_wrapped 34 test_workload).map
          (fun r => (r.timeline, r.procs.map fun p => (p.start_time, p.completion_time))) =
        some ([⟨0, 1, 1⟩, ⟨1, 2, 3⟩, ⟨4, 1, 4⟩, ⟨8, 3, 8⟩], [(0, 8), (1, 4), (8, 16)]) ∧
      (schedule_stcf 34 test_workload).map
          (fun r => (r.timeline, r.procs.map fun p => (p.start_time, p.completion_time))) =
        some ([⟨0, 1, 1⟩, ⟨1, 2, 3⟩, ⟨4, 1, 4⟩, ⟨8, 3, 8⟩], [(0, 8), (1, 4), (8, 16)]) := by
  refine ⟨by decide, by decide, by decide, by decide, by decide, by decide⟩

/-- Which process of `wrap_workload` a time slot showing pid 1 or pid 2
belongs to. -/
theorem wrap_slot_index (t u : Int) (o : Option Nat) (pid : Int)
    (h : slot_label wrap_workload (t, o) = (u, pid)) :
    t = u ∧ (pid = 1 → o = some 0) ∧ (pid = 2 → o = some 1) := by
  simp only [slot_label, Prod.mk.injEq] at h
  obtain ⟨h1, h2⟩ := h
  refine ⟨h1, fun hp => ?_, fun hp => ?_⟩
  · subst hp
    match o, h2 with
    | none, h2 => exact absurd h2 (by decide)
    | some 0, _ => rfl
    | some 1, h2 => exact absurd h2 (by decide)
    | some (n + 2), h2 => exact absurd h2 (by simp [getP, wrap_workload]; decide)
  · subst hp
    match o, h2 with
    | none, h2 => exact absurd h2 (by decide)
    | some 0, h2 => exact absurd h2 (by decide)
    | some 1, _ => rfl
    | some (n + 2), h2 => exact absurd h2 (by simp [getP, wrap_workload]; decide)

/-- The timeline of the 32-bit machine for `wrap_workload` is no schedule in
which every busy unit goes to the first process with the least remaining
time: at 2147483646 it runs pid 2, with 5 units left, although pid 1 has
arrived and has run for only 2 of its 6 units. -/
theorem wrap_timeline_not_stcf :
    ¬ ∃ slots : List (Int × Option Nat),
      unit_slots wrap_stcf_timeline = slots.map (slot_label wrap_workload) ∧
        StcfSlots wrap_workload slots := by
  rintro ⟨slots, hs, hst⟩
  have hu : unit_slots wrap_stcf_timeline =
      [(2147483644, 1), (2147483645, 1), (2147483646, 2)] := by decide
  rw [hu] at hs
  have hlen : slots.length = 3 := by
    have := congrArg List.length hs
    simpa using this.symm
  obtain ⟨s0, s1, s2, rfl⟩ := List.length_eq_three.1 hlen
  simp only [List.map_cons, List.map_nil, List.cons.injEq, and_true] at hs
  obtain ⟨h0, h1, h2⟩ := hs
  obtain ⟨t0, o0⟩ := s0
  obtain ⟨t1, o1⟩ := s1
  obtain ⟨t2, o2⟩ := s2
  obtain ⟨e0, f0, _⟩ := wrap_slot_index t0 _ o0 _ h0.symm
  obtain ⟨e1, f1, _⟩ := wrap_slot_index t1 _ o1 _ h1.symm
  obtain ⟨e2, _, f2⟩ := wrap_slot_index t2 _ o2 _ h2.symm
  obtain rfl := f0 rfl
  obtain rfl := f1 rfl
  obtain rfl := f2 rfl
  subst e0 e1 e2
  have hf := hst 2 2147483646 1 rfl
  have hle := hf.2.1 0 (by decide)
  rcases hle with h | ⟨h, _⟩
  · revert h; decide
  · revert h; decide

end Sched

namespace Sched

/-! ## The 32-bit machine agrees with the integers on runs that fit -/

theorem int_add_fits (a b : Int) (h0 : -INT_MAX - 1 ≤ a + b) (h1 : a + b ≤ INT_MAX) :
    int_add a b = a + b := by
  unfold int_add wrap32
  unfold INT_MAX at h0 h1
  omega

theorem int_sub_fits (a b : Int) (h0 : -INT_MAX - 1 ≤ a - b) (h1 : a - b ≤ INT_MAX) :
    int_sub a b = a - b := by
  unfold int_sub wrap32
  unfold INT_MAX at h0 h1
  omega

theorem idle_until_wrapped_eq (c : Core) (next : Int) (h0 : -INT_MAX - 1 ≤ next - c.time)
    (h1 : next - c.time ≤ INT_MAX) : idle_until_wrapped c next = idle_until c next := by
  unfold idle_until_wrapped idle_until
  rw [int_sub_fits _ _ h0 h1]

theorem run_to_completion_wrapped_eq (p : Process) (time : Int)
    (h0 : -INT_MAX - 1 ≤ time + p.burst_time) (h1 : time + p.burst_time ≤ INT_MAX) :
    run_to_completion_wrapped p time = run_to_completion p time := by
  unfold run_to_completion_wrapped run_to_completion
  rw [int_add_fits _ _ h0 h1]

theorem run_slice_wrapped_eq (p : Process) (time use : Int)
    (h0 : -INT_MAX - 1 ≤ p.remaining_time - use) (h1 : p.remaining_time - use ≤ INT_MAX) :
    run_slice_wrapped p time use = run_slice p time use := by
  unfold run_slice_wrapped run_slice
  rw [int_sub_fits _ _ h0 h1]

/-- Two loops whose bodies agree on the states of an invariant of one of
them return the same. -/
theorem whileLoop_agree {σ : Type} (step step2 : σ → Option σ) (J : σ → Prop)
    (hpres : ∀ a b, J a → step a = some b → J b)
    (hagree : ∀ a, J a → step2 a = step a) :
    ∀ fuel s, J s → whileLoop step2 fuel s = whileLoop step fuel s := by
  intro fuel
  induction fuel with
  | zero => intro s _; rfl
  | succ fuel ih =>
    intro s hs
    simp only [whileLoop]
    rw [hagree s hs]
    cases hst : step s with
    | none => rfl
    | some b => exact ih b (hpres s b hs hst)

theorem forLoop_agree {σ : Type} (body body2 : Nat → σ → σ) (J : Nat → σ → Prop) (init : σ)
    (n : Nat) (h0 : J 0 init)
    (hpres : ∀ k s, k < n → J k s → J (k + 1) (body k s))
    (hagree : ∀ k s, k < n → J k s → body2 k s = body k s) :
    forLoop n body2 init = forLoop n body init ∧ J n (forLoop n body init) := by
  induction n with
  | zero => exact ⟨rfl, h0⟩
  | succ n ih =>
    obtain ⟨e, hj⟩ := ih (fun k s hk => hpres k s (by omega)) (fun k s hk => hagree k s (by omega))
    simp only [forLoop]
    rw [e]
    exact ⟨hagree n _ (by omega) hj, hpres n _ (by omega) hj⟩

theorem remaining_le_sum (procs : List Process) (h : ∀ p ∈ procs, 0 ≤ p.remaining_time)
    (i : Nat) :
    0 ≤ (getP procs i).remaining_time ∧ (getP procs i).remaining_time ≤ remaining_sum procs := by
  have hs : 0 ≤ remaining_sum procs := by
    unfold remaining_sum
    apply List.sum_nonneg
    intro x hx
    obtain ⟨p, hp, rfl⟩ := List.mem_map.1 hx
    exact h p hp
  by_cases hi : i < procs.length
  · have hm := getP_mem procs i hi
    refine ⟨h _ hm, ?_⟩
    unfold remaining_sum
    apply sum_ge_of_mem
    · intro x hx
      obtain ⟨p, hp, rfl⟩ := List.mem_map.1 hx
      exact h p hp
    · exact List.mem_map.2 ⟨_, hm, rfl⟩
  · have hd : getP procs i = default := by
      unfold getP
      exact List.getD_eq_default _ _ (by omega)
    have hz : (default : Process).remaining_time = 0 := rfl
    rw [hd, hz]
    exact ⟨le_refl _, hs⟩

theorem ProcInv.remaining_nonneg {ps0 procs : List Process} {t0 time : Int}
    (hP : ProcInv ps0 t0 procs time) : ∀ p ∈ procs, 0 ≤ p.remaining_time := by
  intro p hp
  obtain ⟨i, hi, rfl⟩ := exists_getP_of_mem procs p hp
  rw [hP.static.1] at hi
  by_cases hf : (getP procs i).finished = 0
  · have := (hP.unfin i hi hf).1
    omega
  · rw [(hP.fin i hi hf).2.1]

/-- Where the clock window holds, the clock plus any part of the remaining
time of a process is an `int`, at most `INT_MAX` above the start of the
clock. -/
theorem clock_window_slice {ps0 procs : List Process} {t0 time : Int}
    {tl : List TimelineEvent} (hW : ClockWindow ps0 t0) (hP : ProcInv ps0 t0 procs time)
    (hB : ClockBound ps0 t0 procs tl time) (i : Nat) (u : Int) (hu0 : 0 ≤ u)
    (hu : u ≤ (getP procs i).remaining_time) :
    -INT_MAX - 1 ≤ time ∧ time + u ≤ INT_MAX ∧ time + u - t0 ≤ INT_MAX ∧
      0 ≤ (getP procs i).remaining_time - u ∧ (getP procs i).remaining_time - u ≤ INT_MAX := by
  obtain ⟨h1, h2⟩ := remaining_le_sum procs hP.remaining_nonneg i
  have h3 := hB.bound hW.start
  have h4 := hP.t0_le
  have h5 := hW.lo
  have h6 := hW.hi
  have h7 := hW.span
  refine ⟨by omega, by omega, by omega, by omega, by omega⟩

theorem ClockFits.window {ps : List Process} (h : ClockFits ps)
    (hburst : ∀ p ∈ ps, 1 ≤ p.burst_time) :
    ClockWindow (reset_processes ps) (first_arrival (reset_processes ps)) := by
  have hfr : ClockFits (reset_processes ps) := by
    refine ⟨fun p hp => ?_, by rw [last_instant_reset]; exact h.2.1,
      by rw [last_instant_reset, minArrival_reset]; exact h.2.2⟩
    obtain ⟨q, hq, rfl⟩ := List.mem_map.1 hp
    exact h.1 q hq
  have hbr : ∀ p ∈ reset_processes ps, 1 ≤ p.burst_time := by
    intro p hp
    obtain ⟨q, hq, rfl⟩ := List.mem_map.1 hp
    exact hburst q hq
  obtain ⟨a, b, c⟩ := hfr.clock_start hbr
  exact ⟨a, b, hfr.2.1, c⟩

theorem clock_window_idle {ps0 procs : List Process} {t0 time : Int}
    {tl : List TimelineEvent} (hW : ClockWindow ps0 t0) (hP : ProcInv ps0 t0 procs time)
    (hB : ClockBound ps0 t0 procs tl time) (next : Int) (hle : time ≤ next)
    (hnext : next ≤ maxList (ps0.map (·.arrival_time))) :
    -INT_MAX - 1 ≤ next - time ∧ next - time ≤ INT_MAX := by
  obtain ⟨_, h2⟩ := remaining_le_sum procs hP.remaining_nonneg 0
  have hs : 0 ≤ remaining_sum procs := by
    have := (remaining_le_sum procs hP.remaining_nonneg 0).1
    omega
  have h3 := hB.work
  have h4 := hP.t0_le
  have h6 := hW.hi
  have h7 := hW.span
  have hI : INT_MAX = 2147483647 := rfl
  unfold last_instant at h6 h7
  exact ⟨by omega, by omega⟩

theorem sjf_step_agree (ps0 : List Process) (t0 : Int) (s : SjfState)
    (hW : ClockWindow ps0 t0)
    (hrange : ∀ i, i < ps0.length → (getP ps0 i).arrival_time ≤ INT_MAX)
    (hI : SjfInv ps0 t0 s)
    (hF : ∀ i, i < s.core.procs.length → (getP s.core.procs i).finished = 0 →
      (getP s.core.procs i).remaining_time = (getP s.core.procs i).burst_time)
    (hH : Hist ps0 t0 s.core.procs s.core.timeline s.core.time) :
    sjf_step_wrapped s = sjf_step s := by
  have hP := hI.procs
  have hN := hI.count
  have hlen := hP.static.1
  unfold sjf_step_wrapped sjf_step
  by_cases hlt : s.completed < s.core.procs.length
  · rw [if_pos hlt, if_pos hlt]
    have hex : ∃ i, i < s.core.procs.length ∧ (getP s.core.procs i).finished = 0 :=
      (unfinishedCount_pos_iff _).1 (by omega)
    have hle : ∀ i, i < s.core.procs.length → (getP s.core.procs i).arrival_time ≤ INT_MAX := by
      intro i hi
      rw [hlen] at hi
      rw [(hP.static.2 i hi).2.1]; exact hrange i hi
    rcases pick_best_spec sjf_better sjf_better_asymm sjf_better_cotrans s.core.procs
      s.core.time with ⟨hpick, hnone⟩ | ⟨b, hpick, hbest⟩
    · rw [hpick]
      dsimp only
      obtain ⟨hgt, _⟩ := idle_progress _ _ hle hex hnone
      obtain ⟨h0, h1⟩ := clock_window_idle hW hP hH.2.2 _ (le_of_lt hgt)
        (next_arrival_le_max _ _ hP.static hle hex)
      rw [idle_until_wrapped_eq _ _ h0 h1]
    · rw [hpick]
      dsimp only
      obtain ⟨hb, hel, _, _⟩ := hbest
      have hrem := hF b hb hel.1
      have hb0 : b < ps0.length := by rw [← hlen]; exact hb
      have hbb := (hP.unfin b hb0 hel.1).1
      obtain ⟨w1, w2, _, _, _⟩ := clock_window_slice hW hP hH.2.2 b
        (getP s.core.procs b).burst_time (by omega) (by omega)
      rw [run_to_completion_wrapped_eq _ _ (by omega) w2, int_add_fits _ _ (by omega) w2]
  · rw [if_neg hlt, if_neg hlt]

theorem schedule_sjf_wrapped_eq (ps : List Process) (fuel : Nat)
    (hburst : ∀ p ∈ ps, 1 ≤ p.burst_time) (hfits : ClockFits ps) :
    schedule_sjf_wrapped fuel ps = schedule_sjf fuel ps := by
  have hrange : ∀ p ∈ ps, p.arrival_time ≤ INT_MAX := hfits.arrival_le hburst
  have hW := hfits.window hburst
  unfold schedule_sjf_wrapped schedule_sjf
  dsimp only
  rw [whileLoop_agree sjf_step sjf_step_wrapped
    (fun s => SjfInv (reset_processes ps) (first_arrival (reset_processes ps)) s ∧
      (∀ i, i < s.core.procs.length → (getP s.core.procs i).finished = 0 →
        (getP s.core.procs i).remaining_time = (getP s.core.procs i).burst_time) ∧
      Hist (reset_processes ps) (first_arrival (reset_processes ps)) s.core.procs
        s.core.timeline s.core.time)
    (fun a b ⟨h1, h2, h3⟩ hab =>
      ⟨(sjf_step_inv _ _ (reset_burst ps hburst) (reset_arrival_le ps _ hrange) a b h1 hab).1,
        sjf_trace_step _ _ a b (reset_burst ps hburst) (reset_arrival_le ps _ hrange)
          h1 h2 h3 hab⟩)
    (fun a ⟨h1, h2, h3⟩ =>
      sjf_step_agree _ _ a hW (reset_arrival_le ps _ hrange) h1 h2 h3)
    fuel _ ⟨sjf_init_inv ps hburst, reset_fresh ps, hist_nil ps _⟩]

theorem fifo_body_agree (ps0 : List Process) (t0 : Int) (idx : List Nat) (k : Nat) (s : Core)
    (hW : ClockWindow ps0 t0) (hidx : idx.getD k 0 < ps0.length)
    (hburst : ∀ i, i < ps0.length → 1 ≤ (getP ps0 i).burst_time)
    (hP : ProcInv ps0 t0 s.procs s.time)
    (hunf : (getP s.procs (idx.getD k 0)).finished = 0)
    (hF : ∀ i, i < s.procs.length → (getP s.procs i).finished = 0 →
      (getP s.procs i).remaining_time = (getP s.procs i).burst_time)
    (hH : Hist ps0 t0 s.procs s.timeline s.time) :
    fifo_body_wrapped idx k s = fifo_body idx k s := by
  have hlen := hP.static.1
  have hil : idx.getD k 0 < s.procs.length := by rw [hlen]; exact hidx
  obtain ⟨e1, e2, e3⟩ := hP.static.2 _ hidx
  have hb := hburst _ hidx
  have hrem := hF _ hil hunf
  unfold fifo_body_wrapped fifo_body
  generalize idx.getD k 0 = i at *
  by_cases hlt : s.time < (getP s.procs i).arrival_time
  · simp only [hlt, if_true]
    have hamax : (getP s.procs i).arrival_time ≤ maxList (ps0.map (·.arrival_time)) := by
      rw [e2]; exact arrival_le_max ps0 i hidx
    obtain ⟨a0, a1⟩ := clock_window_idle hW hP hH.2.2 _ (le_of_lt hlt) hamax
    have hH1 := hH.idle_push (getP s.procs i).arrival_time
      ((getP s.procs i).arrival_time - s.time) (le_of_lt hlt) rfl hamax
    have hP1 := hP.idle (getP s.procs i).arrival_time (le_of_lt hlt) ⟨i, hidx, hunf⟩
    obtain ⟨w1, w2, _⟩ := clock_window_slice hW hP1 hH1.2.2 i
      (getP s.procs i).burst_time (by omega) (by omega)
    rw [int_sub_fits _ _ a0 a1, run_to_completion_wrapped_eq _ _ (by omega) w2,
      int_add_fits _ _ (by omega) w2]
  · simp only [hlt, if_false]
    obtain ⟨w1, w2, _⟩ := clock_window_slice hW hP hH.2.2 i
      (getP s.procs i).burst_time (by omega) (by omega)
    rw [run_to_completion_wrapped_eq _ _ (by omega) w2, int_add_fits _ _ (by omega) w2]

theorem schedule_fifo_wrapped_eq (ps : List Process)
    (hburst : ∀ p ∈ ps, 1 ≤ p.burst_time) (hfits : ClockFits ps) :
    schedule_fifo_wrapped ps = schedule_fifo ps := by
  have hW := hfits.window hburst
  have hb := reset_burst ps hburst
  obtain ⟨hl, hr⟩ := StaticEq.reset ps
  have key := forLoop_agree (fifo_body (fifo_sort (reset_processes ps)))
    (fifo_body_wrapped (fifo_sort (reset_processes ps)))
    (fun k (s : Core) =>
      ProcInv (reset_processes ps) (first_arrival (reset_processes ps)) s.procs s.time ∧
      Contig (first_arrival (reset_processes ps)) s.timeline s.time ∧
      (∀ m, k ≤ m → m < (reset_processes ps).length →
        (getP s.procs ((fifo_sort (reset_processes ps)).getD m 0)).finished = 0) ∧
      (∀ i, i < s.procs.length → (getP s.procs i).finished = 0 →
        (getP s.procs i).remaining_time = (getP s.procs i).burst_time) ∧
      Hist (reset_processes ps) (first_arrival (reset_processes ps)) s.procs s.timeline s.time)
    ⟨reset_processes ps, [], first_arrival (reset_processes ps)⟩
    (reset_processes ps).length
    ⟨ProcInv.init ps hburst _, rfl,
      fun m _ hm => by
        have h1 := fifo_sort_lt (reset_processes ps) m hm
        rw [hl] at h1
        exact (hr _ h1).2.2.2.2.2.2,
      reset_fresh ps, hist_nil ps _⟩
    (by
      intro k s hk ⟨h1, h2, h4, h5, h6⟩
      have hik := fifo_sort_lt _ k hk
      obtain ⟨a, b, _, _⟩ := fifo_body_inv _ _ (fifo_sort (reset_processes ps)) k s hik hb h1 h2
      obtain ⟨e, f⟩ := fifo_trace_body _ _ (fifo_sort (reset_processes ps)) k s hik hb h1
        (h4 k (le_refl _) hk) h5 h6
      refine ⟨a, b, ?_, e, f⟩
      intro m hm1 hm2
      have hne : (fifo_sort (reset_processes ps)).getD m 0 ≠
          (fifo_sort (reset_processes ps)).getD k 0 := fun h => by
        have := fifo_sort_inj _ m k hm2 hk h
        omega
      have : getP (fifo_body (fifo_sort (reset_processes ps)) k s).procs
          ((fifo_sort (reset_processes ps)).getD m 0) =
          getP s.procs ((fifo_sort (reset_processes ps)).getD m 0) := by
        unfold fifo_body
        exact getP_set_ne _ _ _ _ (Ne.symm hne)
      rw [this]
      exact h4 m (by omega) hm2)
    (by
      intro k s hk ⟨h1, _, h4, h5, h6⟩
      exact fifo_body_agree _ _ _ k s hW (fifo_sort_lt _ k hk) hb h1
        (h4 k (le_refl _) hk) h5 h6)
  unfold schedule_fifo_wrapped schedule_fifo
  dsimp only
  rw [key.1]

theorem slice_within (rem quantum use : Int) (hr : 0 ≤ rem) (hq : 0 ≤ quantum)
    (hu : (if rem < quantum then rem else quantum) = use) : 0 ≤ use ∧ use ≤ rem := by
  split at hu <;> omega

theorem rr_step_agree (ps0 : List Process) (t0 quantum : Int) (hq : 1 ≤ quantum)
    (hW : ClockWindow ps0 t0)
    (hrange : ∀ i, i < ps0.length → (getP ps0 i).arrival_time ≤ INT_MAX)
    (s : RrState) (hI : RrInv ps0 t0 s)
    (hH : Hist ps0 t0 s.core.procs s.core.timeline s.core.time) :
    rr_step_wrapped quantum s = rr_step quantum s := by
  have hP := hI.procs
  have hlen := hP.static.1
  unfold rr_step_wrapped rr_step
  by_cases hdone : all_done s.core.procs = true
  · rw [if_pos hdone, if_pos hdone]
  · rw [if_neg hdone, if_neg hdone]
    have hex : ∃ i, i < s.core.procs.length ∧ (getP s.core.procs i).finished = 0 := by
      by_contra hne
      have : all_done s.core.procs = true := by
        rw [all_done_iff]
        intro i hi hf
        exact hne ⟨i, hi, hf⟩
      exact hdone this
    by_cases hempty : s.queue.head = s.queue.buf.length
    · rw [if_pos hempty, if_pos hempty]
      have hnone : ∀ j, j < s.core.procs.length →
          ¬ eligible (getP s.core.procs j) s.core.time := by
        intro j hj ⟨hf, ha⟩
        rw [hlen] at hj
        by_cases hadj : s.added.getD j false = true
        · have hm := hI.queue.queued j hj hf hadj
          have hnil : s.queue.pending = [] := by
            simp only [IdxQueue.pending, hempty, List.drop_length]
          rw [hnil] at hm
          exact absurd hm (List.not_mem_nil _)
        · have := (hI.queue.arrived j hj (by simpa using hadj)).2
          omega
      have hle : ∀ i, i < s.core.procs.length →
          (getP s.core.procs i).arrival_time ≤ INT_MAX := by
        intro i hi
        rw [hlen] at hi
        rw [(hP.static.2 i hi).2.1]; exact hrange i hi
      obtain ⟨hgt, _⟩ := idle_progress _ _ hle hex hnone
      obtain ⟨h0, h1⟩ := clock_window_idle hW hP hH.2.2 _ (le_of_lt hgt)
        (next_arrival_le_max _ _ hP.static hle hex)
      dsimp only
      rw [idle_until_wrapped_eq _ _ h0 h1]
    · rw [if_neg hempty, if_neg hempty]
      dsimp only
      generalize s.queue.buf.getD s.queue.head 0 = idx
      generalize huse : (if (getP s.core.procs idx).remaining_time < quantum then
        (getP s.core.procs idx).remaining_time else quantum) = use
      obtain ⟨r0, _⟩ := remaining_le_sum s.core.procs hP.remaining_nonneg idx
      obtain ⟨u0, u1⟩ := slice_within _ _ _ r0 (by omega) huse
      obtain ⟨w1, w2, _, w4, w5⟩ := clock_window_slice hW hP hH.2.2 idx use u0 u1
      rw [int_add_fits _ _ (by omega) w2, run_slice_wrapped_eq _ _ _ (by omega) w5]

theorem schedule_rr_wrapped_eq (ps : List Process) (fuel : Nat) (quantum : Int)
    (hq : 1 ≤ quantum) (hburst : ∀ p ∈ ps, 1 ≤ p.burst_time) (hfits : ClockFits ps) :
    schedule_rr_wrapped fuel ps quantum = schedule_rr fuel ps quantum := by
  have hrange : ∀ p ∈ ps, p.arrival_time ≤ INT_MAX := hfits.arrival_le hburst
  have hW := hfits.window hburst
  have hrle := reset_arrival_le ps _ hrange
  have h0 : AddedArrived (reset_processes ps) (rr_init ps).added (rr_init ps).core.time :=
    added_arrived_init ps _ _
      (enqueue_arrivals_spec (reset_processes ps) (first_arrival (reset_processes ps)) ⟨[], 0⟩
        (List.replicate (reset_processes ps).length false) (by simp)).2.2
  unfold schedule_rr_wrapped schedule_rr
  rw [whileLoop_agree (rr_step quantum) (rr_step_wrapped quantum)
    (fun s => RrInv (reset_processes ps) (first_arrival (reset_processes ps)) s ∧
      AddedArrived (reset_processes ps) s.added s.core.time ∧
      Hist (reset_processes ps) (first_arrival (reset_processes ps)) s.core.procs
        s.core.timeline s.core.time)
    (fun a b ⟨h1, h2, h3⟩ hab =>
      ⟨(rr_step_inv _ _ quantum hq hrle a b h1 hab).1,
        rr_trace_step _ _ quantum hq hrle a b h1 h2 h3 hab⟩)
    (fun a ⟨h1, _, h3⟩ => rr_step_agree _ _ quantum hq hW hrle a h1 h3)
    fuel _ ⟨rr_init_inv ps hburst, h0, hist_nil ps _⟩]

theorem contig_start_le (t0 T : Int) (tl : List TimelineEvent) (hC : Contig t0 tl T)
    (hd : ∀ e ∈ tl, 0 ≤ e.duration) : t0 ≤ T := by
  have h1 := contig_total _ _ _ hC
  rw [compute_total_time_eq] at h1
  have h2 : 0 ≤ durations tl := by
    unfold durations
    apply List.sum_nonneg
    intro x hx
    obtain ⟨e, he, rfl⟩ := List.mem_map.1 hx
    exact hd e he
  omega

theorem stcf_step_agree (ps0 : List Process) (t0 : Int) (hW : ClockWindow ps0 t0)
    (hrange : ∀ i, i < ps0.length → (getP ps0 i).arrival_time ≤ INT_MAX)
    (s : StcfState) (hI : StcfInv ps0 t0 s)
    (hH : Hist ps0 t0 s.core.procs (s.core.timeline ++ stcf_open ps0 s) s.core.time) :
    stcf_step_wrapped s = stcf_step s := by
  have hP := hI.procs
  have hlen := hP.static.1
  have hN := hI.count
  have hM : INT_MAX = 2147483647 := rfl
  unfold stcf_step_wrapped stcf_step
  by_cases hlt : s.completed < s.core.procs.length
  · rw [if_pos hlt, if_pos hlt]
    have hex : ∃ i, i < s.core.procs.length ∧ (getP s.core.procs i).finished = 0 :=
      (unfinishedCount_pos_iff _).1 (by omega)
    have hle : ∀ i, i < s.core.procs.length → (getP s.core.procs i).arrival_time ≤ INT_MAX := by
      intro i hi
      rw [hlen] at hi
      rw [(hP.static.2 i hi).2.1]; exact hrange i hi
    rcases pick_best_spec stcf_better stcf_better_asymm stcf_better_cotrans s.core.procs
      s.core.time with ⟨hpick, hnone⟩ | ⟨b, hpick, hbest⟩
    · rw [hpick]
      dsimp only
      obtain ⟨hgt, _⟩ := idle_progress _ _ hle hex hnone
      obtain ⟨h0, h1⟩ := clock_window_idle hW hP hH.2.2 _ (le_of_lt hgt)
        (next_arrival_le_max _ _ hP.static hle hex)
      rw [idle_until_wrapped_eq _ _ h0 h1]
    · rw [hpick]
      dsimp only
      obtain ⟨hb, hel, _, _⟩ := hbest
      have hb0 : b < ps0.length := by rw [← hlen]; exact hb
      have hbb := (hP.unfin b hb0 hel.1).1
      obtain ⟨w1, w2, w3, w4, w5⟩ := clock_window_slice hW hP hH.2.2 b 1 (by omega) (by omega)
      rw [int_add_fits _ _ (by omega) w2, run_slice_wrapped_eq _ _ _ (by omega) w5]
      cases hci : s.current_idx with
      | none =>
        have hne : ¬ ((none : Option Nat) = some b) := by simp
        simp only [ne_eq, hne, not_false_eq_true, if_true]
        rw [int_sub_fits _ _ (by omega) (by omega)]
      | some c =>
        obtain ⟨_, _, _, c4⟩ := hI.cur c hci
        have hce : s.closed_end = s.current_start := by
          simp only [StcfState.closed_end, hci]
        have hcs : t0 ≤ s.current_start := by
          rw [← hce]
          exact contig_start_le _ _ _ hI.contig
            (fun e he => (hH.2.1 e (List.mem_append.2 (Or.inl he))).1)
        by_cases hcb : c = b
        · subst hcb
          simp only [ne_eq, not_true_eq_false, if_false]
          rw [int_sub_fits _ _ (by omega) (by omega)]
        · have hne : ¬ (some c = some b) := fun h => hcb (Option.some.inj h)
          simp only [ne_eq, hne, not_false_eq_true, if_true]
          rw [int_sub_fits s.core.time s.current_start (by omega) (by omega),
            int_sub_fits (s.core.time + 1) s.core.time (by omega) (by omega)]
  · rw [if_neg hlt, if_neg hlt]

theorem schedule_stcf_wrapped_eq (ps : List Process) (fuel : Nat)
    (hburst : ∀ p ∈ ps, 1 ≤ p.burst_time) (hfits : ClockFits ps) :
    schedule_stcf_wrapped fuel ps = schedule_stcf fuel ps := by
  have hrange : ∀ p ∈ ps, p.arrival_time ≤ INT_MAX := hfits.arrival_le hburst
  have hW := hfits.window hburst
  unfold schedule_stcf_wrapped schedule_stcf
  dsimp only
  rw [whileLoop_agree stcf_step stcf_step_wrapped
    (fun s => StcfInv (reset_processes ps) (first_arrival (reset_processes ps)) s ∧
      Hist (reset_processes ps) (first_arrival (reset_processes ps)) s.core.procs
        (s.core.timeline ++ stcf_open (reset_processes ps) s) s.core.time)
    (fun a b ⟨h1, h2⟩ hab =>
      ⟨(stcf_step_inv _ _ (reset_arrival_le ps _ hrange) a b h1 hab).1,
        stcf_trace_step _ _ (reset_arrival_le ps _ hrange) a b h1 h2 hab⟩)
    (fun a ⟨h1, h2⟩ => stcf_step_agree _ _ hW (reset_arrival_le ps _ hrange) a h1 h2)
    fuel _ ⟨stcf_init_inv ps hburst, by simp [stcf_open]; exact hist_nil ps _⟩]

theorem mlfq_step_agree (cfg : MlfqConfig) (hv : cfg.Valid) (ps0 : List Process) (t0 : Int)
    (hW : ClockWindow ps0 t0)
    (hrange : ∀ i, i < ps0.length → (getP ps0 i).arrival_time ≤ INT_MAX)
    (s : MlfqState) (hI : MlfqInv cfg ps0 t0 s)
    (hH : Hist ps0 t0 s.core.procs s.core.timeline s.core.time)
    (hL : t0 ≤ s.last_boost ∧ s.last_boost ≤ s.core.time) :
    mlfq_step_wrapped cfg s = mlfq_step cfg s := by
  have hP := hI.procs
  have hlen := hP.static.1
  have hN := hI.count
  have hM : INT_MAX = 2147483647 := rfl
  obtain ⟨hv1, hv2, hv3⟩ := hv
  obtain ⟨hb1, hb2, hb3⟩ := boost_phase_spec cfg s hI.levels_len hI.heads
  obtain ⟨z1, z2, z3, _, _⟩ := clock_window_slice hW hP hH.2.2 0 0 (le_refl _)
    (remaining_le_sum s.core.procs hP.remaining_nonneg 0).1
  unfold mlfq_step_wrapped mlfq_step
  by_cases hlt : s.completed < s.core.procs.length
  · dsimp only
    rw [if_pos hlt, if_pos hlt, int_sub_fits s.core.time s.last_boost (by omega) (by omega),
      ← boost_phase_levels, ← boost_phase_last]
    cases hf : mlfq_find_level cfg.num_queues.toNat (mlfq_boost_phase cfg s).levels with
    | none =>
      dsimp only
      by_cases hmax : next_arrival s.core.procs = INT_MAX
      · rw [if_pos hmax, if_pos hmax]
      · rw [if_neg hmax, if_neg hmax]
        have hex : ∃ i, i < s.core.procs.length ∧ (getP s.core.procs i).finished = 0 :=
          (unfinishedCount_pos_iff _).1 (by omega)
        have hnil : all_pending s.levels = [] := by
          rcases mlfq_find_level_spec _ _ hb1 hb2 with ⟨_, h⟩ | ⟨l, h, _⟩
          · rw [h] at hb3; exact List.Perm.eq_nil hb3.symm
          · rw [hf] at h; exact absurd h (by simp)
        have hnone : ∀ j, j < s.core.procs.length →
            ¬ eligible (getP s.core.procs j) s.core.time := by
          intro j hj ⟨hfin, ha⟩
          rw [hlen] at hj
          by_cases hadj : s.added.getD j false = true
          · have hm := hI.queue.queued j hj hfin hadj
            rw [hnil] at hm
            exact absurd hm (List.not_mem_nil _)
          · have := (hI.queue.arrived j hj (by simpa using hadj)).2
            omega
        have hle : ∀ i, i < s.core.procs.length →
            (getP s.core.procs i).arrival_time ≤ INT_MAX := by
          intro i hi
          rw [hlen] at hi
          rw [(hP.static.2 i hi).2.1]; exact hrange i hi
        obtain ⟨hgt, _⟩ := idle_progress _ _ hle hex hnone
        obtain ⟨h0, h1⟩ := clock_window_idle hW hP hH.2.2 _ (le_of_lt hgt)
          (next_arrival_le_max _ _ hP.static hle hex)
        rw [idle_until_wrapped_eq _ _ h0 h1]
    | some L =>
      dsimp only
      generalize (getLevel (mlfq_boost_phase cfg s).levels L).buf.getD
        (getLevel (mlfq_boost_phase cfg s).levels L).head 0 = idx
      have hquant : 0 ≤ cfg.quantums.getD L 0 := by
        by_cases hLq : L < cfg.quantums.length
        · rw [List.getD_eq_getElem _ _ hLq]
          have := hv3 _ (List.getElem_mem hLq)
          omega
        · rw [List.getD_eq_default _ _ (by omega)]
      generalize huse : (if (getP s.core.procs idx).remaining_time < cfg.quantums.getD L 0 then
        (getP s.core.procs idx).remaining_time else cfg.quantums.getD L 0) = use
      obtain ⟨r0, _⟩ := remaining_le_sum s.core.procs hP.remaining_nonneg idx
      obtain ⟨u0, u1⟩ := slice_within _ _ _ r0 hquant huse
      obtain ⟨w1, w2, _, w4, w5⟩ := clock_window_slice hW hP hH.2.2 idx use u0 u1
      rw [int_add_fits _ _ (by omega) w2, run_slice_wrapped_eq _ _ _ (by omega) w5]
  · dsimp only
    rw [if_neg hlt, if_neg hlt]

theorem mlfq_last_boost_step (cfg : MlfqConfig) (ps0 : List Process) (t0 : Int)
    (s s2 : MlfqState)
    (hH : Hist ps0 t0 s2.core.procs s2.core.timeline s2.core.time)
    (hL : t0 ≤ s.last_boost ∧ s.last_boost ≤ s.core.time)
    (hs : mlfq_step cfg s = some s2) :
    t0 ≤ s2.last_boost ∧ s2.last_boost ≤ s2.core.time := by
  have hlb : t0 ≤ (mlfq_boost_phase cfg s).last_boost ∧
      (mlfq_boost_phase cfg s).last_boost ≤ s.core.time := by
    rw [boost_phase_last]
    split <;> omega
  have hK := hH.2.1
  rcases mlfq_step_cases cfg s s2 hs with hi | ⟨L, idx, use, hd⟩
  · have hc := hi.core
    have hd := (hK ⟨s.core.time, -1, next_arrival s.core.procs - s.core.time⟩ (by
      rw [hc]; simp [idle_until, push_event])).1
    have ht : s2.core.time = next_arrival s.core.procs := by rw [hc]; rfl
    rw [hi.last_boost, ht]
    simp only at hd
    omega
  · have hd2 := (hK ⟨s.core.time, (getP s.core.procs idx).pid, use⟩ (by
      rw [hd.timeline]; simp [push_event])).1
    rw [hd.last_boost, hd.time]
    simp only at hd2
    omega

theorem schedule_mlfq_wrapped_eq (cfg : MlfqConfig) (hv : cfg.Valid) (ps : List Process)
    (fuel : Nat) (hburst : ∀ p ∈ ps, 1 ≤ p.burst_time) (hfits : ClockFits ps) :
    schedule_mlfq_wrapped fuel ps cfg = schedule_mlfq fuel ps cfg := by
  have hrl : ∀ p ∈ ps, p.arrival_time ≤ INT_MAX := hfits.arrival_le hburst
  have hW := hfits.window hburst
  have hrle := reset_arrival_le ps _ hrl
  have hnq : 0 < cfg.num_queues.toNat := by have := hv.1; omega
  have hh : HeadsOk (List.replicate cfg.num_queues.toNat (⟨[], 0⟩ : IdxQueue)) := by
    intro q hq
    rw [List.eq_of_mem_replicate hq]
    exact Nat.le_refl _
  have h0 : AddedArrived (reset_processes ps) (mlfq_init cfg ps).added
      (mlfq_init cfg ps).core.time :=
    added_arrived_init ps _ _
      (mlfq_enqueue_spec (reset_processes ps) (first_arrival (reset_processes ps))
        (List.replicate cfg.num_queues.toNat ⟨[], 0⟩)
        (List.replicate (reset_processes ps).length false) (by simpa using hnq) hh
        (by simp)).2.2.2.2
  unfold schedule_mlfq_wrapped schedule_mlfq
  rw [whileLoop_agree (mlfq_step cfg) (mlfq_step_wrapped cfg)
    (fun s => MlfqInv cfg (reset_processes ps) (first_arrival (reset_processes ps)) s ∧
      AddedArrived (reset_processes ps) s.added s.core.time ∧
      Hist (reset_processes ps) (first_arrival (reset_processes ps)) s.core.procs
        s.core.timeline s.core.time ∧
      (first_arrival (reset_processes ps) ≤ s.last_boost ∧ s.last_boost ≤ s.core.time))
    (fun a b ⟨h1, h2, h3, h4⟩ hab =>
      have hT := mlfq_trace_step cfg hv _ _ hrle a b h1 h2 h3 hab
      ⟨(mlfq_step_inv cfg hv _ _ hrle a b h1 hab).1, hT.1, hT.2,
        mlfq_last_boost_step cfg _ _ a b hT.2 h4 hab⟩)
    (fun a ⟨h1, _, h3, h4⟩ => mlfq_step_agree cfg hv _ _ hW hrle a h1 h3 h4)
    fuel _ ⟨mlfq_init_inv cfg hv ps hburst, h0, hist_nil ps _, le_refl _, le_refl _⟩]

/-- On a workload with positive bursts whose clock fits the `int` range, a
32-bit machine computes, for every policy with valid parameters, the result
that the definitions over the integers give. -/
theorem run_policy_wrapped_eq (pol : Policy) (hv : pol.Valid) (ps : List Process) (fuel : Nat)
    (hburst : ∀ p ∈ ps, 1 ≤ p.burst_time) (hfits : ClockFits ps) :
    run_policy_wrapped pol fuel ps = run_policy pol fuel ps := by
  cases pol with
  | fifo =>
    simp only [run_policy_wrapped, run_policy]
    rw [schedule_fifo_wrapped_eq ps hburst hfits]
  | sjf => exact schedule_sjf_wrapped_eq ps fuel hburst hfits
  | stcf => exact schedule_stcf_wrapped_eq ps fuel hburst hfits
  | rr quantum => exact schedule_rr_wrapped_eq ps fuel quantum hv hburst hfits
  | mlfq cfg => exact schedule_mlfq_wrapped_eq cfg hv ps fuel hburst hfits

/-- A result of the definitions over the integers, on a workload whose clock
fits the `int` range, is the result on a 32-bit machine. -/
theorem machine_run (pol : Policy) (hv : pol.Valid) (ps : List Process) (fuel : Nat)
    (hburst : ∀ p ∈ ps, 1 ≤ p.burst_time) (hfits : ClockFits ps) (r : SchedResult)
    (hr : run_policy pol fuel ps = some r) : run_policy_wrapped pol fuel ps = some r := by
  rw [run_policy_wrapped_eq pol hv ps fuel hburst hfits]
  exact hr

end Sched

namespace Sched

/-! ## Claims C1 to C5 -/

/-- C1 (counterexample). With one process arriving at `INT_MAX`, `schedule_mlfq`
returns an empty timeline and leaves the process unfinished, so the total
time is 0 while max completion minus min arrival is `-1 - INT_MAX`.
With one process arriving at 2147483000 with burst time 1000 the clock of
`schedule_fifo` would pass `INT_MAX`: the addition `time += burst_time`
overflows. A 32-bit machine stores the completion time -2147483296, and the
total time 1000 is not the maximum completion time minus the minimum arrival
time. -/
theorem total_time_counterexample :
    (∃ r, run_policy (.mlfq one_queue) (fuel_bound late_workload) late_workload = some r ∧
        r.timeline = [] ∧ maxCompletion r.procs = -1 ∧ minArrival late_workload = 2147483647 ∧
        compute_total_time r.timeline ≠ maxCompletion r.procs - minArrival late_workload) ∧
      (schedule_fifo_wrapped edge_workload).timeline = [⟨2147483000, 1, 1000⟩] ∧
      maxCompletion (schedule_fifo_wrapped edge_workload).procs = -2147483296 ∧
      compute_total_time (schedule_fifo_wrapped edge_workload).timeline = 1000 ∧
      compute_total_time (schedule_fifo_wrapped edge_workload).timeline ≠
        maxCompletion (schedule_fifo_wrapped edge_workload).procs - minArrival edge_workload := by
  refine ⟨?_, ?_, ?_, ?_, ?_⟩
  · refine ⟨_, rfl, ?_, ?_, ?_, ?_⟩ <;> decide
  · decide
  · decide
  · decide
  · decide

/-- C1 (amended). For every policy with valid parameters and every non-empty
workload with `burst_time >= 1` whose run is free of undefined behaviour
(`Policy.Safe`: the arrival times are `int`s, the latest arrival time plus the
total burst time is at most `INT_MAX` and at most `INT_MAX` above the earliest
arrival time, and the queues of `schedule_rr` and `schedule_mlfq` stay within
their allocations), the run returns, all its times are `int`s, and the sum of
the timeline durations equals the maximum completion time minus the minimum
arrival time.
The same run with every `int` addition and subtraction reduced to 32 bits
(`run_policy_wrapped`) returns the same result. -/
theorem total_time_eq (pol : Policy) (hv : pol.Valid) (ps : List Process) (fuel : Nat)
    (hne : ps ≠ []) (hburst : ∀ p ∈ ps, 1 ≤ p.burst_time)
    (hsafe : pol.Safe fuel ps) (hfuel : fuel_bound ps ≤ fuel) :
    ∃ r, run_policy pol fuel ps = some r ∧
      run_policy_wrapped pol fuel ps = some r ∧ r.InRange ∧
      compute_total_time r.timeline = maxCompletion r.procs - minArrival ps := by
  obtain ⟨r, hr, hg, _, hin⟩ := run_policy_in_range pol hv ps fuel hburst hsafe.1 hfuel
  have hrange := hsafe.1.arrival_lt hburst
  have hpos : 0 < (reset_processes ps).length := by
    rw [reset_length]; exact List.length_pos.2 hne
  refine ⟨r, hr, machine_run pol hv ps fuel hburst hsafe.1 r hr, hin, ?_⟩
  rw [hg.total hpos, first_arrival_eq_min _ (by
    intro h; rw [h] at hpos; simp at hpos) (reset_arrival_lt ps _ hrange), minArrival_reset]

theorem total_time_eq_witness :
    (Policy.mlfq ⟨3, [2, 4, 8], 20⟩).Valid ∧ fuel_bound test_workload ≤ 34 ∧
      (Policy.mlfq ⟨3, [2, 4, 8], 20⟩).Safe 34 test_workload ∧
      ∃ r, run_policy (.mlfq ⟨3, [2, 4, 8], 20⟩) 34 test_workload = some r ∧
      run_policy_wrapped (.mlfq ⟨3, [2, 4, 8], 20⟩) 34 test_workload = some r ∧ r.InRange ∧
        compute_total_time r.timeline = maxCompletion r.procs - minArrival test_workload :=
  ⟨by unfold Policy.Valid MlfqConfig.Valid; decide, by decide,
    by unfold Policy.Safe ClockFits Policy.InBounds; decide,
    total_time_eq (.mlfq ⟨3, [2, 4, 8], 20⟩) (by unfold Policy.Valid MlfqConfig.Valid; decide)
      test_workload 34 (by decide) (by decide)
      (by unfold Policy.Safe ClockFits Policy.InBounds; decide) (by decide)⟩

/-- C2 (counterexample). With one process arriving at `INT_MAX`, the timeline
of `schedule_mlfq` is empty: there is no first event at the minimum arrival
time.
With two processes arriving shortly before `INT_MAX` the clock of
`schedule_fifo` would pass `INT_MAX`. On a 32-bit machine the first event,
from 2147483644 for 6 units, is followed by an idle event at -2147483646 of
duration -4: the events do not tile the time from the first arrival on. -/
theorem tiling_counterexample :
    (∃ r, run_policy (.mlfq one_queue) (fuel_bound late_workload) late_workload = some r ∧
        r.timeline = [] ∧
        r.timeline.head?.map (·.time) ≠ some (minArrival late_workload)) ∧
      (schedule_fifo_wrapped wrap_workload).timeline =
        [⟨2147483644, 1, 6⟩, ⟨-2147483646, -1, -4⟩, ⟨2147483646, 2, 5⟩] ∧
      ¬ ∀ i, i + 1 < (schedule_fifo_wrapped wrap_workload).timeline.length →
        ((schedule_fifo_wrapped wrap_workload).timeline.getD i default).time +
            ((schedule_fifo_wrapped wrap_workload).timeline.getD i default).duration =
          ((schedule_fifo_wrapped wrap_workload).timeline.getD (i + 1) default).time := by
  refine ⟨?_, ?_, ?_⟩
  · refine ⟨_, rfl, ?_, ?_⟩ <;> decide
  · decide
  · intro h
    exact absurd (h 0 (by decide)) (by decide)

/-- C2 (amended). For every policy with valid parameters and every non-empty
workload with `burst_time >= 1` whose run is free of undefined behaviour
(`Policy.Safe`: the arrival times are `int`s, the latest arrival time plus the
total burst time is at most `INT_MAX` and at most `INT_MAX` above the earliest
arrival time, and the queues of `schedule_rr` and `schedule_mlfq` stay within
their allocations), the run returns, all its times are `int`s, the first
timeline event starts at the minimum arrival time, and every event ends where
the next one starts.
The same run with every `int` addition and subtraction reduced to 32 bits
(`run_policy_wrapped`) returns the same result. -/
theorem timeline_tiling (pol : Policy) (hv : pol.Valid) (ps : List Process) (fuel : Nat)
    (hne : ps ≠ []) (hburst : ∀ p ∈ ps, 1 ≤ p.burst_time)
    (hsafe : pol.Safe fuel ps) (hfuel : fuel_bound ps ≤ fuel) :
    ∃ r, run_policy pol fuel ps = some r ∧
      run_policy_wrapped pol fuel ps = some r ∧ r.InRange ∧
      r.timeline.head?.map (·.time) = some (minArrival ps) ∧
      ∀ i, i + 1 < r.timeline.length →
        (r.timeline.getD i default).time + (r.timeline.getD i default).duration =
          (r.timeline.getD (i + 1) default).time := by
  obtain ⟨r, hr, hg, _, hin⟩ := run_policy_in_range pol hv ps fuel hburst hsafe.1 hfuel
  have hrange := hsafe.1.arrival_lt hburst
  have hpos : 0 < (reset_processes ps).length := by
    rw [reset_length]; exact List.length_pos.2 hne
  obtain ⟨h1, h2⟩ := hg.tiling hpos
  refine ⟨r, hr, machine_run pol hv ps fuel hburst hsafe.1 r hr, hin, ?_, h2⟩
  rw [h1, first_arrival_eq_min _ (by
    intro h; rw [h] at hpos; simp at hpos) (reset_arrival_lt ps _ hrange), minArrival_reset]

theorem timeline_tiling_witness :
    (Policy.rr 3).Valid ∧ fuel_bound test_workload ≤ 34 ∧
      (Policy.rr 3).Safe 34 test_workload ∧
      ∃ r, run_policy (.rr 3) 34 test_workload = some r ∧
      run_policy_wrapped (.rr 3) 34 test_workload = some r ∧ r.InRange ∧
        r.timeline.head?.map (·.time) = some (minArrival test_workload) ∧
        ∀ i, i + 1 < r.timeline.length →
          (r.timeline.getD i default).time + (r.timeline.getD i default).duration =
            (r.timeline.getD (i + 1) default).time :=
  ⟨by unfold Policy.Valid; decide, by decide,
    by unfold Policy.Safe ClockFits Policy.InBounds; decide,
    timeline_tiling (.rr 3) (by unfold Policy.Valid; decide)
      test_workload 34 (by decide) (by decide)
      (by unfold Policy.Safe ClockFits Policy.InBounds; decide) (by decide)⟩

/-- C3 (counterexample). Arrival times 0 and `INT_MAX`, bursts 1: `schedule_mlfq`
returns after running the first process only; the second is left with
`remaining_time = 1`, `finished = 0`, `start_time = -1`, `completion_time = -1`.
With three processes arriving at 0 with burst times `INT_MAX`, `INT_MAX`
and 1 and the quantum `INT_MAX`, the clock of `schedule_rr` would reach
4294967295, and its queue holds 3 entries in 6 slots. On a 32-bit machine
the clock passes from `INT_MAX` to -2 and then to -1, which the third
process gets as its completion time. -/
theorem all_finished_counterexample :
    (∃ r, run_policy (.mlfq one_queue) 6
          [⟨1, 0, 1, 0, 0, 0, 0, 0, 0, 0, 0⟩, ⟨2, 2147483647, 1, 0, 0, 0, 0, 0, 0, 0, 0⟩] = some r ∧
        r.timeline = [⟨0, 1, 1⟩] ∧
        (r.procs.map fun p => (p.remaining_time, p.finished, p.start_time, p.completion_time)) =
          [(0, 1, 0, 1), (1, 0, -1, -1)]) ∧
      (∀ p ∈ huge_workload, 0 ≤ p.arrival_time ∧ 1 ≤ p.burst_time) ∧
      (Policy.rr 2147483647).InBounds 8 huge_workload ∧
      (schedule_rr_wrapped 8 huge_workload 2147483647).map
          (fun r => r.procs.map fun p =>
            (p.remaining_time, p.finished, p.start_time, p.completion_time)) =
        some [(0, 1, 0, 2147483647), (0, 1, 2147483647, -2), (0, 1, -2, -1)] := by
  refine ⟨?_, ?_, ?_, ?_⟩
  · refine ⟨_, rfl, ?_, ?_⟩ <;> decide
  · decide
  · unfold Policy.InBounds; decide
  · decide

/-- C3 (amended). For every policy with valid parameters and every workload
with `burst_time >= 1` and no negative arrival time whose run is free of
undefined behaviour (`Policy.Safe`: the latest arrival time plus the total
burst time is at most `INT_MAX`, and the queues of `schedule_rr` and
`schedule_mlfq` stay within their allocations), the run returns, all its times
are `int`s, and it leaves every process with `remaining_time = 0`, `finished =
1`, `start_time != -1` and `completion_time != -1`.
The same run with every `int` addition and subtraction reduced to 32 bits
(`run_policy_wrapped`) returns the same result. -/
theorem all_finished (pol : Policy) (hv : pol.Valid) (ps : List Process) (fuel : Nat)
    (harr : ∀ p ∈ ps, 0 ≤ p.arrival_time) (hburst : ∀ p ∈ ps, 1 ≤ p.burst_time)
    (hsafe : pol.Safe fuel ps) (hfuel : fuel_bound ps ≤ fuel) :
    ∃ r, run_policy pol fuel ps = some r ∧
      run_policy_wrapped pol fuel ps = some r ∧ r.InRange ∧
      ∀ p ∈ r.procs, p.remaining_time = 0 ∧ p.finished = 1 ∧ p.start_time ≠ -1 ∧
        p.completion_time ≠ -1 := by
  obtain ⟨r, hr, hg, _, hin⟩ := run_policy_in_range pol hv ps fuel hburst hsafe.1 hfuel
  have h0 := first_arrival_nonneg _ (reset_arrival_nonneg ps harr)
  refine ⟨r, hr, machine_run pol hv ps fuel hburst hsafe.1 r hr, hin, ?_⟩
  intro p hp
  obtain ⟨a, b, c, d⟩ := hg.finished p hp
  exact ⟨a, b, by omega, by omega⟩

theorem all_finished_witness :
    (Policy.stcf).Valid ∧ fuel_bound test_workload ≤ 34 ∧ (Policy.stcf).Safe 34 test_workload ∧
      ∃ r, run_policy .stcf 34 test_workload = some r ∧
      run_policy_wrapped .stcf 34 test_workload = some r ∧ r.InRange ∧
        ∀ p ∈ r.procs, p.remaining_time = 0 ∧ p.finished = 1 ∧ p.start_time ≠ -1 ∧
          p.completion_time ≠ -1 :=
  ⟨trivial, by decide, by unfold Policy.Safe ClockFits Policy.InBounds; decide,
    all_finished .stcf trivial test_workload 34 (by decide) (by decide)
      (by unfold Policy.Safe ClockFits Policy.InBounds; decide) (by decide)⟩

/-- C4. On the test workload `schedule_fifo` yields completion times 5, 8 and
16; `calculate_metrics` then sums turnarounds to 26 and waiting times to 10
over 3 completed processes, so the averages are 26/3 and 10/3, which are 8.67
and 3.33 to two decimals. -/
theorem fifo_test_workload :
    (schedule_fifo test_workload).procs.map (·.completion_time) = [5, 8, 16] ∧
      (metrics_sums (schedule_fifo test_workload).procs).sum_tat = 26 ∧
      (metrics_sums (schedule_fifo test_workload).procs).sum_wt = 10 ∧
      (metrics_sums (schedule_fifo test_workload).procs).completed = 3 ∧
      (calculate_metrics (schedule_fifo test_workload).procs
        (compute_total_time (schedule_fifo test_workload).timeline)).2.avg_turnaround_time
          = 26 / 3 ∧
      (calculate_metrics (schedule_fifo test_workload).procs
        (compute_total_time (schedule_fifo test_workload).timeline)).2.avg_waiting_time
          = 10 / 3 ∧
      two_decimals (26 / 3) 8.67 ∧ two_decimals (10 / 3) 3.33 := by
  have hs : metrics_sums (schedule_fifo test_workload).procs = ⟨26, 10, 10, 16, 3, 26, 270⟩ := by
    decide
  refine ⟨by decide, by rw [hs], by rw [hs], by rw [hs], ?_, ?_, ?_, ?_⟩
  · simp only [calculate_metrics, hs]; norm_num
  · simp only [calculate_metrics, hs]; norm_num
  · unfold two_decimals; rw [abs_lt]; constructor <;> norm_num
  · unfold two_decimals; rw [abs_lt]; constructor <;> norm_num

theorem stcf_test_run : schedule_stcf 34 test_workload = some stcf_test_result := by
  decide

theorem stcf_test_sums :
    metrics_sums stcf_test_result.procs = ⟨25, 9, 6, 16, 3, 25, 269⟩ := by
  decide

theorem stcf_test_averages :
    (calculate_metrics stcf_test_result.procs
        (compute_total_time stcf_test_result.timeline)).2.avg_turnaround_time = 25 / 3 ∧
      (calculate_metrics stcf_test_result.procs
        (compute_total_time stcf_test_result.timeline)).2.avg_waiting_time = 3 := by
  simp only [calculate_metrics, stcf_test_sums]
  constructor <;> norm_num

/-- C5 (counterexample). On the test workload `schedule_stcf` followed by
`calculate_metrics` gives average turnaround 25/3 and average waiting 3,
which are not 7.33 and 2.0 to two decimals. -/
theorem stcf_test_counterexample :
    ∃ r, schedule_stcf 34 test_workload = some r ∧
      (calculate_metrics r.procs (compute_total_time r.timeline)).2.avg_turnaround_time
        = 25 / 3 ∧
      (calculate_metrics r.procs (compute_total_time r.timeline)).2.avg_waiting_time = 3 ∧
      ¬ two_decimals (25 / 3) 7.33 ∧ ¬ two_decimals 3 2.0 := by
  refine ⟨stcf_test_result, stcf_test_run, stcf_test_averages.1, stcf_test_averages.2, ?_, ?_⟩
  · unfold two_decimals; rw [abs_lt]; norm_num
  · unfold two_decimals; rw [abs_lt]; norm_num

/-- C5 (amended). On the test workload `schedule_stcf` yields completion times
8, 4 and 16; `calculate_metrics` then sums turnarounds to 25 and waiting times
to 9 over 3 completed processes, so the averages are 25/3 and 3, which are
8.33 and 3.00 to two decimals. -/
theorem stcf_test_workload :
    ∃ r, schedule_stcf 34 test_workload = some r ∧
      r.procs.map (·.completion_time) = [8, 4, 16] ∧
      (metrics_sums r.procs).sum_tat = 25 ∧ (metrics_sums r.procs).sum_wt = 9 ∧
      (metrics_sums r.procs).completed = 3 ∧
      (calculate_metrics r.procs (compute_total_time r.timeline)).2.avg_turnaround_time
        = 25 / 3 ∧
      (calculate_metrics r.procs (compute_total_time r.timeline)).2.avg_waiting_time = 3 ∧
      two_decimals (25 / 3) 8.33 ∧ two_decimals 3 3.00 := by
  refine ⟨stcf_test_result, stcf_test_run, by decide, ?_, ?_, ?_, stcf_test_averages.1,
    stcf_test_averages.2, ?_, ?_⟩
  · rw [stcf_test_sums]
  · rw [stcf_test_sums]
  · rw [stcf_test_sums]
  · unfold two_decimals; rw [abs_lt]; constructor <;> norm_num
  · unfold two_decimals; rw [abs_lt]; constructor <;> norm_num

end Sched

namespace Sched

/-! ## Claims C6, C7 and C9 -/

/-- C6. For every process set whose pids differ from the idle value -1,
`schedule_fifo` dispatches in ascending `(arrival_time, pid)` order without
interruption: the index array left by the exchange sort of lines 52-61 is a
permutation of the array indices sorted by `(arrival_time, pid)`, and the
non-idle timeline events are, in order, one event per entry of that array,
carrying that process's pid and lasting its `burst_time`. -/
theorem fifo_dispatch_order (ps : List Process) (hpid : ∀ p ∈ ps, p.pid ≠ -1) :
    List.Perm (fifo_sort (reset_processes ps)) (List.range ps.length) ∧
      List.Pairwise (fifo_key_le ps) (fifo_sort (reset_processes ps)) ∧
      busy_events (schedule_fifo ps).timeline =
        (fifo_sort (reset_processes ps)).map
          fun i => ((getP ps i).pid, (getP ps i).burst_time) := by
  obtain ⟨hl, hr⟩ := StaticEq.reset ps
  obtain ⟨_, hp, _⟩ := fifo_sort_spec (reset_processes ps)
  rw [hl] at hp
  have hlt : ∀ a ∈ fifo_sort (reset_processes ps), a < ps.length := by
    intro a ha
    simpa using hp.mem_iff.1 ha
  refine ⟨hp, ?_, ?_⟩
  · refine List.Pairwise.imp_of_mem ?_ (fifo_sort_pairwise (reset_processes ps))
    intro a b ha hb h
    unfold fifo_key_le at h ⊢
    rw [(hr a (hlt a ha)).1, (hr a (hlt a ha)).2.1, (hr b (hlt b hb)).1,
      (hr b (hlt b hb)).2.1] at h
    exact h
  · rw [fifo_events ps hpid]
    apply List.map_congr_left
    intro a ha
    rw [(hr a (hlt a ha)).1, (hr a (hlt a ha)).2.2.1]

theorem fifo_dispatch_order_witness :
    (∀ p ∈ test_workload, p.pid ≠ -1) ∧
      List.Perm (fifo_sort (reset_processes test_workload)) (List.range test_workload.length) ∧
      List.Pairwise (fifo_key_le test_workload) (fifo_sort (reset_processes test_workload)) ∧
      busy_events (schedule_fifo test_workload).timeline =
        (fifo_sort (reset_processes test_workload)).map
          fun i => ((getP test_workload i).pid, (getP test_workload i).burst_time) :=
  ⟨by decide, fifo_dispatch_order test_workload (by decide)⟩

/-- C7 (counterexample). One process arriving at `INT_MAX` with burst time 1
under `schedule_sjf`. After an idle event its event starts at `INT_MAX` and
lasts 1, so the instant at which the process completes, 2147483648, is no
`int`: the addition `time += burst_time` overflows. A 32-bit machine emits
the same two events and stores -2147483648 as the completion time. By that
result no process has arrived and is unfinished when the busy event starts,
and the event does not run a process to its completion time: the property of
the claim fails. -/
theorem sjf_clock_counterexample :
    (∀ p ∈ late_workload, 1 ≤ p.burst_time) ∧
      (∃ r, schedule_sjf (fuel_bound late_workload) late_workload = some r ∧
        r.timeline = [⟨0, -1, 2147483647⟩, ⟨2147483647, 1, 1⟩] ∧
        INT_MAX < (getP r.procs 0).completion_time) ∧
      ∃ m, schedule_sjf_wrapped (fuel_bound late_workload) late_workload = some m ∧
        m.timeline = [⟨0, -1, 2147483647⟩, ⟨2147483647, 1, 1⟩] ∧
        m.procs.map (fun p => (p.start_time, p.completion_time, p.finished)) =
          [(2147483647, -2147483648, 1)] ∧
        (¬ ∃ j, ReadyAt m.procs 2147483647 j) ∧
        ¬ ∀ e ∈ m.timeline, e.pid ≠ -1 →
          ∃ b, b < late_workload.length ∧ e.pid = (getP late_workload b).pid ∧
            e.duration = (getP late_workload b).burst_time ∧
            (getP m.procs b).completion_time = e.time + e.duration ∧
            FirstMinAt (fun j => sjf_key (getP late_workload j))
              (fun j => j < late_workload.length ∧
                (getP late_workload j).arrival_time ≤ e.time ∧
                e.time < (getP m.procs j).completion_time) b := by
  refine ⟨by decide, ⟨_, rfl, by decide, by decide⟩, _, rfl, by decide, by decide, ?_, ?_⟩
  · rintro ⟨j, hj, -, hf⟩
    have hj1 : j < 1 := hj
    obtain rfl : j = 0 := by omega
    exact absurd (hf (by decide)) (by decide)
  · intro h
    obtain ⟨b, hb, -, -, hc, -⟩ := h ⟨2147483647, 1, 1⟩ (by decide) (by decide)
    have hb1 : b < 1 := hb
    obtain rfl : b = 0 := by omega
    exact absurd hc (by decide)

/-- C7 (amended). For every process set with `burst_time >= 1` in which the
arrival times are `int`s and the latest arrival time plus the total burst time
is at most `INT_MAX` and at most `INT_MAX` above the earliest arrival time
(`ClockFits`: no `int` operation of the run overflows), `schedule_sjf`
returns, all its times are `int`s, and each non-idle event `e` of its timeline
is the single run of some process `b`: it carries `b`'s pid, lasts `b`'s
`burst_time` and ends at `b`'s completion time; and `b` is the first in array
order among the processes that minimise `(burst_time, arrival_time)`
lexicographically over those that have arrived by `e.time` and complete after
`e.time`. The pid does not enter the choice: on `tie_workload` the process
with the larger pid, first in the array, runs first.
The same run with every `int` addition and subtraction reduced to 32 bits
(`schedule_sjf_wrapped`) returns the same result. -/
theorem sjf_selection (ps : List Process) (fuel : Nat)
    (hburst : ∀ p ∈ ps, 1 ≤ p.burst_time) (hfits : ClockFits ps)
    (hfuel : fuel_bound ps ≤ fuel) :
    (∃ r, schedule_sjf fuel ps = some r ∧
      schedule_sjf_wrapped fuel ps = some r ∧ r.InRange ∧
      ∀ e ∈ r.timeline, e.pid ≠ -1 →
        ∃ b, b < ps.length ∧ e.pid = (getP ps b).pid ∧ e.duration = (getP ps b).burst_time ∧
          (getP r.procs b).completion_time = e.time + e.duration ∧
          FirstMinAt (fun j => sjf_key (getP ps j))
            (fun j => j < ps.length ∧ (getP ps j).arrival_time ≤ e.time ∧
              e.time < (getP r.procs j).completion_time) b) ∧
      (schedule_sjf 14 tie_workload).map (fun r => r.timeline) =
        some [⟨0, 2, 3⟩, ⟨3, 1, 3⟩] := by
  refine ⟨?_, by decide⟩
  have hrange := hfits.arrival_le hburst
  obtain ⟨hl, hr⟩ := StaticEq.reset ps
  obtain ⟨s, hs, hI, hall⟩ := sjf_run ps fuel hburst hrange (by
    have := length_le_total_burst ps hburst
    unfold fuel_bound at hfuel
    omega)
  have hrun : schedule_sjf fuel ps = some ⟨s.core.procs, s.core.timeline⟩ := by
    simp [schedule_sjf, hs]
  refine ⟨⟨s.core.procs, s.core.timeline⟩, hrun,
    machine_run .sjf trivial ps fuel hburst hfits _ hrun,
    in_range_of_run .sjf trivial ps fuel hburst hfits hfuel _ hrun, ?_⟩
  intro e he hpid
  obtain ⟨b, hb, h1, h2, _, h4, h5⟩ := hI.hist e he hpid
  rw [hl] at hb
  have hlen := hI.procs.static.1
  have hready : ∀ j, ReadyAt s.core.procs e.time j ↔
      (j < ps.length ∧ (getP ps j).arrival_time ≤ e.time ∧
        e.time < (getP s.core.procs j).completion_time) := by
    intro j
    unfold ReadyAt
    rw [hlen, hl]
    constructor
    · rintro ⟨a, b', c⟩
      have hj : j < (reset_processes ps).length := by rw [hl]; exact a
      rw [(hI.procs.static.2 j hj).2.1, (hr j a).2.1] at b'
      exact ⟨a, b', c (hall j hj)⟩
    · rintro ⟨a, b', c⟩
      have hj : j < (reset_processes ps).length := by rw [hl]; exact a
      refine ⟨a, ?_, fun _ => c⟩
      rw [(hI.procs.static.2 j hj).2.1, (hr j a).2.1]
      exact b'
  have hkey : ∀ j, j < ps.length → sjf_key (getP (reset_processes ps) j) = sjf_key (getP ps j) := by
    intro j hj
    simp only [sjf_key, (hr j hj).2.1, (hr j hj).2.2.1]
  refine ⟨b, hb, by rw [h1, (hr b hb).1], by rw [h2, (hr b hb).2.2.1], h4, ?_⟩
  obtain ⟨r1, r2, r3⟩ := (firstMinAt_congr _ _ _ b hready).1 h5
  refine ⟨r1, ?_, ?_⟩
  · intro j hj
    have := r2 j hj
    simp only [hkey j hj.1, hkey b hb] at this
    exact this
  · intro j hjb hj
    have := r3 j hjb hj
    simp only [hkey j hj.1, hkey b hb] at this
    exact this

theorem sjf_selection_witness :
    fuel_bound test_workload ≤ 34 ∧ ClockFits test_workload ∧
      ((∃ r, schedule_sjf 34 test_workload = some r ∧
      schedule_sjf_wrapped 34 test_workload = some r ∧ r.InRange ∧
        ∀ e ∈ r.timeline, e.pid ≠ -1 →
          ∃ b, b < test_workload.length ∧ e.pid = (getP test_workload b).pid ∧
            e.duration = (getP test_workload b).burst_time ∧
            (getP r.procs b).completion_time = e.time + e.duration ∧
            FirstMinAt (fun j => sjf_key (getP test_workload j))
              (fun j => j < test_workload.length ∧ (getP test_workload j).arrival_time ≤ e.time ∧
                e.time < (getP r.procs j).completion_time) b) ∧
        (schedule_sjf 14 tie_workload).map (fun r => r.timeline) =
          some [⟨0, 2, 3⟩, ⟨3, 1, 3⟩]) :=
  ⟨by decide, by unfold ClockFits; decide,
    sjf_selection test_workload 34 (by decide) (by unfold ClockFits; decide) (by decide)⟩

/-- Round robin on runs free of undefined behaviour. For `schedule_rr` with
quantum `q >= 1` and every process set with pairwise distinct pids, none of
them the idle value -1, and `burst_time >= 1` for which the arrival times are
`int`s, the latest arrival time plus the total burst time is at most `INT_MAX`
and at most `INT_MAX` above the earliest arrival time, and the write index of
the queue stays within the `2 * n` slots allocated (`Policy.Safe`), the run
returns, all its times are `int`s, and, for every process, the number of
timeline events carrying its pid is `ceil (burst_time / q)`, which is
`burst_time / q` when `q` divides `burst_time`, and each of these events
except the last lasts exactly `q`.
The same run with every `int` addition and subtraction reduced to 32 bits
(`schedule_rr_wrapped`) returns the same result. -/
theorem rr_event_count (ps : List Process) (fuel : Nat) (quantum : Int) (hq : 1 ≤ quantum)
    (hburst : ∀ p ∈ ps, 1 ≤ p.burst_time) (hsafe : (Policy.rr quantum).Safe fuel ps)
    (hnodup : (ps.map (·.pid)).Nodup) (hpid : ∀ p ∈ ps, p.pid ≠ -1)
    (hfuel : fuel_bound ps ≤ fuel) :
    ∃ r, schedule_rr fuel ps quantum = some r ∧
      schedule_rr_wrapped fuel ps quantum = some r ∧ r.InRange ∧
      ∀ i, i < ps.length →
        ((events_of ps r.timeline i).length : Int) = ceil_div (getP ps i).burst_time quantum ∧
        (quantum ∣ (getP ps i).burst_time →
          ((events_of ps r.timeline i).length : Int) = (getP ps i).burst_time / quantum) ∧
        ∀ e ∈ (events_of ps r.timeline i).dropLast, e.duration = quantum := by
  have hrange := hsafe.1.arrival_le hburst
  obtain ⟨hl, hr⟩ := StaticEq.reset ps
  obtain ⟨s, _, hs, _, hall, _, hH⟩ := rr_run_hist ps fuel quantum hq hburst hrange hpid hfuel
  refine ⟨_, hs, machine_run (.rr quantum) hq ps fuel hburst hsafe.1 _ hs,
    in_range_of_run (.rr quantum) hq ps fuel hburst hsafe.1 hfuel _ hs, ?_⟩
  intro i hi
  obtain ⟨h1, h2⟩ := (hH hnodup i (by rw [hl]; exact hi)).2 (hall i hi)
  rw [events_of_reset ps _ i hi, (hr i hi).2.2.1] at h1
  rw [events_of_reset ps _ i hi] at h2
  exact ⟨h1, fun hd => by rw [h1, ceil_div_dvd _ _ hq hd], h2⟩

theorem rr_event_count_witness :
    fuel_bound test_workload ≤ 34 ∧ (Policy.rr 3).Safe 34 test_workload ∧
      ∃ r, schedule_rr 34 test_workload 3 = some r ∧
      schedule_rr_wrapped 34 test_workload 3 = some r ∧ r.InRange ∧
        ∀ i, i < test_workload.length →
          ((events_of test_workload r.timeline i).length : Int) =
            ceil_div (getP test_workload i).burst_time 3 ∧
          ((3 : Int) ∣ (getP test_workload i).burst_time →
            ((events_of test_workload r.timeline i).length : Int) =
              (getP test_workload i).burst_time / 3) ∧
          ∀ e ∈ (events_of test_workload r.timeline i).dropLast, e.duration = 3 :=
  ⟨by decide, by unfold Policy.Safe ClockFits Policy.InBounds; decide,
    rr_event_count test_workload 34 3 (by decide) (by decide)
      (by unfold Policy.Safe ClockFits Policy.InBounds; decide) (by decide) (by decide)
      (by decide)⟩

end Sched

namespace Sched

/-! ## Claim C10 -/

theorem getP_reset_pid (ps : List Process) (i : Nat) :
    (getP (reset_processes ps) i).pid = (getP ps i).pid := by
  by_cases hi : i < ps.length
  · exact ((StaticEq.reset ps).2 i hi).1
  · have h1 : ps.length ≤ i := by omega
    have h2 : (reset_processes ps).length ≤ i := by rw [reset_length]; exact h1
    simp only [getP, List.getD_eq_getElem?_getD, List.getElem?_eq_none h1,
      List.getElem?_eq_none h2]

theorem getP_of_le (procs : List Process) (i : Nat) (h : procs.length ≤ i) :
    getP procs i = default := by
  simp only [getP, List.getD_eq_getElem?_getD, List.getElem?_eq_none h, Option.getD_none]

theorem rr_requeue_order (quantum : Int) (s s' : RrState) (B : Nat)
    (hal : s.added.length = s.core.procs.length)
    (hne : s.queue.head < s.queue.buf.length)
    (hs : rr_step quantum s = some s')
    (hrem : 0 < (getP s'.core.procs (s.queue.buf.getD s.queue.head 0)).remaining_time)
    (hB : B < s.core.procs.length) (hadd : s.added.getD B false = false)
    (harr : (getP s.core.procs B).arrival_time ≤ s'.core.time) :
    ∃ front back,
      s'.queue.buf = s.queue.buf ++ (front ++ B :: back) ++ [s.queue.buf.getD s.queue.head 0] ∧
      s'.queue.head = s.queue.head + 1 := by
  rcases rr_step_cases quantum s s' hal (le_of_lt hne) hs with hid | ⟨idx, use, hd⟩
  · have := hid.empty; omega
  · rw [hd.idx_eq] at hrem ⊢
    have hpos : 0 < (getP s.core.procs idx).remaining_time - use := by
      rw [hd.procs] at hrem
      by_cases hil : idx < s.core.procs.length
      · rw [getP_set_eq _ _ _ hil] at hrem
        split at hrem
        · assumption
        · simpa using hrem
      · rw [getP_of_le _ _ (by rw [List.length_set]; omega)] at hrem
        exact absurd hrem (by decide)
    have hmem : B ∈ new_arrivals s.core.procs (s.core.time + use) s.added := by
      rw [mem_new_arrivals]
      exact ⟨hB, hadd, by rw [← hd.time]; exact harr⟩
    obtain ⟨front, back, hsplit⟩ := List.append_of_mem hmem
    refine ⟨front, back, ?_, hd.head⟩
    rw [hd.buf, if_pos hpos, hsplit]

/-- C10. In `schedule_rr`, when the slice of the process `A` at the head of
the queue leaves `A` with work and a process `B` that had not been enqueued
has arrived by the end of the slice, the queue array after the iteration is
the old one, then fresh entries among which `B`, then `A`: `B` is ahead of
`A`'s new entry. Over a complete run the non-idle events are the dispatches of
the queue entries in queue order, so `B` runs before `A` runs again; on
`rr_example` with quantum 2 the occupants are 1, 2, 1. -/
theorem rr_new_arrivals_first :
    (∀ (quantum : Int) (s s' : RrState) (B : Nat),
      s.added.length = s.core.procs.length → s.queue.head < s.queue.buf.length →
      rr_step quantum s = some s' →
      0 < (getP s'.core.procs (s.queue.buf.getD s.queue.head 0)).remaining_time →
      B < s.core.procs.length → s.added.getD B false = false →
      (getP s.core.procs B).arrival_time ≤ s'.core.time →
      ∃ front back,
        s'.queue.buf =
          s.queue.buf ++ (front ++ B :: back) ++ [s.queue.buf.getD s.queue.head 0] ∧
        s'.queue.head = s.queue.head + 1) ∧
    (∀ (ps : List Process) (fuel : Nat) (quantum : Int), 1 ≤ quantum →
      (∀ p ∈ ps, 1 ≤ p.burst_time) → (∀ p ∈ ps, p.arrival_time ≤ INT_MAX) →
      (∀ p ∈ ps, p.pid ≠ -1) → fuel_bound ps ≤ fuel →
      ∃ s, whileLoop (rr_step quantum) fuel (rr_init ps) = some s ∧
        schedule_rr fuel ps quantum = some ⟨s.core.procs, s.core.timeline⟩ ∧
        s.queue.head = s.queue.buf.length ∧
        (busy_events s.core.timeline).map (·.1) = s.queue.buf.map fun i => (getP ps i).pid) ∧
    (schedule_rr 14 rr_example 2).map (fun r => r.timeline.map (·.pid)) = some [1, 2, 1] := by
  refine ⟨rr_requeue_order, ?_, by decide⟩
  intro ps fuel quantum hq hburst hrange hpid hfuel
  obtain ⟨s, hs, hr, hI, hall, hO, _⟩ := rr_run_hist ps fuel quantum hq hburst hrange hpid hfuel
  have hhead : s.queue.head = s.queue.buf.length := by
    have hle := hI.head_le
    by_contra hne
    have hlt : s.queue.head < s.queue.buf.length := by omega
    have hpop := pending_pop s.queue.buf s.queue.head hlt
    have hm : s.queue.buf.getD s.queue.head 0 ∈ s.queue.pending := by
      show _ ∈ IdxQueue.pending ⟨s.queue.buf, s.queue.head⟩
      rw [hpop]; exact List.mem_cons_self _ _
    obtain ⟨h1, h2, _⟩ := hI.queue.pend _ hm
    rw [reset_length] at h1
    exact hall _ h1 h2
  refine ⟨s, hs, hr, hhead, ?_⟩
  unfold RrOrder at hO
  rw [hO, hhead, List.take_length]
  apply List.map_congr_left
  intro i _
  exact getP_reset_pid ps i

theorem rr_new_arrivals_first_witness :
    (rr_init rr_example).queue.buf = [0] ∧ (getP rr_example_after.core.procs 0).remaining_time = 2 ∧
      ∃ front back, rr_example_after.queue.buf = [0] ++ (front ++ 1 :: back) ++ [0] ∧
        rr_example_after.queue.head = 0 + 1 :=
  ⟨by decide, by decide,
    rr_new_arrivals_first.1 2 (rr_init rr_example) rr_example_after 1 (by decide) (by decide)
      (by decide) (by decide) (by decide) (by decide) (by decide)⟩

end Sched

namespace Sched

/-! ## Claim C8 -/

theorem getP_reset_static (ps : List Process) (i : Nat) :
    (getP (reset_processes ps) i).arrival_time = (getP ps i).arrival_time ∧
      (getP (reset_processes ps) i).burst_time = (getP ps i).burst_time := by
  by_cases hi : i < ps.length
  · exact ⟨((StaticEq.reset ps).2 i hi).2.1, ((StaticEq.reset ps).2 i hi).2.2.1⟩
  · rw [getP_of_le _ _ (by rw [reset_length]; omega), getP_of_le _ _ (by omega)]
    exact ⟨rfl, rfl⟩

theorem stcf_slots_reset (ps : List Process) (slots : List (Int × Option Nat))
    (h : StcfSlots (reset_processes ps) slots) : StcfSlots ps slots := by
  have hrem : ∀ done j, stcf_remaining (reset_processes ps) done j = stcf_remaining ps done j := by
    intro done j
    simp only [stcf_remaining, (getP_reset_static ps j).2]
  intro k t b hk
  have := h k t b hk
  simp only [hrem, (getP_reset_static ps _).1, reset_length] at this
  exact this

theorem slot_label_reset (ps : List Process) :
    slot_label (reset_processes ps) = slot_label ps := by
  funext sl
  obtain ⟨t, o⟩ := sl
  cases o with
  | none => rfl
  | some i => simp only [slot_label, getP_reset_pid]

/-- C8 (counterexample). Two processes, pid 1 arriving at 2147483644 with
burst time 6 and pid 2 at 2147483646 with burst time 5, under
`schedule_stcf`. The schedule the claim describes runs pid 1 over the six
time units from 2147483644 and pid 2 over the five units from 2147483650,
but the units after 2147483647 = `INT_MAX` are no `int`s: the fourth
`time += 1` overflows. A 32-bit machine continues at -2147483648, where no
process counts as arrived, idles back to the next arrival and so counts the
same units again: its timeline shows pid 1 for 2 units and pid 2 for 1 unit,
at 2147483646, where pid 1 has arrived and, by the timeline, has 4 units
left, fewer than the 5 of pid 2. That timeline is no schedule of the kind
the claim describes. -/
theorem stcf_clock_counterexample :
    (∀ p ∈ wrap_workload, 1 ≤ p.burst_time) ∧
      (∀ p ∈ wrap_workload, p.arrival_time < INT_MAX) ∧
      (∃ r, schedule_stcf (fuel_bound wrap_workload) wrap_workload = some r ∧
        r.timeline = [⟨2147483644, 1, 6⟩, ⟨2147483650, 2, 5⟩] ∧
        ¬ (getP r.procs 1).start_time ≤ INT_MAX) ∧
      (schedule_stcf_wrapped (fuel_bound wrap_workload) wrap_workload).map
          (fun m => (m.timeline, m.procs.map fun p => (p.start_time, p.completion_time))) =
        some (wrap_stcf_timeline, [(2147483644, 2147483646), (2147483646, 2147483647)]) ∧
      unit_slots wrap_stcf_timeline =
        [(2147483644, 1), (2147483645, 1), (2147483646, 2)] ∧
      ¬ ∃ slots : List (Int × Option Nat),
        unit_slots wrap_stcf_timeline = slots.map (slot_label wrap_workload) ∧
          StcfSlots wrap_workload slots := by
  refine ⟨by decide, by decide, ⟨_, rfl, by decide, by decide⟩, by decide, by decide,
    wrap_timeline_not_stcf⟩

/-- C8 (amended). For every process set with `burst_time >= 1` in which the
arrival times are `int`s and the latest arrival time plus the total burst time
is at most `INT_MAX` and at most `INT_MAX` above the earliest arrival time
(`ClockFits`: no `int` operation of the run overflows), `schedule_stcf`
returns, all its times are `int`s, and its timeline read one time unit at a
time is a schedule `slots` giving each unit its occupant (an array index,
shown by its pid, or idle, shown as -1) in which every busy unit `[t, t+1)` is
occupied by the first process in array order among those minimising
`(remaining_time at t, arrival_time)` lexicographically over the processes
with `arrival_time <= t` and remaining time left at `t`.
The same run with every `int` addition and subtraction reduced to 32 bits
(`schedule_stcf_wrapped`) returns the same result. -/
theorem stcf_selection (ps : List Process) (fuel : Nat)
    (hburst : ∀ p ∈ ps, 1 ≤ p.burst_time) (hfits : ClockFits ps)
    (hfuel : fuel_bound ps ≤ fuel) :
    ∃ r, schedule_stcf fuel ps = some r ∧
      schedule_stcf_wrapped fuel ps = some r ∧ r.InRange ∧
      ∃ slots : List (Int × Option Nat),
        unit_slots r.timeline = slots.map (slot_label ps) ∧ StcfSlots ps slots := by
  have hrange := hfits.arrival_le hburst
  obtain ⟨s, hs, hI, hc, _⟩ := stcf_run ps fuel hburst hrange hfuel
  have hH := whileLoop_inv stcf_step
    (fun s => StcfInv (reset_processes ps) (first_arrival (reset_processes ps)) s ∧
      StcfHist (reset_processes ps) s)
    (fun a b ⟨h1, h2⟩ hab =>
      ⟨(stcf_step_inv _ _ (reset_arrival_le ps _ hrange) a b h1 hab).1,
        stcf_hist_step _ _ a b h1 h2 hab⟩)
    fuel _ s ⟨stcf_init_inv ps hburst, stcf_init_hist ps⟩ hs
  obtain ⟨slots, h1, h2, _⟩ := hH.2
  have hrun : schedule_stcf fuel ps = some ⟨s.core.procs, s.core.timeline⟩ := by
    simp [schedule_stcf, hs]
  refine ⟨⟨s.core.procs, s.core.timeline⟩, hrun,
    machine_run .stcf trivial ps fuel hburst hfits _ hrun,
    in_range_of_run .stcf trivial ps fuel hburst hfits hfuel _ hrun, slots, ?_,
    stcf_slots_reset ps slots h2⟩
  simp only [stcf_open, hc, List.append_nil] at h1
  rw [h1, slot_label_reset]

theorem stcf_selection_witness :
    fuel_bound test_workload ≤ 34 ∧ ClockFits test_workload ∧
      ∃ r, schedule_stcf 34 test_workload = some r ∧
      schedule_stcf_wrapped 34 test_workload = some r ∧ r.InRange ∧
        ∃ slots : List (Int × Option Nat),
          unit_slots r.timeline = slots.map (slot_label test_workload) ∧
            StcfSlots test_workload slots :=
  ⟨by decide, by unfold ClockFits; decide,
    stcf_selection test_workload 34 (by decide) (by unfold ClockFits; decide) (by decide)⟩

end Sched

namespace Sched

/-! ## C11: demotion in MLFQ -/

/-- C11: in `schedule_mlfq`, an iteration that dispatches from level `L` (the
first non-empty level after the boost phase) runs the head `idx` of that level
for `use = min (remaining_time, quantums[L])` and then either finishes it,
re-enqueueing it nowhere (`MlfqDispatch.levels` with remaining time 0), or
leaves it unfinished, and then the slice was exactly `quantums[L]`, work is
left, and `idx` is appended to level `min (L+1) (num_queues-1)`. The guard of
lines 304-306 (unfinished with `use < quantum`) never holds. This is true of
every loop state, hence of every state a run passes through, whatever the
quanta are. -/
theorem mlfq_demotion (cfg : MlfqConfig) (s s' : MlfqState) (L : Nat)
    (hstep : mlfq_step cfg s = some s')
    (hL : mlfq_find_level cfg.num_queues.toNat (mlfq_boost_phase cfg s).levels = some L) :
    ∃ idx use, MlfqDispatch cfg s s' L idx use ∧
      ((getP s.core.procs idx).remaining_time - use ≠ 0 →
        use = cfg.quantums.getD L 0 ∧ 0 < (getP s.core.procs idx).remaining_time - use ∧
        s'.levels = mlfq_push
          (mlfq_enqueue_arrivals s.core.procs (s.core.time + use)
            (mlfq_pop (mlfq_boost_phase cfg s).levels L) s.added).1
          (min (L + 1) (cfg.num_queues.toNat - 1)) idx) ∧
      ((getP s.core.procs idx).remaining_time - use = 0 →
        s'.levels = (mlfq_enqueue_arrivals s.core.procs (s.core.time + use)
            (mlfq_pop (mlfq_boost_phase cfg s).levels L) s.added).1) ∧
      ¬ ((getP s.core.procs idx).remaining_time - use ≠ 0 ∧ use < cfg.quantums.getD L 0) := by
  rcases mlfq_step_cases cfg s s' hstep with hi | ⟨L', idx, use, hd⟩
  · rw [hi.empty] at hL; exact absurd hL (by simp)
  · have hLL : L' = L := by
      have := hd.level
      rw [hL] at this
      exact (Option.some.inj this).symm
    subst hLL
    have huse := hd.use_eq
    have hfull : (getP s.core.procs idx).remaining_time - use ≠ 0 →
        use = cfg.quantums.getD L' 0 ∧ 0 < (getP s.core.procs idx).remaining_time - use := by
      intro hne
      by_cases hrq : (getP s.core.procs idx).remaining_time < cfg.quantums.getD L' 0
      · rw [if_pos hrq] at huse; omega
      · rw [if_neg hrq] at huse; omega
    refine ⟨idx, use, hd, ?_, ?_, ?_⟩
    · intro hne
      refine ⟨(hfull hne).1, (hfull hne).2, ?_⟩
      rw [hd.levels, if_neg hne]
    · intro hz
      rw [hd.levels, if_pos hz]
    · rintro ⟨hne, hlt⟩
      have := (hfull hne).1
      omega

theorem mlfq_demotion_witness :
    mlfq_step demote_cfg (mlfq_init demote_cfg demote_workload) = some demote_after ∧
      mlfq_find_level demote_cfg.num_queues.toNat
        (mlfq_boost_phase demote_cfg (mlfq_init demote_cfg demote_workload)).levels = some 0 ∧
      ∃ idx use,
        MlfqDispatch demote_cfg (mlfq_init demote_cfg demote_workload) demote_after 0 idx use :=
  ⟨by decide, by decide,
    (mlfq_demotion demote_cfg _ demote_after 0 (by decide) (by decide)).imp
      fun _ h => h.imp fun _ h => h.1⟩

end Sched

namespace Sched

/-! ## C12: the boost of MLFQ -/

/-- C12: in every state `s` that a run of `schedule_mlfq` reaches at the head
of its loop with the boost condition of line 259 true, the boost phase leaves
every level 1..num_queues-1 empty (`qhead = qtail = 0`), leaves level 0 with
its read position, its previous entries and, after them, the waiting entries
of level 1, then level 2, and so on, each in its queue order, and sets
`last_boost` to the clock. The waiting entries of all levels together are the
same list before and after, so nothing is lost or duplicated; processes and
clock are untouched, and the iteration goes on from that state. -/
theorem mlfq_boost_effect (cfg : MlfqConfig) (ps : List Process) (k : Nat) (s : MlfqState)
    (hreach : mlfq_state_at cfg ps k = some s) (hdue : mlfq_boost_due cfg s) :
    (∀ level, 1 ≤ level → level < cfg.num_queues.toNat →
        getLevel (mlfq_boost_phase cfg s).levels level = ⟨[], 0⟩ ∧
        (getLevel (mlfq_boost_phase cfg s).levels level).pending = []) ∧
      (getLevel (mlfq_boost_phase cfg s).levels 0).head = (getLevel s.levels 0).head ∧
      (getLevel (mlfq_boost_phase cfg s).levels 0).buf =
        (getLevel s.levels 0).buf ++ mlfq_lower s.levels (cfg.num_queues.toNat - 1) ∧
      (getLevel (mlfq_boost_phase cfg s).levels 0).pending =
        (getLevel s.levels 0).pending ++ mlfq_lower s.levels (cfg.num_queues.toNat - 1) ∧
      (mlfq_boost_phase cfg s).last_boost = s.core.time ∧
      all_pending (mlfq_boost_phase cfg s).levels = all_pending s.levels ∧
      (mlfq_boost_phase cfg s).core = s.core ∧
      mlfq_step cfg s = mlfq_step cfg.no_boost (mlfq_boost_phase cfg s) := by
  have hS := mlfq_shape_at cfg ps k s hreach
  obtain ⟨b1, b2, b3⟩ := mlfq_boost_exact cfg.num_queues.toNat s.levels hS.levels_len
  have hlv : (mlfq_boost_phase cfg s).levels = mlfq_boost cfg.num_queues.toNat s.levels := by
    unfold mlfq_boost_phase; rw [if_pos hdue]
  have hlb : (mlfq_boost_phase cfg s).last_boost = s.core.time := by
    unfold mlfq_boost_phase; rw [if_pos hdue]
  have hh0 := (hS.levelsOk.get 0).1
  have hp0 : (getLevel (mlfq_boost cfg.num_queues.toNat s.levels) 0).pending =
      (getLevel s.levels 0).pending ++ mlfq_lower s.levels (cfg.num_queues.toNat - 1) := by
    rw [b2]
    exact pending_append _ _ _ hh0
  rw [hlv]
  refine ⟨fun j h1 h2 => ⟨b3 j h1 h2, by rw [b3 j h1 h2]; rfl⟩, by rw [b2], by rw [b2], hp0,
    hlb, ?_, (boost_phase_core cfg s).1, mlfq_step_boost_phase cfg s⟩
  by_cases hn : 0 < cfg.num_queues.toNat
  · rw [all_pending_eq _ (by rw [b1]; exact hn), all_pending_eq _ (by rw [hS.levels_len]; exact hn),
      b1, hS.levels_len, hp0,
      mlfq_lower_nil _ _ (fun j h1 h2 => b3 j h1 (by omega)), List.append_nil]
  · have e1 : s.levels = [] := List.length_eq_zero.1 (by rw [hS.levels_len]; omega)
    have e2 : mlfq_boost cfg.num_queues.toNat s.levels = [] :=
      List.length_eq_zero.1 (by rw [b1]; omega)
    rw [e1] at e2 ⊢
    rw [e2]

theorem mlfq_boost_effect_witness :
    mlfq_state_at boost_cfg demote_workload 1 = some demote_after ∧
      mlfq_boost_due boost_cfg demote_after ∧
      all_pending (mlfq_boost_phase boost_cfg demote_after).levels =
        all_pending demote_after.levels ∧
      (getLevel (mlfq_boost_phase boost_cfg demote_after).levels 0).pending =
        (getLevel demote_after.levels 0).pending ++
          mlfq_lower demote_after.levels (boost_cfg.num_queues.toNat - 1) :=
  ⟨by decide, by decide,
    (mlfq_boost_effect boost_cfg demote_workload 1 demote_after (by decide) (by decide)).2.2.2.2.2.1,
    (mlfq_boost_effect boost_cfg demote_workload 1 demote_after (by decide) (by decide)).2.2.2.1⟩

end Sched

namespace Sched

/-! ## C13: idle events -/

/-- C13 (counterexample). Two processes arriving shortly before `INT_MAX`
(pid 1 at 2147483644 with burst time 6, pid 2 at 2147483646 with burst time
5) under `schedule_fifo`. The first event ends at 2147483650, which is no
`int`: the addition `time += burst_time` overflows. A 32-bit machine
continues at -2147483646, before the arrival of pid 2, so it emits an idle
event there, and the duration it computes for it, `arrival_time - time`,
overflows as well and comes out as -4. Its timeline has an idle event
without a positive duration, and its first event, which runs pid 1, starts
when by the result no process has arrived and is unfinished: the property of
the claim fails. -/
theorem idle_clock_counterexample :
    (∀ p ∈ wrap_workload, 1 ≤ p.burst_time) ∧ (∀ p ∈ wrap_workload, p.pid ≠ -1) ∧
      (schedule_fifo wrap_workload).timeline =
        [⟨2147483644, 1, 6⟩, ⟨2147483650, 2, 5⟩] ∧
      INT_MAX < 2147483644 + 6 ∧
      (schedule_fifo_wrapped wrap_workload).timeline =
        [⟨2147483644, 1, 6⟩, ⟨-2147483646, -1, -4⟩, ⟨2147483646, 2, 5⟩] ∧
      (schedule_fifo_wrapped wrap_workload).procs.map
          (fun p => (p.start_time, p.completion_time, p.finished)) =
        [(2147483644, -2147483646, 1), (2147483646, -2147483645, 1)] ∧
      (¬ ∃ j, ReadyAt (schedule_fifo_wrapped wrap_workload).procs 2147483644 j) ∧
      ¬ ∀ e ∈ (schedule_fifo_wrapped wrap_workload).timeline,
        (e.pid = -1 ↔ ¬ ∃ j, ReadyAt (schedule_fifo_wrapped wrap_workload).procs e.time j) ∧
        (e.pid = -1 →
          0 < e.duration ∧
          (∃ j, UnfinishedAt (schedule_fifo_wrapped wrap_workload).procs e.time j ∧
            (getP (schedule_fifo_wrapped wrap_workload).procs j).arrival_time =
              e.time + e.duration) ∧
          ∀ j, UnfinishedAt (schedule_fifo_wrapped wrap_workload).procs e.time j →
            e.time + e.duration ≤
              (getP (schedule_fifo_wrapped wrap_workload).procs j).arrival_time) := by
  refine ⟨by decide, by decide, by decide, by decide, by decide, by decide, ?_, ?_⟩
  · rintro ⟨j, hj, ha, hf⟩
    have hj2 : j < 2 := hj
    obtain rfl | rfl : j = 0 ∨ j = 1 := by omega
    · exact absurd (hf (by decide)) (by decide)
    · exact absurd ha (by decide)
  · intro h
    have h1 := ((h ⟨-2147483646, -1, -4⟩ (by decide)).2 rfl).1
    exact absurd h1 (by decide)

/-- C13 (amended). Each of the five policies, run on valid parameters and a
workload with burst times at least 1 and pids other than the idle pid -1 whose
run is free of undefined behaviour (`Policy.Safe`: the arrival times are
`int`s, the latest arrival time plus the total burst time is at most `INT_MAX`
and at most `INT_MAX` above the earliest arrival time, and the queues of
`schedule_rr` and `schedule_mlfq` stay within their allocations), returns, all
its times are `int`s, and for every event `e` of its timeline: `e` carries the
idle pid -1 if and only if no process has arrived by `e.time` while unfinished
at `e.time` (`ReadyAt`, read off the final array: unfinished means completing
after `e.time`); and if `e` is idle its duration is positive and `e.time +
e.duration` is the least arrival time among the processes unfinished at
`e.time` (`IdleOk`).
The same run with every `int` addition and subtraction reduced to 32 bits
(`run_policy_wrapped`) returns the same result. -/
theorem idle_iff (pol : Policy) (hv : pol.Valid) (ps : List Process) (fuel : Nat)
    (hburst : ∀ p ∈ ps, 1 ≤ p.burst_time) (hsafe : pol.Safe fuel ps)
    (hpid : ∀ p ∈ ps, p.pid ≠ -1) (hfuel : fuel_bound ps ≤ fuel) :
    ∃ r, run_policy pol fuel ps = some r ∧
      run_policy_wrapped pol fuel ps = some r ∧ r.InRange ∧
      ∀ e ∈ r.timeline,
        (e.pid = -1 ↔ ¬ ∃ j, ReadyAt r.procs e.time j) ∧
        (e.pid = -1 →
          0 < e.duration ∧
          (∃ j, UnfinishedAt r.procs e.time j ∧
            (getP r.procs j).arrival_time = e.time + e.duration) ∧
          ∀ j, UnfinishedAt r.procs e.time j →
            e.time + e.duration ≤ (getP r.procs j).arrival_time) := by
  obtain ⟨r, time, hr, hE⟩ := run_policy_events pol hv ps fuel hburst
    (hsafe.1.arrival_le hburst) hpid hfuel
  refine ⟨r, hr, machine_run pol hv ps fuel hburst hsafe.1 r hr,
    in_range_of_run pol hv ps fuel hburst hsafe.1 hfuel r hr, fun e he => ?_⟩
  obtain ⟨_, h2, h3⟩ := hE e he
  refine ⟨⟨fun hp => (h2 hp).none_ready, fun hn => ?_⟩, h2⟩
  by_contra hp
  exact hn (h3 hp)

theorem idle_iff_witness :
    fuel_bound gap_workload ≤ 6 ∧ (Policy.stcf).Safe 6 gap_workload ∧
      ∃ r, run_policy .stcf 6 gap_workload = some r ∧
      run_policy_wrapped .stcf 6 gap_workload = some r ∧ r.InRange ∧
        ∀ e ∈ r.timeline,
          (e.pid = -1 ↔ ¬ ∃ j, ReadyAt r.procs e.time j) ∧
          (e.pid = -1 →
            0 < e.duration ∧
            (∃ j, UnfinishedAt r.procs e.time j ∧
              (getP r.procs j).arrival_time = e.time + e.duration) ∧
            ∀ j, UnfinishedAt r.procs e.time j →
              e.time + e.duration ≤ (getP r.procs j).arrival_time) :=
  ⟨by decide, by unfold Policy.Safe ClockFits Policy.InBounds; decide,
    idle_iff .stcf trivial gap_workload 6 (by decide)
      (by unfold Policy.Safe ClockFits Policy.InBounds; decide) (by decide) (by decide)⟩

end Sched

namespace Sched

/-! ## C14: the fairness index -/

theorem fairness_index_eq (ps : List Process) (total_time : Int)
    (hdone : ∀ p ∈ ps, 0 ≤ p.completion_time) (hfit : ∀ p ∈ ps, SquareFits p) :
    (calculate_metrics ps total_time).2.fairness_index =
      if ps.length > 0 ∧ ((ps.map turnaround).map fun x => x ^ 2).sum > 0 then
        (((ps.map turnaround).sum : Int) : ℚ) * (((ps.map turnaround).sum : Int) : ℚ) /
          ((ps.length : ℚ) * ((((ps.map turnaround).map fun x => x ^ 2).sum : Int) : ℚ))
      else 0 := by
  obtain ⟨_, _, _, _, h5, h6⟩ := metrics_sums_spec ps
  rw [completed_procs_all ps hdone] at h5 h6
  rw [sum_wrap32_squares ps hfit] at h6
  simp only [calculate_metrics, h5, h6]

/-- C14 (counterexample). `schedule_fifo` on one process with arrival time 0
and burst time 0 completes it at time 0; on that array, non-empty, completed
and with all turnaround times equal, `calculate_metrics` yields the fairness
index 0, not 1. -/
theorem fairness_counterexample :
    schedule_fifo zero_burst = ⟨[⟨1, 0, 0, 0, 0, 0, 0, 0, 0, -1, 1⟩], [⟨0, 1, 0⟩]⟩ ∧
      (∀ p ∈ (schedule_fifo zero_burst).procs, 0 ≤ p.completion_time) ∧
      EqualTurnarounds (schedule_fifo zero_burst).procs ∧
      (calculate_metrics (schedule_fifo zero_burst).procs
        (compute_total_time (schedule_fifo zero_burst).timeline)).2.fairness_index = 0 ∧
      (calculate_metrics (schedule_fifo zero_burst).procs
        (compute_total_time (schedule_fifo zero_burst).timeline)).2.fairness_index ≠ 1 := by
  have h : schedule_fifo zero_burst = ⟨[⟨1, 0, 0, 0, 0, 0, 0, 0, 0, -1, 1⟩], [⟨0, 1, 0⟩]⟩ := by
    decide
  have hs : metrics_sums [(⟨1, 0, 0, 0, 0, 0, 0, 0, 0, -1, 1⟩ : Process)] =
      ⟨0, 0, 0, 0, 1, 0, 0⟩ := by decide
  have hf : (calculate_metrics (schedule_fifo zero_burst).procs
      (compute_total_time (schedule_fifo zero_burst).timeline)).2.fairness_index = 0 := by
    rw [h]
    simp only [calculate_metrics, hs]
    norm_num
  refine ⟨h, ?_, ?_, hf, by rw [hf]; norm_num⟩
  · rw [h]; decide
  · rw [h]; unfold EqualTurnarounds; decide

/-- C14 (amended). On a non-empty array of completed processes whose squared
turnaround times fit an `int`, the fairness index computed by
`calculate_metrics` lies in [0,1]; it is the rational
`(sum of turnarounds)^2 / (n * sum of squared turnarounds)` when that sum of
squares is positive and 0 otherwise; and it equals 1 if and only if all
turnaround times are equal and not zero. -/
theorem fairness_index_bounds (ps : List Process) (total_time : Int) (hne : ps ≠ [])
    (hdone : ∀ p ∈ ps, 0 ≤ p.completion_time) (hfit : ∀ p ∈ ps, SquareFits p) :
    0 ≤ (calculate_metrics ps total_time).2.fairness_index ∧
      (calculate_metrics ps total_time).2.fairness_index ≤ 1 ∧
      ((calculate_metrics ps total_time).2.fairness_index = 1 ↔
        EqualTurnarounds ps ∧ ∃ p ∈ ps, turnaround p ≠ 0) ∧
      (calculate_metrics ps total_time).2.fairness_index =
        (if 0 < ((ps.map turnaround).map fun x => x ^ 2).sum
          then jain_index (ps.map turnaround) else 0) := by
  have hlen : 0 < ps.length := List.length_pos.2 hne
  obtain ⟨hcs, hcseq⟩ := sq_sum_le (ps.map turnaround)
  have hnn := sum_sq_nonneg (ps.map turnaround) (fun x => x)
  have hzero := sum_sq_eq_zero (ps.map turnaround) (fun x => x)
  simp only [List.length_map] at hcs hcseq
  have hall : (∀ a ∈ ps.map turnaround, ∀ b ∈ ps.map turnaround, a = b) ↔ EqualTurnarounds ps := by
    unfold EqualTurnarounds
    simp only [List.mem_map, forall_exists_index, and_imp, forall_apply_eq_imp_iff₂]
  rw [fairness_index_eq ps total_time hdone hfit]
  generalize hS : (ps.map turnaround).sum = S at *
  generalize hQ : ((ps.map turnaround).map fun x => x ^ 2).sum = Q at *
  by_cases hq : 0 < Q
  · have hQq : (0 : ℚ) < (Q : ℚ) := by exact_mod_cast hq
    have hnq : (0 : ℚ) < (ps.length : ℚ) := by exact_mod_cast hlen
    have hden : (0 : ℚ) < (ps.length : ℚ) * (Q : ℚ) := mul_pos hnq hQq
    have hcsq : (S : ℚ) * (S : ℚ) ≤ (ps.length : ℚ) * (Q : ℚ) := by
      have : S * S ≤ (ps.length : Int) * Q := by rw [← sq]; exact hcs
      exact_mod_cast this
    rw [if_pos ⟨hlen, hq⟩, if_pos hq]
    refine ⟨div_nonneg (mul_self_nonneg _) (le_of_lt hden), (div_le_one hden).2 hcsq, ?_, ?_⟩
    · rw [div_eq_one_iff_eq (ne_of_gt hden)]
      constructor
      · intro h
        have h' : S ^ 2 = (ps.length : Int) * Q := by
          rw [sq]; exact_mod_cast h
        refine ⟨hall.1 (hcseq.1 h'), ?_⟩
        by_contra hno
        have : Q = 0 := by
          refine hzero.2 ?_
          intro y hy
          obtain ⟨p, hp, rfl⟩ := List.mem_map.1 hy
          by_contra hne0
          exact hno ⟨p, hp, hne0⟩
        omega
      · rintro ⟨heq, _⟩
        have h' := hcseq.2 (hall.2 heq)
        rw [sq] at h'
        exact_mod_cast h'
    · unfold jain_index
      rw [hS, List.length_map, sq]
      simp only [hQ]
  · have hQ0 : Q = 0 := by omega
    rw [if_neg (fun h => hq h.2), if_neg hq]
    refine ⟨le_refl _, by norm_num, ?_, rfl⟩
    constructor
    · intro h; norm_num at h
    · rintro ⟨_, p, hp, hne0⟩
      exfalso
      have := hzero.1 hQ0 (turnaround p) (List.mem_map.2 ⟨p, hp, rfl⟩)
      exact hne0 this

theorem fairness_index_bounds_witness :
    (stcf_test_result.procs ≠ [] ∧ (∀ p ∈ stcf_test_result.procs, 0 ≤ p.completion_time) ∧
      ∀ p ∈ stcf_test_result.procs, SquareFits p) ∧
      0 ≤ (calculate_metrics stcf_test_result.procs 16).2.fairness_index ∧
      (calculate_metrics stcf_test_result.procs 16).2.fairness_index ≤ 1 :=
  ⟨⟨by decide, by decide, by unfold SquareFits; decide⟩,
    (fairness_index_bounds stcf_test_result.procs 16 (by decide) (by decide)
      (by unfold SquareFits; decide)).1,
    (fairness_index_bounds stcf_test_result.procs 16 (by decide) (by decide)
      (by unfold SquareFits; decide)).2.1⟩

end Sched

namespace Sched

/-! ## C15: the per-process fields written by `calculate_metrics` -/

end Sched

namespace Sched

/-! ## C16: the averages of `calculate_metrics` -/

end Sched

namespace Sched

/-! ## C17: the empty workload -/

/-- C17: on the empty process array every policy, whatever its parameters,
returns (given fuel for the one evaluation of the loop condition) with the
empty array and the empty timeline, whose total time is 0; and
`calculate_metrics` on the empty array with total time 0 yields 0 for the
average turnaround, waiting and response times, the utilization, the
throughput and the fairness index. -/
theorem empty_workload (pol : Policy) (fuel : Nat) (hfuel : 1 ≤ fuel) :
    run_policy pol fuel [] = some ⟨[], []⟩ ∧
      compute_total_time [] = 0 ∧
      calculate_metrics [] 0 = ([], ⟨0, 0, 0, 0, 0, 0⟩) := by
  obtain ⟨k, rfl⟩ : ∃ k, fuel = k + 1 := ⟨fuel - 1, by omega⟩
  refine ⟨?_, rfl, ?_⟩
  · cases pol with
    | fifo => rfl
    | sjf => rfl
    | stcf => rfl
    | rr quantum => rfl
    | mlfq cfg =>
      simp [run_policy, schedule_mlfq, whileLoop, mlfq_step, mlfq_init, reset_processes,
        mlfq_enqueue_arrivals, enqueue_arrivals, forLoop]
  · simp [calculate_metrics, metrics_sums]

theorem empty_workload_witness :
    (1 : Nat) ≤ 1 ∧ run_policy (.rr 3) 1 [] = some ⟨[], []⟩ :=
  ⟨by decide, (empty_workload (.rr 3) 1 (by decide)).1⟩

end Sched

namespace Sched

/-! ## C18: termination -/

/-- A loop whose body, from a state satisfying `J`, always yields another
state satisfying `J` never returns, whatever the fuel. -/
theorem whileLoop_diverges {σ : Type} (step : σ → Option σ) (J : σ → Prop)
    (hstep : ∀ s, J s → ∃ s', step s = some s' ∧ J s') :
    ∀ (fuel : Nat) (s : σ), J s → whileLoop step fuel s = none := by
  intro fuel
  induction fuel with
  | zero => intro s _; rfl
  | succ f ih =>
    intro s hs
    obtain ⟨s', h1, h2⟩ := hstep s hs
    simp only [whileLoop, h1]
    exact ih s' h2

theorem stcf_stuck_step (s : StcfState) (h : StcfStuck s) :
    ∃ s', stcf_step s = some s' ∧ StcfStuck s' := by
  obtain ⟨hc, ht, r, st, hr, hp⟩ := h
  have hpick : pick_best stcf_better s.core.procs s.core.time = some 0 := by
    rw [hp]
    simp [pick_best, forLoop, eligible, getP, ht]
  have hne : ¬ (run_slice (getP s.core.procs 0) s.core.time 1).remaining_time = 0 := by
    rw [hp]
    simp only [getP, List.getD_cons_zero, run_slice]
    omega
  unfold stcf_step
  rw [if_pos (by rw [hc, hp]; simp), hpick]
  dsimp only
  rw [if_neg hne]
  refine ⟨_, rfl, hc, by simp only; omega, r - 1, if st = -1 then s.core.time else st,
    by omega, ?_⟩
  simp only [hp, getP, List.getD_cons_zero, run_slice, List.set_cons_zero]

/-- C18 (failing input). On the single process with arrival time 0 and burst
time 0, `schedule_stcf` never returns, whatever the fuel: the first iteration
takes `remaining_time` from 0 to -1, the test `remaining_time == 0` of line
162 fails, and so it does in every later iteration. -/
theorem stcf_zero_burst_diverges :
    (∀ fuel, schedule_stcf fuel zero_burst = none) ∧
      ((iterate_loop stcf_step 1
          ⟨⟨reset_processes zero_burst, [], first_arrival (reset_processes zero_burst)⟩,
            0, none, -1⟩).map
        fun s => (s.core.procs.map (·.remaining_time), s.completed)) = some ([-1], 0) := by
  refine ⟨fun fuel => ?_, by decide⟩
  have h0 : StcfStuck
      ⟨⟨reset_processes zero_burst, [], first_arrival (reset_processes zero_burst)⟩,
        0, none, -1⟩ :=
    ⟨rfl, by decide, 0, -1, le_refl _, by decide⟩
  simp only [schedule_stcf]
  rw [whileLoop_diverges stcf_step StcfStuck stcf_stuck_step fuel _ h0]
  rfl

end Sched

namespace Sched

/-! ## C19: invalid configurations -/

/-- C19 (counterexample). Called with the negative boost interval -5,
`schedule_mlfq` runs the test workload to completion: it returns the mutated
process array and a timeline of seven events. Called with quantum 0,
`schedule_rr` has, after one iteration of its loop, reset the process array
and appended a zero-length event. Neither leaves the array and the timeline
untouched. -/
theorem invalid_config_counterexample :
    (schedule_mlfq 34 test_workload negative_boost).map
        (fun r => (r.procs.map fun p => (p.start_time, p.completion_time, p.finished),
          r.timeline)) =
      some ([(0, 9, 1), (2, 10, 1), (4, 16, 1)],
        [⟨0, 1, 2⟩, ⟨2, 2, 2⟩, ⟨4, 3, 2⟩, ⟨6, 1, 3⟩, ⟨9, 2, 1⟩, ⟨10, 3, 4⟩, ⟨14, 3, 2⟩]) ∧
      (rr_state_at 0 test_workload 1).map
          (fun s => (s.core.procs.map fun p => (p.start_time, p.completion_time), s.core.timeline)) =
        some ([(0, -1), (-1, -1), (-1, -1)], [⟨0, 1, 0⟩]) ∧
      test_workload.map (fun p => (p.start_time, p.completion_time)) = [(0, 0), (0, 0), (0, 0)] := by
  refine ⟨by decide, by decide, by decide⟩

theorem boost_phase_not_due (cfg : MlfqConfig) (s : MlfqState) (h : cfg.boost_interval ≤ 0) :
    mlfq_boost_phase cfg s = s := by
  unfold mlfq_boost_phase mlfq_boost_due
  rw [if_neg (by omega)]

theorem main_rr_quantum (n : Int) (argv : List (List Char)) (q : Int)
    (h : main_select n argv = .run (.rr q)) : 0 < q := by
  unfold main_select at h
  dsimp only at h
  repeat' split at h
  all_goals first
    | (simp only [Launch.run.injEq, Policy.rr.injEq, reduceCtorEq] at h; omega)
    | (simp only [Launch.run.injEq, reduceCtorEq] at h)

theorem first_arrival_attained (ps : List Process) (hne : ps ≠ [])
    (hlt : ∀ p ∈ ps, p.arrival_time < INT_MAX) :
    ∃ j, j < ps.length ∧ (getP ps j).arrival_time = first_arrival ps := by
  rw [first_arrival_eq_min ps hne hlt]
  obtain ⟨m1, _⟩ := minList_spec (ps.map (·.arrival_time)) (by simpa using hne)
  obtain ⟨p, hp, he⟩ := List.mem_map.1 m1
  obtain ⟨j, hj, rfl⟩ := exists_getP_of_mem ps p hp
  exact ⟨j, hj, he⟩

/-- The first iteration of `schedule_rr` with a quantum that is not positive:
the process at the head of the queue is dispatched for `quantum` time
units. -/
theorem rr_first_slice (quantum : Int) (ps : List Process) (hq : quantum ≤ 0) (hne : ps ≠ [])
    (hburst : ∀ p ∈ ps, 1 ≤ p.burst_time) (hlt : ∀ p ∈ ps, p.arrival_time < INT_MAX) :
    ∃ s idx, rr_state_at quantum ps 1 = some s ∧ idx < ps.length ∧
      s.core.timeline = [⟨minArrival ps, (getP ps idx).pid, quantum⟩] ∧
      s.core.time = minArrival ps + quantum ∧
      (getP s.core.procs idx).start_time = minArrival ps ∧
      (getP s.core.procs idx).remaining_time = (getP ps idx).burst_time - quantum ∧
      (getP s.core.procs idx).finished = 0 := by
  obtain ⟨hl, hst⟩ := StaticEq.reset ps
  have hI := rr_init_inv ps hburst
  have hrne : reset_processes ps ≠ [] := by
    intro h
    rw [h] at hl
    exact hne (List.length_eq_zero.1 hl.symm)
  have ht0 : first_arrival (reset_processes ps) = minArrival ps := by
    rw [first_arrival_eq_min _ hrne (reset_arrival_lt ps _ hlt), minArrival_reset]
  obtain ⟨j, hj, hja⟩ := first_arrival_attained _ hrne (reset_arrival_lt ps _ hlt)
  have hprocs : (rr_init ps).core.procs = reset_processes ps := rfl
  have htime : (rr_init ps).core.time = first_arrival (reset_processes ps) := rfl
  have htl : (rr_init ps).core.timeline = [] := rfl
  have hjf : (getP (rr_init ps).core.procs j).finished = 0 := by
    rw [hprocs]; rw [hl] at hj; exact (hst j hj).2.2.2.2.2.2
  have hjm : j ∈ (rr_init ps).queue.pending := by
    apply hI.queue.queued j hj hjf
    by_contra hadd
    have := (hI.queue.arrived j hj (by simpa using hadd)).2
    rw [hprocs, htime, hja] at this
    omega
  have hhead : (rr_init ps).queue.head < (rr_init ps).queue.buf.length := by
    have hle := hI.head_le
    by_contra hc
    have he : (rr_init ps).queue.head = (rr_init ps).queue.buf.length := by omega
    have : (rr_init ps).queue.pending = [] := by
      simp only [IdxQueue.pending, he, List.drop_length]
    rw [this] at hjm
    exact absurd hjm (List.not_mem_nil _)
  have hnd : ¬ all_done (rr_init ps).core.procs = true := by
    rw [all_done_iff]
    intro h
    exact h j (by rw [hprocs]; exact hj) hjf
  have hsome : rr_step quantum (rr_init ps) ≠ none := by
    unfold rr_step
    rw [if_neg hnd, if_neg (by omega)]
    exact ite_some_ne_none _ _ _
  obtain ⟨s, hs⟩ := Option.ne_none_iff_exists'.1 hsome
  have hal : (rr_init ps).added.length = (rr_init ps).core.procs.length := by
    rw [hI.queue.added_len, hprocs]
  rcases rr_step_cases quantum _ s hal hI.head_le hs with hi | ⟨idx, use, hd⟩
  · have := hi.empty
    omega
  · have hm : idx ∈ (rr_init ps).queue.pending := by
      have hpop := pending_pop (rr_init ps).queue.buf (rr_init ps).queue.head hd.head_lt
      rw [hd.idx_eq] at hpop
      show idx ∈ IdxQueue.pending ⟨(rr_init ps).queue.buf, (rr_init ps).queue.head⟩
      rw [hpop]; exact List.mem_cons_self _ _
    obtain ⟨h1, _, _⟩ := hI.queue.pend idx hm
    rw [hl] at h1
    obtain ⟨e1, _, e3, e4, e5, _, e7⟩ := hst idx h1
    have hb := hburst _ (getP_mem ps idx h1)
    have huse : use = quantum := by
      rw [hd.use_eq, hprocs, e4, if_neg (by omega)]
    have hidx : idx < (rr_init ps).core.procs.length := by rw [hprocs, hl]; exact h1
    have hpos : 0 < (getP (rr_init ps).core.procs idx).remaining_time - use := by
      rw [huse, hprocs, e4]; omega
    refine ⟨s, idx, hs, h1, ?_, ?_, ?_, ?_, ?_⟩
    · rw [hd.timeline, htl, htime, ht0, hprocs, e1, huse]
      rfl
    · rw [hd.time, htime, ht0, huse]
    · rw [hd.procs, if_pos hpos, getP_set_eq _ _ _ hidx, run_slice_start, hprocs, e5, htime,
        ht0]
      simp
    · rw [hd.procs, if_pos hpos, getP_set_eq _ _ _ hidx, run_slice_remaining, hprocs, e4, huse]
    · rw [hd.procs, if_pos hpos, getP_set_eq _ _ _ hidx, run_slice_finished, hprocs, e7]

/-- C19 (amended). `schedule_rr` and `schedule_mlfq` have no error result and
do not check their configuration. For a configuration with at least one
queue and positive quanta, a boost interval that is zero or negative
switches the boost off: the run returns and is exactly the run with boost
interval 0. Called with a quantum that is not positive on a non-empty
workload, `schedule_rr` runs: its first iteration dispatches a process for
`quantum` time units, appending an event of that duration to the timeline,
moving the clock by `quantum` and writing the process's `start_time` and
`remaining_time`, which is the burst time minus `quantum` and so not below
the burst time. The only check is in `main`, which never calls `schedule_rr`
with such a quantum. The workload has `burst_time >= 1`, and the runs are
free of `int` overflow and of queue writes outside the allocations:
`Policy.Safe` for the MLFQ run; for the first iteration of `schedule_rr`,
the queue stays within its block, `burst_time - quantum` is at most
`INT_MAX` and the earliest arrival time plus `quantum` is an `int`.
The MLFQ run with every `int` addition and subtraction reduced to 32 bits
(`schedule_mlfq_wrapped`) returns the same result. -/
theorem invalid_config_runs (cfg : MlfqConfig) (quantum : Int) (ps : List Process) (fuel : Nat)
    (hv : cfg.Valid) (hboost : cfg.boost_interval ≤ 0) (hq : quantum ≤ 0) (hne : ps ≠ [])
    (hburst : ∀ p ∈ ps, 1 ≤ p.burst_time) (hsafe : (Policy.mlfq cfg).Safe fuel ps)
    (hrr : (Policy.rr quantum).InBounds 1 ps)
    (hsub : ∀ p ∈ ps, p.burst_time - quantum ≤ INT_MAX)
    (hclock : -INT_MAX - 1 ≤ minArrival ps + quantum) (hfuel : fuel_bound ps ≤ fuel) :
    (∃ r, schedule_mlfq fuel ps cfg = some r ∧ schedule_mlfq fuel ps cfg.no_boost = some r ∧
      schedule_mlfq_wrapped fuel ps cfg = some r ∧ r.InRange) ∧
      (∃ s idx, rr_state_at quantum ps 1 = some s ∧ idx < ps.length ∧
        s.core.timeline = [⟨minArrival ps, (getP ps idx).pid, quantum⟩] ∧
        s.core.time = minArrival ps + quantum ∧
        (getP s.core.procs idx).start_time = minArrival ps ∧
        (getP s.core.procs idx).remaining_time = (getP ps idx).burst_time - quantum ∧
        (getP s.core.procs idx).finished = 0 ∧
        (getP s.core.procs idx).remaining_time ≤ INT_MAX ∧
        -INT_MAX - 1 ≤ s.core.time ∧ s.queue.buf.length ≤ rr_capacity ps.length) ∧
      ∀ (n : Int) (argv : List (List Char)) (q : Int),
        main_select n argv = .run (.rr q) → 0 < q := by
  refine ⟨?_, ?_, main_rr_quantum⟩
  · have hstep : mlfq_step cfg = mlfq_step cfg.no_boost := by
      funext s
      rw [mlfq_step_boost_phase cfg s, boost_phase_not_due cfg s hboost]
    have heq : schedule_mlfq fuel ps cfg = schedule_mlfq fuel ps cfg.no_boost := by
      unfold schedule_mlfq
      rw [hstep]
      rfl
    obtain ⟨r, hr, _, _, hin⟩ :=
      run_policy_in_range (.mlfq cfg) hv ps fuel hburst hsafe.1 hfuel
    have hr' : schedule_mlfq fuel ps cfg = some r := hr
    exact ⟨r, hr', by rw [← heq]; exact hr',
      machine_run (.mlfq cfg) hv ps fuel hburst hsafe.1 r hr, hin⟩
  · obtain ⟨s, idx, h1, h2, h3, h4, h5, h6, h7⟩ :=
      rr_first_slice quantum ps hq hne hburst (hsafe.1.arrival_lt hburst)
    refine ⟨s, idx, h1, h2, h3, h4, h5, h6, h7, ?_, ?_,
      rr_queue_within quantum 1 ps hrr 1 (le_refl 1) s h1⟩
    · rw [h6]
      exact hsub _ (getP_mem ps idx h2)
    · rw [h4]
      exact hclock

theorem invalid_config_runs_witness :
    negative_boost.Valid ∧ negative_boost.boost_interval ≤ 0 ∧ (-2 : Int) ≤ 0 ∧
      (Policy.mlfq negative_boost).Safe 34 test_workload ∧
      (Policy.rr (-2)).InBounds 1 test_workload ∧
      (∃ r, schedule_mlfq 34 test_workload negative_boost = some r ∧
        schedule_mlfq 34 test_workload negative_boost.no_boost = some r ∧
        schedule_mlfq_wrapped 34 test_workload negative_boost = some r ∧ r.InRange) ∧
      ∃ s idx, rr_state_at (-2) test_workload 1 = some s ∧ idx < test_workload.length ∧
        s.core.timeline = [⟨minArrival test_workload, (getP test_workload idx).pid, -2⟩] ∧
        s.core.time = minArrival test_workload + -2 ∧
        (getP s.core.procs idx).start_time = minArrival test_workload ∧
        (getP s.core.procs idx).remaining_time = (getP test_workload idx).burst_time - -2 ∧
        (getP s.core.procs idx).finished = 0 ∧
        (getP s.core.procs idx).remaining_time ≤ INT_MAX ∧
        -INT_MAX - 1 ≤ s.core.time ∧ s.queue.buf.length ≤ rr_capacity test_workload.length :=
  ⟨by unfold MlfqConfig.Valid; decide, by decide, by decide,
    by unfold Policy.Safe ClockFits Policy.InBounds; decide,
    by unfold Policy.InBounds; decide,
    (invalid_config_runs negative_boost (-2) test_workload 34
      (by unfold MlfqConfig.Valid; decide) (by decide) (by decide) (by decide) (by decide)
      (by unfold Policy.Safe ClockFits Policy.InBounds; decide)
      (by unfold Policy.InBounds; decide) (by decide) (by decide) (by decide)).1,
    (invalid_config_runs negative_boost (-2) test_workload 34
      (by unfold MlfqConfig.Valid; decide) (by decide) (by decide) (by decide) (by decide)
      (by unfold Policy.Safe ClockFits Policy.InBounds; decide)
      (by unfold Policy.InBounds; decide) (by decide) (by decide) (by decide)).2.1⟩

end Sched

namespace Sched

/-! ## C20: validation by the command-line front end -/

/-- C20 (failing inputs). `main` checks only `rr`: a quantum is passed to
`schedule_rr` only if positive. For `mlfq` it calls the engine on
`mlfq 2 4,8,16 50` with the list cut to the quanta 4 and 8, on
`mlfq 2 0,-3 50` with the quanta 0 and -3, and on `mlfq 0 4 50` with no
queue at all; only a list with fewer entries than `num_queues` is rejected
(exit code 4). -/
theorem cli_validation_gaps :
    main_select 3 (mlfq_args "2" "4,8,16" "50") = .run (.mlfq ⟨2, [4, 8], 50⟩) ∧
      main_select 3 (mlfq_args "2" "0,-3" "50") = .run (.mlfq ⟨2, [0, -3], 50⟩) ∧
      main_select 3 (mlfq_args "0" "4" "50") = .run (.mlfq ⟨0, [], 50⟩) ∧
      main_select 3 (mlfq_args "3" "4,8" "50") = .exit 4 ∧
      ∀ (n : Int) (argv : List (List Char)) (q : Int),
        main_select n argv = .run (.rr q) → 0 < q := by
  refine ⟨by decide, by decide, by decide, by decide, ?_⟩
  intro n argv q h
  unfold main_select at h
  dsimp only at h
  repeat' split at h
  all_goals first
    | (simp only [Launch.run.injEq, Policy.rr.injEq, reduceCtorEq] at h; omega)
    | (simp only [Launch.run.injEq, reduceCtorEq] at h)

end Sched

namespace Sched

/-! ## C21: a policy is a function of pid, arrival time and burst time -/

/-- C21: let two process arrays have the same length and agree on pid,
arrival time and burst time at every index, whatever their priorities and
their run-state fields are. Then every policy, with the same parameters and
fuel, either returns on neither or returns on both, with the same timeline
and with final arrays that agree on every field except the priority
(`SchedResult.erase` blanks out the priority only), which a policy never
reads or writes. Moreover a run leaves pid, arrival time, burst time and
priority of each process as they were, and running the policy again on the
array it returned gives the same result. -/
theorem policy_pure (pol : Policy) (fuel : Nat) (ps1 ps2 : List Process)
    (hlen : ps1.length = ps2.length)
    (hagree : ∀ i, i < ps1.length →
      (getP ps1 i).pid = (getP ps2 i).pid ∧
      (getP ps1 i).arrival_time = (getP ps2 i).arrival_time ∧
      (getP ps1 i).burst_time = (getP ps2 i).burst_time) :
    (run_policy pol fuel ps1).map SchedResult.erase =
        (run_policy pol fuel ps2).map SchedResult.erase ∧
      (run_policy pol fuel ps1).map (·.timeline) = (run_policy pol fuel ps2).map (·.timeline) ∧
      ∀ r, run_policy pol fuel ps1 = some r →
        r.procs.map inputs = ps1.map inputs ∧ run_policy pol fuel r.procs = some r := by
  have h1 : (run_policy pol fuel ps1).map SchedResult.erase =
      (run_policy pol fuel ps2).map SchedResult.erase := by
    rw [← run_policy_erase, ← run_policy_erase]
    exact run_policy_congr pol fuel _ _
      (reset_of_inputs _ _ (erase_inputs_agree ps1 ps2 hlen hagree))
  refine ⟨h1, ?_, ?_⟩
  · have := congrArg (Option.map (·.timeline)) h1
    simpa only [Option.map_map] using this
  · intro r hr
    have hin := run_policy_inputs pol fuel ps1 r hr
    exact ⟨hin, by rw [run_policy_congr pol fuel r.procs ps1 (reset_of_inputs _ _ hin)]; exact hr⟩

theorem policy_pure_witness :
    (test_workload.length = test_workload_stale.length ∧
      ∀ i, i < test_workload.length →
        (getP test_workload i).pid = (getP test_workload_stale i).pid ∧
        (getP test_workload i).arrival_time = (getP test_workload_stale i).arrival_time ∧
        (getP test_workload i).burst_time = (getP test_workload_stale i).burst_time) ∧
      (run_policy (.rr 3) 34 test_workload).isSome = true ∧
      (run_policy (.rr 3) 34 test_workload).map (·.timeline) =
        (run_policy (.rr 3) 34 test_workload_stale).map (·.timeline) :=
  ⟨⟨by decide, by decide⟩, by decide,
    (policy_pure (.rr 3) 34 test_workload test_workload_stale (by decide) (by decide)).2.1⟩

end Sched

namespace Sched

/-! ## C22: `start_time` and `completion_time` against the timeline -/

/-- C22 (counterexample). One process with pid 1, arrival time -1 and burst
time 2 under `schedule_rr` with quantum 1: the first dispatch, at clock -1,
stores -1 in `start_time`, which is the value that means unset, so the
second dispatch, at clock 0, stores 0. The final `start_time` is 0 while the
earliest event of pid 1 starts at -1.
With one process arriving at 2147483000 with burst time 1000 the clock of
`schedule_fifo` would pass `INT_MAX`: a 32-bit machine stores the completion
time -2147483296, which is not `time + duration` of the event of the
process. -/
theorem start_time_counterexample :
    (∃ r, run_policy (.rr 1) (fuel_bound early_workload) early_workload = some r ∧
        r.timeline = [⟨-1, 1, 1⟩, ⟨0, 1, 1⟩] ∧
        (getP r.procs 0).start_time = 0 ∧
        (events_of early_workload r.timeline 0).head?.map (·.time) = some (-1) ∧
        (events_of early_workload r.timeline 0).head?.map (·.time) ≠
          some (getP r.procs 0).start_time) ∧
      (schedule_fifo_wrapped edge_workload).timeline = [⟨2147483000, 1, 1000⟩] ∧
      (getP (schedule_fifo_wrapped edge_workload).procs 0).completion_time = -2147483296 ∧
      (events_of edge_workload (schedule_fifo_wrapped edge_workload).timeline 0).getLast?.map
          (fun e => e.time + e.duration) ≠
        some (getP (schedule_fifo_wrapped edge_workload).procs 0).completion_time := by
  refine ⟨?_, ?_, ?_, ?_⟩
  · refine ⟨_, rfl, ?_, ?_, ?_, ?_⟩ <;> decide
  · decide
  · decide
  · decide

/-- C22 (amended). For every policy with valid parameters and every workload
with pairwise distinct pids other than -1 and `burst_time >= 1` and no
negative arrival time whose run is free of undefined behaviour (`Policy.Safe`:
the latest arrival time plus the total burst time is at most `INT_MAX`, and
the queues of `schedule_rr` and `schedule_mlfq` stay within their
allocations), the run returns, all its times are `int`s, and for every process
the final `start_time` is the `time` of the first event carrying its pid,
which no event of that pid precedes, and the final `completion_time` is `time
+ duration` of the last event carrying its pid, beyond which no event of that
pid extends.
The same run with every `int` addition and subtraction reduced to 32 bits
(`run_policy_wrapped`) returns the same result. -/
theorem start_completion_events (pol : Policy) (hv : pol.Valid) (ps : List Process) (fuel : Nat)
    (hburst : ∀ p ∈ ps, 1 ≤ p.burst_time) (hnodup : (ps.map (·.pid)).Nodup)
    (hpid : ∀ p ∈ ps, p.pid ≠ -1) (harr : ∀ p ∈ ps, 0 ≤ p.arrival_time)
    (hsafe : pol.Safe fuel ps) (hfuel : fuel_bound ps ≤ fuel) :
    ∃ r, run_policy pol fuel ps = some r ∧
      run_policy_wrapped pol fuel ps = some r ∧ r.InRange ∧ ∀ i, i < ps.length →
      (events_of ps r.timeline i).head?.map (·.time) = some (getP r.procs i).start_time ∧
      (events_of ps r.timeline i).getLast?.map (fun e => e.time + e.duration) =
        some (getP r.procs i).completion_time ∧
      ∀ e ∈ events_of ps r.timeline i,
        (getP r.procs i).start_time ≤ e.time ∧
          e.time + e.duration ≤ (getP r.procs i).completion_time := by
  obtain ⟨r, hr, ⟨time, hP, hC, hall⟩, ⟨t, hH⟩, hin⟩ :=
    run_policy_in_range pol hv ps fuel hburst hsafe.1 hfuel
  have hl := (StaticEq.reset ps).1
  have hpo := pids_ok_reset ps hnodup hpid
  have ht0 : 0 ≤ first_arrival (reset_processes ps) := by
    apply first_arrival_nonneg
    intro p hp
    obtain ⟨i, hi, rfl⟩ := exists_getP_of_mem _ p hp
    rw [hl] at hi
    rw [((StaticEq.reset ps).2 i hi).2.1]
    exact harr _ (getP_mem ps i hi)
  refine ⟨r, hr, machine_run pol hv ps fuel hburst hsafe.1 r hr, hin, fun i hi => ?_⟩
  have hi' : i < (reset_processes ps).length := by rw [hl]; exact hi
  have hfin := hall i hi'
  have hh := hH.1.1 hpo i hi'
  have htm := hH.1.2 ht0 i hi'
  rw [events_of_reset ps _ i hi] at hh
  have hs := hh.started ht0 (htm.done hfin).1
  have hc := hh.done hfin
  exact ⟨hs, hc, events_of_extremes ps r.timeline _ _ i hC (fun e he => (hH.2.1 e he).1) _ _ hs hc⟩

theorem start_completion_events_witness :
    (Policy.rr 3).Valid ∧ fuel_bound test_workload ≤ 34 ∧ (Policy.rr 3).Safe 34 test_workload ∧
      ∃ r, run_policy (.rr 3) 34 test_workload = some r ∧
      run_policy_wrapped (.rr 3) 34 test_workload = some r ∧ r.InRange ∧
        ∀ i, i < test_workload.length →
        (events_of test_workload r.timeline i).head?.map (·.time) =
          some (getP r.procs i).start_time ∧
        (events_of test_workload r.timeline i).getLast?.map (fun e => e.time + e.duration) =
          some (getP r.procs i).completion_time ∧
        ∀ e ∈ events_of test_workload r.timeline i,
          (getP r.procs i).start_time ≤ e.time ∧
            e.time + e.duration ≤ (getP r.procs i).completion_time :=
  ⟨by unfold Policy.Valid; decide, by decide,
    by unfold Policy.Safe ClockFits Policy.InBounds; decide,
    start_completion_events (.rr 3) (by unfold Policy.Valid; decide) test_workload 34
      (by decide) (by decide) (by decide) (by decide)
      (by unfold Policy.Safe ClockFits Policy.InBounds; decide) (by decide)⟩

end Sched

namespace Sched

/-! ## C23: `schedule_stcf` merges consecutive ticks of one occupant -/

/-- C23 (counterexample). Two processes, pid 1 arriving at 2147483644 with
burst time 6 and pid 2 at 2147483646 with burst time 5, under
`schedule_stcf`. The clock would have to reach 2147483655, which is no
`int`: the fourth `time += 1` overflows. A 32-bit machine continues at
-2147483648, idles back to the next arrival, and does so three times: its
timeline has two adjacent idle events. For one process arriving at `INT_MAX`
with burst time 1 the machine stores the completion time -2147483648, so the
event that runs the process, from `INT_MAX` for 1 unit, neither ends at the
completion time of its process nor is followed by another event. -/
theorem stcf_merge_counterexample :
    (∀ p ∈ wrap_workload, 1 ≤ p.burst_time ∧ p.pid ≠ -1) ∧
      (wrap_workload.map (·.pid)).Nodup ∧
      (∃ r, schedule_stcf (fuel_bound wrap_workload) wrap_workload = some r ∧
        ¬ (getP r.procs 1).completion_time ≤ INT_MAX) ∧
      (schedule_stcf_wrapped (fuel_bound wrap_workload) wrap_workload).map
          (fun m => m.timeline) = some wrap_stcf_timeline ∧
      (wrap_stcf_timeline.getD 2 default).pid = -1 ∧
      (wrap_stcf_timeline.getD 3 default).pid = -1 ∧
      (¬ ∀ k, k + 1 < wrap_stcf_timeline.length →
        (wrap_stcf_timeline.getD k default).pid ≠
          (wrap_stcf_timeline.getD (k + 1) default).pid) ∧
      (∀ p ∈ late_workload, 1 ≤ p.burst_time) ∧ (late_workload.map (·.pid)).Nodup ∧
      ∃ m, schedule_stcf_wrapped (fuel_bound late_workload) late_workload = some m ∧
        m.timeline = [⟨0, -1, 2147483647⟩, ⟨2147483647, 1, 1⟩] ∧
        m.procs.map (fun p => (p.start_time, p.completion_time, p.finished)) =
          [(2147483647, -2147483648, 1)] ∧
        ¬ ((∃ i, i < late_workload.length ∧
              (getP late_workload i).pid = (m.timeline.getD 1 default).pid ∧
              (getP m.procs i).finished = 1 ∧
              (getP m.procs i).completion_time =
                (m.timeline.getD 1 default).time + (m.timeline.getD 1 default).duration) ∨
            (1 + 1 < m.timeline.length ∧ (m.timeline.getD (1 + 1) default).pid ≠ -1 ∧
              (m.timeline.getD (1 + 1) default).pid ≠ (m.timeline.getD 1 default).pid ∧
              (m.timeline.getD (1 + 1) default).time =
                (m.timeline.getD 1 default).time +
                  (m.timeline.getD 1 default).duration)) := by
  refine ⟨by decide, by decide, ⟨_, rfl, by decide⟩, by decide, by decide, by decide, ?_,
    by decide, by decide, _, rfl, by decide, by decide, ?_⟩
  · intro h
    exact h 2 (by decide) (by decide)
  · rintro (⟨i, hi, -, -, hc⟩ | ⟨hl, -⟩)
    · have hi1 : i < 1 := hi
      obtain rfl : i = 0 := by omega
      exact absurd hc (by decide)
    · exact absurd hl (by decide)

/-- C23 (amended). For every workload with pairwise distinct pids other than
the idle pid -1 and `burst_time >= 1` in which the arrival times are `int`s
and the latest arrival time plus the total burst time is at most `INT_MAX` and
at most `INT_MAX` above the earliest arrival time (`ClockFits`: no `int`
operation of the run overflows), `schedule_stcf` returns a timeline all of
whose times are `int`s, in which no two adjacent events carry the same pid,
idle events included, and in which every non-idle event either ends at the
completion time of the process carrying its pid, which is then marked
finished, or is followed at once by a non-idle event of another pid, which
starts where it ends.
The same run with every `int` addition and subtraction reduced to 32 bits
(`schedule_stcf_wrapped`) returns the same result. -/
theorem stcf_merges_ticks (ps : List Process) (fuel : Nat)
    (hburst : ∀ p ∈ ps, 1 ≤ p.burst_time) (hfits : ClockFits ps)
    (hnodup : (ps.map (·.pid)).Nodup) (hpid : ∀ p ∈ ps, p.pid ≠ -1)
    (hfuel : fuel_bound ps ≤ fuel) :
    ∃ r, schedule_stcf fuel ps = some r ∧
      schedule_stcf_wrapped fuel ps = some r ∧ r.InRange ∧
      (∀ k, k + 1 < r.timeline.length →
        (r.timeline.getD k default).pid ≠ (r.timeline.getD (k + 1) default).pid) ∧
      ∀ k, k < r.timeline.length → (r.timeline.getD k default).pid ≠ -1 →
        (∃ i, i < ps.length ∧ (getP ps i).pid = (r.timeline.getD k default).pid ∧
          (getP r.procs i).finished = 1 ∧
          (getP r.procs i).completion_time =
            (r.timeline.getD k default).time + (r.timeline.getD k default).duration) ∨
        (k + 1 < r.timeline.length ∧ (r.timeline.getD (k + 1) default).pid ≠ -1 ∧
          (r.timeline.getD (k + 1) default).pid ≠ (r.timeline.getD k default).pid ∧
          (r.timeline.getD (k + 1) default).time =
            (r.timeline.getD k default).time + (r.timeline.getD k default).duration) := by
  obtain ⟨s, hs, hI, hc, hM⟩ :=
    stcf_merged_run ps fuel hburst (hfits.arrival_le hburst) hnodup hpid hfuel
  obtain ⟨hl, hst⟩ := StaticEq.reset ps
  have hch := hM.chain
  simp only [stcf_open, hc, List.append_nil] at hch
  have hfin : ∀ e, EndsAtFinish (reset_processes ps) s.core.procs e →
      ∃ i, i < ps.length ∧ (getP ps i).pid = e.pid ∧ (getP s.core.procs i).finished = 1 ∧
        (getP s.core.procs i).completion_time = e.time + e.duration := by
    intro e ⟨i, hi, h1, h2, h3⟩
    have hi' : i < ps.length := by rw [← hl]; exact hi
    exact ⟨i, hi', by rw [← (hst i hi').1]; exact h1, (hI.procs.fin i hi h2).1, h3⟩
  refine ⟨⟨s.core.procs, s.core.timeline⟩, hs,
    machine_run .stcf trivial ps fuel hburst hfits _ hs,
    in_range_of_run .stcf trivial ps fuel hburst hfits hfuel _ hs, fun k hk => ?_,
    fun k hk hne => ?_⟩
  · exact (chain_getD _ _ hch k hk).1
  · by_cases hlast : k + 1 < s.core.timeline.length
    · rcases (chain_getD _ _ hch k hlast).2 hne with h | h
      · exact Or.inl (hfin _ h)
      · exact Or.inr ⟨hlast, h, fun hc => (chain_getD _ _ hch k hlast).1 hc.symm,
          (contig_adjacent _ _ _ hI.contig k hlast).symm⟩
    · have hk1 : k + 1 = s.core.timeline.length := by
        have : k < s.core.timeline.length := hk
        omega
      exact Or.inl (hfin _ ((hM.last hc _ (getLast_getD _ k hk1)).1 hne))

theorem stcf_merges_ticks_witness :
    fuel_bound test_workload ≤ 34 ∧ ClockFits test_workload ∧
      ∃ r, schedule_stcf 34 test_workload = some r ∧
      schedule_stcf_wrapped 34 test_workload = some r ∧ r.InRange ∧
        (∀ k, k + 1 < r.timeline.length →
          (r.timeline.getD k default).pid ≠ (r.timeline.getD (k + 1) default).pid) ∧
        ∀ k, k < r.timeline.length → (r.timeline.getD k default).pid ≠ -1 →
          (∃ i, i < test_workload.length ∧
            (getP test_workload i).pid = (r.timeline.getD k default).pid ∧
            (getP r.procs i).finished = 1 ∧
            (getP r.procs i).completion_time =
              (r.timeline.getD k default).time + (r.timeline.getD k default).duration) ∨
          (k + 1 < r.timeline.length ∧ (r.timeline.getD (k + 1) default).pid ≠ -1 ∧
            (r.timeline.getD (k + 1) default).pid ≠ (r.timeline.getD k default).pid ∧
            (r.timeline.getD (k + 1) default).time =
              (r.timeline.getD k default).time + (r.timeline.getD k default).duration) :=
  ⟨by decide, by unfold ClockFits; decide,
    stcf_merges_ticks test_workload 34 (by decide) (by unfold ClockFits; decide) (by decide)
      (by decide) (by decide)⟩

end Sched

namespace Sched

/-! ## C24: the order of arrival, start and completion -/

/-- C24 (counterexample). With arrival time -1, burst time 2 and quantum 1,
`schedule_rr` ends with `start_time` 0 and `completion_time` 1, so
`start_time + burst_time` exceeds `completion_time`. With arrival time -5 and
burst time 1, `schedule_fifo` ends with `completion_time` -4, which
`calculate_metrics` takes for not completed: the turnaround time stays 0,
below the burst time, and the average turnaround time is 0.
With one process arriving at 2147483000 with burst time 1000 the clock of
`schedule_fifo` would pass `INT_MAX`: a 32-bit machine stores the completion
time -2147483296, below `start_time + burst_time`, and `calculate_metrics`
takes the process for not completed, so the average turnaround time is 0. -/
theorem times_counterexample :
    ((∃ r, run_policy (.rr 1) (fuel_bound early_workload) early_workload = some r ∧
        (getP r.procs 0).start_time = 0 ∧ (getP r.procs 0).burst_time = 2 ∧
        (getP r.procs 0).completion_time = 1 ∧
        ¬ (getP r.procs 0).start_time + (getP r.procs 0).burst_time ≤
          (getP r.procs 0).completion_time) ∧
        (schedule_fifo past_workload).timeline = [⟨-5, 1, 1⟩] ∧
        (getP (schedule_fifo past_workload).procs 0).completion_time = -4 ∧
        (getP (calculate_metrics (schedule_fifo past_workload).procs
          (compute_total_time (schedule_fifo past_workload).timeline)).1 0).turnaround_time = 0 ∧
        (calculate_metrics (schedule_fifo past_workload).procs
          (compute_total_time (schedule_fifo past_workload).timeline)).2.avg_turnaround_time = 0) ∧
      (getP (schedule_fifo_wrapped edge_workload).procs 0).start_time = 2147483000 ∧
      (getP (schedule_fifo_wrapped edge_workload).procs 0).completion_time = -2147483296 ∧
      ¬ (getP (schedule_fifo_wrapped edge_workload).procs 0).start_time + (getP (schedule_fifo_wrapped edge_workload).procs 0).burst_time ≤
        (getP (schedule_fifo_wrapped edge_workload).procs 0).completion_time ∧
      (calculate_metrics (schedule_fifo_wrapped edge_workload).procs
        (compute_total_time (schedule_fifo_wrapped edge_workload).timeline)).2.avg_turnaround_time = 0 := by
  refine ⟨?_, ?_, ?_, ?_, ?_⟩
  · refine ⟨⟨_, rfl, ?_, ?_, ?_, ?_⟩, ?_, ?_, ?_, ?_⟩
    · decide
    · decide
    · decide
    · decide
    · decide
    · decide
    · decide
    · have h : metrics_sums (schedule_fifo past_workload).procs = ⟨0, 0, 0, 1, 0, 0, 0⟩ := by
        decide
      simp only [calculate_metrics, h]
      norm_num
  · decide
  · decide
  · decide
  · have h : metrics_sums (schedule_fifo_wrapped edge_workload).procs = ⟨0, 0, 0, 1000, 0, 0, 0⟩ := by
      decide
    simp only [calculate_metrics, h]
    norm_num

/-- C24 (amended). For every policy with valid parameters and every workload
with `burst_time >= 1` and no negative arrival time whose run is free of
undefined behaviour (`Policy.Safe`: the latest arrival time plus the total
burst time is at most `INT_MAX`, and the queues of `schedule_rr` and
`schedule_mlfq` stay within their allocations), the run returns, all its times
are `int`s, and every process ends with `arrival_time <= start_time` and
`start_time + burst_time <= completion_time`; after `calculate_metrics` on the
result its turnaround time is at least its burst time, which is positive, and
its waiting and response times are not negative; and for a non-empty workload
the average turnaround time is positive.
The same run with every `int` addition and subtraction reduced to 32 bits
(`run_policy_wrapped`) returns the same result. -/
theorem times_ordered (pol : Policy) (hv : pol.Valid) (ps : List Process) (fuel : Nat)
    (hburst : ∀ p ∈ ps, 1 ≤ p.burst_time) (harr : ∀ p ∈ ps, 0 ≤ p.arrival_time)
    (hsafe : pol.Safe fuel ps) (hfuel : fuel_bound ps ≤ fuel) :
    ∃ r, run_policy pol fuel ps = some r ∧
      run_policy_wrapped pol fuel ps = some r ∧ r.InRange ∧
      (∀ i, i < ps.length →
        (getP r.procs i).arrival_time ≤ (getP r.procs i).start_time ∧
        (getP r.procs i).start_time + (getP r.procs i).burst_time ≤
          (getP r.procs i).completion_time ∧
        0 < (getP r.procs i).burst_time ∧
        (getP r.procs i).burst_time ≤
          (getP (calculate_metrics r.procs (compute_total_time r.timeline)).1 i).turnaround_time ∧
        0 ≤ (getP (calculate_metrics r.procs (compute_total_time r.timeline)).1 i).waiting_time ∧
        0 ≤
          (getP (calculate_metrics r.procs (compute_total_time r.timeline)).1 i).response_time) ∧
      (ps ≠ [] →
        0 < (calculate_metrics r.procs (compute_total_time r.timeline)).2.avg_turnaround_time) := by
  obtain ⟨r, hr, ⟨time, hP, hC, hall⟩, ⟨t, hH⟩, hin⟩ :=
    run_policy_in_range pol hv ps fuel hburst hsafe.1 hfuel
  obtain ⟨hl, hst⟩ := StaticEq.reset ps
  have hlen : r.procs.length = ps.length := by rw [hP.static.1, hl]
  have ht0 : 0 ≤ first_arrival (reset_processes ps) := by
    apply first_arrival_nonneg
    intro p hp
    obtain ⟨i, hi, rfl⟩ := exists_getP_of_mem _ p hp
    rw [hl] at hi
    rw [(hst i hi).2.1]
    exact harr _ (getP_mem ps i hi)
  have key : ∀ i, i < ps.length →
      0 ≤ (getP r.procs i).arrival_time ∧
      (getP r.procs i).arrival_time ≤ (getP r.procs i).start_time ∧
      (getP r.procs i).start_time + (getP r.procs i).burst_time ≤
        (getP r.procs i).completion_time ∧
      1 ≤ (getP r.procs i).burst_time := by
    intro i hi
    have hi' : i < (reset_processes ps).length := by rw [hl]; exact hi
    have htm := hH.1.2 ht0 i hi'
    obtain ⟨_, e2, e3⟩ := hP.static.2 i hi'
    obtain ⟨d1, d2⟩ := htm.done (hall i hi')
    have s1 := (htm.started d1).1
    have a1 := (hst i hi).2.1
    have a2 := (hst i hi).2.2.1
    have b1 := harr _ (getP_mem ps i hi)
    have b2 := hburst _ (getP_mem ps i hi)
    refine ⟨by omega, by omega, by omega, by omega⟩
  refine ⟨r, hr, machine_run pol hv ps fuel hburst hsafe.1 r hr, hin, fun i hi => ?_, fun hne => ?_⟩
  · obtain ⟨k0, k1, k2, k3⟩ := key i hi
    rw [getP_calculate_metrics _ _ i (by rw [hlen]; exact hi)]
    have hc : (getP r.procs i).completion_time ≥ 0 := by omega
    have hs : (getP r.procs i).start_time ≥ 0 := by omega
    simp only [metrics_update, if_pos hc, if_pos hs]
    refine ⟨k1, k2, by omega, by omega, by omega, by omega⟩
  · have hpos : ∀ p ∈ r.procs, 0 ≤ p.completion_time ∧ 0 < turnaround p := by
      intro p hp
      obtain ⟨i, hi, rfl⟩ := exists_getP_of_mem _ p hp
      obtain ⟨k0, k1, k2, k3⟩ := key i (by rw [← hlen]; exact hi)
      unfold turnaround
      constructor <;> omega
    have hcp := completed_procs_all r.procs (fun p hp => (hpos p hp).1)
    obtain ⟨m1, _, _, m4, _⟩ := metrics_sums_spec r.procs
    rw [hcp] at m1 m4
    have hrne : r.procs ≠ [] := by
      intro h
      rw [h] at hlen
      exact hne (List.length_eq_zero.1 hlen.symm)
    have hsum : 0 < (r.procs.map turnaround).sum := by
      apply sum_pos_of_pos
      · intro x hx
        obtain ⟨p, hp, rfl⟩ := List.mem_map.1 hx
        exact (hpos p hp).2
      · simpa using hrne
    have hcnt : 0 < r.procs.length := List.length_pos.2 hrne
    simp only [calculate_metrics, m1, m4, gt_iff_lt, hcnt, if_true]
    apply div_pos
    · exact_mod_cast hsum
    · exact_mod_cast hcnt

theorem times_ordered_witness :
    (Policy.mlfq ⟨3, [2, 4, 8], 20⟩).Valid ∧ fuel_bound test_workload ≤ 34 ∧
      (Policy.mlfq ⟨3, [2, 4, 8], 20⟩).Safe 34 test_workload ∧
      ∃ r, run_policy (.mlfq ⟨3, [2, 4, 8], 20⟩) 34 test_workload = some r ∧
      run_policy_wrapped (.mlfq ⟨3, [2, 4, 8], 20⟩) 34 test_workload = some r ∧ r.InRange ∧
        0 < (calculate_metrics r.procs (compute_total_time r.timeline)).2.avg_turnaround_time :=
  ⟨by unfold Policy.Valid MlfqConfig.Valid; decide, by decide,
    by unfold Policy.Safe ClockFits Policy.InBounds; decide,
    (times_ordered (.mlfq ⟨3, [2, 4, 8], 20⟩) (by unfold Policy.Valid MlfqConfig.Valid; decide)
      test_workload 34 (by decide) (by decide)
      (by unfold Policy.Safe ClockFits Policy.InBounds; decide) (by decide)).imp
      fun _ h => ⟨h.1, h.2.1, h.2.2.1, h.2.2.2.2 (by decide)⟩⟩

end Sched

namespace Sched

/-! ## C25: CPU time is conserved -/

/-- C25 (counterexample). With one process of burst time 1 arriving at
`INT_MAX`, `schedule_mlfq` returns an empty timeline: the durations of the
events of that process sum to 0, not to its burst time. And on the empty
workload the timeline has no idle event while the utilization is 0, not
100.
With two processes arriving shortly before `INT_MAX` (at 2147483644 with
burst time 6 and at 2147483646 with burst time 5) the clock of
`schedule_stcf` would pass `INT_MAX`: on a 32-bit machine it wraps around
and the events of the first process last 2 units in all, not 6. -/
theorem conservation_counterexample :
    ((∃ r, run_policy (.mlfq one_queue) (fuel_bound late_workload) late_workload = some r ∧
        r.timeline = [] ∧ durations (events_of late_workload r.timeline 0) = 0 ∧
        (getP late_workload 0).burst_time = 1) ∧
        (schedule_fifo []).timeline = [] ∧
        (calculate_metrics (schedule_fifo []).procs
          (compute_total_time (schedule_fifo []).timeline)).2.cpu_utilization = 0) ∧
      (schedule_stcf_wrapped (fuel_bound wrap_workload) wrap_workload).map
          (fun m => m.timeline) = some wrap_stcf_timeline ∧
      durations (events_of wrap_workload wrap_stcf_timeline 0) = 2 ∧
      (getP wrap_workload 0).burst_time = 6 := by
  refine ⟨?_, ?_, ?_, ?_⟩
  · refine ⟨⟨_, rfl, ?_, ?_, ?_⟩, ?_, ?_⟩
    · decide
    · decide
    · decide
    · decide
    · have h : compute_total_time (schedule_fifo []).timeline = 0 := by decide
      simp only [calculate_metrics, h]
      norm_num
  · decide
  · decide
  · decide

/-- C25 (amended). For every policy with valid parameters and every workload
with pairwise distinct pids other than -1 and `burst_time >= 1` whose run is
free of undefined behaviour (`Policy.Safe`: the arrival times are `int`s, the
latest arrival time plus the total burst time is at most `INT_MAX` and at most
`INT_MAX` above the earliest arrival time, and the queues of `schedule_rr` and
`schedule_mlfq` stay within their allocations), the run returns and all its
times are `int`s; the durations of the events carrying a process's pid sum to
its burst time; the durations of the non-idle events sum to the total burst
time; the utilization computed by `calculate_metrics` with the total time of
the timeline is at most 100; and for a non-empty workload it is 100 exactly
when the timeline has no idle event.
The same run with every `int` addition and subtraction reduced to 32 bits
(`run_policy_wrapped`) returns the same result. -/
theorem cpu_time_conserved (pol : Policy) (hv : pol.Valid) (ps : List Process) (fuel : Nat)
    (hburst : ∀ p ∈ ps, 1 ≤ p.burst_time) (hnodup : (ps.map (·.pid)).Nodup)
    (hpid : ∀ p ∈ ps, p.pid ≠ -1) (hsafe : pol.Safe fuel ps)
    (hfuel : fuel_bound ps ≤ fuel) :
    ∃ r, run_policy pol fuel ps = some r ∧
      run_policy_wrapped pol fuel ps = some r ∧ r.InRange ∧
      (∀ i, i < ps.length → durations (events_of ps r.timeline i) = (getP ps i).burst_time) ∧
      durations (r.timeline.filter fun e => decide (e.pid ≠ -1)) = (ps.map (·.burst_time)).sum ∧
      (calculate_metrics r.procs (compute_total_time r.timeline)).2.cpu_utilization ≤ 100 ∧
      (ps ≠ [] →
        ((calculate_metrics r.procs (compute_total_time r.timeline)).2.cpu_utilization = 100 ↔
          ∀ e ∈ r.timeline, e.pid ≠ -1)) := by
  have hrange := hsafe.1.arrival_lt hburst
  obtain ⟨r, hr, ⟨time, hP, hC, hall⟩, ⟨t, hH⟩, hin⟩ :=
    run_policy_in_range pol hv ps fuel hburst hsafe.1 hfuel
  obtain ⟨r', t', hr', hE⟩ := run_policy_events pol hv ps fuel hburst
    (fun p hp => le_of_lt (hrange p hp)) hpid hfuel
  rw [hr] at hr'
  simp only [Option.some.injEq] at hr'
  subst hr'
  obtain ⟨hl, hst⟩ := StaticEq.reset ps
  have hlen : r.procs.length = ps.length := by rw [hP.static.1, hl]
  have hpo := pids_ok_reset ps hnodup hpid
  have hwork : ∀ i, i < ps.length →
      durations (events_of (reset_processes ps) r.timeline i) = (getP ps i).burst_time := by
    intro i hi
    have hi' : i < (reset_processes ps).length := by rw [hl]; exact hi
    have hw := (hH.1.1 hpo i hi').work
    rw [(hP.fin i hi' (hall i hi')).2.1, (hst i hi).2.2.1] at hw
    omega
  have hbusy : durations (r.timeline.filter fun e => decide (e.pid ≠ -1)) =
      (ps.map (·.burst_time)).sum := by
    rw [durations_busy _ _ hpo hH.2.1, hl, ← map_range_getP ps (·.burst_time)]
    congr 1
    apply List.map_congr_left
    intro i hi
    exact hwork i (List.mem_range.1 hi)
  have hidle := idle_durations r.timeline (fun e he hp => ((hE e he).2.1 hp).1)
  have htot : compute_total_time r.timeline =
      (ps.map (·.burst_time)).sum +
        durations (r.timeline.filter fun e => decide (e.pid = -1)) := by
    rw [compute_total_time_eq, durations_split, hbusy]
  have hmb : (metrics_sums r.procs).busy = (ps.map (·.burst_time)).sum := by
    rw [metrics_busy_done r.procs, map_burst_of_inputs _ _ (run_policy_inputs pol fuel ps r hr)]
    intro p hp
    obtain ⟨i, hi, rfl⟩ := exists_getP_of_mem _ p hp
    have hi' : i < (reset_processes ps).length := by rw [hl, ← hlen]; exact hi
    exact (hP.fin i hi' (hall i hi')).2.1
  have hB0 : 0 ≤ (ps.map (·.burst_time)).sum := by
    apply List.sum_nonneg
    intro x hx
    obtain ⟨p, hp, rfl⟩ := List.mem_map.1 hx
    have := hburst p hp
    omega
  have hBpos : ps ≠ [] → 0 < (ps.map (·.burst_time)).sum := by
    intro hne
    apply sum_pos_of_pos
    · intro x hx
      obtain ⟨q, hq, rfl⟩ := List.mem_map.1 hx
      have := hburst q hq
      omega
    · simpa using hne
  have hutil : (calculate_metrics r.procs (compute_total_time r.timeline)).2.cpu_utilization =
      if compute_total_time r.timeline > 0 then
        (((ps.map (·.burst_time)).sum : Int) : ℚ) / (compute_total_time r.timeline : Int) * 100
      else 0 := by
    simp only [calculate_metrics, hmb]
  refine ⟨r, hr, machine_run pol hv ps fuel hburst hsafe.1 r hr, hin, fun i hi => ?_, hbusy, ?_, fun hne => ?_⟩
  · rw [← events_of_reset ps _ i hi]; exact hwork i hi
  · rw [hutil]
    generalize (ps.map (·.burst_time)).sum = B at *
    generalize durations (r.timeline.filter fun e => decide (e.pid = -1)) = D at *
    generalize compute_total_time r.timeline = T at *
    split
    · rename_i hT
      have hTq : (0 : ℚ) < T := by exact_mod_cast hT
      rw [div_mul_eq_mul_div, div_le_iff₀ hTq]
      have : (B : ℚ) ≤ T := by exact_mod_cast (by omega : B ≤ T)
      linarith
    · norm_num
  · have hBp := hBpos hne
    rw [hutil, ← hidle.2]
    generalize (ps.map (·.burst_time)).sum = B at *
    generalize durations (r.timeline.filter fun e => decide (e.pid = -1)) = D at *
    generalize compute_total_time r.timeline = T at *
    have hT : T > 0 := by omega
    have hTq : (0 : ℚ) < T := by exact_mod_cast hT
    rw [if_pos hT, div_mul_eq_mul_div, div_eq_iff (ne_of_gt hTq)]
    constructor
    · intro h
      have h2 : (B : ℚ) = T := by linarith
      have h3 : B = T := by exact_mod_cast h2
      omega
    · intro h
      have h3 : B = T := by omega
      rw [h3]
      ring

theorem cpu_time_conserved_witness :
    (Policy.mlfq ⟨3, [2, 4, 8], 20⟩).Valid ∧ fuel_bound test_workload ≤ 34 ∧
      (Policy.mlfq ⟨3, [2, 4, 8], 20⟩).Safe 34 test_workload ∧
      ∃ r, run_policy (.mlfq ⟨3, [2, 4, 8], 20⟩) 34 test_workload = some r ∧
        run_policy_wrapped (.mlfq ⟨3, [2, 4, 8], 20⟩) 34 test_workload = some r ∧
        (∀ i, i < test_workload.length →
          durations (events_of test_workload r.timeline i) = (getP test_workload i).burst_time) ∧
        (calculate_metrics r.procs (compute_total_time r.timeline)).2.cpu_utilization ≤ 100 :=
  ⟨by unfold Policy.Valid MlfqConfig.Valid; decide, by decide, by unfold Policy.Safe ClockFits Policy.InBounds; decide,
    (cpu_time_conserved (.mlfq ⟨3, [2, 4, 8], 20⟩)
      (by unfold Policy.Valid MlfqConfig.Valid; decide)
      test_workload 34 (by decide) (by decide) (by decide) (by unfold Policy.Safe ClockFits Policy.InBounds; decide) (by decide)).imp
      fun _ h => ⟨h.1, h.2.1, h.2.2.2.1, h.2.2.2.2.2.1⟩⟩

end Sched

namespace Sched

/-! ## C26: the queue of `schedule_rr` and its allocation -/

/-- C26 (failing input). One process with burst time 3 and quantum 1: the
queue has `2 * 1 = 2` slots; the seeding writes slot 0, the first dispatch
writes slot 1 when it enqueues the process again, and the second dispatch
writes slot 2, past the allocation, leaving the write index `qtail` (the
number of entries written, `buf.length`) at 3. -/
theorem rr_queue_overflow :
    (∀ p ∈ three_units, 1 ≤ p.burst_time) ∧ rr_capacity three_units.length = 2 ∧
      (rr_state_at 1 three_units 0).map (fun s => s.queue.buf.length) = some 1 ∧
      (rr_state_at 1 three_units 1).map (fun s => s.queue.buf.length) = some 2 ∧
      (rr_state_at 1 three_units 2).map (fun s => (s.queue.buf, s.queue.head)) =
        some ([0, 0, 0], 2) ∧
      (rr_state_at 1 three_units 2).map
          (fun s => decide (s.queue.buf.length ≤ rr_capacity three_units.length)) =
        some false := by
  refine ⟨by decide, by decide, by decide, by decide, by decide, by decide⟩

end Sched

namespace Sched

/-! ## C27: the level queues of `schedule_mlfq` and their allocation -/

/-- C27 (failing input). One process with burst time 7 under the valid
configuration with a single level of quantum 1 and no boost: each level has
`1 + 5 = 6` slots; the seeding writes slot 0 of level 0 and each of the first
six dispatches leaves work and enqueues the process again at the clamped
level 0, the write index `qtail[0]` (the number of entries written,
`buf.length`) never being reset. The sixth dispatch writes slot 6, past the
allocation, leaving `qtail[0]` at 7. -/
theorem mlfq_queue_overflow :
    one_queue.Valid ∧ (∀ p ∈ seven_units, 1 ≤ p.burst_time) ∧
      mlfq_capacity seven_units.length = 6 ∧
      (mlfq_state_at one_queue seven_units 5).map
          (fun s => (s.levels.map fun q => q.buf.length)) = some [6] ∧
      (mlfq_state_at one_queue seven_units 6).map
          (fun s => (s.levels.map fun q => (q.buf, q.head))) =
        some [([0, 0, 0, 0, 0, 0, 0], 6)] ∧
      (mlfq_state_at one_queue seven_units 6).map
          (fun s => s.levels.map fun q =>
            decide (q.buf.length ≤ mlfq_capacity seven_units.length)) =
        some [false] := by
  refine ⟨by unfold MlfqConfig.Valid; decide, by decide, by decide, by decide, by decide,
    by decide⟩

end Sched

namespace Sched

/-! ## C28: the `int` square at line 30 of `calculate_metrics` -/

/-- C28 (failing input). One process with arrival time 0 and burst time 46341
under `schedule_fifo` completes at 46341, so `calculate_metrics` gives it
the turnaround time 46341. Its square 2147488281 exceeds `INT_MAX`: the
32-bit product is -2147479015, which is what the accumulator `sum_x2`
receives, and the fairness index comes out as 0 where the exact square
gives 1. -/
theorem square_overflow :
    (schedule_fifo long_burst).timeline = [⟨0, 1, 46341⟩] ∧
      (getP (calculate_metrics (schedule_fifo long_burst).procs
        (compute_total_time (schedule_fifo long_burst).timeline)).1 0).turnaround_time = 46341 ∧
      (46341 : Int) ^ 2 = 2147488281 ∧ INT_MAX < (46341 : Int) ^ 2 ∧
      wrap32 (46341 * 46341) = -2147479015 ∧
      (metrics_sums (schedule_fifo long_burst).procs).sum_x2 = -2147479015 ∧
      (calculate_metrics (schedule_fifo long_burst).procs
        (compute_total_time (schedule_fifo long_burst).timeline)).2.fairness_index = 0 ∧
      jain_index [46341] = 1 := by
  have h : metrics_sums (schedule_fifo long_burst).procs =
      ⟨46341, 0, 0, 46341, 1, 46341, -2147479015⟩ := by decide
  refine ⟨by decide, by decide, by decide, by decide, by decide, by rw [h], ?_, ?_⟩
  · simp only [calculate_metrics, h]
    norm_num
  · simp only [jain_index]
    norm_num

end Sched
